import Mathlib

/-!
# Multihash-table n-gram language model (`LM.h`, `LM.cpp`)

A shallow embedding of the class `LM`: the FNV-1a hash, the table sizing
policy, the two open-addressing tables (headwords, and one collocate subtable
per headword), the ingestion loop of `Train` and `Grow`, and `Remove`.

Conventions of the embedding.

* `unsigned int` is a natural number below `2^32`; every arithmetic operation
  of the source on such a value is reduced modulo `2^32` (`uadd`, `usub`,
  `umul`).  An `int` result is an integer (`toInt` is the conversion).
* A `shared_ptr<collocate_node>` is an address: the index of the node in the
  node store (`heap`) of the headword that owns it.  The collocate subtable and
  the frequencies vector of a headword both hold such addresses, so a change
  made through one of them is seen through the other, as in the source.
  A `shared_ptr<headword_node>` held by a caller is the bucket of the node in
  the main table.
* A result `none` stands for a run of the C++ program that leaves defined
  behaviour or throws: an access `PRIMES[32]`, a failing `vector::at`, a null
  pointer dereference.
* The field `hash_function` of both tables is always `FNV1a`; it is not stored.
-/

namespace LM

/-! ## Machine arithmetic -/

/-- Number of values of an `unsigned int`. -/
def UMOD : Nat := 4294967296

/-- Addition of `unsigned int`. -/
def uadd (a b : Nat) : Nat := (a + b) % UMOD

/-- Subtraction of `unsigned int` (wraps around below zero). -/
def usub (a b : Nat) : Nat := (UMOD - b % UMOD + a) % UMOD

/-- Multiplication of `unsigned int`. -/
def umul (a b : Nat) : Nat := (a * b) % UMOD

/-- Conversion of an `unsigned int` to `int` (two's complement). -/
def toInt (x : Nat) : Int :=
  if x % UMOD < 2147483648 then ((x % UMOD : Nat) : Int) else ((x % UMOD : Nat) : Int) - 4294967296

/-- Value of `(float)x` for an `unsigned int` `x`: the nearest number with a
24-bit significand, ties to the even significand.  The number of low bits that
do not fit is `floatShift x`. -/
def floatShift (x : Nat) : Nat :=
  if x < 16777216 then 0
  else if x < 33554432 then 1
  else if x < 67108864 then 2
  else if x < 134217728 then 3
  else if x < 268435456 then 4
  else if x < 536870912 then 5
  else if x < 1073741824 then 6
  else if x < 2147483648 then 7
  else 8

/-- Conversion `unsigned int` to `float` (round to nearest, ties to even);
the result is again a natural number. -/
def toFloat (x : Nat) : Nat :=
  let k := floatShift x
  let q := x / 2 ^ k
  let r := x % 2 ^ k
  if 2 * r > 2 ^ k ∨ (2 * r = 2 ^ k ∧ q % 2 = 1) then (q + 1) * 2 ^ k else q * 2 ^ k

/-- A table load as computed by `GetHeadTableLoad` / `GetCollocateTableLoad`:
the quotient `(float)occupied / capacity` of two floats, kept as the exact
fraction `num / den` of the converted operands.  The `float` that the source
holds is the rounding of this fraction; the three comparisons below take the
rounding into account. -/
structure Load where
  num : Nat
  den : Nat
deriving DecidableEq, Repr

/-- Test `load > 0.5`: the rounded quotient exceeds `1/2` exactly when the
fraction exceeds the midpoint `1/2 + 2^-25` of `1/2` and the next float. -/
def Load.gtHalf (l : Load) : Bool := decide (l.den * 16777217 < l.num * 33554432)

/-- Test `load < 0.5`: the rounded quotient is below `1/2` exactly when the
fraction is below the midpoint `1/2 - 2^-26`. -/
def Load.ltHalf (l : Load) : Bool := decide (l.num * 67108864 < l.den * 33554431)

/-- Test `load < 0.125`: the rounded quotient is below `1/8` exactly when the
fraction is below the midpoint `1/8 - 2^-28`. -/
def Load.ltEighth (l : Load) : Bool := decide (l.num * 268435456 < l.den * 33554431)

/-! ## Hashing -/

/-- Bytes of a `std::string`: the UTF-8 encoding of the text. -/
def bytes (s : String) : List Nat :=
  s.data.flatMap fun c => (String.utf8EncodeChar c).map UInt8.toNat

/-- Value of a `char` converted to `unsigned int`, on a platform where `char`
is signed (the bytes from 128 on are negative and sign-extended). -/
def charToUnsigned (b : Nat) : Nat := if b < 128 then b else b + 4294967040

/-- Unreduced FNV-1a loop of `FNV1a`: `hash ^= key[i]; hash *= FNV_prime;`. -/
def FNV1aLoop (key : List Nat) (hash : Nat) : Nat :=
  key.foldl (fun h b => umul (Nat.xor h (charToUnsigned b)) 16777619) hash

/-- Function `FNV1a(key, capacity)`. -/
def FNV1a (key : String) (capacity : Nat) : Nat :=
  FNV1aLoop (bytes key) 2166136261 % capacity

/-! ## Sizing policy -/

/-- Constant `PRIMES`. -/
def PRIMES : List Nat :=
  [2, 3, 5, 11, 17, 37, 67, 131, 257, 521, 1031, 2053, 4099, 8209, 16411, 32771, 65537,
   131101, 262147, 524309, 1048583, 2097169, 4194319, 8388617, 16777259, 33554467,
   67108879, 134217757, 268435459, 536870923, 1073741827, 2147483659]

/-- Constant `MIN_SIZE`. -/
def MIN_SIZE : Nat := 7

/-- Loop `while (x >>= 1) exponent++` of `PowerOfTwoExponent`; the fuel is the
width of an `unsigned int`. -/
def shiftLoop : Nat → Nat → Nat → Nat
  | 0, _, exponent => exponent
  | fuel + 1, x, exponent =>
    if x / 2 = 0 then exponent else shiftLoop fuel (x / 2) (exponent + 1)

/-- Function `LM::PowerOfTwoExponent`. -/
def PowerOfTwoExponent (x : Nat) : Nat :=
  if x < 2 then 0 else shiftLoop 32 (x - 1) 0 + 1

/-- Function `LM::PrimeSize`; `none` when the index into `PRIMES` is out of range. -/
def PrimeSize (x : Nat) : Option Nat :=
  if x < MIN_SIZE then some MIN_SIZE else PRIMES[PowerOfTwoExponent x]?

/-! ## Data structures -/

/-- Struct `collocate_node`. -/
structure collocate_node where
  collocate : String
  count : Nat
  deleted : Bool
deriving DecidableEq, Repr

/-- Structs `collocate_table` and `head_table`: the two have the same fields
(`capacity`, `occupied`, `table`) and differ in the type of the slots.  A slot
is `none` for a null pointer. -/
structure hash_table (α : Type) where
  capacity : Nat
  occupied : Nat
  table : List (Option α)
deriving DecidableEq, Repr

/-- Type `ctable`: vector of pointers (addresses in the owner's `heap`). -/
abbrev ctable := List (Option Nat)

/-- Struct `collocate_table`. -/
abbrev collocate_table := hash_table Nat

/-- Struct `headword_node`.  The field `heap` is the store of all collocate
nodes ever allocated for this headword; `collocates` and `frequencies` hold
addresses in it.  The pointer `collocates` is set by `InitHeadword` and never
null. -/
structure headword_node where
  headword : String
  count : Nat
  collocates : collocate_table
  frequencies : List Nat
  deleted : Bool
  heap : List collocate_node
deriving DecidableEq, Repr

/-- Struct `head_table`. -/
abbrev head_table := hash_table headword_node

/-- Private data members of class `LM`. -/
structure State where
  ngram_size : Nat
  main_table : Option head_table
  unique_ngrams_count : Nat
  ngrams_total : Nat
  tokens : Nat
deriving DecidableEq, Repr

/-- Constructor `LM::LM(int n)`. -/
def init (n : Nat) : State :=
  { ngram_size := n, main_table := none, unique_ngrams_count := 0, ngrams_total := 0, tokens := 0 }

/-- Dereference of a collocate node pointer. -/
def deref (heap : List collocate_node) (p : Nat) : collocate_node :=
  heap.getD p { collocate := "", count := 0, deleted := true }

/-- Read of `table->at(bucket)`. -/
def slot {α : Type} (tbl : List (Option α)) (bucket : Nat) : Option α := tbl.getD bucket none

/-! ## Probing -/

/-- Outcome of one probing loop `while (probed < capacity)`. -/
inductive Probe where
  /-- The loop stopped at a bucket that is empty or holds a deleted node. -/
  | free (bucket : Nat)
  /-- The loop stopped at a bucket whose live node has the key looked for. -/
  | hit (bucket : Nat)
  /-- All `capacity` buckets were probed. -/
  | full
deriving DecidableEq, Repr

/-- The probing loop shared by `InsertNGram`, `InsertCollocate`,
`FindHeadword`, `FindCollocate`, `InsertHeadNode` and `InsertCollocateNode`:
test the bucket for "empty or deleted", then for the key, else step to
`(bucket + 1) % capacity`.  The first argument counts the probes left. -/
def probe (isFree isHit : Nat → Bool) (capacity : Nat) : Nat → Nat → Probe
  | 0, _ => Probe.full
  | fuel + 1, bucket =>
    if isFree bucket then Probe.free bucket
    else if isHit bucket then Probe.hit bucket
    else probe isFree isHit capacity fuel ((bucket + 1) % capacity)

/-- Test `!table->at(bucket) || table->at(bucket)->deleted`. -/
def slotFree {α : Type} (dead : α → Bool) (tbl : List (Option α)) (bucket : Nat) : Bool :=
  match slot tbl bucket with
  | none => true
  | some node => dead node

/-- Test `table->at(bucket)->key == key`. -/
def slotHit {α : Type} (keyOf : α → String) (tbl : List (Option α)) (key : String)
    (bucket : Nat) : Bool :=
  match slot tbl bucket with
  | none => false
  | some node => keyOf node == key

/-- Key of a collocate pointer. -/
def ckey (heap : List collocate_node) (p : Nat) : String := (deref heap p).collocate

/-- Deleted flag of a collocate pointer. -/
def cdead (heap : List collocate_node) (p : Nat) : Bool := (deref heap p).deleted

/-! ## Table construction and node transfer -/

/-- Functions `LM::InitHeadTable` and `LM::InitCollocateTable`. -/
def InitTable {α : Type} (capacity : Nat) : Option (hash_table α) :=
  (PrimeSize capacity).map fun c => { capacity := c, occupied := 0, table := List.replicate c none }

/-- Function `LM::InitHeadTable`. -/
def InitHeadTable (capacity : Nat) : Option head_table := InitTable capacity

/-- Function `LM::InitCollocateTable`. -/
def InitCollocateTable (capacity : Nat) : Option collocate_table := InitTable capacity

/-- Functions `LM::InsertHeadNode` and `LM::InsertCollocateNode`: put an
existing node in the first empty-or-deleted bucket from its home bucket.
Returns the bucket (or `-1`) and the table. -/
def insertNode {α : Type} (keyOf : α → String) (dead : α → Bool) (t : hash_table α) (node : α) :
    Int × hash_table α :=
  match probe (slotFree dead t.table) (fun _ => false) t.capacity t.capacity
      (FNV1a (keyOf node) t.capacity) with
  | Probe.free bucket =>
    ((bucket : Int),
      { t with table := t.table.set bucket (some node),
               occupied := if dead node then t.occupied else uadd t.occupied 1 })
  | _ => (-1, t)

/-- Function `LM::InsertHeadNode`. -/
def InsertHeadNode (t : head_table) (node : headword_node) : Int × head_table :=
  insertNode headword_node.headword headword_node.deleted t node

/-- Function `LM::InsertCollocateNode`. -/
def InsertCollocateNode (heap : List collocate_node) (t : collocate_table) (node : Nat) :
    Int × collocate_table :=
  insertNode (ckey heap) (cdead heap) t node

/-- Loop `for (i = 0; i < table->capacity; i++) if (table->table->at(i)) Insert...Node(new_table, ...)`
of the two resize functions and of `Grow`. -/
def transfer {α : Type} (keyOf : α → String) (dead : α → Bool) (old : hash_table α)
    (new_table : hash_table α) : hash_table α :=
  (List.range old.capacity).foldl
    (fun nt i => match slot old.table i with
      | some node => (insertNode keyOf dead nt node).2
      | none => nt)
    new_table

/-- Function `LM::GetHeadTableLoad` / `LM::GetCollocateTableLoad` on a non-null table. -/
def tableLoad {α : Type} (t : hash_table α) : Load :=
  { num := toFloat t.occupied, den := toFloat t.capacity }

/-- Function `LM::GetHeadTableLoad`. -/
def GetHeadTableLoad (t : Option head_table) : Load :=
  match t with
  | some t => tableLoad t
  | none => { num := 0, den := 1 }

/-- Function `LM::GetCollocateTableLoad`. -/
def GetCollocateTableLoad (t : collocate_table) : Load := tableLoad t

/-- Capacity decision at the head of `ResizeHeadTable` / `ResizeCollocateTable`:
`none` when the function returns without resizing, else the capacity that is
passed on to `Init...Table`. -/
def resizeRequest (load : Load) (capacity : Nat) : Option Nat :=
  if load.ltEighth && decide (capacity > MIN_SIZE) then
    some (2 ^ (PowerOfTwoExponent capacity - 2))
  else if load.ltHalf then none
  else some capacity

/-- Body shared by `ResizeHeadTable` and `ResizeCollocateTable`: the table that
replaces `t`. -/
def resize {α : Type} (keyOf : α → String) (dead : α → Bool) (t : hash_table α) :
    Option (hash_table α) :=
  match resizeRequest (tableLoad t) t.capacity with
  | none => some t
  | some capacity => (InitTable capacity).map fun nt => transfer keyOf dead t nt

/-! ## Nodes -/

/-- Function `LM::InitCollocate`. -/
def InitCollocate (collocate : String) : collocate_node :=
  { collocate := collocate, count := 1, deleted := false }

/-- Function `LM::InitHeadword`. -/
def InitHeadword (headword : String) : Option headword_node :=
  (InitCollocateTable (MIN_SIZE - 1)).map fun t =>
    { headword := headword, count := 1, collocates := t, frequencies := [], deleted := false,
      heap := [] }

/-- Store update `node->count++` through a collocate pointer. -/
def bumpCount (heap : List collocate_node) (p : Nat) : List collocate_node :=
  heap.set p { deref heap p with count := uadd (deref heap p).count 1 }

/-- Store update `node->deleted = true` through a collocate pointer. -/
def markDeleted (heap : List collocate_node) (p : Nat) : List collocate_node :=
  heap.set p { deref heap p with deleted := true }

/-! ## Lookup -/

/-- Probing loop of `LM::FindHeadword` on a non-null table: the bucket of the node. -/
def findSlot {α : Type} (keyOf : α → String) (dead : α → Bool) (t : hash_table α)
    (key : String) : Option Nat :=
  match probe (slotFree dead t.table) (slotHit keyOf t.table key) t.capacity t.capacity
      (FNV1a key t.capacity) with
  | Probe.hit bucket => some bucket
  | _ => none

/-- Function `LM::FindHeadword`: the bucket of the node found, `none` for the
null pointer. -/
def FindHeadword (lm : State) (headword : String) : Option Nat :=
  match lm.main_table with
  | some t => findSlot headword_node.headword headword_node.deleted t headword
  | none => none

/-- Function `LM::FindCollocate`: the address of the collocate node found,
`none` for the null pointer. -/
def FindCollocate (hw : headword_node) (collocate : String) : Option Nat :=
  match findSlot (ckey hw.heap) (cdead hw.heap) hw.collocates collocate with
  | some bucket => slot hw.collocates.table bucket
  | none => none

/-! ## Resizing -/

/-- Function `LM::ResizeHeadTable`, always called on `main_table`. -/
def ResizeHeadTable (lm : State) : Option State :=
  match lm.main_table with
  | some t =>
    (resize headword_node.headword headword_node.deleted t).map fun nt =>
      { lm with main_table := some nt }
  | none => none

/-- Function `LM::ResizeCollocateTable`, always called on `headword->collocates`. -/
def ResizeCollocateTable (hw : headword_node) : Option headword_node :=
  (resize (ckey hw.heap) (cdead hw.heap) hw.collocates).map fun nt =>
    { hw with collocates := nt }

/-! ## Insertion -/

/-- First statement of `LM::InsertCollocate`: double the subtable when its load exceeds `0.5`. -/
def growIfLoaded (hw : headword_node) : Option headword_node :=
  if (GetCollocateTableLoad hw.collocates).gtHalf then ResizeCollocateTable hw else some hw

/-- Probing loop of `LM::InsertCollocate` on the node `hw`.  Returns the status (bucket or `-1`),
the node, and whether `unique_ngrams_count` was incremented. -/
def placeCollocate (hw : headword_node) (collocate : String) : Int × headword_node × Bool :=
  let t := hw.collocates
  match probe (slotFree (cdead hw.heap) t.table) (slotHit (ckey hw.heap) t.table collocate)
      t.capacity t.capacity (FNV1a collocate t.capacity) with
  | Probe.free bucket =>
    let p := hw.heap.length
    ((bucket : Int),
      { hw with heap := hw.heap ++ [InitCollocate collocate],
                collocates := { t with table := t.table.set bucket (some p),
                                       occupied := uadd t.occupied 1 },
                frequencies := hw.frequencies ++ [p] },
      true)
  | Probe.hit bucket =>
    match slot t.table bucket with
    | some p => ((bucket : Int), { hw with heap := bumpCount hw.heap p }, false)
    | none => ((bucket : Int), hw, false)
  | Probe.full => (-1, hw, false)

/-- Function `LM::InsertCollocate` on the node `hw` that the pointer `headword` points to. -/
def insertCollocateAt (hw : headword_node) (collocate : String) :
    Option (Int × headword_node × Bool) :=
  (growIfLoaded hw).map fun hw => placeCollocate hw collocate

/-- Write of a headword node back to its bucket of the main table. -/
def setNode (lm : State) (bucket : Nat) (hw : headword_node) : State :=
  match lm.main_table with
  | some t => { lm with main_table := some { t with table := t.table.set bucket (some hw) } }
  | none => lm

/-- Function `LM::InsertCollocate(headword, collocate)`, the pointer `headword`
being the node in `bucket` of the main table. -/
def InsertCollocate (lm : State) (bucket : Nat) (collocate : String) : Option (Int × State) :=
  match lm.main_table with
  | some t =>
    match slot t.table bucket with
    | some hw =>
      (insertCollocateAt hw collocate).map fun r =>
        (r.1, { setNode lm bucket r.2.1 with
                unique_ngrams_count :=
                  if r.2.2 then uadd lm.unique_ngrams_count 1 else lm.unique_ngrams_count })
    | none => none
  | none => none

/-- Function `LM::InsertNGram`. -/
def InsertNGram (lm : State) (headword collocate : String) : Option (Int × State) :=
  match lm.main_table with
  | some t =>
    match probe (slotFree headword_node.deleted t.table)
        (slotHit headword_node.headword t.table headword) t.capacity t.capacity
        (FNV1a headword t.capacity) with
    | Probe.free bucket =>
      (InitHeadword headword).bind fun node =>
        let lm1 : State :=
          { lm with main_table := some { t with table := t.table.set bucket (some node),
                                                occupied := uadd t.occupied 1 },
                    ngrams_total := uadd lm.ngrams_total 1,
                    tokens := uadd lm.tokens 1 }
        if lm.ngram_size = 1 then
          some ((bucket : Int), { lm1 with unique_ngrams_count := uadd lm1.unique_ngrams_count 1 })
        else
          (InsertCollocate lm1 bucket collocate).map fun r => ((bucket : Int), r.2)
    | Probe.hit bucket =>
      match slot t.table bucket with
      | some node =>
        let lm1 : State :=
          { lm with main_table :=
                      some { t with table :=
                               t.table.set bucket (some { node with count := uadd node.count 1 }) },
                    ngrams_total := uadd lm.ngrams_total 1,
                    tokens := uadd lm.tokens 1 }
        if lm.ngram_size > 1 then
          (InsertCollocate lm1 bucket collocate).map fun r => ((bucket : Int), r.2)
        else some ((bucket : Int), lm1)
      | none => none
    | Probe.full => some (-1, lm)
  | none => some (-1, lm)

/-! ## Deletion -/

/-- Function `LM::Reset`. -/
def Reset (lm : State) : State :=
  { lm with main_table := none, unique_ngrams_count := 0, ngrams_total := 0, tokens := 0 }

/-- Function `LM::DeleteHeadword(headword)`, the pointer `headword` being the
node in `bucket` of the main table.  The source returns `true` on every path. -/
def DeleteHeadword (lm : State) (bucket : Nat) : Option (Bool × State) :=
  match lm.main_table with
  | some t =>
    if t.occupied = 1 then some (true, Reset lm)
    else
      match slot t.table bucket with
      | some node =>
        let lm1 : State :=
          { lm with main_table :=
                      some { t with table := t.table.set bucket (some { node with deleted := true }),
                                    occupied := usub t.occupied 1 },
                    unique_ngrams_count := usub lm.unique_ngrams_count 1,
                    tokens := usub lm.tokens node.count,
                    ngrams_total := usub lm.ngrams_total node.count }
        (if (GetHeadTableLoad lm1.main_table).ltEighth then ResizeHeadTable lm1 else some lm1).map
          fun lm2 => (true, lm2)
      | none => none
  | none => none

/-- Function `LM::DeleteCollocate(headword, collocate)`: `bucket` is the bucket
of the headword node and `p` the address of the collocate node. -/
def DeleteCollocate (lm : State) (bucket : Nat) (p : Nat) : Option (Bool × State) :=
  match lm.main_table with
  | some t =>
    match slot t.table bucket with
    | some hw =>
      let c := deref hw.heap p
      if hw.collocates.occupied = 1 then
        let hw1 : headword_node :=
          { hw with heap := markDeleted hw.heap p,
                    collocates := { hw.collocates with occupied := usub hw.collocates.occupied 1 } }
        DeleteHeadword { setNode lm bucket hw1 with tokens := usub lm.tokens c.count } bucket
      else
        let pos := hw.frequencies.indexOf p
        if pos < hw.frequencies.length then
          let hw1 : headword_node :=
            { hw with frequencies := hw.frequencies.eraseIdx pos,
                      heap := markDeleted hw.heap p,
                      collocates := { hw.collocates with occupied := usub hw.collocates.occupied 1 } }
          (if (GetCollocateTableLoad hw1.collocates).ltEighth then ResizeCollocateTable hw1
            else some hw1).map fun hw2 =>
              (true,
                { setNode lm bucket hw2 with
                  unique_ngrams_count := usub lm.unique_ngrams_count 1,
                  tokens := usub lm.tokens (umul c.count 2),
                  ngrams_total := usub lm.ngrams_total c.count })
        else some (false, lm)
    | none => none
  | none => none

/-! ## Text scanning -/

/-- Function `isspace` of the C locale. -/
def isspace (c : Char) : Bool := c.toNat = 32 || (9 ≤ c.toNat && c.toNat ≤ 13)

/-- Function `ispunct` of the C locale. -/
def ispunct (c : Char) : Bool :=
  (33 ≤ c.toNat && c.toNat ≤ 47) || (58 ≤ c.toNat && c.toNat ≤ 64) ||
  (91 ≤ c.toNat && c.toNat ≤ 96) || (123 ≤ c.toNat && c.toNat ≤ 126)

/-- Extraction loop `while (stream >> word)`: the maximal runs of characters
that are not white space.  `cur` is the word being read, in reverse. -/
def scanWords : List Char → List Char → List String
  | [], cur => if cur.isEmpty then [] else [String.mk cur.reverse]
  | c :: cs, cur =>
    if isspace c then
      if cur.isEmpty then scanWords cs [] else String.mk cur.reverse :: scanWords cs []
    else scanWords cs (c :: cur)

/-- Words of a string as read by `stream >> word`. -/
def splitWords (s : String) : List String := scanWords s.data []

/-- Loop `for (i = 0; i < word.size(); i++)` of `Train` and `Grow` that erases
punctuation other than the hyphen; after an erase the index is decremented and
incremented again, so it stays.  The first argument bounds the iterations. -/
def stripLoop : Nat → Nat → List Char → List Char
  | 0, _, word => word
  | fuel + 1, i, word =>
    if i < word.length then
      if ispunct (word.getD i (Char.ofNat 0)) && word.getD i (Char.ofNat 0) != Char.ofNat 45 then
        stripLoop fuel i (word.eraseIdx i)
      else stripLoop fuel (i + 1) word
    else word

/-- Punctuation removal applied to each word read. -/
def stripPunct (word : String) : String := String.mk (stripLoop word.data.length 0 word.data)

/-- Loop that builds the collocate from the words left in the window. -/
def joinCollocate (ngram : List String) : String :=
  ngram.foldl (fun collocate w => if collocate.length = 0 then w else collocate ++ " " ++ w) ""

/-- Function `LM::SplitNGram`; `none` when `words.at(0)` throws because the
non-empty string holds no word. -/
def SplitNGram (ngram : String) : Option (List String) :=
  if ngram.length = 0 then some []
  else
    match splitWords ngram with
    | [] => none
    | [w] => some [w]
    | w :: w1 :: rest => some [w, rest.foldl (fun collocate x => collocate ++ " " ++ x) w1]

/-! ## Training -/

/-- What `Train` and `Grow` see of a file: the result of `EstimateTokenCount`
(negative when the size cannot be read) and, when the file opens, the words
that `stream >> word` extracts from it. -/
structure Source where
  estimate : Int
  words : Option (List String)
deriving DecidableEq, Repr

/-- Order of `std::sort(rbegin, rend, CompareCNodes)` on a frequencies vector:
non-increasing counts.  The source leaves the order of equal counts to the
library; this function fixes one such order. -/
def sortFrequencies (heap : List collocate_node) (frequencies : List Nat) : List Nat :=
  frequencies.insertionSort fun p q => (deref heap q).count ≤ (deref heap p).count

/-- Function `LM::SortCounts`. -/
def SortCounts (lm : State) : State :=
  match lm.main_table with
  | some t =>
    { lm with main_table := some { t with table := t.table.map fun s =>
        match s with
        | some node =>
          if node.deleted then some node
          else some { node with frequencies := sortFrequencies node.heap node.frequencies }
        | none => none } }
  | none => lm

/-- Loop `while (stream >> word)` of `Train` and `Grow`.  `ngram` is the list
of the window and `count` the number of words processed.  The result is
`false` when an insertion fails, `true` when the stream is exhausted. -/
def ingest : List String → State → List String → Nat → Option (Bool × State)
  | [], lm, _, _ => some (true, lm)
  | word :: rest, lm, ngram, count =>
    let count := uadd count 1
    let ngram := ngram ++ [stripPunct word]
    if count ≥ lm.ngram_size then
      match ngram with
      | [] => none
      | headword :: ngram =>
        (if (GetHeadTableLoad lm.main_table).gtHalf then ResizeHeadTable lm else some lm).bind
          fun lm =>
            (InsertNGram lm headword (joinCollocate ngram)).bind fun r =>
              if r.1 < 0 then some (false, r.2) else ingest rest r.2 ngram count
    else ingest rest lm ngram count

/-- Part of `Train` and `Grow` after the stream is open (the counter `tokens`
is already advanced by `n - 1`). -/
def ingestAndSort (lm : State) (words : List String) : Option (Bool × State) :=
  (ingest words lm [] 0).map fun r =>
    if r.1 then (true, if r.2.ngram_size > 1 then SortCounts r.2 else r.2) else (false, r.2)

/-- Function `LM::Train`. -/
def Train (lm : State) (src : Source) : Option (Bool × State) :=
  if src.estimate < 0 then some (false, lm)
  else
    let lm := if lm.main_table.isSome then Reset lm else lm
    if src.estimate * 2 ≥ 2147483648 then none
    else
      (InitHeadTable (src.estimate * 2).toNat).bind fun t =>
        let lm : State := { lm with main_table := some t }
        match src.words with
        | none => some (false, lm)
        | some words => ingestAndSort { lm with tokens := usub lm.ngram_size 1 } words

/-- Function `LM::Grow`. -/
def Grow (lm : State) (src : Source) : Option (Bool × State) :=
  match lm.main_table with
  | none => some (false, lm)
  | some t =>
    if src.estimate < 0 then some (false, lm)
    else if src.estimate * 2 ≥ 2147483648 then none
    else
      (InitHeadTable (uadd (src.estimate * 2).toNat t.capacity)).bind fun nt =>
        let new_table := transfer headword_node.headword headword_node.deleted t nt
        let lm : State := { lm with main_table := some new_table }
        match src.words with
        | none => some (false, lm)
        | some words =>
          ingestAndSort { lm with tokens := uadd lm.tokens (usub lm.ngram_size 1) } words

/-! ## Queries and removal -/

/-- Call `map.insert({key, value})` of a `std::map<string, int>`, which keeps
an existing entry.  The map is the list of its entries; their order is not
that of the container. -/
def mapInsert (m : List (String × Int)) (key : String) (value : Int) : List (String × Int) :=
  if m.any (fun e => e.1 == key) then m else m ++ [(key, value)]

/-- Function `LM::NGrams`. -/
def NGrams (lm : State) : List (String × Int) :=
  match lm.main_table with
  | some t =>
    if lm.ngram_size = 1 then
      t.table.foldl
        (fun m s => match s with
          | some node => if node.deleted then m else mapInsert m node.headword (toInt node.count)
          | none => m)
        []
    else
      t.table.foldl
        (fun m s => match s with
          | some node =>
            if node.deleted then m
            else node.frequencies.foldl
              (fun m p => mapInsert m (node.headword ++ " " ++ (deref node.heap p).collocate)
                (toInt (deref node.heap p).count))
              m
          | none => m)
        []
  | none => []

/-- Function `LM::UniqueNGramsCount`. -/
def UniqueNGramsCount (lm : State) : Int := toInt lm.unique_ngrams_count

/-- Function `LM::NGramsTotal`. -/
def NGramsTotal (lm : State) : Int := toInt lm.ngrams_total

/-- Function `LM::TotalTokens`. -/
def TotalTokens (lm : State) : Int := toInt lm.tokens

/-- Function `LM::Remove`. -/
def Remove (lm : State) (ngram : String) : Option (Bool × State) :=
  match lm.main_table with
  | some t =>
    if ngram.length > 0 then
      (SplitNGram ngram).bind fun grams =>
        if (lm.ngram_size = 1 ∧ grams.length > 1) ∨ (lm.ngram_size > 1 ∧ grams.length = 1) then
          some (false, lm)
        else
          match grams with
          | [] => none
          | headword :: rest =>
            let collocate := if grams.length = 2 then rest.headD "" else ""
            match FindHeadword lm headword with
            | some bucket =>
              if lm.ngram_size = 1 then DeleteHeadword lm bucket
              else
                match slot t.table bucket with
                | some hw =>
                  match FindCollocate hw collocate with
                  | some p => DeleteCollocate lm bucket p
                  | none => some (false, lm)
                | none => none
            | none => some (false, lm)
    else some (false, lm)
  | none => some (false, lm)


/-- The `float` value 0.0 of a frequency. -/
def zeroFrequency : Load := { num := 0, den := 1 }

/-- Function `LM::Frequency`.  The result is the quotient `(float)count / total` as the fraction
of its converted operands (a denominator 0 stands for the division by zero); `none` when
`grams.at(0)` throws. -/
def Frequency (lm : State) (ngram : String) : Option Load :=
  match lm.main_table with
  | some t =>
    if ngram.length > 0 then
      (SplitNGram ngram).bind fun grams =>
        match grams with
        | [] => none
        | headword :: rest =>
          let collocate := if grams.length = 2 then rest.headD "" else ""
          match FindHeadword lm headword with
          | some bucket =>
            match slot t.table bucket with
            | some hw =>
              if lm.ngram_size = 1 then
                some { num := toFloat hw.count, den := toFloat lm.ngrams_total }
              else if grams.length = 1 then
                some { num := toFloat hw.count, den := toFloat lm.tokens }
              else
                match FindCollocate hw collocate with
                | some p =>
                  some { num := toFloat (deref hw.heap p).count, den := toFloat lm.ngrams_total }
                | none => some zeroFrequency
            | none => none
          | none => some zeroFrequency
    else some zeroFrequency
  | none => some zeroFrequency

/-- Function `LM::Collocates`. -/
def Collocates (lm : State) (headword : String) (x : Nat) : List String :=
  match lm.main_table with
  | some t =>
    if lm.ngram_size > 1 then
      match FindHeadword lm headword with
      | some bucket =>
        match slot t.table bucket with
        | some hw => (hw.frequencies.take (min x hw.frequencies.length)).map (ckey hw.heap)
        | none => []
      | none => []
    else []
  | none => []

/-- Function `LM::CollocateCounts`. -/
def CollocateCounts (lm : State) (headword : String) : List (String × Int) :=
  match lm.main_table with
  | some t =>
    if lm.ngram_size > 1 then
      match FindHeadword lm headword with
      | some bucket =>
        match slot t.table bucket with
        | some hw =>
          hw.frequencies.foldl
            (fun m p => mapInsert m (deref hw.heap p).collocate (toInt (deref hw.heap p).count)) []
        | none => []
      | none => []
    else []
  | none => []

/-- Function `LM::UniqueUnigramCount`; `none` for the dereference of the null `main_table`. -/
def UniqueUnigramCount (lm : State) : Option Int :=
  match lm.main_table with
  | some t => some (toInt (uadd t.occupied (usub lm.ngram_size 1)))
  | none => none

end LM

namespace LM

/-! ## Notions used in the statements -/

/-- The first `j` buckets of the probe sequence from `start` neither are free nor hold the key. -/
def Passed (isFree isHit : Nat → Bool) (cap start j : Nat) : Prop :=
  ∀ i, i < j → isFree ((start + i) % cap) = false ∧ isHit ((start + i) % cap) = false


/-- The collocate `c` is stored under the node `hw`: a bucket of its subtable points to a live
node with that key. -/
def collocateStored (hw : headword_node) (c : String) : Bool :=
  hw.collocates.table.any fun s =>
    match s with
    | some p => !cdead hw.heap p && ckey hw.heap p == c
    | none => false

/-- The headword `h` is stored: a bucket of the main table holds a live node with that key. -/
def headwordStored (lm : State) (h : String) : Bool :=
  match lm.main_table with
  | some t =>
    t.table.any fun s =>
      match s with
      | some node => !node.deleted && node.headword == h
      | none => false
  | none => false

/-- The n-gram `h c` is stored: `c` is stored under a live node of headword `h`. -/
def ngramStored (lm : State) (h c : String) : Bool :=
  match lm.main_table with
  | some t =>
    t.table.any fun s =>
      match s with
      | some node => !node.deleted && node.headword == h && collocateStored node c
      | none => false
  | none => false

/-- Headword that `Remove` and `Frequency` read from a key: its first word. -/
def keyHeadword (k : String) : String := (splitWords k).headD ""

/-- Collocate that `Remove` and `Frequency` read from a key: the words after the first, joined by
single spaces. -/
def keyCollocate (k : String) : String :=
  match splitWords k with
  | _ :: w1 :: rest => rest.foldl (fun collocate x => collocate ++ " " ++ x) w1
  | _ => ""


/-! ## Well-formed tables -/

/-- A slot that holds a node which is not deleted. -/
def liveSlot {α : Type} (dead : α → Bool) : Option α → Bool
  | some x => !dead x
  | none => false

/-- Number of live slots of a slot vector. -/
def liveCount {α : Type} (dead : α → Bool) (tbl : List (Option α)) : Nat :=
  tbl.countP (liveSlot dead)

/-- The capacities that `PrimeSize` can return: `MIN_SIZE` and the entries of `PRIMES` from
index 3 on. -/
def LADDER : List Nat := MIN_SIZE :: PRIMES.drop 3

/-- A table whose three fields agree: the vector has `capacity` slots, the capacity is on the
size ladder, and `occupied` counts the live slots. -/
structure TableOK {α : Type} (dead : α → Bool) (t : hash_table α) : Prop where
  len : t.table.length = t.capacity
  ladder : t.capacity ∈ LADDER
  occ : t.occupied = liveCount dead t.table

/-- No pointer sits in two buckets. -/
def SlotsInj {α : Type} (tbl : List (Option α)) : Prop :=
  ∀ b b' x, slot tbl b = some x → slot tbl b' = some x → b = b'

/-- Sum of a weight over the slots of a table. -/
def slotSum {α : Type} (g : Option α → Nat) (tbl : List (Option α)) : Nat := (tbl.map g).sum

/-- A weight that counts live nodes only. -/
def LiveWeight {α : Type} (dead : α → Bool) (g : Option α → Nat) : Prop :=
  g none = 0 ∧ ∀ x, dead x = true → g (some x) = 0


/-- Relation between a table and the table that a resize or the transfer loop of `Grow` builds
from it: same live content, nothing new. -/
structure Rehashed {α : Type} (dead : α → Bool) (t t' : hash_table α) : Prop where
  ok : TableOK dead t'
  sums : ∀ g, LiveWeight dead g → slotSum g t'.table = slotSum g t.table
  from_old : ∀ b x, slot t'.table b = some x → ∃ b', slot t.table b' = some x
  inj : SlotsInj t.table → SlotsInj t'.table
  kept : ∀ b' x, slot t.table b' = some x → dead x = false → ∃ b, slot t'.table b = some x


/-! ## Well-formed nodes and states -/

/-- A headword node whose subtable is well formed and holds valid, pairwise different
addresses. -/
structure NodeOK (hw : headword_node) : Prop where
  tbl : TableOK (cdead hw.heap) hw.collocates
  valid : ∀ b p, slot hw.collocates.table b = some p → p < hw.heap.length
  inj : SlotsInj hw.collocates.table

/-- Keys of all collocate nodes ever allocated for a headword, in allocation order. -/
def heapKeys (hw : headword_node) : List String := hw.heap.map collocate_node.collocate

/-- Weight of a bucket of the main table: the `occupied` field of the subtable of a live node. -/
def occWeight : Option headword_node → Nat
  | some node => if node.deleted then 0 else node.collocates.occupied
  | none => 0

/-- Weight of a bucket of the main table: the number of live collocate entries of a live node. -/
def entryWeight : Option headword_node → Nat
  | some node => if node.deleted then 0 else liveCount (cdead node.heap) node.collocates.table
  | none => 0

/-- Weight of a bucket of the main table: the count of a live node. -/
def countWeight : Option headword_node → Nat
  | some node => if node.deleted then 0 else node.count
  | none => 0

/-- Number of live n-gram entries of a model: the live collocate entries of all live headwords
(the live headword entries in a unigram model); 0 for an untrained model. -/
def liveEntries (lm : State) : Nat :=
  match lm.main_table with
  | some t =>
    if lm.ngram_size = 1 then liveCount headword_node.deleted t.table
    else slotSum entryWeight t.table
  | none => 0


/-- A trained model of order `n` with main table `t` and counter `unique_ngrams_count = unique`:
the table and the subtables of its live nodes are well formed, and the counter agrees with the
`occupied` fields. -/
structure TrainedOK (n : Nat) (t : head_table) (unique : Nat) : Prop where
  table : TableOK headword_node.deleted t
  nodes : ∀ b node, slot t.table b = some node → node.deleted = false → NodeOK node
  unique : unique = (if n = 1 then t.occupied else slotSum occWeight t.table) % UMOD

/-- Invariant of the states of a model. -/
def StateOK (lm : State) : Prop :=
  match lm.main_table with
  | some t => TrainedOK lm.ngram_size t lm.unique_ngrams_count
  | none => lm.unique_ngrams_count = 0 ∧ lm.ngrams_total = 0 ∧ lm.tokens = 0

/-- Every collocate key ever stored under a node of the table satisfies `P`. -/
def KeysSat (P : String → Prop) (t : head_table) : Prop :=
  ∀ b node, slot t.table b = some node → ∀ k ∈ heapKeys node, P k

/-- Property `KeysSat` of the main table of a model (true of an untrained model). -/
def StateKeysSat (P : String → Prop) (lm : State) : Prop :=
  ∀ t, lm.main_table = some t → KeysSat P t

/-- Sum of the counts of the live headword entries, 0 for an untrained model. -/
def liveHeadCount (lm : State) : Nat :=
  match lm.main_table with
  | some t => slotSum countWeight t.table
  | none => 0


/-- The node that `InitHeadword` returns. -/
def freshHead (headword : String) : headword_node :=
  { headword := headword, count := 1,
    collocates := { capacity := 7, occupied := 0, table := List.replicate 7 none },
    frequencies := [], deleted := false, heap := [] }

/-- State of `InsertNGram` after a new headword node went into `bucket`, before the collocate is
inserted. -/
def withNewHead (lm : State) (t : head_table) (bucket : Nat) (headword : String) : State :=
  { lm with main_table := some { t with table := t.table.set bucket (some (freshHead headword)),
                                        occupied := uadd t.occupied 1 },
            ngrams_total := uadd lm.ngrams_total 1,
            tokens := uadd lm.tokens 1 }

/-- State of `InsertNGram` after the count of the headword node in `bucket` went up, before the
collocate is inserted. -/
def withBumpedHead (lm : State) (t : head_table) (bucket : Nat) (node : headword_node) : State :=
  { lm with main_table :=
              some { t with table :=
                       t.table.set bucket (some { node with count := uadd node.count 1 }) },
            ngrams_total := uadd lm.ngrams_total 1,
            tokens := uadd lm.tokens 1 }


/-! ## The n-grams of a token stream -/

/-- The pairs (headword, collocate) that the loop of `Train` and `Grow` passes to `InsertNGram`,
in order, as long as no insertion fails: the same window bookkeeping as `ingest`, without the
table. -/
def ingestPairs (n : Nat) : List String → List String → Nat → List (String × String)
  | [], _, _ => []
  | word :: rest, ngram, count =>
    if uadd count 1 ≥ n then
      match ngram ++ [stripPunct word] with
      | [] => []
      | headword :: ngram => (headword, joinCollocate ngram) :: ingestPairs n rest ngram (uadd count 1)
    else ingestPairs n rest (ngram ++ [stripPunct word]) (uadd count 1)

/-! ## Histories of public operations -/

/-- A call of one of the public operations that change a model. -/
inductive Op where
  | train (src : Source)
  | grow (src : Source)
  | remove (ngram : String)
deriving DecidableEq, Repr

/-- Result of one call. -/
def applyOp (lm : State) : Op → Option (Bool × State)
  | Op.train src => Train lm src
  | Op.grow src => Grow lm src
  | Op.remove ngram => Remove lm ngram

/-- State after a sequence of calls, each of which returns normally. -/
def run : State → List Op → Option State
  | lm, [] => some lm
  | lm, op :: ops => (applyOp lm op).bind fun r => run r.2 ops

/-- Largest estimate for which the capacity request `estimate*2 + capacity` of `Grow` cannot wrap
around, whatever the capacity of the table. -/
def MAX_ESTIMATE : Int := 1073741818

/-- The estimate of the source of a `Grow` is at most `MAX_ESTIMATE`. -/
def Op.sized : Op → Bool
  | Op.grow src => decide (src.estimate ≤ MAX_ESTIMATE)
  | _ => true


/-! ## Quantities of the statements about removal and lookup -/

/-- Sum of the counts of the live collocate entries of a node. -/
def liveCollocateCounts (hw : headword_node) : Nat :=
  slotSum (fun s => match s with
    | some p => if cdead hw.heap p then 0 else (deref hw.heap p).count
    | none => 0) hw.collocates.table

/-- Sum of the counts of all live n-gram entries of a model: of the live collocate entries of all
live headwords, or of the live headword entries in a unigram model. -/
def liveNGramTotal (lm : State) : Nat :=
  match lm.main_table with
  | some t =>
    if lm.ngram_size = 1 then slotSum countWeight t.table
    else slotSum (fun s => match s with
      | some node => if node.deleted then 0 else liveCollocateCounts node
      | none => 0) t.table
  | none => 0

/-- Number of live collocate entries of a node that carry the key `c`. -/
def liveKeyCount (hw : headword_node) (c : String) : Nat :=
  hw.collocates.table.countP fun s =>
    match s with
    | some p => !cdead hw.heap p && ckey hw.heap p == c
    | none => false

/-- Number of slots of a table that hold a deleted node. -/
def tombstones {α : Type} (dead : α → Bool) (tbl : List (Option α)) : Nat :=
  tbl.countP fun s =>
    match s with
    | some x => dead x
    | none => false

/-- The 32-bit FNV-1a hash of a byte string as the FNV specification defines it: every byte is
combined as a value between 0 and 255. -/
def FNV1aReference (key : List Nat) : Nat :=
  key.foldl (fun h b => (Nat.xor h b * 16777619) % 4294967296) 2166136261

/-- Number of distinct tokens of a token list. -/
def distinctTokens (ts : List String) : Nat := ts.dedup.length

/-- What the transfer loop has established after the first `i` buckets of the old table. -/
structure TransferInv {α : Type} (dead : α → Bool) (old : hash_table α) (c : Nat) (i : Nat)
    (nt : hash_table α) : Prop where
  ok : TableOK dead nt
  cap : nt.capacity = c
  sums : ∀ g, LiveWeight dead g → slotSum g nt.table = slotSum g (old.table.take i)
  from_old : ∀ b x, slot nt.table b = some x → ∃ b', b' < i ∧ slot old.table b' = some x
  inj : SlotsInj old.table → SlotsInj nt.table
  kept : ∀ b' x, b' < i → slot old.table b' = some x → dead x = false →
    ∃ b, slot nt.table b = some x

end LM

namespace LM

/-! ## Documents of a history -/

/-- A call that ingests a document. -/
def Op.ingests : Op → Bool
  | Op.remove _ => false
  | _ => true

/-- Number of documents whose tokens the model holds after the call `op` took the state `lm`,
which held `docs` documents, to the state `lm'`: a `Train` that sizes its source starts again
with the one document it opens, a `Grow` on a trained model adds the document it opens, and a
`Remove` that leaves the model untrained leaves no document. -/
def docsAfter (lm lm' : State) (docs : Nat) : Op → Nat
  | Op.train src => if src.estimate < 0 then docs else if src.words.isSome then 1 else 0
  | Op.grow src =>
    if lm.main_table.isSome && decide (0 ≤ src.estimate) && src.words.isSome then docs + 1
    else docs
  | Op.remove _ => if lm'.main_table.isSome then docs else 0

/-- State and number of documents after a sequence of calls, each of which returns normally. -/
def runDocs : State → Nat → List Op → Option (State × Nat)
  | lm, docs, [] => some (lm, docs)
  | lm, docs, op :: ops =>
    (applyOp lm op).bind fun r => runDocs r.2 (docsAfter lm r.2 docs op) ops

/-! ## A sample table -/

/-- A headword node with count 1 and an empty subtable. -/
def sampleNode (headword : String) (deleted : Bool) : headword_node :=
  { headword := headword, count := 1,
    collocates := { capacity := 7, occupied := 0, table := List.replicate 7 none },
    frequencies := [], deleted := deleted, heap := [] }

/-- A headword table of capacity 7 with four live entries and one tombstoned entry. -/
def sampleTable : head_table :=
  { capacity := 7, occupied := 4,
    table := [none, some (sampleNode "a" false), some (sampleNode "b" false),
      some (sampleNode "c" false), some (sampleNode "d" false), none,
      some (sampleNode "e" true)] }

/-! ## A primality check by trial division -/

/-- No number `lo + s * i` with `i < 2 ^ d` divides `n`. -/
def noDiv : Nat → Nat → Nat → Nat → Bool
  | 0, lo, _, n => n % lo != 0
  | d + 1, lo, s, n => noDiv d lo s n && noDiv d (lo + s * 2 ^ d) s n

/-- Trial division of an odd number by the odd numbers from 3 below `3 + 2 ^ (d + 1)`. -/
def oddPrimeTest (d n : Nat) : Bool := n % 2 == 1 && noDiv d 3 2 n

/-- Check of entry `e` of `PRIMES`: the entry lies above `2 ^ e`, trial division finds no divisor
of it up to its square root and finds a divisor of every number between `2 ^ e` and the entry. -/
def primeEntryCheck (e : Nat) : Bool :=
  decide (2 ^ e < PRIMES.getD e 0) &&
    decide (PRIMES.getD e 0 < (3 + 2 ^ ((e + 1) / 2 - 1 + 1)) ^ 2) &&
    decide (3 + 2 ^ ((e + 1) / 2 - 1 + 1) ≤ 2 ^ e) &&
    oddPrimeTest ((e + 1) / 2 - 1) (PRIMES.getD e 0) &&
    (List.range (PRIMES.getD e 0 - 2 ^ e - 1)).all fun i =>
      !oddPrimeTest ((e + 1) / 2 - 1) (2 ^ e + 1 + i)

/-! ## Words -/

/-- A string that holds no white space. -/
def noSpace (w : String) : Bool := w.data.all fun c => !isspace c

/-- A string that is not empty and holds no white space: what `stream >> word` can read. -/
def isWord (w : String) : Bool := !w.data.isEmpty && w.data.all fun c => !isspace c

/-! ## Windows of a token list -/

/-- The windows of `n` consecutive elements of a list, in order of their position. -/
def windows {α : Type} (n : Nat) : List α → List (List α)
  | [] => []
  | x :: xs => if n ≤ (x :: xs).length then (x :: xs).take n :: windows n xs else []

/-- Headword and collocate of a window: its first token, and the others joined by spaces. -/
def pairOf (w : List String) : String × String := (w.headD "", joinCollocate w.tail)

/-! ## Sources of words -/

/-- Every token of the source is a word after punctuation stripping, and the number of tokens
fits the `unsigned int` counter of the ingestion loop. -/
def Source.clean (src : Source) : Bool :=
  match src.words with
  | some ws => ws.all (fun t => isWord (stripPunct t)) && decide (ws.length < 4294967295)
  | none => true

/-- The source of a `Train` or `Grow` call is clean. -/
def Op.clean : Op → Bool
  | Op.train src => Source.clean src
  | Op.grow src => Source.clean src
  | Op.remove _ => true

/-! ## Tables without tombstones -/

/-- A table in which every node is live, no key occurs twice, and every node sits on the probe
sequence of its key with no empty bucket before it: the state of a table that has only seen
insertions. -/
structure Clean {α : Type} (keyOf : α → String) (dead : α → Bool) (t : hash_table α) : Prop where
  live : ∀ b x, slot t.table b = some x → dead x = false
  keys : ∀ b b' x x', slot t.table b = some x → slot t.table b' = some x' →
    keyOf x = keyOf x' → b = b'
  chain : ∀ b x, slot t.table b = some x → ∃ j, j < t.capacity ∧
    (FNV1a (keyOf x) t.capacity + j) % t.capacity = b ∧
    ∀ i, i < j → slot t.table ((FNV1a (keyOf x) t.capacity + i) % t.capacity) ≠ none

/-- A headword node whose subtable has only seen insertions: the subtable is `Clean`, every
collocate node allocated for the headword is in a bucket, and `frequencies` lists each of them
once. -/
structure NodeClean (hw : headword_node) : Prop where
  tbl : Clean (ckey hw.heap) (cdead hw.heap) hw.collocates
  onto : ∀ p, p < hw.heap.length → ∃ b, slot hw.collocates.table b = some p
  freq : hw.frequencies.Perm (List.range hw.heap.length)
  full : liveCount (cdead hw.heap) hw.collocates.table = hw.heap.length
  small : ∀ p, (deref hw.heap p).count < UMOD

/-! ## Counts of an n-gram -/

/-- Weight of a bucket of a subtable: the count of a live collocate node with key `c`. -/
def collocateWeight (heap : List collocate_node) (c : String) : Option Nat → Nat
  | some p => if cdead heap p then 0 else if ckey heap p = c then (deref heap p).count else 0
  | none => 0

/-- Sum of the counts of the live entries for the collocate `c` under a node. -/
def nodeCount (hw : headword_node) (c : String) : Nat :=
  slotSum (collocateWeight hw.heap c) hw.collocates.table

/-- Weight of a bucket of the main table: for a live node with headword `h`, its own count in a
unigram model and its count for the collocate `c` otherwise. -/
def pairWeight (n : Nat) (h c : String) : Option headword_node → Nat
  | some node =>
    if node.deleted then 0
    else if node.headword = h then (if n = 1 then node.count else nodeCount node c) else 0
  | none => 0

/-- Sum of the counts of the live entries of a model for the headword `h` and collocate `c`. -/
def countOf (lm : State) (h c : String) : Nat :=
  match lm.main_table with
  | some t => slotSum (pairWeight lm.ngram_size h c) t.table
  | none => 0

/-- A main table that has only seen insertions: it is `Clean`, and so are its nodes when the
order is not 1. -/
structure CleanOK (n : Nat) (t : head_table) : Prop where
  tbl : Clean headword_node.headword headword_node.deleted t
  nodes : n ≠ 1 → ∀ b node, slot t.table b = some node → NodeClean node
  counts : ∀ b node, slot t.table b = some node → node.count < UMOD

/-- Every headword of the table satisfies `P`. -/
def HeadsSat (P : String → Prop) (t : head_table) : Prop :=
  ∀ b node, slot t.table b = some node → P node.headword

/-- Number of pairs of a list that count for the headword `h` and the collocate `c`: the pairs
with headword `h` in a unigram model, the pairs `(h, c)` otherwise. -/
def pairHits (n : Nat) (h c : String) (ps : List (String × String)) : Nat :=
  ps.countP fun pr => decide (pr.1 = h ∧ (n = 1 ∨ pr.2 = c))

/-- Every collocate key ever stored under a node satisfies `Q` together with the headword of the
node. -/
def PairsSat (Q : String → String → Prop) (t : head_table) : Prop :=
  ∀ b node, slot t.table b = some node → ∀ k ∈ heapKeys node, Q node.headword k

/-! ## Entries of a model -/

/-- Insertion of a list of entries into a map, one `mapInsert` after the other. -/
def insertAll (m es : List (String × Int)) : List (String × Int) :=
  es.foldl (fun m e => mapInsert m e.1 e.2) m

/-- Key of the n-gram with headword `h` and collocate `c` in a model of order `n`. -/
def keyOfPair (n : Nat) (h c : String) : String := if n = 1 then h else h ++ " " ++ c

/-- The entries that `NGrams` reads from a live headword node, in its order. -/
def nodeEntries (n : Nat) (node : headword_node) : List (String × Int) :=
  if n = 1 then [(node.headword, toInt node.count)]
  else node.frequencies.map fun p =>
    (node.headword ++ " " ++ (deref node.heap p).collocate, toInt (deref node.heap p).count)

/-- The entries that `NGrams` reads from a bucket of the main table. -/
def slotEntries (n : Nat) : Option headword_node → List (String × Int)
  | some node => if node.deleted then [] else nodeEntries n node
  | none => []

/-- The entries that `NGrams` reads from the main table, in its order. -/
def tableEntries (n : Nat) (t : head_table) : List (String × Int) :=
  t.table.flatMap (slotEntries n)

/-- Sum of the counts of all collocate nodes allocated for a headword. -/
def heapSum (hw : headword_node) : Nat := (hw.heap.map collocate_node.count).sum

/-- In every node the count of the headword is the sum of the counts of its collocates (as an
`unsigned int`). -/
def CountsOK (t : head_table) : Prop :=
  ∀ b node, slot t.table b = some node → node.count % UMOD = heapSum node % UMOD

/-- The table holds exactly the pairs of the list `ps`: it has no tombstones, its headwords and
stored pairs come from `ps`, and the count it keeps for a pair is the number of occurrences of the
pair in `ps` (as an `unsigned int`). -/
structure Holds (n : Nat) (t : head_table) (ps : List (String × String)) : Prop where
  clean : CleanOK n t
  heads : HeadsSat (fun h => ∃ pr ∈ ps, pr.1 = h) t
  pairs : PairsSat (fun h c => (h, c) ∈ ps) t
  sums : ∀ h c, slotSum (pairWeight n h c) t.table % UMOD = pairHits n h c ps % UMOD
  own : n ≠ 1 → CountsOK t

/-! ## Histories of ingestions -/

/-- Every stripped token of the source holds no white space. -/
def Source.plain (src : Source) : Bool :=
  match src.words with
  | some ws => ws.all fun t => noSpace (stripPunct t)
  | none => true

/-- The source of a `Train` or `Grow` call is plain. -/
def Op.plain : Op → Bool
  | Op.train src => Source.plain src
  | Op.grow src => Source.plain src
  | Op.remove _ => true

/-- The pairs that the model holds after the call `op` took the state `lm`, which held the pairs
`ps`: a `Train` that sizes its source starts again with the pairs of the stream it opens, and a
`Grow` on a trained model adds the pairs of the stream it opens. -/
def pairsAfter (lm : State) (ps : List (String × String)) : Op → List (String × String)
  | Op.train src =>
    if src.estimate < 0 then ps
    else
      match src.words with
      | some ws => ingestPairs lm.ngram_size ws [] 0
      | none => []
  | Op.grow src =>
    if lm.main_table.isSome && decide (0 ≤ src.estimate) then
      match src.words with
      | some ws => ps ++ ingestPairs lm.ngram_size ws [] 0
      | none => ps
    else ps
  | Op.remove _ => ps

/-- State and pairs held after a sequence of calls, each of which returns normally. -/
def runPairs : State → List (String × String) → List Op → Option (State × List (String × String))
  | lm, ps, [] => some (lm, ps)
  | lm, ps, op :: ops => (applyOp lm op).bind fun r => runPairs r.2 (pairsAfter lm ps op) ops

end LM

namespace LM

/-! ## The frequency index -/

/-- The frequency index of a node lists every live collocate pointer of the subtable once and
nothing else. -/
structure FreqOK (hw : headword_node) : Prop where
  nodup : hw.frequencies.Nodup
  mem : ∀ p, p ∈ hw.frequencies ↔
    ∃ b, slot hw.collocates.table b = some p ∧ cdead hw.heap p = false

/-- A headword node of a model of order `n`: its subtable is well formed, and while the node is
live its frequency index fits the subtable and, unless the order is 1, the subtable holds a live
collocate. -/
structure NodeFit (n : Nat) (hw : headword_node) : Prop where
  ok : NodeOK hw
  freq : hw.deleted = false → FreqOK hw
  live : hw.deleted = false → n ≠ 1 → 1 ≤ hw.collocates.occupied

/-- Every node of the main table, live or tombstoned, satisfies `NodeFit`. -/
def Fit (n : Nat) (t : head_table) : Prop :=
  ∀ b node, slot t.table b = some node → NodeFit n node

/-- Property `Fit` of the main table of a model (true of an untrained model). -/
def StateFit (lm : State) : Prop := ∀ t, lm.main_table = some t → Fit lm.ngram_size t

/-! ## Tables whose live entries are found -/

/-- The live nodes of a slot vector have pairwise different keys. -/
def LiveKeysInj {α : Type} (keyOf : α → String) (dead : α → Bool) (tbl : List (Option α)) :
    Prop :=
  ∀ b b' x x', slot tbl b = some x → slot tbl b' = some x' → dead x = false →
    dead x' = false → keyOf x = keyOf x' → b = b'

/-- A table in which the live nodes have pairwise different keys and every live node sits on the
probe sequence of its key behind buckets that hold live nodes. -/
structure Findable {α : Type} (keyOf : α → String) (dead : α → Bool) (t : hash_table α) :
    Prop where
  keys : LiveKeysInj keyOf dead t.table
  chain : ∀ b x, slot t.table b = some x → dead x = false → ∃ j, j < t.capacity ∧
    (FNV1a (keyOf x) t.capacity + j) % t.capacity = b ∧
    ∀ i, i < j → slotFree dead t.table ((FNV1a (keyOf x) t.capacity + i) % t.capacity) = false

/-- Relation between a table and the table that the transfer loop builds from it: the new table
is well formed, its `occupied` is the number of live nodes of the old table, every live node of
the old table is in a bucket of the new one and is what the lookup for its key finds, and the
new table holds no node that the old one did not hold. -/
structure Rebuilt {α : Type} (keyOf : α → String) (dead : α → Bool) (t t' : hash_table α) :
    Prop where
  ok : TableOK dead t'
  occupied : t'.occupied = liveCount dead t.table
  found : ∀ b x, slot t.table b = some x → dead x = false →
    ∃ b', slot t'.table b' = some x ∧ findSlot keyOf dead t' (keyOf x) = some b'
  from_old : ∀ b x, slot t'.table b = some x → ∃ b', slot t.table b' = some x

/-- A headword table of capacity 7 with two live entries for the headword "a", of counts 1 and
2, in the bucket of the hash of "a" and in the next one. -/
def twinTable : head_table :=
  { capacity := 7, occupied := 2,
    table := [none, none, none, none, none, some (sampleNode "a" false),
      some { sampleNode "a" false with count := 2 }] }

/-! ## A crowded table -/

/-- A headword table of capacity 7 with six live entries. -/
def crowdedTable : head_table :=
  { capacity := 7, occupied := 6,
    table := [some (sampleNode "a" false), some (sampleNode "b" false),
      some (sampleNode "c" false), some (sampleNode "d" false), some (sampleNode "e" false),
      some (sampleNode "f" false), none] }

end LM

namespace LM

/-! ## Windows of a history -/

/-- The stream of the source has fewer than `2^31` tokens, all without white space after the
punctuation is stripped. -/
def Source.short (src : Source) : Bool :=
  match src.words with
  | some ws => decide (ws.length < 2147483648) && ws.all fun t => noSpace (stripPunct t)
  | none => true

/-- A `Train` or `Grow` call on a short source. -/
def Op.reads : Op → Bool
  | Op.train src => Source.short src
  | Op.grow src => decide (src.estimate ≤ MAX_ESTIMATE) && Source.short src
  | Op.remove _ => false

/-- The windows that the model holds after the call `op` took the state `lm`, which held the
windows `W`: a `Train` that sizes its source starts again with the windows of the stream it
opens, and a `Grow` on a trained model adds the windows of the stream it opens. -/
def windowsAfter (lm : State) (W : List (List String)) : Op → List (List String)
  | Op.train src =>
    if src.estimate < 0 then W
    else
      match src.words with
      | some ws => windows lm.ngram_size (ws.map stripPunct)
      | none => []
  | Op.grow src =>
    if lm.main_table.isSome && decide (0 ≤ src.estimate) then
      match src.words with
      | some ws => W ++ windows lm.ngram_size (ws.map stripPunct)
      | none => W
    else W
  | Op.remove _ => W

/-- State and windows held after a sequence of calls, each of which returns normally. -/
def runWindows : State → List (List String) → List Op → Option (State × List (List String))
  | lm, W, [] => some (lm, W)
  | lm, W, op :: ops => (applyOp lm op).bind fun r => runWindows r.2 (windowsAfter lm W op) ops

/-- The entries that `CollocateCounts` reads from a headword node, in its order. -/
def collocateEntries (node : headword_node) : List (String × Int) :=
  node.frequencies.map fun p => ((deref node.heap p).collocate, toInt (deref node.heap p).count)

end LM

namespace LM

/-! ## The probing loop -/

theorem step_mod (cap start i : Nat) : ((start + 1) % cap + i) % cap = (start + (i + 1)) % cap := by
  rw [Nat.add_mod, Nat.mod_mod, ← Nat.add_mod]
  congr 1
  omega

theorem Passed.shift {isFree isHit : Nat → Bool} {cap start j : Nat}
    (h : Passed isFree isHit cap start (j + 1)) : Passed isFree isHit cap ((start + 1) % cap) j := by
  intro i hi
  rw [step_mod]
  exact h (i + 1) (by omega)

theorem Passed.unshift {isFree isHit : Nat → Bool} {cap start j : Nat} (hs : start < cap)
    (h0 : isFree start = false) (h1 : isHit start = false)
    (h : Passed isFree isHit cap ((start + 1) % cap) j) : Passed isFree isHit cap start (j + 1) := by
  intro i hi
  cases i with
  | zero => simpa [Nat.mod_eq_of_lt hs] using And.intro h0 h1
  | succ i =>
    have := h i (by omega)
    rwa [step_mod] at this

theorem probe_eq_free {isFree isHit : Nat → Bool} {cap : Nat} :
    ∀ (fuel start j : Nat), start < cap → j < fuel → Passed isFree isHit cap start j →
      isFree ((start + j) % cap) = true →
      probe isFree isHit cap fuel start = Probe.free ((start + j) % cap) := by
  intro fuel
  induction fuel with
  | zero => intro start j _ hj; omega
  | succ fuel ih =>
    intro start j hs hj hp hf
    cases j with
    | zero =>
      simp only [Nat.add_zero, Nat.mod_eq_of_lt hs] at hf ⊢
      simp [probe, hf]
    | succ j =>
      have h0 := hp 0 (by omega)
      simp only [Nat.add_zero, Nat.mod_eq_of_lt hs] at h0
      have hc : 0 < cap := by omega
      have := ih ((start + 1) % cap) j (Nat.mod_lt _ hc) (by omega) hp.shift (by rwa [step_mod])
      rw [step_mod] at this
      simp [probe, h0.1, h0.2, this]

theorem probe_eq_hit {isFree isHit : Nat → Bool} {cap : Nat} :
    ∀ (fuel start j : Nat), start < cap → j < fuel → Passed isFree isHit cap start j →
      isFree ((start + j) % cap) = false → isHit ((start + j) % cap) = true →
      probe isFree isHit cap fuel start = Probe.hit ((start + j) % cap) := by
  intro fuel
  induction fuel with
  | zero => intro start j _ hj; omega
  | succ fuel ih =>
    intro start j hs hj hp hf hh
    cases j with
    | zero =>
      simp only [Nat.add_zero, Nat.mod_eq_of_lt hs] at hf hh ⊢
      simp [probe, hf, hh]
    | succ j =>
      have h0 := hp 0 (by omega)
      simp only [Nat.add_zero, Nat.mod_eq_of_lt hs] at h0
      have hc : 0 < cap := by omega
      have := ih ((start + 1) % cap) j (Nat.mod_lt _ hc) (by omega) hp.shift
        (by rwa [step_mod]) (by rwa [step_mod])
      rw [step_mod] at this
      simp [probe, h0.1, h0.2, this]

theorem probe_eq_full {isFree isHit : Nat → Bool} {cap : Nat} :
    ∀ (fuel start : Nat), start < cap → Passed isFree isHit cap start fuel →
      probe isFree isHit cap fuel start = Probe.full := by
  intro fuel
  induction fuel with
  | zero => intro start _ _; rfl
  | succ fuel ih =>
    intro start hs hp
    have h0 := hp 0 (by omega)
    simp only [Nat.add_zero, Nat.mod_eq_of_lt hs] at h0
    have hc : 0 < cap := by omega
    simp [probe, h0.1, h0.2, ih ((start + 1) % cap) (Nat.mod_lt _ hc) hp.shift]

/-- Every run of the probing loop stops at the first bucket of the sequence that is free or holds
the key, or passes all `fuel` buckets. -/
theorem probe_cases (isFree isHit : Nat → Bool) (cap : Nat) :
    ∀ (fuel start : Nat), start < cap →
      (∃ j, j < fuel ∧ Passed isFree isHit cap start j ∧ isFree ((start + j) % cap) = true ∧
        probe isFree isHit cap fuel start = Probe.free ((start + j) % cap)) ∨
      (∃ j, j < fuel ∧ Passed isFree isHit cap start j ∧ isFree ((start + j) % cap) = false ∧
        isHit ((start + j) % cap) = true ∧
        probe isFree isHit cap fuel start = Probe.hit ((start + j) % cap)) ∨
      (Passed isFree isHit cap start fuel ∧ probe isFree isHit cap fuel start = Probe.full) := by
  intro fuel
  induction fuel with
  | zero =>
    intro start _
    right; right
    exact ⟨fun i hi => by omega, rfl⟩
  | succ fuel ih =>
    intro start hs
    have hc : 0 < cap := by omega
    have hz : (start + 0) % cap = start := by simp [Nat.mod_eq_of_lt hs]
    by_cases hf : isFree start = true
    · left
      exact ⟨0, by omega, fun i hi => by omega, by rw [hz]; exact hf, by rw [hz]; simp [probe, hf]⟩
    · have hf : isFree start = false := by simpa using hf
      by_cases hh : isHit start = true
      · right; left
        exact ⟨0, by omega, fun i hi => by omega, by rw [hz]; exact hf, by rw [hz]; exact hh,
          by rw [hz]; simp [probe, hf, hh]⟩
      · have hh : isHit start = false := by simpa using hh
        have hstep : probe isFree isHit cap (fuel + 1) start =
            probe isFree isHit cap fuel ((start + 1) % cap) := by simp [probe, hf, hh]
        rcases ih ((start + 1) % cap) (Nat.mod_lt _ hc) with
          ⟨j, hj, hp, h1, h2⟩ | ⟨j, hj, hp, h1, h2, h3⟩ | ⟨hp, h2⟩
        · left
          refine ⟨j + 1, by omega, Passed.unshift hs hf hh hp, ?_, ?_⟩
          · rwa [step_mod] at h1
          · rw [hstep, h2, step_mod]
        · right; left
          refine ⟨j + 1, by omega, Passed.unshift hs hf hh hp, ?_, ?_, ?_⟩
          · rwa [step_mod] at h1
          · rwa [step_mod] at h2
          · rw [hstep, h3, step_mod]
        · right; right
          exact ⟨Passed.unshift hs hf hh hp, by rw [hstep, h2]⟩

/-- The probe sequence from `start` reaches every bucket within `cap` steps. -/
theorem reach (cap start b : Nat) (hs : start < cap) (hb : b < cap) :
    ∃ j, j < cap ∧ (start + j) % cap = b := by
  by_cases h : start ≤ b
  · exact ⟨b - start, by omega, by rw [Nat.add_sub_cancel' h]; exact Nat.mod_eq_of_lt hb⟩
  · refine ⟨b + cap - start, by omega, ?_⟩
    have : start + (b + cap - start) = b + cap := by omega
    rw [this, Nat.add_mod_right, Nat.mod_eq_of_lt hb]


end LM

namespace LM

/-! ## Lookups only return live nodes with the key -/

theorem probe_hit_sound {isFree isHit : Nat → Bool} {cap : Nat} :
    ∀ (fuel start b : Nat), probe isFree isHit cap fuel start = Probe.hit b →
      isFree b = false ∧ isHit b = true := by
  intro fuel
  induction fuel with
  | zero => intro start b h; simp [probe] at h
  | succ fuel ih =>
    intro start b h
    unfold probe at h
    split at h
    · simp at h
    · split at h
      · simp only [Probe.hit.injEq] at h
        subst h
        constructor
        · simpa using ‹¬isFree start = true›
        · assumption
      · exact ih _ _ h

theorem probe_free_sound {isFree isHit : Nat → Bool} {cap : Nat} :
    ∀ (fuel start b : Nat), probe isFree isHit cap fuel start = Probe.free b →
      isFree b = true := by
  intro fuel
  induction fuel with
  | zero => intro start b h; simp [probe] at h
  | succ fuel ih =>
    intro start b h
    unfold probe at h
    split at h
    · simp only [Probe.free.injEq] at h
      subst h
      assumption
    · split at h
      · simp at h
      · exact ih _ _ h

theorem slotFree_false {α : Type} {dead : α → Bool} {tbl : List (Option α)} {b : Nat}
    (h : slotFree dead tbl b = false) : ∃ x, slot tbl b = some x ∧ dead x = false := by
  unfold slotFree at h
  split at h
  · simp at h
  · exact ⟨_, ‹_›, h⟩

theorem slotHit_true {α : Type} {keyOf : α → String} {tbl : List (Option α)} {k : String} {b : Nat}
    (h : slotHit keyOf tbl k b = true) : ∃ x, slot tbl b = some x ∧ keyOf x = k := by
  unfold slotHit at h
  split at h
  · simp at h
  · exact ⟨_, ‹_›, by simpa using h⟩

theorem findSlot_sound {α : Type} {keyOf : α → String} {dead : α → Bool} {t : hash_table α}
    {k : String} {b : Nat} (h : findSlot keyOf dead t k = some b) :
    ∃ x, slot t.table b = some x ∧ dead x = false ∧ keyOf x = k := by
  unfold findSlot at h
  split at h
  · rename_i b' hp
    simp only [Option.some.injEq] at h
    subst h
    obtain ⟨hf, hh⟩ := probe_hit_sound _ _ _ hp
    obtain ⟨x, hx, hd⟩ := slotFree_false hf
    obtain ⟨y, hy, hk⟩ := slotHit_true hh
    rw [hx] at hy
    cases hy
    exact ⟨x, hx, hd, hk⟩
  · simp at h

theorem slot_some_mem {α : Type} {tbl : List (Option α)} {b : Nat} {x : α}
    (h : slot tbl b = some x) : some x ∈ tbl := by
  unfold slot at h
  rw [List.getD_eq_getElem?_getD] at h
  cases hb : tbl[b]? with
  | none => rw [hb] at h; simp at h
  | some y =>
    rw [hb] at h
    simp only [Option.getD_some] at h
    subst h
    exact List.getElem?_mem hb

theorem mem_slot {α : Type} {tbl : List (Option α)} {s : Option α} (h : s ∈ tbl) :
    ∃ b, b < tbl.length ∧ slot tbl b = s := by
  obtain ⟨b, hb, he⟩ := List.getElem_of_mem h
  refine ⟨b, hb, ?_⟩
  unfold slot
  rw [List.getD_eq_getElem?_getD, List.getElem?_eq_getElem hb]
  simpa using he

theorem FindCollocate_sound {hw : headword_node} {c : String} {p : Nat}
    (h : FindCollocate hw c = some p) : collocateStored hw c = true := by
  unfold FindCollocate at h
  split at h
  · rename_i b hb
    obtain ⟨x, hx, hd, hk⟩ := findSlot_sound hb
    rw [hx] at h
    simp only [Option.some.injEq] at h
    subst h
    unfold collocateStored
    rw [List.any_eq_true]
    exact ⟨some x, slot_some_mem hx, by simp [hd, hk]⟩
  · simp at h

theorem FindHeadword_sound {lm : State} {h : String} {b : Nat} (hf : FindHeadword lm h = some b) :
    ∃ t node, lm.main_table = some t ∧ slot t.table b = some node ∧ node.deleted = false ∧
      node.headword = h := by
  unfold FindHeadword at hf
  split at hf
  · rename_i t ht
    obtain ⟨x, hx, hd, hk⟩ := findSlot_sound hf
    exact ⟨t, x, ht, hx, hd, hk⟩
  · simp at hf

theorem splitWords_of_length_zero {k : String} (h : k.length = 0) : splitWords k = [] := by
  have : k.data = [] := by
    have := h
    simp only [String.length] at this
    exact List.length_eq_zero.mp this
  simp [splitWords, this, scanWords]

end LM

namespace LM

/-! ## Slots, live counts and weights -/

theorem slot_set {α : Type} (tbl : List (Option α)) (b j : Nat) (s : Option α) :
    slot (tbl.set b s) j = if j = b ∧ b < tbl.length then s else slot tbl j := by
  unfold slot
  rw [List.getD_eq_getElem?_getD, List.getD_eq_getElem?_getD, List.getElem?_set]
  by_cases h : b = j
  · subst h
    by_cases hb : b < tbl.length
    · simp [hb]
    · simp [hb, List.getElem?_eq_none (Nat.le_of_not_lt hb)]
  · have : ¬ (j = b ∧ b < tbl.length) := fun hh => h hh.1.symm
    simp [h, this]

theorem slot_set_self {α : Type} (tbl : List (Option α)) (b : Nat) (s : Option α)
    (hb : b < tbl.length) : slot (tbl.set b s) b = s := by
  rw [slot_set]; simp [hb]

theorem slot_set_ne {α : Type} (tbl : List (Option α)) (b j : Nat) (s : Option α) (h : j ≠ b) :
    slot (tbl.set b s) j = slot tbl j := by
  rw [slot_set]; simp [h]

theorem slot_eq_getElem {α : Type} (tbl : List (Option α)) (b : Nat) (hb : b < tbl.length) :
    slot tbl b = tbl[b] := by
  unfold slot
  rw [List.getD_eq_getElem?_getD, List.getElem?_eq_getElem hb]
  rfl

theorem slot_of_ge {α : Type} (tbl : List (Option α)) (b : Nat) (hb : tbl.length ≤ b) :
    slot tbl b = none := by
  unfold slot
  rw [List.getD_eq_getElem?_getD, List.getElem?_eq_none hb]
  rfl

theorem slot_some_lt {α : Type} {tbl : List (Option α)} {b : Nat} {x : α}
    (h : slot tbl b = some x) : b < tbl.length := by
  by_contra hb
  rw [slot_of_ge tbl b (Nat.le_of_not_lt hb)] at h
  cases h

theorem slot_replicate {α : Type} (c b : Nat) : slot (List.replicate c (none : Option α)) b = none := by
  by_cases hb : b < c
  · rw [slot_eq_getElem _ _ (by simpa using hb)]
    simp
  · exact slot_of_ge _ _ (by simpa using hb)

theorem slotFree_eq {α : Type} (dead : α → Bool) (tbl : List (Option α)) (b : Nat) :
    slotFree dead tbl b = !liveSlot dead (slot tbl b) := by
  unfold slotFree liveSlot
  cases slot tbl b <;> simp

theorem exists_free {α : Type} (dead : α → Bool) (tbl : List (Option α))
    (h : liveCount dead tbl < tbl.length) : ∃ b, b < tbl.length ∧ slotFree dead tbl b = true := by
  unfold liveCount at h
  have hne : ¬ ∀ a ∈ tbl, liveSlot dead a = true := by
    intro hall
    have := (List.countP_eq_length (p := liveSlot dead) (l := tbl)).mpr hall
    omega
  push_neg at hne
  obtain ⟨a, ha, hp⟩ := hne
  obtain ⟨b, hb, hs⟩ := mem_slot ha
  refine ⟨b, hb, ?_⟩
  rw [slotFree_eq, hs]
  simpa using hp

theorem liveCount_le {α : Type} (dead : α → Bool) (tbl : List (Option α)) :
    liveCount dead tbl ≤ tbl.length := List.countP_le_length _

theorem slotSum_set {α : Type} (g : Option α → Nat) :
    ∀ (tbl : List (Option α)) (b : Nat) (s : Option α), b < tbl.length →
      slotSum g (tbl.set b s) + g (slot tbl b) = slotSum g tbl + g s := by
  intro tbl
  induction tbl with
  | nil => intro b s hb; simp at hb
  | cons a l ih =>
    intro b s hb
    cases b with
    | zero => simp [slotSum, slot]; omega
    | succ b =>
      have := ih b s (by simpa using hb)
      simp only [slotSum, slot, List.set_cons_succ, List.map_cons, List.sum_cons,
        List.getD_cons_succ] at this ⊢
      omega

/-- The number of live slots is the sum of the weight 1 on live slots. -/
theorem liveCount_eq_slotSum {α : Type} (dead : α → Bool) (tbl : List (Option α)) :
    liveCount dead tbl = slotSum (fun s => if liveSlot dead s then 1 else 0) tbl := by
  unfold liveCount slotSum
  induction tbl with
  | nil => rfl
  | cons a l ih =>
    rw [List.countP_cons, List.map_cons, List.sum_cons, ih]
    by_cases h : liveSlot dead a = true <;> simp [h] <;> omega

theorem liveWeight_indicator {α : Type} (dead : α → Bool) :
    LiveWeight dead (fun s => if liveSlot dead s then 1 else 0) := by
  constructor
  · simp [liveSlot]
  · intro x hx
    simp [liveSlot, hx]

theorem liveWeight_free {α : Type} {dead : α → Bool} {g : Option α → Nat} (hg : LiveWeight dead g)
    {tbl : List (Option α)} {b : Nat} (hf : slotFree dead tbl b = true) : g (slot tbl b) = 0 := by
  unfold slotFree at hf
  split at hf
  · rename_i h; rw [h]; exact hg.1
  · rename_i x h; rw [h]; exact hg.2 x hf

theorem slotSum_take_succ {α : Type} (g : Option α → Nat) (tbl : List (Option α)) (i : Nat)
    (hi : i < tbl.length) :
    slotSum g (tbl.take (i + 1)) = slotSum g (tbl.take i) + g (slot tbl i) := by
  unfold slotSum
  rw [List.take_succ, List.map_append, List.sum_append, List.getElem?_eq_getElem hi,
    slot_eq_getElem tbl i hi]
  simp

theorem liveCount_take_le {α : Type} (dead : α → Bool) (tbl : List (Option α)) (i : Nat) :
    liveCount dead (tbl.take i) ≤ liveCount dead tbl :=
  (List.take_sublist i tbl).countP_le _

/-! ## The size ladder -/

theorem ladder_bounds : ∀ c ∈ LADDER, 7 ≤ c ∧ c < UMOD := by decide

theorem FNV1a_lt (key : String) {cap : Nat} (h : 0 < cap) : FNV1a key cap < cap :=
  Nat.mod_lt _ h

theorem TableOK.pos {α : Type} {dead : α → Bool} {t : hash_table α} (h : TableOK dead t) :
    0 < t.capacity := by
  have := (ladder_bounds _ h.ladder).1
  omega

theorem uadd_one_of_lt {a : Nat} (h : a + 1 < UMOD) : uadd a 1 = a + 1 := by
  unfold uadd
  exact Nat.mod_eq_of_lt h

end LM

namespace LM

/-! ## Float loads -/

theorem toFloat_bounds (x : Nat) (hx : x < UMOD) :
    x * 16777215 ≤ toFloat x * 16777216 ∧ toFloat x * 16777216 ≤ x * 16777217 := by
  unfold UMOD at hx
  unfold toFloat floatShift
  split_ifs <;> norm_num <;> split_ifs <;> omega

/-- A load below `0.125` leaves the table less than a quarter full. -/
theorem ltEighth_bound {α : Type} (t : hash_table α) (ho : t.occupied < UMOD)
    (hc : t.capacity < UMOD) (h : (tableLoad t).ltEighth = true) : 4 * t.occupied < t.capacity := by
  have h1 := toFloat_bounds t.occupied ho
  have h2 := toFloat_bounds t.capacity hc
  simp only [Load.ltEighth, tableLoad, decide_eq_true_eq] at h
  omega

/-- A table that is full has a load above `0.5`. -/
theorem gtHalf_full {α : Type} (t : hash_table α) (hc : 0 < t.capacity) (hu : t.capacity < UMOD)
    (h : t.occupied = t.capacity) : (tableLoad t).gtHalf = true := by
  have h2 := toFloat_bounds t.capacity hu
  simp only [Load.gtHalf, tableLoad, decide_eq_true_eq, h]
  omega

theorem gtHalf_not_lt (l : Load) (h : l.gtHalf = true) : l.ltEighth = false ∧ l.ltHalf = false := by
  simp only [Load.gtHalf, Load.ltEighth, Load.ltHalf, decide_eq_true_eq, decide_eq_false_iff_not] at *
  omega

/-! ## The size ladder and `PrimeSize` -/

theorem ladder_grow : ∀ c ∈ LADDER, ∀ c' ∈ PrimeSize c, c < c' := by decide

theorem ladder_shrink :
    ∀ c ∈ LADDER, 7 < c → ∀ c' ∈ PrimeSize (2 ^ (PowerOfTwoExponent c - 2)), c ≤ 4 * c' ∧ c' < c := by
  decide

theorem shiftLoop_ge : ∀ (fuel x e : Nat), e ≤ shiftLoop fuel x e := by
  intro fuel
  induction fuel with
  | zero => intro x e; simp [shiftLoop]
  | succ fuel ih =>
    intro x e
    unfold shiftLoop
    split
    · exact Nat.le_refl _
    · exact Nat.le_trans (Nat.le_succ e) (ih _ _)

theorem PowerOfTwoExponent_ge_three {x : Nat} (hx : 7 ≤ x) : 3 ≤ PowerOfTwoExponent x := by
  unfold PowerOfTwoExponent
  have h2 : ¬ x < 2 := by omega
  simp only [h2, ↓reduceIte]
  have a1 : ¬ (x - 1) / 2 = 0 := by omega
  have a2 : ¬ (x - 1) / 2 / 2 = 0 := by omega
  have : shiftLoop 32 (x - 1) 0 = shiftLoop 30 ((x - 1) / 2 / 2) 2 := by
    simp [shiftLoop, a1, a2]
  rw [this]
  have := shiftLoop_ge 30 ((x - 1) / 2 / 2) 2
  omega

theorem PrimeSize_mem_ladder {x c : Nat} (h : PrimeSize x = some c) : c ∈ LADDER := by
  unfold PrimeSize at h
  split at h
  · simp only [Option.some.injEq] at h
    subst h
    simp [LADDER]
  · rename_i hx
    have h3 := PowerOfTwoExponent_ge_three (x := x) (by unfold MIN_SIZE at hx; omega)
    unfold LADDER
    apply List.mem_cons_of_mem
    obtain ⟨k, hk⟩ : ∃ k, PowerOfTwoExponent x = 3 + k := ⟨PowerOfTwoExponent x - 3, by omega⟩
    rw [hk] at h
    have : (PRIMES.drop 3)[k]? = some c := by rw [List.getElem?_drop]; exact h
    exact List.getElem?_mem this

theorem InitTable_spec {α : Type} {x : Nat} {t : hash_table α} (h : InitTable x = some t) :
    PrimeSize x = some t.capacity ∧ t.occupied = 0 ∧ t.table = List.replicate t.capacity none := by
  unfold InitTable at h
  cases hp : PrimeSize x with
  | none => rw [hp] at h; simp at h
  | some c =>
    rw [hp] at h
    simp only [Option.map_some', Option.some.injEq] at h
    subst h
    exact ⟨rfl, rfl, rfl⟩

theorem liveCount_replicate {α : Type} (dead : α → Bool) (c : Nat) :
    liveCount dead (List.replicate c (none : Option α)) = 0 := by
  unfold liveCount
  rw [List.countP_eq_zero]
  intro a ha
  rw [List.eq_of_mem_replicate ha]
  simp [liveSlot]

theorem InitTable_ok {α : Type} (dead : α → Bool) {x : Nat} {t : hash_table α}
    (h : InitTable x = some t) : TableOK dead t ∧ ∀ b, slot t.table b = none := by
  obtain ⟨hp, ho, ht⟩ := InitTable_spec h
  refine ⟨⟨?_, PrimeSize_mem_ladder hp, ?_⟩, ?_⟩
  · rw [ht]; simp
  · rw [ho, ht, liveCount_replicate]
  · intro b; rw [ht]; exact slot_replicate _ _


end LM

namespace LM

/-! ## Insertion of an existing node -/

/-- In a well-formed table with a slot that is not live, `insertNode` puts the node in the first
free bucket of its probe sequence. -/
theorem insertNode_room {α : Type} (keyOf : α → String) (dead : α → Bool) {t : hash_table α}
    (hok : TableOK dead t) (hroom : liveCount dead t.table < t.capacity) (x : α) :
    ∃ j, j < t.capacity ∧
      Passed (slotFree dead t.table) (fun _ => false) t.capacity (FNV1a (keyOf x) t.capacity) j ∧
      slotFree dead t.table ((FNV1a (keyOf x) t.capacity + j) % t.capacity) = true ∧
      insertNode keyOf dead t x =
        ((((FNV1a (keyOf x) t.capacity + j) % t.capacity : Nat) : Int),
          { t with table := t.table.set ((FNV1a (keyOf x) t.capacity + j) % t.capacity) (some x),
                   occupied := if dead x then t.occupied else t.occupied + 1 }) := by
  have hpos := hok.pos
  have hs := FNV1a_lt (keyOf x) hpos
  obtain ⟨b0, hb0, hf0⟩ := exists_free dead t.table (by rw [hok.len]; exact hroom)
  rw [hok.len] at hb0
  obtain ⟨j0, hj0, hr0⟩ := reach t.capacity _ b0 hs hb0
  rcases probe_cases (slotFree dead t.table) (fun _ => false) t.capacity t.capacity _ hs with
    ⟨j, hj, hp, hf, he⟩ | ⟨j, _, _, _, hh, _⟩ | ⟨hp, _⟩
  · refine ⟨j, hj, hp, hf, ?_⟩
    unfold insertNode
    rw [he]
    have hocc : t.occupied + 1 < UMOD := by
      have := (ladder_bounds _ hok.ladder).2
      have := hok.occ
      omega
    by_cases hd : dead x = true
    · simp [hd]
    · simp [hd, uadd_one_of_lt hocc]
  · simp at hh
  · have := (hp j0 hj0).1
    rw [hr0, hf0] at this
    cases this

theorem slotSum_set_free {α : Type} {dead : α → Bool} {g : Option α → Nat} (hg : LiveWeight dead g)
    {tbl : List (Option α)} {b : Nat} (hb : b < tbl.length) (hf : slotFree dead tbl b = true)
    (s : Option α) : slotSum g (tbl.set b s) = slotSum g tbl + g s := by
  have := slotSum_set g tbl b s hb
  rw [liveWeight_free hg hf] at this
  omega

theorem liveCount_set_free {α : Type} {dead : α → Bool} {tbl : List (Option α)} {b : Nat}
    (hb : b < tbl.length) (hf : slotFree dead tbl b = true) (x : α) :
    liveCount dead (tbl.set b (some x)) = liveCount dead tbl + if dead x then 0 else 1 := by
  rw [liveCount_eq_slotSum, liveCount_eq_slotSum,
    slotSum_set_free (liveWeight_indicator dead) hb hf]
  congr 1
  by_cases hd : dead x = true <;> simp [liveSlot, hd]

theorem TableOK.set_free {α : Type} {dead : α → Bool} {t : hash_table α} (hok : TableOK dead t)
    {b : Nat} (hb : b < t.capacity) (hf : slotFree dead t.table b = true) (x : α) :
    TableOK dead { t with table := t.table.set b (some x),
                          occupied := if dead x then t.occupied else t.occupied + 1 } := by
  refine ⟨by simpa using hok.len, hok.ladder, ?_⟩
  simp only
  rw [liveCount_set_free (by rw [hok.len]; exact hb) hf, hok.occ]
  cases dead x <;> simp


/-! ## Transfer of all nodes into a new table -/

/-- One round of the transfer loop. -/
theorem transfer_induction {α : Type} (keyOf : α → String) (dead : α → Bool)
    (old nt0 : hash_table α) (P : Nat → hash_table α → Prop) (h0 : P 0 nt0)
    (hstep : ∀ i nt, i < old.capacity → P i nt →
      P (i + 1) (match slot old.table i with
        | some node => (insertNode keyOf dead nt node).2
        | none => nt)) :
    P old.capacity (transfer keyOf dead old nt0) := by
  unfold transfer
  have : ∀ n, n ≤ old.capacity →
      P n ((List.range n).foldl
        (fun nt i => match slot old.table i with
          | some node => (insertNode keyOf dead nt node).2
          | none => nt) nt0) := by
    intro n
    induction n with
    | zero => intro _; simpa using h0
    | succ n ih =>
      intro hn
      rw [List.range_succ, List.foldl_append]
      exact hstep n _ (by omega) (ih (by omega))
  exact this _ (Nat.le_refl _)

theorem TransferInv_step {α : Type} (keyOf : α → String) (dead : α → Bool) (old : hash_table α)
    (c : Nat) (hold : old.table.length = old.capacity) (hroom : liveCount dead old.table < c)
    (i : Nat) (nt : hash_table α) (hi : i < old.capacity) (hinv : TransferInv dead old c i nt) :
    TransferInv dead old c (i + 1) (match slot old.table i with
      | some node => (insertNode keyOf dead nt node).2
      | none => nt) := by
  have hilen : i < old.table.length := by rw [hold]; exact hi
  cases hs : slot old.table i with
  | none =>
    simp only
    refine ⟨hinv.ok, hinv.cap, ?_, ?_, hinv.inj, ?_⟩
    · intro g hg
      rw [slotSum_take_succ g _ _ hilen, hs, hg.1, hinv.sums g hg]
      rfl
    · intro b x hx
      obtain ⟨b', hb', h⟩ := hinv.from_old b x hx
      exact ⟨b', by omega, h⟩
    · intro b' x hb' hx hd
      by_cases hbi : b' = i
      · subst hbi
        rw [hs] at hx
        cases hx
      · exact hinv.kept b' x (by omega) hx hd
  | some x =>
    simp only
    have hroom' : liveCount dead nt.table < nt.capacity := by
      rw [liveCount_eq_slotSum, hinv.sums _ (liveWeight_indicator dead), ← liveCount_eq_slotSum,
        hinv.cap]
      exact Nat.lt_of_le_of_lt (liveCount_take_le dead _ _) hroom
    obtain ⟨j, hj, _, hf, he⟩ := insertNode_room keyOf dead hinv.ok hroom' x
    rw [he]
    simp only
    generalize hb : (FNV1a (keyOf x) nt.capacity + j) % nt.capacity = b at hf
    have hblt : b < nt.capacity := by
      rw [← hb]
      exact Nat.mod_lt _ hinv.ok.pos
    have hblen : b < nt.table.length := by rw [hinv.ok.len]; exact hblt
    refine ⟨hinv.ok.set_free hblt hf x, hinv.cap, ?_, ?_, ?_, ?_⟩
    · intro g hg
      simp only
      rw [slotSum_set_free hg hblen hf, hinv.sums g hg, slotSum_take_succ g _ _ hilen, hs]
    · intro b1 y hy
      simp only [slot_set] at hy
      split at hy
      · simp only [Option.some.injEq] at hy
        subst hy
        exact ⟨i, by omega, hs⟩
      · obtain ⟨b', hb', h⟩ := hinv.from_old b1 y hy
        exact ⟨b', by omega, h⟩
    · intro hoi b1 b2 y h1 h2
      simp only [slot_set] at h1 h2
      have hnew' : ∀ b3, slot nt.table b3 = some x → False := by
        intro b3 h3
        obtain ⟨b', hb', h⟩ := hinv.from_old b3 x h3
        have := hoi b' i x h hs
        omega
      split at h1
      · rename_i c1
        split at h2
        · rename_i c2
          omega
        · simp only [Option.some.injEq] at h1
          subst h1
          exact (hnew' b2 h2).elim
      · split at h2
        · simp only [Option.some.injEq] at h2
          subst h2
          exact (hnew' b1 h1).elim
        · exact hinv.inj hoi b1 b2 y h1 h2
    · intro b' y hb' hy hd
      by_cases hbi : b' = i
      · subst hbi
        rw [hs] at hy
        simp only [Option.some.injEq] at hy
        subst hy
        exact ⟨b, by simp only; rw [slot_set_self _ _ _ hblen]⟩
      · obtain ⟨b0, h0⟩ := hinv.kept b' y (by omega) hy hd
        have hne : b0 ≠ b := by
          intro heq
          subst heq
          have := hf
          unfold slotFree at this
          rw [h0] at this
          simp only at this
          rw [hd] at this
          cases this
        exact ⟨b0, by simp only; rw [slot_set_ne _ _ _ _ hne]; exact h0⟩

theorem transfer_spec {α : Type} (keyOf : α → String) (dead : α → Bool) (old nt0 : hash_table α)
    (hold : old.table.length = old.capacity) (hnew : TableOK dead nt0)
    (hempty : ∀ b, slot nt0.table b = none) (hroom : liveCount dead old.table < nt0.capacity) :
    TransferInv dead old nt0.capacity old.capacity (transfer keyOf dead old nt0) := by
  apply transfer_induction keyOf dead old nt0 (TransferInv dead old nt0.capacity)
  · refine ⟨hnew, rfl, ?_, ?_, ?_, ?_⟩
    · intro g hg
      have : slotSum g nt0.table = 0 := by
        unfold slotSum
        apply List.sum_eq_zero
        intro n hn
        obtain ⟨s, hs, rfl⟩ := List.mem_map.mp hn
        obtain ⟨b, _, hb⟩ := mem_slot hs
        rw [← hb, hempty b]
        exact hg.1
      rw [this]
      simp [slotSum]
    · intro b x hx
      rw [hempty b] at hx
      cases hx
    · intro _ b b' x hx
      rw [hempty b] at hx
      cases hx
    · intro b' x hb'
      omega
  · intro i nt hi hinv
    exact TransferInv_step keyOf dead old nt0.capacity hold hroom i nt hi hinv

end LM

namespace LM

/-! ## `PrimeSize` exceeds its argument -/

theorem shiftLoop_spec : ∀ (fuel x e : Nat), x < 2 ^ (fuel + 1) →
    x < 2 ^ (shiftLoop fuel x e - e + 1) := by
  intro fuel
  induction fuel with
  | zero => intro x e hx; simpa [shiftLoop] using hx
  | succ fuel ih =>
    intro x e hx
    unfold shiftLoop
    split
    · rename_i h
      simp only [Nat.sub_self, Nat.zero_add, Nat.pow_one]
      omega
    · have hx2 : x / 2 < 2 ^ (fuel + 1) := by
        rw [Nat.div_lt_iff_lt_mul (by norm_num)]
        rw [Nat.pow_succ] at hx
        exact hx
      have := ih (x / 2) (e + 1) hx2
      have hge := shiftLoop_ge fuel (x / 2) (e + 1)
      have he : shiftLoop fuel (x / 2) (e + 1) - e + 1 = (shiftLoop fuel (x / 2) (e + 1) - (e + 1) + 1) + 1 := by
        omega
      rw [he, Nat.pow_succ]
      omega

theorem le_pow_PowerOfTwoExponent {x : Nat} (hx : x ≤ 4294967296) :
    x ≤ 2 ^ PowerOfTwoExponent x := by
  unfold PowerOfTwoExponent
  split
  · simp; omega
  · have := shiftLoop_spec 32 (x - 1) 0 (by norm_num; omega)
    simp only [Nat.sub_zero] at this
    omega

theorem primes_gt_pow : ∀ e, e < 32 → ∀ c ∈ PRIMES[e]?, 2 ^ e < c := by decide

theorem PrimeSize_gt {x c : Nat} (hx : x ≤ 4294967296) (h : PrimeSize x = some c) : x < c := by
  unfold PrimeSize at h
  split at h
  · rename_i hx
    simp only [Option.some.injEq] at h
    omega
  · have hlt : PowerOfTwoExponent x < 32 := by
      by_contra hh
      rw [List.getElem?_eq_none (by simp [PRIMES]; omega)] at h
      cases h
    have h1 := primes_gt_pow _ hlt c (by simpa using h)
    have := le_pow_PowerOfTwoExponent hx
    omega

/-! ## Resizing keeps the live content -/

theorem Rehashed.refl {α : Type} {dead : α → Bool} {t : hash_table α} (hok : TableOK dead t) :
    Rehashed dead t t :=
  ⟨hok, fun _ _ => rfl, fun b _ h => ⟨b, h⟩, fun h => h, fun b _ h _ => ⟨b, h⟩⟩

theorem Rehashed.occupied {α : Type} {dead : α → Bool} {t t' : hash_table α}
    (hok : TableOK dead t) (h : Rehashed dead t t') : t'.occupied = t.occupied := by
  rw [h.ok.occ, hok.occ, liveCount_eq_slotSum, liveCount_eq_slotSum,
    h.sums _ (liveWeight_indicator dead)]

theorem Rehashed.of_transfer {α : Type} (keyOf : α → String) (dead : α → Bool)
    {old nt0 : hash_table α} (hold : TableOK dead old) (hnew : TableOK dead nt0)
    (hempty : ∀ b, slot nt0.table b = none) (hroom : old.occupied < nt0.capacity) :
    Rehashed dead old (transfer keyOf dead old nt0) := by
  have h := transfer_spec keyOf dead old nt0 hold.len hnew hempty (by rw [← hold.occ]; exact hroom)
  have htake : old.table.take old.capacity = old.table := by
    rw [← hold.len]; exact List.take_length _
  refine ⟨h.ok, ?_, ?_, h.inj, ?_⟩
  · intro g hg
    rw [h.sums g hg, htake]
  · intro b x hx
    obtain ⟨b', _, hb'⟩ := h.from_old b x hx
    exact ⟨b', hb'⟩
  · intro b' x hx hd
    exact h.kept b' x (by rw [← hold.len]; exact slot_some_lt hx) hx hd

theorem resize_spec {α : Type} (keyOf : α → String) (dead : α → Bool) {t t' : hash_table α}
    (hok : TableOK dead t) (h : resize keyOf dead t = some t') : Rehashed dead t t' := by
  have hcap := ladder_bounds _ hok.ladder
  have hocc : t.occupied ≤ t.capacity := by
    rw [hok.occ, ← hok.len]; exact liveCount_le _ _
  unfold resize at h
  cases hr : resizeRequest (tableLoad t) t.capacity with
  | none =>
    rw [hr] at h
    simp only [Option.some.injEq] at h
    subst h
    exact Rehashed.refl hok
  | some c =>
    rw [hr] at h
    simp only at h
    cases hi : (InitTable c : Option (hash_table α)) with
    | none => rw [hi] at h; simp at h
    | some nt0 =>
      rw [hi] at h
      simp only [Option.map_some', Option.some.injEq] at h
      subst h
      obtain ⟨hnew, hempty⟩ := InitTable_ok dead hi
      obtain ⟨hp, _, _⟩ := InitTable_spec hi
      apply Rehashed.of_transfer keyOf dead hok hnew hempty
      unfold resizeRequest at hr
      split at hr
      · rename_i hcond
        simp only [Bool.and_eq_true, decide_eq_true_eq] at hcond
        simp only [Option.some.injEq] at hr
        subst hr
        have h4 := ltEighth_bound t (by omega) hcap.2 hcond.1
        have := ladder_shrink _ hok.ladder (by have := hcond.2; unfold MIN_SIZE at this; omega)
          nt0.capacity (by simpa using hp)
        omega
      · split at hr
        · cases hr
        · simp only [Option.some.injEq] at hr
          subst hr
          have := ladder_grow _ hok.ladder nt0.capacity (by simpa using hp)
          omega

end LM

namespace LM

/-! ## The exponent of `PowerOfTwoExponent` is the least one -/

theorem shiftLoop_le : ∀ (fuel x e : Nat), 1 ≤ x → 2 ^ (shiftLoop fuel x e - e) ≤ x := by
  intro fuel
  induction fuel with
  | zero =>
    intro x e hx
    simp only [shiftLoop, Nat.sub_self, pow_zero]
    exact hx
  | succ fuel ih =>
    intro x e hx
    unfold shiftLoop
    split_ifs with h
    · simp only [Nat.sub_self, pow_zero]
      exact hx
    · have h1 : 1 ≤ x / 2 := Nat.one_le_iff_ne_zero.mpr h
      have h2 := ih (x / 2) (e + 1) h1
      have h3 := shiftLoop_ge fuel (x / 2) (e + 1)
      have h4 : shiftLoop fuel (x / 2) (e + 1) - e = (shiftLoop fuel (x / 2) (e + 1) - (e + 1)) + 1 := by
        omega
      rw [h4, pow_succ]
      have h5 : x / 2 * 2 ≤ x := Nat.div_mul_le_self x 2
      calc 2 ^ (shiftLoop fuel (x / 2) (e + 1) - (e + 1)) * 2 ≤ x / 2 * 2 :=
            Nat.mul_le_mul_right 2 h2
        _ ≤ x := h5

theorem pow_PowerOfTwoExponent_lt {x : Nat} (hx : 2 ≤ x) : 2 ^ (PowerOfTwoExponent x - 1) < x := by
  unfold PowerOfTwoExponent
  rw [if_neg (by omega)]
  have h := shiftLoop_le 32 (x - 1) 0 (by omega)
  simp only [Nat.sub_zero, Nat.add_sub_cancel] at h ⊢
  omega

theorem PowerOfTwoExponent_least {x e : Nat} (hx : 2 ≤ x) (he : x ≤ 2 ^ e) :
    PowerOfTwoExponent x ≤ e := by
  have h := pow_PowerOfTwoExponent_lt hx
  have h2 : 2 ^ (PowerOfTwoExponent x - 1) < 2 ^ e := lt_of_lt_of_le h he
  have h3 := (Nat.pow_lt_pow_iff_right (by norm_num : 1 < 2)).mp h2
  omega

theorem PrimeSize_isSome {x : Nat} (hx : x ≤ 2147483648) : ∃ c, PrimeSize x = some c := by
  unfold PrimeSize
  split_ifs with h
  · exact ⟨_, rfl⟩
  · have h1 : PowerOfTwoExponent x ≤ 31 :=
      PowerOfTwoExponent_least (by unfold MIN_SIZE at h; omega) (by norm_num; exact hx)
    have h2 : PowerOfTwoExponent x < PRIMES.length := by
      have : PRIMES.length = 32 := by decide
      omega
    exact ⟨PRIMES[PowerOfTwoExponent x], List.getElem?_eq_getElem h2⟩

theorem resize_isSome {α : Type} (keyOf : α → String) (dead : α → Bool) (t : hash_table α)
    (hc : t.capacity ≤ 2147483648) : ∃ t', resize keyOf dead t = some t' := by
  unfold resize
  cases hr : resizeRequest (tableLoad t) t.capacity with
  | none => exact ⟨t, rfl⟩
  | some c =>
    have hle : c ≤ 2147483648 := by
      unfold resizeRequest at hr
      split_ifs at hr with h1 h2
      · simp only [Bool.and_eq_true, decide_eq_true_eq] at h1
        have h3 : PowerOfTwoExponent t.capacity ≤ 31 :=
          PowerOfTwoExponent_least (by have := h1.2; unfold MIN_SIZE at this; omega)
            (by norm_num; exact hc)
        cases hr
        calc 2 ^ (PowerOfTwoExponent t.capacity - 2) ≤ 2 ^ 31 :=
              Nat.pow_le_pow_right (by norm_num) (by omega)
          _ = 2147483648 := by norm_num
      · cases hr
        exact hc
    obtain ⟨p, hp⟩ := PrimeSize_isSome hle
    simp only [InitTable, hp, Option.map_some']
    exact ⟨_, rfl⟩

end LM

namespace LM

/-! ## The entries of `PRIMES` are the primes that follow the powers of two -/

theorem noDiv_true : ∀ (d lo s n : Nat), noDiv d lo s n = true →
    ∀ i, i < 2 ^ d → ¬ (lo + s * i) ∣ n := by
  intro d
  induction d with
  | zero =>
    intro lo s n h i hi hdvd
    have hi0 : i = 0 := by
      simpa using hi
    subst hi0
    simp only [noDiv, bne_iff_ne, ne_eq] at h
    exact h (Nat.mod_eq_zero_of_dvd (by simpa using hdvd))
  | succ d ih =>
    intro lo s n h i hi
    simp only [noDiv, Bool.and_eq_true] at h
    by_cases hlt : i < 2 ^ d
    · exact ih lo s n h.1 i hlt
    · have h2 := ih (lo + s * 2 ^ d) s n h.2 (i - 2 ^ d) (by rw [pow_succ] at hi; omega)
      have e : lo + s * 2 ^ d + s * (i - 2 ^ d) = lo + s * i := by
        have : i = 2 ^ d + (i - 2 ^ d) := by omega
        conv_rhs => rw [this, Nat.mul_add]
        omega
      rw [e] at h2
      exact h2

theorem noDiv_false : ∀ (d lo s n : Nat), noDiv d lo s n = false →
    ∃ i, i < 2 ^ d ∧ (lo + s * i) ∣ n := by
  intro d
  induction d with
  | zero =>
    intro lo s n h
    refine ⟨0, by simp, ?_⟩
    simp only [noDiv, bne_eq_false_iff_eq] at h
    simpa using Nat.dvd_of_mod_eq_zero h
  | succ d ih =>
    intro lo s n h
    simp only [noDiv, Bool.and_eq_false_iff] at h
    rcases h with h | h
    · obtain ⟨i, hi, hd⟩ := ih lo s n h
      exact ⟨i, by rw [pow_succ]; omega, hd⟩
    · obtain ⟨i, hi, hd⟩ := ih _ s n h
      refine ⟨2 ^ d + i, by rw [pow_succ]; omega, ?_⟩
      rw [Nat.mul_add, ← Nat.add_assoc]
      exact hd

theorem oddPrimeTest_prime {d p : Nat} (h : oddPrimeTest d p = true)
    (hb : p < (3 + 2 ^ (d + 1)) ^ 2) (h2 : 2 ≤ p) : p.Prime := by
  simp only [oddPrimeTest, Bool.and_eq_true, beq_iff_eq] at h
  obtain ⟨hodd, hnd⟩ := h
  rw [Nat.prime_def_le_sqrt]
  refine ⟨h2, ?_⟩
  intro m hm2 hms hdvd
  have hmm : m * m ≤ p := le_trans (Nat.mul_le_mul hms hms) (Nat.sqrt_le p)
  have hmlt : m < 3 + 2 ^ (d + 1) := by
    by_contra hge
    have hge' : 3 + 2 ^ (d + 1) ≤ m := Nat.le_of_not_lt hge
    have := Nat.mul_le_mul hge' hge'
    rw [pow_two] at hb
    omega
  rcases Nat.even_or_odd m with he | ho
  · have : 2 ∣ p := dvd_trans he.two_dvd hdvd
    omega
  · obtain ⟨j, hj⟩ := ho
    have hj1 : 1 ≤ j := by omega
    have hlt : j - 1 < 2 ^ d := by
      rw [pow_succ] at hmlt
      omega
    apply noDiv_true d 3 2 p hnd (j - 1) hlt
    have : 3 + 2 * (j - 1) = m := by omega
    rw [this]
    exact hdvd

theorem oddPrimeTest_composite {d q : Nat} (h : oddPrimeTest d q = false)
    (hb : 3 + 2 ^ (d + 1) < q) : ¬ q.Prime := by
  intro hp
  simp only [oddPrimeTest, Bool.and_eq_false_iff, beq_eq_false_iff_ne, ne_eq] at h
  have hpos : 1 ≤ 2 ^ (d + 1) := Nat.one_le_two_pow
  have hq3 : 3 < q := by omega
  rcases h with h | h
  · have h2 : 2 ∣ q := by omega
    rcases (Nat.dvd_prime hp).mp h2 with h1 | h1 <;> omega
  · obtain ⟨i, hi, hd⟩ := noDiv_false d 3 2 q h
    rw [pow_succ] at hb
    rcases (Nat.dvd_prime hp).mp hd with h1 | h1 <;> omega

theorem primeEntryCheck_spec {e : Nat} (h : primeEntryCheck e = true) :
    (PRIMES.getD e 0).Prime ∧ 2 ^ e < PRIMES.getD e 0 ∧
      ∀ q, 2 ^ e < q → q < PRIMES.getD e 0 → ¬ q.Prime := by
  simp only [primeEntryCheck, Bool.and_eq_true, decide_eq_true_eq, List.all_eq_true,
    List.mem_range, Bool.not_eq_true'] at h
  obtain ⟨⟨⟨⟨h1, h2⟩, h3⟩, h4⟩, h5⟩ := h
  have hpos : 1 ≤ 2 ^ e := Nat.one_le_two_pow
  refine ⟨oddPrimeTest_prime h4 h2 (by omega), h1, ?_⟩
  intro q hq1 hq2
  have := h5 (q - 2 ^ e - 1) (by omega)
  have e1 : 2 ^ e + 1 + (q - 2 ^ e - 1) = q := by omega
  rw [e1] at this
  exact oddPrimeTest_composite this (by omega)

theorem primes_check : (List.range 29).all (fun i => primeEntryCheck (i + 3)) = true := by
  decide!

theorem primes_entry {e : Nat} (h3 : 3 ≤ e) (h31 : e ≤ 31) : primeEntryCheck e = true := by
  have := primes_check
  rw [List.all_eq_true] at this
  have h := this (e - 3) (List.mem_range.mpr (by omega))
  have e1 : e - 3 + 3 = e := by omega
  rw [e1] at h
  exact h

end LM

namespace LM

/-! ## The node store -/

theorem deref_eq_getElem (heap : List collocate_node) (p : Nat) (hp : p < heap.length) :
    deref heap p = heap[p] := by
  unfold deref
  rw [List.getD_eq_getElem?_getD, List.getElem?_eq_getElem hp]
  rfl

theorem deref_set (heap : List collocate_node) (p q : Nat) (n : collocate_node) :
    deref (heap.set p n) q = if q = p ∧ p < heap.length then n else deref heap q := by
  unfold deref
  rw [List.getD_eq_getElem?_getD, List.getD_eq_getElem?_getD, List.getElem?_set]
  by_cases h : p = q
  · subst h
    by_cases hb : p < heap.length
    · simp [hb]
    · simp [hb, List.getElem?_eq_none (Nat.le_of_not_lt hb)]
  · have : ¬ (q = p ∧ p < heap.length) := fun hh => h hh.1.symm
    simp [h, this]

theorem deref_append_lt (heap l : List collocate_node) (q : Nat) (hq : q < heap.length) :
    deref (heap ++ l) q = deref heap q := by
  unfold deref
  rw [List.getD_eq_getElem?_getD, List.getD_eq_getElem?_getD, List.getElem?_append_left hq]

theorem deref_append_length (heap : List collocate_node) (n : collocate_node) :
    deref (heap ++ [n]) heap.length = n := by
  unfold deref
  rw [List.getD_eq_getElem?_getD]
  simp

theorem cdead_bump (heap : List collocate_node) (p q : Nat) :
    cdead (bumpCount heap p) q = cdead heap q := by
  unfold cdead bumpCount
  rw [deref_set]
  split
  · rename_i h; rw [h.1]
  · rfl

theorem ckey_bump (heap : List collocate_node) (p q : Nat) :
    ckey (bumpCount heap p) q = ckey heap q := by
  unfold ckey bumpCount
  rw [deref_set]
  split
  · rename_i h; rw [h.1]
  · rfl

theorem cdead_mark (heap : List collocate_node) (p q : Nat) :
    cdead (markDeleted heap p) q = if q = p ∧ p < heap.length then true else cdead heap q := by
  unfold cdead markDeleted
  rw [deref_set]
  split <;> rfl

theorem ckey_mark (heap : List collocate_node) (p q : Nat) :
    ckey (markDeleted heap p) q = ckey heap q := by
  unfold ckey markDeleted
  rw [deref_set]
  split
  · rename_i h; rw [h.1]
  · rfl

theorem length_bump (heap : List collocate_node) (p : Nat) :
    (bumpCount heap p).length = heap.length := by simp [bumpCount]

theorem length_mark (heap : List collocate_node) (p : Nat) :
    (markDeleted heap p).length = heap.length := by simp [markDeleted]

theorem map_set_same {β : Type} (f : collocate_node → β) (heap : List collocate_node) (p : Nat)
    (n : collocate_node) (h : f n = f (deref heap p)) : (heap.set p n).map f = heap.map f := by
  apply List.ext_getElem?
  intro i
  rw [List.getElem?_map, List.getElem?_map, List.getElem?_set]
  by_cases hpi : p = i
  · subst hpi
    by_cases hp : p < heap.length
    · simp [hp, h, deref_eq_getElem heap p hp]
    · simp [hp, List.getElem?_eq_none (Nat.le_of_not_lt hp)]
  · simp [hpi]

theorem keys_bump (heap : List collocate_node) (p : Nat) :
    (bumpCount heap p).map collocate_node.collocate = heap.map collocate_node.collocate :=
  map_set_same _ heap p _ rfl

theorem keys_mark (heap : List collocate_node) (p : Nat) :
    (markDeleted heap p).map collocate_node.collocate = heap.map collocate_node.collocate :=
  map_set_same _ heap p _ rfl

/-! ## Weights that agree on the slots of a table -/

theorem slotSum_congr {α : Type} (g g' : Option α → Nat) (tbl : List (Option α))
    (h : ∀ b, b < tbl.length → g' (slot tbl b) = g (slot tbl b)) :
    slotSum g' tbl = slotSum g tbl := by
  unfold slotSum
  congr 1
  apply List.map_congr_left
  intro s hs
  obtain ⟨b, hb, rfl⟩ := mem_slot hs
  exact h b hb

theorem slot_cons_succ {α : Type} (a : Option α) (l : List (Option α)) (b : Nat) :
    slot (a :: l) (b + 1) = slot l b := by simp [slot]

theorem slot_cons_zero {α : Type} (a : Option α) (l : List (Option α)) :
    slot (a :: l) 0 = a := by simp [slot]

theorem slotSum_cons {α : Type} (g : Option α → Nat) (a : Option α) (l : List (Option α)) :
    slotSum g (a :: l) = g a + slotSum g l := by simp [slotSum]

theorem slotSum_congr_except {α : Type} (g g' : Option α → Nat) :
    ∀ (tbl : List (Option α)) (b0 : Nat), b0 < tbl.length →
      (∀ b, b < tbl.length → b ≠ b0 → g' (slot tbl b) = g (slot tbl b)) →
      slotSum g' tbl + g (slot tbl b0) = slotSum g tbl + g' (slot tbl b0) := by
  intro tbl
  induction tbl with
  | nil => intro b0 hb0; simp at hb0
  | cons a l ih =>
    intro b0 hb0 h
    cases b0 with
    | zero =>
      have : slotSum g' l = slotSum g l := by
        apply slotSum_congr
        intro b hb
        have := h (b + 1) (by simpa using hb) (by omega)
        simpa only [slot_cons_succ] using this
      rw [slotSum_cons, slotSum_cons, slot_cons_zero, this]
      omega
    | succ k =>
      have h0 := h 0 (by simp) (by omega)
      rw [slot_cons_zero] at h0
      have := ih k (by simpa using hb0) (by
        intro b hb hne
        have := h (b + 1) (by simpa using hb) (by omega)
        simpa only [slot_cons_succ] using this)
      rw [slotSum_cons, slotSum_cons, slot_cons_succ, h0]
      omega


/-! ## Well-formed nodes under the operations on a subtable -/

theorem ladder_succ_lt : ∀ c ∈ LADDER, c + 1 < UMOD := by decide

theorem liveCount_congr {α : Type} (d d' : α → Bool) (tbl : List (Option α))
    (h : ∀ b x, slot tbl b = some x → d' x = d x) : liveCount d' tbl = liveCount d tbl := by
  rw [liveCount_eq_slotSum, liveCount_eq_slotSum]
  apply slotSum_congr
  intro b _
  cases hs : slot tbl b with
  | none => simp [liveSlot]
  | some x => simp [liveSlot, h b x hs]

theorem slotFree_congr {α : Type} (d d' : α → Bool) (tbl : List (Option α)) (b : Nat)
    (h : ∀ x, slot tbl b = some x → d' x = d x) : slotFree d' tbl b = slotFree d tbl b := by
  unfold slotFree
  cases hs : slot tbl b with
  | none => rfl
  | some x => exact h x hs

theorem InitHeadword_eq (h : String) :
    InitHeadword h = some
      { headword := h, count := 1,
        collocates := { capacity := 7, occupied := 0, table := List.replicate 7 none },
        frequencies := [], deleted := false, heap := [] } := by
  rfl

theorem NodeOK_init (h : String) :
    NodeOK { headword := h, count := 1,
             collocates := { capacity := 7, occupied := 0, table := List.replicate 7 none },
             frequencies := [], deleted := false, heap := [] } := by
  refine ⟨⟨rfl, by simp [LADDER, MIN_SIZE], (liveCount_replicate _ 7).symm⟩, ?_, ?_⟩
  · intro b p hs
    rw [slot_replicate] at hs
    cases hs
  · intro b b' x hs
    rw [slot_replicate] at hs
    cases hs

theorem ResizeCollocateTable_spec {hw hw' : headword_node} (hok : NodeOK hw)
    (h : ResizeCollocateTable hw = some hw') :
    ∃ nt, hw' = { hw with collocates := nt } ∧ Rehashed (cdead hw.heap) hw.collocates nt := by
  unfold ResizeCollocateTable at h
  cases hr : resize (ckey hw.heap) (cdead hw.heap) hw.collocates with
  | none => rw [hr] at h; simp at h
  | some nt =>
    rw [hr] at h
    simp only [Option.map_some', Option.some.injEq] at h
    exact ⟨nt, h.symm, resize_spec _ _ hok.tbl hr⟩

theorem NodeOK.rehashedNode {hw : headword_node} {nt : collocate_table} (hok : NodeOK hw)
    (hr : Rehashed (cdead hw.heap) hw.collocates nt) : NodeOK { hw with collocates := nt } := by
  refine ⟨hr.ok, ?_, hr.inj hok.inj⟩
  intro b p hs
  obtain ⟨b', hb'⟩ := hr.from_old b p hs
  exact hok.valid b' p hb'

theorem growIfLoaded_spec {hw hw' : headword_node} (hok : NodeOK hw)
    (h : growIfLoaded hw = some hw') :
    ∃ nt, hw' = { hw with collocates := nt } ∧ Rehashed (cdead hw.heap) hw.collocates nt := by
  unfold growIfLoaded at h
  split at h
  · exact ResizeCollocateTable_spec hok h
  · simp only [Option.some.injEq] at h
    subst h
    exact ⟨hw.collocates, rfl, Rehashed.refl hok.tbl⟩

/-- Effect of `placeCollocate` on a well-formed node. -/
theorem placeCollocate_spec {hw : headword_node} (hok : NodeOK hw) (c : String)
    {st : Int} {hw' : headword_node} {created : Bool}
    (h : placeCollocate hw c = (st, hw', created)) :
    NodeOK hw' ∧ hw'.headword = hw.headword ∧ hw'.count = hw.count ∧ hw'.deleted = hw.deleted ∧
    hw'.collocates.occupied = hw.collocates.occupied + (if created then 1 else 0) ∧
    heapKeys hw' = heapKeys hw ++ (if created then [c] else []) := by
  unfold placeCollocate at h
  simp only at h
  split at h
  · rename_i b hp
    simp only [Prod.mk.injEq] at h
    obtain ⟨_, rfl, rfl⟩ := h
    have hf := probe_free_sound _ _ _ hp
    have hcap := hok.tbl.pos
    -- the bucket is inside the table
    have hb : b < hw.collocates.capacity := by
      rcases probe_cases (slotFree (cdead hw.heap) hw.collocates.table)
        (slotHit (ckey hw.heap) hw.collocates.table c) hw.collocates.capacity
        hw.collocates.capacity _ (FNV1a_lt c hcap) with
        ⟨j, _, _, _, he⟩ | ⟨j, _, _, _, _, he⟩ | ⟨_, he⟩
      · rw [hp] at he
        simp only [Probe.free.injEq] at he
        rw [he]
        exact Nat.mod_lt _ hcap
      · rw [hp] at he; cases he
      · rw [hp] at he; cases he
    have hblen : b < hw.collocates.table.length := by rw [hok.tbl.len]; exact hb
    have hdead : ∀ b' x, slot hw.collocates.table b' = some x →
        cdead (hw.heap ++ [InitCollocate c]) x = cdead hw.heap x := by
      intro b' x hx
      unfold cdead
      rw [deref_append_lt _ _ _ (hok.valid b' x hx)]
    have hfree : slotFree (cdead (hw.heap ++ [InitCollocate c])) hw.collocates.table b = true := by
      rw [slotFree_congr (cdead hw.heap) _ _ _ (fun x hx => hdead b x hx)]
      exact hf
    have hnew : cdead (hw.heap ++ [InitCollocate c]) hw.heap.length = false := by
      unfold cdead
      rw [deref_append_length]
      rfl
    have hlive : liveCount (cdead hw.heap) hw.collocates.table < hw.collocates.table.length := by
      by_contra hge
      have : liveCount (cdead hw.heap) hw.collocates.table = hw.collocates.table.length :=
        Nat.le_antisymm (liveCount_le _ _) (Nat.le_of_not_lt hge)
      have hall := (List.countP_eq_length (p := liveSlot (cdead hw.heap))
        (l := hw.collocates.table)).mp this
      have := hall (slot hw.collocates.table b) (by
        rw [slot_eq_getElem _ _ hblen]; exact List.getElem_mem _)
      rw [slotFree_eq] at hf
      rw [this] at hf
      cases hf
    have hocc : uadd hw.collocates.occupied 1 = hw.collocates.occupied + 1 := by
      apply uadd_one_of_lt
      have := (ladder_bounds _ hok.tbl.ladder).2
      have := hok.tbl.occ
      have := hok.tbl.len
      omega
    refine ⟨⟨⟨by simpa using hok.tbl.len, hok.tbl.ladder, ?_⟩, ?_, ?_⟩, rfl, rfl, rfl, ?_, ?_⟩
    · simp only
      rw [hocc, liveCount_set_free hblen hfree, hnew,
        liveCount_congr (cdead hw.heap) _ _ hdead, hok.tbl.occ]
      simp
    · intro b' p hs
      simp only [slot_set] at hs
      simp only [List.length_append, List.length_singleton]
      split at hs
      · simp only [Option.some.injEq] at hs
        omega
      · have := hok.valid b' p hs
        omega
    · intro b1 b2 x h1 h2
      simp only [slot_set] at h1 h2
      split at h1
      · rename_i c1
        split at h2
        · rename_i c2; omega
        · simp only [Option.some.injEq] at h1
          subst h1
          have := hok.valid b2 _ h2
          omega
      · split at h2
        · simp only [Option.some.injEq] at h2
          subst h2
          have := hok.valid b1 _ h1
          omega
        · exact hok.inj b1 b2 x h1 h2
    · simp [hocc]
    · simp [heapKeys, InitCollocate]
  · rename_i b hp
    split at h
    · rename_i p hs
      simp only [Prod.mk.injEq] at h
      obtain ⟨_, rfl, rfl⟩ := h
      refine ⟨⟨⟨hok.tbl.len, hok.tbl.ladder, ?_⟩, ?_, hok.inj⟩, rfl, rfl, rfl, by simp, ?_⟩
      · simp only
        rw [liveCount_congr (cdead hw.heap) _ _ (fun _ x _ => cdead_bump hw.heap p x)]
        exact hok.tbl.occ
      · intro b' q hq
        simp only [length_bump]
        exact hok.valid b' q hq
      · simp [heapKeys, keys_bump]
    · simp only [Prod.mk.injEq] at h
      obtain ⟨_, rfl, rfl⟩ := h
      exact ⟨hok, rfl, rfl, rfl, by simp, by simp⟩
  · simp only [Prod.mk.injEq] at h
    obtain ⟨_, rfl, rfl⟩ := h
    exact ⟨hok, rfl, rfl, rfl, by simp, by simp⟩

end LM

namespace LM

/-! ## Weights on the main table -/

theorem liveWeight_occ : LiveWeight headword_node.deleted occWeight :=
  ⟨rfl, fun x hx => by simp [occWeight, hx]⟩

theorem liveWeight_count : LiveWeight headword_node.deleted countWeight :=
  ⟨rfl, fun x hx => by simp [countWeight, hx]⟩

theorem liveWeight_entry : LiveWeight headword_node.deleted entryWeight :=
  ⟨rfl, fun x hx => by simp [entryWeight, hx]⟩

theorem uadd_mod (a x : Nat) (h : a = x % UMOD) : uadd a 1 = (x + 1) % UMOD := by
  unfold uadd UMOD at *
  omega

theorem usub_mod (a x : Nat) (h : a = (x + 1) % UMOD) : usub a 1 = x % UMOD := by
  unfold usub UMOD at *
  omega

/-- Replacing a live node by a live node keeps the main table well formed. -/
theorem TableOK.set_live {t : head_table} (hok : TableOK headword_node.deleted t) {b : Nat}
    {node node' : headword_node} (hs : slot t.table b = some node) (hd : node.deleted = false)
    (hd' : node'.deleted = false) :
    TableOK headword_node.deleted { t with table := t.table.set b (some node') } := by
  have hb := slot_some_lt hs
  refine ⟨by simpa using hok.len, hok.ladder, ?_⟩
  simp only
  have := slotSum_set (fun s => if liveSlot headword_node.deleted s then 1 else 0) t.table b
    (some node') hb
  rw [hs] at this
  simp only [liveSlot, hd, hd', Bool.not_false, ↓reduceIte] at this
  rw [liveCount_eq_slotSum, hok.occ, liveCount_eq_slotSum]
  simp only [liveSlot]
  omega

theorem NodeOK.congr {hw hw' : headword_node} (hok : NodeOK hw)
    (h1 : hw'.collocates = hw.collocates) (h2 : hw'.heap = hw.heap) : NodeOK hw' := by
  refine ⟨?_, ?_, ?_⟩
  · rw [h1, h2]; exact hok.tbl
  · rw [h1, h2]; exact hok.valid
  · rw [h1]; exact hok.inj

/-! ## `InsertCollocate` -/

/-- Result of `InsertCollocate` in terms of the node operation. -/
theorem InsertCollocate_cases {lm lm' : State} {b : Nat} {c : String} {st : Int}
    (h : InsertCollocate lm b c = some (st, lm')) :
    ∃ t hw hw1 hw' created, lm.main_table = some t ∧ slot t.table b = some hw ∧
      growIfLoaded hw = some hw1 ∧ placeCollocate hw1 c = (st, hw', created) ∧
      lm' = { lm with main_table := some { t with table := t.table.set b (some hw') },
                      unique_ngrams_count :=
                        if created then uadd lm.unique_ngrams_count 1
                        else lm.unique_ngrams_count } := by
  unfold InsertCollocate at h
  cases ht : lm.main_table with
  | none => rw [ht] at h; simp at h
  | some t =>
    rw [ht] at h
    simp only at h
    cases hs : slot t.table b with
    | none => rw [hs] at h; simp at h
    | some hw =>
      rw [hs] at h
      simp only [insertCollocateAt, Option.map_map] at h
      cases hg : growIfLoaded hw with
      | none => rw [hg] at h; simp at h
      | some hw1 =>
        rw [hg] at h
        simp only [Option.map_some', Function.comp_apply, Option.some.injEq, Prod.mk.injEq] at h
        refine ⟨t, hw, hw1, (placeCollocate hw1 c).2.1, (placeCollocate hw1 c).2.2, rfl, hs, hg,
          ?_, ?_⟩
        · rw [← h.1]
        · rw [← h.2]
          simp [setNode, ht]


theorem KeysSat.set {P : String → Prop} {t : head_table} (h : KeysSat P t) (b : Nat)
    (node : headword_node) (hn : ∀ k ∈ heapKeys node, P k) (occ : Nat) :
    KeysSat P { t with table := t.table.set b (some node), occupied := occ } := by
  intro b' node' hs k hk
  simp only [slot_set] at hs
  split at hs
  · simp only [Option.some.injEq] at hs
    subst hs
    exact hn k hk
  · exact h b' node' hs k hk

/-- `InsertCollocate` on a live node of a well-formed trained model (order other than 1). -/
theorem InsertCollocate_spec {lm lm' : State} {b : Nat} {c : String} {st : Int}
    (h : InsertCollocate lm b c = some (st, lm')) {t : head_table} (ht : lm.main_table = some t)
    (hok : TrainedOK lm.ngram_size t lm.unique_ngrams_count) (hn : lm.ngram_size ≠ 1)
    (hlive : ∀ hw, slot t.table b = some hw → hw.deleted = false) :
    ∃ t', lm'.main_table = some t' ∧ TrainedOK lm.ngram_size t' lm'.unique_ngrams_count ∧
      lm'.ngram_size = lm.ngram_size ∧ lm'.ngrams_total = lm.ngrams_total ∧
      lm'.tokens = lm.tokens ∧ slotSum countWeight t'.table = slotSum countWeight t.table ∧
      t'.capacity = t.capacity ∧ t'.occupied = t.occupied ∧
      (∀ P : String → Prop, KeysSat P t → P c → KeysSat P t') := by
  obtain ⟨t0, hw, hw1, hw', created, ht0, hs, hg, hp, rfl⟩ := InsertCollocate_cases h
  rw [ht] at ht0
  simp only [Option.some.injEq] at ht0
  subst ht0
  have hd := hlive hw hs
  have hnode := hok.nodes b hw hs hd
  obtain ⟨nt, rfl, hr⟩ := growIfLoaded_spec hnode hg
  have hnode1 := hnode.rehashedNode hr
  obtain ⟨hnode', _, hcount, hdel, hocc, hkeys⟩ := placeCollocate_spec hnode1 c hp
  simp only at hdel hocc hcount
  rw [hr.occupied hnode.tbl] at hocc
  have hd' : hw'.deleted = false := by rw [hdel]; exact hd
  have hb := slot_some_lt hs
  refine ⟨_, rfl, ⟨hok.table.set_live hs hd hd', ?_, ?_⟩, rfl, rfl, rfl, ?_, rfl, rfl, ?_⟩
  · intro b' node hs' hdn
    simp only [slot_set] at hs'
    split at hs'
    · simp only [Option.some.injEq] at hs'
      subst hs'
      exact hnode'
    · exact hok.nodes b' node hs' hdn
  · have hsum := slotSum_set occWeight t.table b (some hw') hb
    rw [hs] at hsum
    simp only [occWeight, hd, hd', hocc, Bool.false_eq_true, ↓reduceIte] at hsum
    have hu := hok.unique
    simp only [hn, ↓reduceIte] at hu ⊢
    cases created with
    | false =>
      simp only [Bool.false_eq_true, ↓reduceIte, Nat.add_zero] at hsum ⊢
      rw [hu]
      congr 1
      omega
    | true =>
      simp only [↓reduceIte] at hsum ⊢
      rw [uadd_mod _ _ hu]
      congr 1
      omega
  · have hsum := slotSum_set countWeight t.table b (some hw') hb
    rw [hs] at hsum
    simp only [countWeight, hd, hd', hcount, Bool.false_eq_true, ↓reduceIte] at hsum
    simp only
    omega
  · intro P hP hc
    apply hP.set
    intro k hk
    rw [hkeys] at hk
    simp only [heapKeys] at hk
    rcases List.mem_append.mp hk with hk | hk
    · exact hP b hw hs k hk
    · cases created with
      | false => simp at hk
      | true =>
        simp only [↓reduceIte, List.mem_singleton] at hk
        rw [hk]
        exact hc


/-! ## `InsertNGram` -/

/-- The paths of `InsertNGram`. -/
theorem InsertNGram_cases {lm lm' : State} {hd c : String} {st : Int}
    (h : InsertNGram lm hd c = some (st, lm')) :
    (lm.main_table = none ∧ st = -1 ∧ lm' = lm) ∨
    ∃ t, lm.main_table = some t ∧
      ((probe (slotFree headword_node.deleted t.table)
          (slotHit headword_node.headword t.table hd) t.capacity t.capacity
          (FNV1a hd t.capacity) = Probe.full ∧ st = -1 ∧ lm' = lm) ∨
       (∃ b, probe (slotFree headword_node.deleted t.table)
            (slotHit headword_node.headword t.table hd) t.capacity t.capacity
            (FNV1a hd t.capacity) = Probe.free b ∧ st = (b : Int) ∧
          ((lm.ngram_size = 1 ∧
              lm' = { withNewHead lm t b hd with
                      unique_ngrams_count := uadd lm.unique_ngrams_count 1 }) ∨
           (lm.ngram_size ≠ 1 ∧ ∃ st2, InsertCollocate (withNewHead lm t b hd) b c = some (st2, lm')))) ∨
       (∃ b node, probe (slotFree headword_node.deleted t.table)
            (slotHit headword_node.headword t.table hd) t.capacity t.capacity
            (FNV1a hd t.capacity) = Probe.hit b ∧ slot t.table b = some node ∧ st = (b : Int) ∧
          ((1 < lm.ngram_size ∧
              ∃ st2, InsertCollocate (withBumpedHead lm t b node) b c = some (st2, lm')) ∨
           (¬ 1 < lm.ngram_size ∧ lm' = withBumpedHead lm t b node)))) := by
  unfold InsertNGram at h
  cases ht : lm.main_table with
  | none =>
    rw [ht] at h
    simp only [Option.some.injEq, Prod.mk.injEq] at h
    exact Or.inl ⟨rfl, h.1.symm, h.2.symm⟩
  | some t =>
    right
    refine ⟨t, rfl, ?_⟩
    rw [ht] at h
    simp only at h
    split at h
    · rename_i b hp
      right; left
      refine ⟨b, hp, ?_⟩
      rw [InitHeadword_eq, Option.some_bind] at h
      split at h
      · rename_i hn
        simp only [Option.some.injEq, Prod.mk.injEq] at h
        exact ⟨h.1.symm, Or.inl ⟨hn, h.2.symm⟩⟩
      · rename_i hn
        cases hi : InsertCollocate (withNewHead lm t b hd) b c with
        | none =>
          simp only [withNewHead, freshHead] at hi
          rw [hi] at h
          simp at h
        | some r =>
          simp only [withNewHead, freshHead] at hi
          rw [hi] at h
          simp only [Option.map_some', Option.some.injEq, Prod.mk.injEq] at h
          refine ⟨h.1.symm, Or.inr ⟨hn, r.1, ?_⟩⟩
          rw [← h.2]
    · rename_i b hp
      right; right
      split at h
      · rename_i node hs
        refine ⟨b, node, hp, hs, ?_⟩
        split at h
        · rename_i hn
          cases hi : InsertCollocate (withBumpedHead lm t b node) b c with
          | none =>
            simp only [withBumpedHead] at hi
            rw [hi] at h
            simp at h
          | some r =>
            simp only [withBumpedHead] at hi
            rw [hi] at h
            simp only [Option.map_some', Option.some.injEq, Prod.mk.injEq] at h
            refine ⟨h.1.symm, Or.inl ⟨hn, r.1, ?_⟩⟩
            rw [← h.2]
        · rename_i hn
          simp only [Option.some.injEq, Prod.mk.injEq] at h
          exact ⟨h.1.symm, Or.inr ⟨hn, h.2.symm⟩⟩
      · simp at h
    · rename_i hp
      left
      simp only [Option.some.injEq, Prod.mk.injEq] at h
      exact ⟨hp, h.1.symm, h.2.symm⟩


theorem probe_lt {isFree isHit : Nat → Bool} {cap start : Nat} (hs : start < cap) {b : Nat}
    (h : probe isFree isHit cap cap start = Probe.free b ∨
      probe isFree isHit cap cap start = Probe.hit b) : b < cap := by
  have hc : 0 < cap := by omega
  rcases probe_cases isFree isHit cap cap start hs with
    ⟨j, _, _, _, he⟩ | ⟨j, _, _, _, _, he⟩ | ⟨_, he⟩
  · rcases h with h | h
    · rw [h] at he
      simp only [Probe.free.injEq] at he
      rw [he]; exact Nat.mod_lt _ hc
    · rw [h] at he; cases he
  · rcases h with h | h
    · rw [h] at he; cases he
    · rw [h] at he
      simp only [Probe.hit.injEq] at he
      rw [he]; exact Nat.mod_lt _ hc
  · rcases h with h | h <;> (rw [h] at he; cases he)

theorem liveCount_lt_of_free {α : Type} {dead : α → Bool} {tbl : List (Option α)} {b : Nat}
    (hb : b < tbl.length) (hf : slotFree dead tbl b = true) : liveCount dead tbl < tbl.length := by
  by_contra hge
  have : liveCount dead tbl = tbl.length :=
    Nat.le_antisymm (liveCount_le _ _) (Nat.le_of_not_lt hge)
  have hall := (List.countP_eq_length (p := liveSlot dead) (l := tbl)).mp this
  have := hall (slot tbl b) (by rw [slot_eq_getElem _ _ hb]; exact List.getElem_mem _)
  rw [slotFree_eq, this] at hf
  cases hf

/-- `InsertNGram` on a well-formed trained model. -/
theorem InsertNGram_spec {lm lm' : State} {hd c : String} {st : Int}
    (h : InsertNGram lm hd c = some (st, lm')) {t : head_table} (ht : lm.main_table = some t)
    (hok : TrainedOK lm.ngram_size t lm.unique_ngrams_count) :
    ∃ t', lm'.main_table = some t' ∧ TrainedOK lm.ngram_size t' lm'.unique_ngrams_count ∧
      lm'.ngram_size = lm.ngram_size ∧
      ((st = -1 ∧ lm' = lm) ∨
       (0 ≤ st ∧ lm'.ngrams_total = uadd lm.ngrams_total 1 ∧ lm'.tokens = uadd lm.tokens 1 ∧
         slotSum countWeight t'.table % UMOD = (slotSum countWeight t.table + 1) % UMOD)) ∧
      (∀ P : String → Prop, KeysSat P t → P c → KeysSat P t') := by
  have hpos := hok.table.pos
  have hstart := FNV1a_lt hd hpos
  rcases InsertNGram_cases h with ⟨hnone, _, _⟩ | ⟨t0, ht0, hcase⟩
  · rw [ht] at hnone; cases hnone
  rw [ht] at ht0
  simp only [Option.some.injEq] at ht0
  subst ht0
  rcases hcase with ⟨_, hst, rfl⟩ | ⟨b, hp, hst, hcase⟩ | ⟨b, node, hp, hs, hst, hcase⟩
  · exact ⟨t, ht, hok, rfl, Or.inl ⟨hst, rfl⟩, fun P hP _ => hP⟩
  · -- a new headword node
    have hb : b < t.capacity := probe_lt hstart (Or.inl hp)
    have hblen : b < t.table.length := by rw [hok.table.len]; exact hb
    have hf := probe_free_sound _ _ _ hp
    have hocc : uadd t.occupied 1 = t.occupied + 1 := by
      apply uadd_one_of_lt
      have := liveCount_lt_of_free hblen hf
      have := (ladder_bounds _ hok.table.ladder).2
      have := hok.table.occ
      have := hok.table.len
      omega
    have hfresh : (freshHead hd).deleted = false := rfl
    have hok1tbl : TableOK headword_node.deleted
        { t with table := t.table.set b (some (freshHead hd)), occupied := uadd t.occupied 1 } := by
      have := hok.table.set_free hb hf (freshHead hd)
      simpa [hfresh, hocc] using this
    have hnodes1 : ∀ b' node, slot (t.table.set b (some (freshHead hd))) b' = some node →
        node.deleted = false → NodeOK node := by
      intro b' node hs' hdn
      simp only [slot_set] at hs'
      split at hs'
      · simp only [Option.some.injEq] at hs'
        subst hs'
        exact NodeOK_init hd
      · exact hok.nodes b' node hs' hdn
    have hsumocc : slotSum occWeight (t.table.set b (some (freshHead hd))) =
        slotSum occWeight t.table := by
      rw [slotSum_set_free liveWeight_occ hblen hf]
      rfl
    have hsumcnt : slotSum countWeight (t.table.set b (some (freshHead hd))) =
        slotSum countWeight t.table + 1 := by
      rw [slotSum_set_free liveWeight_count hblen hf]
      rfl
    have hkeys1 : ∀ P : String → Prop, KeysSat P t → KeysSat P
        { t with table := t.table.set b (some (freshHead hd)), occupied := uadd t.occupied 1 } := by
      intro P hP
      apply hP.set
      intro k hk
      simp [heapKeys, freshHead] at hk
    have hst0 : 0 ≤ st := by rw [hst]; exact Int.ofNat_nonneg _
    rcases hcase with ⟨hn, rfl⟩ | ⟨hn, st2, hi⟩
    · refine ⟨_, rfl, ⟨hok1tbl, hnodes1, ?_⟩, rfl, Or.inr ⟨hst0, rfl, rfl, ?_⟩,
        fun P hP _ => hkeys1 P hP⟩
      · have hu := hok.unique
        simp only [hn, ↓reduceIte] at hu ⊢
        rw [hocc]
        exact uadd_mod _ _ hu
      · exact congrArg (· % UMOD) hsumcnt
    · have hok1 : TrainedOK (withNewHead lm t b hd).ngram_size
          { t with table := t.table.set b (some (freshHead hd)), occupied := uadd t.occupied 1 }
          (withNewHead lm t b hd).unique_ngrams_count := by
        refine ⟨hok1tbl, hnodes1, ?_⟩
        have hu := hok.unique
        simp only [withNewHead, hn, ↓reduceIte] at hu ⊢
        rw [hsumocc]
        exact hu
      obtain ⟨t', ht', hok', hn', htot, htok, hcnt, _, _, hkeys⟩ :=
        InsertCollocate_spec hi (t := _) rfl hok1 hn (by
          intro hw hs'
          simp only [slot_set_self _ _ _ hblen, Option.some.injEq] at hs'
          subst hs'
          rfl)
      refine ⟨t', ht', hok', hn', Or.inr ⟨hst0, htot, htok, ?_⟩, ?_⟩
      · rw [hcnt]
        exact congrArg (· % UMOD) hsumcnt
      · intro P hP hc
        exact hkeys P (hkeys1 P hP) hc
  · -- an existing headword node
    obtain ⟨hfree, _⟩ := probe_hit_sound _ _ _ hp
    obtain ⟨x, hx, hdx⟩ := slotFree_false hfree
    rw [hs] at hx
    simp only [Option.some.injEq] at hx
    subst hx
    have hblen := slot_some_lt hs
    have hd' : ({ node with count := uadd node.count 1 } : headword_node).deleted = false := hdx
    have hok1tbl := hok.table.set_live hs hdx hd'
    have hnodes1 : ∀ b' nd, slot (t.table.set b (some { node with count := uadd node.count 1 })) b'
        = some nd → nd.deleted = false → NodeOK nd := by
      intro b' nd hs' hdn
      simp only [slot_set] at hs'
      split at hs'
      · simp only [Option.some.injEq] at hs'
        subst hs'
        exact (hok.nodes b node hs hdx).congr rfl rfl
      · exact hok.nodes b' nd hs' hdn
    have hsumocc : slotSum occWeight (t.table.set b (some { node with count := uadd node.count 1 }))
        = slotSum occWeight t.table := by
      have := slotSum_set occWeight t.table b (some { node with count := uadd node.count 1 }) hblen
      rw [hs] at this
      have e1 : occWeight (some { node with count := uadd node.count 1 }) =
          occWeight (some node) := rfl
      rw [e1] at this
      omega
    have hsumcnt : slotSum countWeight
        (t.table.set b (some { node with count := uadd node.count 1 })) % UMOD
        = (slotSum countWeight t.table + 1) % UMOD := by
      have := slotSum_set countWeight t.table b (some { node with count := uadd node.count 1 }) hblen
      rw [hs] at this
      have e1 : countWeight (some { node with count := uadd node.count 1 }) =
          (node.count + 1) % UMOD := by
        simp only [countWeight, uadd]
        rw [hdx]
        rfl
      have e2 : countWeight (some node) = node.count := by
        simp only [countWeight]
        rw [hdx]
        rfl
      rw [e1, e2] at this
      unfold UMOD at *
      omega
    have hkeys1 : ∀ P : String → Prop, KeysSat P t → KeysSat P
        { t with table := t.table.set b (some { node with count := uadd node.count 1 }) } := by
      intro P hP
      have := hP.set b { node with count := uadd node.count 1 } (fun k hk => hP b node hs k hk)
        t.occupied
      exact this
    have hst0 : 0 ≤ st := by rw [hst]; exact Int.ofNat_nonneg _
    have hok1 : TrainedOK lm.ngram_size
        { t with table := t.table.set b (some { node with count := uadd node.count 1 }) }
        lm.unique_ngrams_count := by
      refine ⟨hok1tbl, hnodes1, ?_⟩
      have hu := hok.unique
      simp only
      rw [hsumocc]
      exact hu
    rcases hcase with ⟨hn, st2, hi⟩ | ⟨hn, rfl⟩
    · obtain ⟨t', ht', hok', hn', htot, htok, hcnt, _, _, hkeys⟩ :=
        InsertCollocate_spec hi (t := _) rfl hok1 (by simp only [withBumpedHead]; omega) (by
          intro hw hs'
          simp only [slot_set_self _ _ _ hblen, Option.some.injEq] at hs'
          subst hs'
          exact hdx)
      refine ⟨t', ht', hok', hn', Or.inr ⟨hst0, htot, htok, ?_⟩, ?_⟩
      · rw [hcnt]
        exact hsumcnt
      · intro P hP hc
        exact hkeys P (hkeys1 P hP) hc
    · exact ⟨_, rfl, hok1, rfl, Or.inr ⟨hst0, rfl, rfl, hsumcnt⟩, fun P hP _ => hkeys1 P hP⟩

end LM

namespace LM

/-! ## Resizing the main table -/

theorem TrainedOK.rehashedMain {n u : Nat} {t t' : head_table} (hok : TrainedOK n t u)
    (hr : Rehashed headword_node.deleted t t') : TrainedOK n t' u := by
  refine ⟨hr.ok, ?_, ?_⟩
  · intro b node hs hd
    obtain ⟨b', hb'⟩ := hr.from_old b node hs
    exact hok.nodes b' node hb' hd
  · rw [hr.sums _ liveWeight_occ, hr.occupied hok.table]
    exact hok.unique

theorem KeysSat.rehashedKeys {P : String → Prop} {t t' : head_table} (h : KeysSat P t)
    (hr : Rehashed headword_node.deleted t t') : KeysSat P t' := by
  intro b node hs k hk
  obtain ⟨b', hb'⟩ := hr.from_old b node hs
  exact h b' node hb' k hk

theorem ResizeHeadTable_spec {lm lm' : State} (h : ResizeHeadTable lm = some lm') {t : head_table}
    (ht : lm.main_table = some t) (hok : TableOK headword_node.deleted t) :
    ∃ t', lm' = { lm with main_table := some t' } ∧ Rehashed headword_node.deleted t t' := by
  unfold ResizeHeadTable at h
  rw [ht] at h
  simp only at h
  cases hr : resize headword_node.headword headword_node.deleted t with
  | none => rw [hr] at h; simp at h
  | some nt =>
    rw [hr] at h
    simp only [Option.map_some', Option.some.injEq] at h
    exact ⟨nt, h.symm, resize_spec _ _ hok hr⟩

/-! ## Sorting the frequencies -/

theorem slot_map {α β : Type} (F : Option α → Option β) (hF : F none = none)
    (tbl : List (Option α)) (b : Nat) : slot (tbl.map F) b = F (slot tbl b) := by
  unfold slot
  rw [List.getD_eq_getElem?_getD, List.getD_eq_getElem?_getD, List.getElem?_map]
  cases tbl[b]? with
  | none => simp [hF]
  | some x => simp

theorem slotSum_map {α : Type} (g : Option α → Nat) (F : Option α → Option α)
    (tbl : List (Option α)) (h : ∀ s, g (F s) = g s) : slotSum g (tbl.map F) = slotSum g tbl := by
  unfold slotSum
  rw [List.map_map]
  congr 1
  apply List.map_congr_left
  intro s _
  exact h s

/-- The slot transformation of `SortCounts`. -/
theorem SortCounts_eq (lm : State) (t : head_table) (ht : lm.main_table = some t) :
    SortCounts lm = { lm with main_table := some { t with table := t.table.map fun s =>
        match s with
        | some node =>
          if node.deleted then some node
          else some { node with frequencies := sortFrequencies node.heap node.frequencies }
        | none => none } } := by
  unfold SortCounts
  rw [ht]
  all_goals rfl

theorem SortCounts_spec {lm : State} {t : head_table} (ht : lm.main_table = some t)
    (hok : TrainedOK lm.ngram_size t lm.unique_ngrams_count) :
    ∃ t', (SortCounts lm) = { lm with main_table := some t' } ∧
      TrainedOK lm.ngram_size t' lm.unique_ngrams_count ∧
      slotSum countWeight t'.table = slotSum countWeight t.table ∧
      (∀ P : String → Prop, KeysSat P t → KeysSat P t') := by
  refine ⟨_, SortCounts_eq lm t ht, ?_, ?_, ?_⟩
  · refine ⟨⟨by simpa using hok.table.len, hok.table.ladder, ?_⟩, ?_, ?_⟩
    · simp only
      rw [liveCount_eq_slotSum, slotSum_map, ← liveCount_eq_slotSum]
      · exact hok.table.occ
      · intro s
        cases s with
        | none => rfl
        | some node =>
          by_cases hd : node.deleted = true <;> simp [liveSlot, hd]
    · intro b node hs hd
      simp only at hs
      rw [slot_map _ rfl] at hs
      cases hsl : slot t.table b with
      | none => rw [hsl] at hs; cases hs
      | some node0 =>
        rw [hsl] at hs
        simp only at hs
        split at hs
        · simp only [Option.some.injEq] at hs
          subst hs
          exact hok.nodes b _ hsl hd
        · simp only [Option.some.injEq] at hs
          subst hs
          exact (hok.nodes b node0 hsl hd).congr rfl rfl
    · simp only
      rw [slotSum_map]
      · exact hok.unique
      · intro s
        cases s with
        | none => rfl
        | some node =>
          by_cases hd : node.deleted = true <;> simp [occWeight, hd]
  · simp only
    rw [slotSum_map]
    intro s
    cases s with
    | none => rfl
    | some node =>
      by_cases hd : node.deleted = true <;> simp [countWeight, hd]
  · intro P hP b node hs k hk
    simp only at hs
    rw [slot_map _ rfl] at hs
    cases hsl : slot t.table b with
    | none => rw [hsl] at hs; cases hs
    | some node0 =>
      rw [hsl] at hs
      simp only at hs
      split at hs
      · simp only [Option.some.injEq] at hs
        subst hs
        exact hP b _ hsl k hk
      · simp only [Option.some.injEq] at hs
        subst hs
        exact hP b node0 hsl k hk


/-! ## The ingestion loop -/

/-- One round of the loop of `ingest` in which the window is full. -/
theorem ingest_cons {word : String} {rest : List String} {lm : State} {ngram : List String}
    {count : Nat} {r : Bool} {lm' : State}
    (h : ingest (word :: rest) lm ngram count = some (r, lm')) :
    (¬ uadd count 1 ≥ lm.ngram_size ∧
      ingest rest lm (ngram ++ [stripPunct word]) (uadd count 1) = some (r, lm')) ∨
    (uadd count 1 ≥ lm.ngram_size ∧ ∃ headword ng lm1 st lm2,
      ngram ++ [stripPunct word] = headword :: ng ∧
      (if (GetHeadTableLoad lm.main_table).gtHalf then ResizeHeadTable lm else some lm) = some lm1 ∧
      InsertNGram lm1 headword (joinCollocate ng) = some (st, lm2) ∧
      ((st < 0 ∧ r = false ∧ lm' = lm2) ∨
       (¬ st < 0 ∧ ingest rest lm2 ng (uadd count 1) = some (r, lm')))) := by
  unfold ingest at h
  simp only at h
  split at h
  · rename_i hge
    right
    refine ⟨hge, ?_⟩
    split at h
    · cases h
    · rename_i headword ng heq
      cases h1 : (if (GetHeadTableLoad lm.main_table).gtHalf then ResizeHeadTable lm else some lm) with
      | none => rw [h1] at h; simp at h
      | some lm1 =>
        rw [h1] at h
        simp only [Option.some_bind] at h
        cases h2 : InsertNGram lm1 headword (joinCollocate ng) with
        | none => rw [h2] at h; simp at h
        | some res =>
          obtain ⟨st, lm2⟩ := res
          rw [h2] at h
          simp only [Option.some_bind] at h
          refine ⟨headword, ng, lm1, st, lm2, heq, rfl, h2, ?_⟩
          split at h
          · rename_i hst
            simp only [Option.some.injEq, Prod.mk.injEq] at h
            exact Or.inl ⟨hst, h.1.symm, h.2.symm⟩
          · rename_i hst
            exact Or.inr ⟨hst, h⟩
  · rename_i hge
    exact Or.inl ⟨hge, h⟩

theorem growHead_spec {lm lm1 : State} {t : head_table} (ht : lm.main_table = some t)
    (hok : TableOK headword_node.deleted t)
    (h : (if (GetHeadTableLoad lm.main_table).gtHalf then ResizeHeadTable lm else some lm) =
      some lm1) :
    ∃ t1, lm1 = { lm with main_table := some t1 } ∧ Rehashed headword_node.deleted t t1 := by
  split at h
  · exact ResizeHeadTable_spec h ht hok
  · simp only [Option.some.injEq] at h
    subst h
    refine ⟨t, ?_, Rehashed.refl hok⟩
    cases lm
    simp only at ht
    subst ht
    rfl

theorem ingest_spec : ∀ (words : List String) (lm : State) (ngram : List String) (count : Nat)
    (r : Bool) (lm' : State) (t : head_table),
    ingest words lm ngram count = some (r, lm') → lm.main_table = some t →
    TrainedOK lm.ngram_size t lm.unique_ngrams_count →
    ∃ t', lm'.main_table = some t' ∧ TrainedOK lm.ngram_size t' lm'.unique_ngrams_count ∧
      lm'.ngram_size = lm.ngram_size ∧
      (lm'.tokens + slotSum countWeight t.table) % UMOD =
        (lm.tokens + slotSum countWeight t'.table) % UMOD ∧
      (∀ P : String → Prop, KeysSat P t →
        (∀ pr ∈ ingestPairs lm.ngram_size words ngram count, P pr.2) → KeysSat P t') := by
  intro words
  induction words with
  | nil =>
    intro lm ngram count r lm' t h ht hok
    simp only [ingest, Option.some.injEq, Prod.mk.injEq] at h
    obtain ⟨_, rfl⟩ := h
    exact ⟨t, ht, hok, rfl, rfl, fun P hP _ => hP⟩
  | cons word rest ih =>
    intro lm ngram count r lm' t h ht hok
    rcases ingest_cons h with ⟨hlt, hrec⟩ | ⟨hge, headword, ng, lm1, st, lm2, heq, h1, h2, hfin⟩
    · obtain ⟨t', ht', hok', hn', htok, hkeys⟩ := ih lm _ _ r lm' t hrec ht hok
      refine ⟨t', ht', hok', hn', htok, ?_⟩
      intro P hP hpairs
      apply hkeys P hP
      intro pr hpr
      apply hpairs
      simp only [ingestPairs, hlt, ↓reduceIte]
      exact hpr
    · obtain ⟨t1, rfl, hr⟩ := growHead_spec ht hok.table h1
      have hok1 := hok.rehashedMain hr
      obtain ⟨t2, ht2, hok2, hn2, hcase, hkeys2⟩ := InsertNGram_spec h2 (t := t1) rfl hok1
      simp only at hn2 hok2
      have hsum1 := hr.sums _ liveWeight_count
      have hpairs_eq : ingestPairs lm.ngram_size (word :: rest) ngram count =
          (headword, joinCollocate ng) :: ingestPairs lm.ngram_size rest ng (uadd count 1) := by
        simp only [ingestPairs, hge, ↓reduceIte, heq]
      rcases hfin with ⟨hst, _, rfl⟩ | ⟨hst, hrec⟩
      · refine ⟨t2, ht2, hok2, hn2, ?_, ?_⟩
        · rcases hcase with ⟨_, hsame⟩ | ⟨h0, _, _, _⟩
          · rw [hsame] at ht2
            simp only [Option.some.injEq] at ht2
            subst ht2
            rw [hsame, hsum1]
          · omega
        · intro P hP hpairs
          apply hkeys2 P (hP.rehashedKeys hr)
          apply hpairs (headword, joinCollocate ng)
          rw [hpairs_eq]
          exact List.mem_cons_self _ _
      · have hok2' : TrainedOK lm2.ngram_size t2 lm2.unique_ngrams_count := by
          rw [hn2]; exact hok2
        obtain ⟨t', ht', hok', hn', htok, hkeys⟩ := ih lm2 _ _ r lm' t2 hrec ht2 hok2'
        rw [hn2] at hok' hn' hkeys
        refine ⟨t', ht', hok', hn', ?_, ?_⟩
        · rcases hcase with ⟨hm, _⟩ | ⟨_, _, htk, hcw⟩
          · omega
          · simp only at htk
            rw [hsum1] at hcw
            rw [htk] at htok
            unfold uadd UMOD at *
            omega
        · intro P hP hpairs
          apply hkeys P
          · apply hkeys2 P (hP.rehashedKeys hr)
            apply hpairs (headword, joinCollocate ng)
            rw [hpairs_eq]
            exact List.mem_cons_self _ _
          · intro pr hpr
            apply hpairs
            rw [hpairs_eq]
            exact List.mem_cons_of_mem _ hpr

end LM

namespace LM

/-! ## `Train` and `Grow` on well-formed states -/

theorem ingestAndSort_spec {lm lm' : State} {words : List String} {r : Bool} {t : head_table}
    (h : ingestAndSort lm words = some (r, lm')) (ht : lm.main_table = some t)
    (hok : TrainedOK lm.ngram_size t lm.unique_ngrams_count) :
    ∃ t', lm'.main_table = some t' ∧ TrainedOK lm.ngram_size t' lm'.unique_ngrams_count ∧
      lm'.ngram_size = lm.ngram_size ∧
      (lm'.tokens + slotSum countWeight t.table) % UMOD =
        (lm.tokens + slotSum countWeight t'.table) % UMOD ∧
      (∀ P : String → Prop, KeysSat P t →
        (∀ pr ∈ ingestPairs lm.ngram_size words [] 0, P pr.2) → KeysSat P t') := by
  unfold ingestAndSort at h
  cases hi : ingest words lm [] 0 with
  | none => rw [hi] at h; simp at h
  | some res =>
    obtain ⟨r1, lm1⟩ := res
    rw [hi] at h
    simp only [Option.map_some', Option.some.injEq] at h
    obtain ⟨t1, ht1, hok1, hn1, htok1, hkeys1⟩ := ingest_spec words lm [] 0 r1 lm1 t hi ht hok
    by_cases hsort : r1 = true ∧ lm1.ngram_size > 1
    · obtain ⟨hr1, hgt⟩ := hsort
      simp only [hr1, hgt, ↓reduceIte, Prod.mk.injEq] at h
      obtain ⟨_, rfl⟩ := h
      have hok1' : TrainedOK lm1.ngram_size t1 lm1.unique_ngrams_count := by rw [hn1]; exact hok1
      obtain ⟨t2, he, hok2, hcw, hkeys2⟩ := SortCounts_spec ht1 hok1'
      rw [he]
      rw [hn1] at hok2
      refine ⟨t2, rfl, hok2, hn1, ?_, ?_⟩
      · simp only
        rw [hcw]
        exact htok1
      · intro P hP hpairs
        exact hkeys2 P (hkeys1 P hP hpairs)
    · have : lm' = lm1 := by
        by_cases hr1 : r1 = true
        · have hgt : ¬ lm1.ngram_size > 1 := fun hh => hsort ⟨hr1, hh⟩
          simp only [hr1, hgt, ↓reduceIte, Prod.mk.injEq] at h
          exact h.2.symm
        · simp only [hr1, Bool.false_eq_true, ↓reduceIte, Prod.mk.injEq] at h
          exact h.2.symm
      subst this
      exact ⟨t1, ht1, hok1, hn1, htok1, hkeys1⟩

/-- A freshly initialised main table in a model whose counter of unique n-grams is 0. -/
theorem TrainedOK_init {n x : Nat} {t : head_table} (h : InitHeadTable x = some t) :
    TrainedOK n t 0 ∧ slotSum countWeight t.table = 0 ∧ ∀ P : String → Prop, KeysSat P t := by
  obtain ⟨hok, hempty⟩ := InitTable_ok headword_node.deleted h
  obtain ⟨_, ho, _⟩ := InitTable_spec h
  have hzero : ∀ g : Option headword_node → Nat, g none = 0 → slotSum g t.table = 0 := by
    intro g hg
    unfold slotSum
    apply List.sum_eq_zero
    intro x hx
    obtain ⟨s, hs, rfl⟩ := List.mem_map.mp hx
    obtain ⟨b, _, hb⟩ := mem_slot hs
    rw [← hb, hempty b]
    exact hg
  refine ⟨⟨hok, ?_, ?_⟩, hzero _ rfl, ?_⟩
  · intro b node hs
    rw [hempty b] at hs
    cases hs
  · rw [ho, hzero _ rfl]
    simp [UMOD]
  · intro P b node hs
    rw [hempty b] at hs
    cases hs

/-- Extra tokens that `Train` and `Grow` count for a document: `n - 1` when the stream opens. -/
theorem Train_spec {lm lm' : State} {src : Source} {r : Bool}
    (h : Train lm src = some (r, lm')) (hok : StateOK lm) :
    StateOK lm' ∧ lm'.ngram_size = lm.ngram_size ∧
    (src.estimate < 0 → lm' = lm) ∧
    (0 ≤ src.estimate → ∃ t', lm'.main_table = some t' ∧
      lm'.tokens % UMOD = (slotSum countWeight t'.table +
        (if src.words.isSome then usub lm.ngram_size 1 else 0)) % UMOD) ∧
    (∀ P : String → Prop,
      (∀ ws, src.words = some ws → ∀ pr ∈ ingestPairs lm.ngram_size ws [] 0, P pr.2) →
      0 ≤ src.estimate → StateKeysSat P lm') := by
  unfold Train at h
  by_cases hest : src.estimate < 0
  · simp only [hest, ↓reduceIte, Option.some.injEq, Prod.mk.injEq] at h
    obtain ⟨_, rfl⟩ := h
    exact ⟨hok, rfl, fun _ => rfl, fun h0 => by omega, fun _ _ h0 => by omega⟩
  · simp only [hest, ↓reduceIte] at h
    split at h
    · cases h
    · cases hi : InitHeadTable (src.estimate * 2).toNat with
      | none => rw [hi] at h; simp at h
      | some t0 =>
        rw [hi] at h
        simp only [Option.some_bind] at h
        obtain ⟨hok0, hcw0, hkeys0⟩ := TrainedOK_init (n := lm.ngram_size) hi
        -- the state after the optional reset
        have hreset : (if lm.main_table.isSome = true then Reset lm else lm).unique_ngrams_count = 0 ∧
            (if lm.main_table.isSome = true then Reset lm else lm).tokens = 0 ∧
            (if lm.main_table.isSome = true then Reset lm else lm).ngram_size = lm.ngram_size := by
          cases hm : lm.main_table with
          | none =>
            unfold StateOK at hok
            rw [hm] at hok
            simp only [Option.isSome_none, Bool.false_eq_true, ↓reduceIte]
            exact ⟨hok.1, hok.2.2, trivial⟩
          | some t => simp [Reset]
        obtain ⟨hu0, htk0, hn0⟩ := hreset
        cases hw : src.words with
        | none =>
          rw [hw] at h
          simp only [Option.some.injEq, Prod.mk.injEq] at h
          obtain ⟨_, rfl⟩ := h
          refine ⟨?_, hn0, fun h0 => absurd h0 hest, fun _ => ⟨t0, rfl, ?_⟩, ?_⟩
          · unfold StateOK
            simp only
            rw [hu0, hn0]
            exact hok0
          · simp only [Option.isSome_none, Bool.false_eq_true, ↓reduceIte, Nat.add_zero]
            rw [htk0, hcw0]
          · intro P _ _ t ht
            simp only [Option.some.injEq] at ht
            subst ht
            exact hkeys0 P
        | some ws =>
          rw [hw] at h
          simp only at h
          obtain ⟨t', ht', hok', hn', htok, hkeys⟩ := ingestAndSort_spec h (t := t0) rfl (by
            simp only
            rw [hu0, hn0]
            exact hok0)
          simp only [hn0] at hok' hn' htok hkeys
          refine ⟨?_, hn', fun h0 => absurd h0 hest, fun _ => ⟨t', ht', ?_⟩, ?_⟩
          · unfold StateOK
            rw [ht']
            simp only
            rw [hn']
            exact hok'
          · simp only [Option.isSome_some, ↓reduceIte]
            rw [hcw0] at htok
            unfold UMOD at *
            omega
          · intro P hP _ t ht
            rw [ht'] at ht
            simp only [Option.some.injEq] at ht
            subst ht
            exact hkeys P (hkeys0 P) (hP ws rfl)


theorem ladder_max : ∀ c ∈ LADDER, c ≤ 2147483659 := by decide

theorem Grow_spec {lm lm' : State} {src : Source} {r : Bool}
    (h : Grow lm src = some (r, lm')) (hok : StateOK lm) (hsz : src.estimate ≤ MAX_ESTIMATE) :
    StateOK lm' ∧ lm'.ngram_size = lm.ngram_size ∧
    (lm.main_table = none → lm' = lm) ∧
    (src.estimate < 0 → lm' = lm) ∧
    (∀ t, lm.main_table = some t → 0 ≤ src.estimate → ∃ t', lm'.main_table = some t' ∧
      (lm'.tokens + slotSum countWeight t.table) % UMOD =
        (lm.tokens + slotSum countWeight t'.table +
          (if src.words.isSome then usub lm.ngram_size 1 else 0)) % UMOD) ∧
    (∀ P : String → Prop, StateKeysSat P lm →
      (∀ ws, src.words = some ws → ∀ pr ∈ ingestPairs lm.ngram_size ws [] 0, P pr.2) →
      StateKeysSat P lm') := by
  unfold Grow at h
  cases hm : lm.main_table with
  | none =>
    rw [hm] at h
    simp only [Option.some.injEq, Prod.mk.injEq] at h
    obtain ⟨_, rfl⟩ := h
    refine ⟨hok, rfl, fun _ => rfl, fun _ => rfl, ?_, fun P hP _ => hP⟩
    intro t ht
    cases ht
  | some t =>
    rw [hm] at h
    simp only at h
    have hokt : TrainedOK lm.ngram_size t lm.unique_ngrams_count := by
      unfold StateOK at hok
      rw [hm] at hok
      exact hok
    by_cases hest : src.estimate < 0
    · simp only [hest, ↓reduceIte, Option.some.injEq, Prod.mk.injEq] at h
      obtain ⟨_, rfl⟩ := h
      exact ⟨hok, rfl, fun _ => rfl, fun _ => rfl, fun _ _ h0 => by omega, fun P hP _ => hP⟩
    · simp only [hest, ↓reduceIte] at h
      split at h
      · cases h
      · cases hi : InitHeadTable (uadd (src.estimate * 2).toNat t.capacity) with
        | none => rw [hi] at h; simp at h
        | some nt =>
          rw [hi] at h
          simp only [Option.some_bind] at h
          obtain ⟨hnew, hempty⟩ := InitTable_ok headword_node.deleted hi
          obtain ⟨hp, _, _⟩ := InitTable_spec hi
          have hcapmax := ladder_max _ hokt.table.ladder
          have hreq : uadd (src.estimate * 2).toNat t.capacity =
              (src.estimate * 2).toNat + t.capacity := by
            unfold uadd
            apply Nat.mod_eq_of_lt
            unfold MAX_ESTIMATE at hsz
            unfold UMOD
            omega
          have hgt := PrimeSize_gt (by
            rw [hreq]
            unfold MAX_ESTIMATE at hsz
            omega) hp
          have hocc : t.occupied ≤ t.capacity := by
            rw [hokt.table.occ, ← hokt.table.len]; exact liveCount_le _ _
          have hr : Rehashed headword_node.deleted t
              (transfer headword_node.headword headword_node.deleted t nt) :=
            Rehashed.of_transfer _ _ hokt.table hnew hempty (by rw [hreq] at hgt; omega)
          have hok1 := hokt.rehashedMain hr
          have hsum1 := hr.sums _ liveWeight_count
          cases hw : src.words with
          | none =>
            rw [hw] at h
            simp only [Option.some.injEq, Prod.mk.injEq] at h
            obtain ⟨_, rfl⟩ := h
            refine ⟨?_, rfl, ?_, fun h0 => absurd h0 hest, ?_, ?_⟩
            · unfold StateOK
              exact hok1
            · intro h0
              cases h0
            · intro t0 ht0 _
              simp only [Option.some.injEq] at ht0
              subst ht0
              refine ⟨_, rfl, ?_⟩
              simp only [Option.isSome_none, Bool.false_eq_true, ↓reduceIte, Nat.add_zero]
              rw [hsum1]
            · intro P hP _ t1 ht1
              simp only [Option.some.injEq] at ht1
              subst ht1
              exact (hP t hm).rehashedKeys hr
          | some ws =>
            rw [hw] at h
            simp only at h
            obtain ⟨t', ht', hok', hn', htok, hkeys⟩ := ingestAndSort_spec h (t := _) rfl hok1
            simp only at hok' hn' htok hkeys
            refine ⟨?_, hn', ?_, fun h0 => absurd h0 hest, ?_, ?_⟩
            · unfold StateOK
              rw [ht']
              simp only
              rw [hn']
              exact hok'
            · intro h0
              cases h0
            · intro t0 ht0 _
              simp only [Option.some.injEq] at ht0
              subst ht0
              refine ⟨t', ht', ?_⟩
              simp only [Option.isSome_some, ↓reduceIte]
              rw [hsum1] at htok
              unfold uadd UMOD at *
              omega
            · intro P hP hpairs t1 ht1
              rw [ht'] at ht1
              simp only [Option.some.injEq] at ht1
              subst ht1
              exact hkeys P ((hP t hm).rehashedKeys hr) (hpairs ws rfl)

end LM

namespace LM

/-! ## Deletion on well-formed states -/

theorem StateOK_Reset (lm : State) : StateOK (Reset lm) := by
  unfold StateOK Reset
  exact ⟨rfl, rfl, rfl⟩

theorem usub_of_le {a b : Nat} (ha : a < UMOD) (h : b ≤ a) : usub a b = a - b := by
  unfold usub UMOD at *
  have : b % 4294967296 = b := Nat.mod_eq_of_lt (by omega)
  rw [this]
  omega

/-- `DeleteHeadword` on the live node in `bucket`; the counter of unique n-grams still counts
one entry for that node. -/
theorem DeleteHeadword_spec {lm lm' : State} {b : Nat} {r : Bool}
    (h : DeleteHeadword lm b = some (r, lm')) {t : head_table} {node : headword_node}
    (ht : lm.main_table = some t) (htbl : TableOK headword_node.deleted t)
    (hs : slot t.table b = some node) (hd : node.deleted = false)
    (hnodes : ∀ b' nd, b' ≠ b → slot t.table b' = some nd → nd.deleted = false → NodeOK nd)
    (hu : lm.unique_ngrams_count =
      (if lm.ngram_size = 1 then t.occupied
        else slotSum occWeight (t.table.set b (some { node with deleted := true })) + 1) % UMOD) :
    r = true ∧ StateOK lm' ∧ lm'.ngram_size = lm.ngram_size ∧
    (∀ t', lm'.main_table = some t' →
      lm'.tokens = usub lm.tokens node.count ∧
      slotSum countWeight t'.table + node.count = slotSum countWeight t.table) := by
  have hblen := slot_some_lt hs
  unfold DeleteHeadword at h
  rw [ht] at h
  simp only at h
  split at h
  · simp only [Option.some.injEq, Prod.mk.injEq] at h
    obtain ⟨rfl, rfl⟩ := h
    refine ⟨rfl, StateOK_Reset lm, rfl, ?_⟩
    intro t' ht'
    simp [Reset] at ht'
  · rename_i hocc1
    rw [hs] at h
    simp only at h
    -- the table after the node is marked
    have hlive := slotSum_set (fun s => if liveSlot headword_node.deleted s then 1 else 0) t.table b
      (some { node with deleted := true }) hblen
    rw [hs, ← liveCount_eq_slotSum, ← liveCount_eq_slotSum] at hlive
    simp only [liveSlot, hd, Bool.not_false, ↓reduceIte, Bool.not_true, Bool.false_eq_true,
      Nat.add_zero] at hlive
    have hcap := (ladder_bounds _ htbl.ladder).2
    have hle : t.occupied ≤ t.capacity := by
      rw [htbl.occ, ← htbl.len]; exact liveCount_le _ _
    have hocc : usub t.occupied 1 = t.occupied - 1 :=
      usub_of_le (by omega) (by rw [htbl.occ]; omega)
    have htbl1 : TableOK headword_node.deleted
        { t with table := t.table.set b (some { node with deleted := true }),
                 occupied := usub t.occupied 1 } := by
      refine ⟨by simpa using htbl.len, htbl.ladder, ?_⟩
      simp only
      rw [hocc, htbl.occ]
      omega
    have hok1 : TrainedOK lm.ngram_size
        { t with table := t.table.set b (some { node with deleted := true }),
                 occupied := usub t.occupied 1 }
        (usub lm.unique_ngrams_count 1) := by
      refine ⟨htbl1, ?_, ?_⟩
      · intro b' nd hs' hdn
        simp only [slot_set] at hs'
        split at hs'
        · simp only [Option.some.injEq] at hs'
          subst hs'
          cases hdn
        · rename_i hne
          exact hnodes b' nd (fun hh => hne ⟨hh, hblen⟩) hs' hdn
      · simp only
        by_cases hn : lm.ngram_size = 1
        · simp only [hn, ↓reduceIte] at hu ⊢
          rw [hocc]
          apply usub_mod
          have e : t.occupied - 1 + 1 = t.occupied := by
            have := htbl.occ
            omega
          rw [hu, e]
        · simp only [hn, ↓reduceIte] at hu ⊢
          exact usub_mod _ _ hu
    have hcw := slotSum_set countWeight t.table b (some { node with deleted := true }) hblen
    rw [hs] at hcw
    have e1 : countWeight (some { node with deleted := true }) = 0 := rfl
    have e2 : countWeight (some node) = node.count := by
      simp only [countWeight]; rw [hd]; rfl
    rw [e1, e2] at hcw
    cases hr : (if (GetHeadTableLoad (some ({ t with
          table := t.table.set b (some { node with deleted := true }),
          occupied := usub t.occupied 1 } : head_table))).ltEighth
        then ResizeHeadTable ({ lm with
          main_table := some { t with table := t.table.set b (some { node with deleted := true }),
                                      occupied := usub t.occupied 1 },
          unique_ngrams_count := usub lm.unique_ngrams_count 1,
          tokens := usub lm.tokens node.count,
          ngrams_total := usub lm.ngrams_total node.count } : State)
        else some ({ lm with
          main_table := some { t with table := t.table.set b (some { node with deleted := true }),
                                      occupied := usub t.occupied 1 },
          unique_ngrams_count := usub lm.unique_ngrams_count 1,
          tokens := usub lm.tokens node.count,
          ngrams_total := usub lm.ngrams_total node.count } : State)) with
    | none => rw [hr] at h; simp at h
    | some lm2 =>
      rw [hr] at h
      simp only [Option.map_some', Option.some.injEq, Prod.mk.injEq] at h
      obtain ⟨rfl, rfl⟩ := h
      split at hr
      · obtain ⟨t2, rfl, hreh⟩ := ResizeHeadTable_spec hr (t := _) rfl htbl1
        refine ⟨rfl, ?_, rfl, ?_⟩
        · unfold StateOK
          exact hok1.rehashedMain hreh
        · intro t' ht'
          simp only [Option.some.injEq] at ht'
          subst ht'
          refine ⟨rfl, ?_⟩
          rw [hreh.sums _ liveWeight_count]
          simp only
          omega
      · simp only [Option.some.injEq] at hr
        subst hr
        refine ⟨rfl, ?_, rfl, ?_⟩
        · unfold StateOK
          exact hok1
        · intro t' ht'
          simp only [Option.some.injEq] at ht'
          subst ht'
          refine ⟨rfl, ?_⟩
          simp only
          omega


/-- Marking one live collocate node as deleted lowers the live count of the subtable by one. -/
theorem liveCount_mark {hw : headword_node} (hok : NodeOK hw) {b0 p : Nat}
    (hp : slot hw.collocates.table b0 = some p) (hpl : cdead hw.heap p = false) :
    liveCount (cdead (markDeleted hw.heap p)) hw.collocates.table + 1 =
      liveCount (cdead hw.heap) hw.collocates.table := by
  have hb0 := slot_some_lt hp
  have hv := hok.valid b0 p hp
  have := slotSum_congr_except
    (fun s => if liveSlot (cdead hw.heap) s then 1 else 0)
    (fun s => if liveSlot (cdead (markDeleted hw.heap p)) s then 1 else 0)
    hw.collocates.table b0 hb0 (by
      intro b _ hne
      cases hsb : slot hw.collocates.table b with
      | none => simp [liveSlot]
      | some q =>
        have hqp : q ≠ p := by
          intro hh
          subst hh
          exact hne (hok.inj b b0 q hsb hp)
        simp only [liveSlot, cdead_mark, hqp, false_and, ↓reduceIte])
  rw [hp] at this
  have h1 : (if liveSlot (cdead hw.heap) (some p) = true then 1 else 0) = 1 := by
    simp [liveSlot, hpl]
  have h2 : (if liveSlot (cdead (markDeleted hw.heap p)) (some p) = true then 1 else 0) = 0 := by
    simp [liveSlot, cdead_mark, hv]
  beta_reduce at this
  rw [h1, h2] at this
  rw [liveCount_eq_slotSum, liveCount_eq_slotSum]
  omega

theorem occWeight_dead (nd : headword_node) (h : nd.deleted = true) : occWeight (some nd) = 0 := by
  simp [occWeight, h]

theorem setNode_eq {lm : State} {t : head_table} (ht : lm.main_table = some t) (b : Nat)
    (hw : headword_node) :
    setNode lm b hw = { lm with main_table := some { t with table := t.table.set b (some hw) } } := by
  unfold setNode
  rw [ht]

end LM

namespace LM

/-- The three paths of `DeleteCollocate`. -/
theorem DeleteCollocate_cases {lm lm' : State} {b p : Nat} {r : Bool} {t : head_table}
    {hw : headword_node} (h : DeleteCollocate lm b p = some (r, lm'))
    (ht : lm.main_table = some t) (hs : slot t.table b = some hw) :
    (hw.collocates.occupied = 1 ∧
      DeleteHeadword
        { lm with main_table := some { t with table := t.table.set b (some
                    { hw with heap := markDeleted hw.heap p,
                              collocates := { hw.collocates with
                                occupied := usub hw.collocates.occupied 1 } }) },
                  tokens := usub lm.tokens (deref hw.heap p).count } b = some (r, lm')) ∨
    (hw.collocates.occupied ≠ 1 ∧ hw.frequencies.indexOf p < hw.frequencies.length ∧ r = true ∧
      ∃ hw2,
        (if (GetCollocateTableLoad ({ hw.collocates with
              occupied := usub hw.collocates.occupied 1 } : collocate_table)).ltEighth
          then ResizeCollocateTable
            { hw with frequencies := hw.frequencies.eraseIdx (hw.frequencies.indexOf p),
                      heap := markDeleted hw.heap p,
                      collocates := { hw.collocates with
                        occupied := usub hw.collocates.occupied 1 } }
          else some
            { hw with frequencies := hw.frequencies.eraseIdx (hw.frequencies.indexOf p),
                      heap := markDeleted hw.heap p,
                      collocates := { hw.collocates with
                        occupied := usub hw.collocates.occupied 1 } }) = some hw2 ∧
        lm' = { lm with main_table := some { t with table := t.table.set b (some hw2) },
                        unique_ngrams_count := usub lm.unique_ngrams_count 1,
                        tokens := usub lm.tokens (umul (deref hw.heap p).count 2),
                        ngrams_total := usub lm.ngrams_total (deref hw.heap p).count }) ∨
    (hw.collocates.occupied ≠ 1 ∧ ¬ hw.frequencies.indexOf p < hw.frequencies.length ∧
      r = false ∧ lm' = lm) := by
  unfold DeleteCollocate at h
  rw [ht] at h
  simp only at h
  rw [hs] at h
  simp only at h
  split at h
  · rename_i hone
    rw [setNode_eq ht] at h
    exact Or.inl ⟨hone, h⟩
  · rename_i hone
    split at h
    · rename_i hpos
      refine Or.inr (Or.inl ⟨hone, hpos, ?_⟩)
      cases hr : (if (GetCollocateTableLoad ({ hw.collocates with
            occupied := usub hw.collocates.occupied 1 } : collocate_table)).ltEighth
          then ResizeCollocateTable
            { hw with frequencies := hw.frequencies.eraseIdx (hw.frequencies.indexOf p),
                      heap := markDeleted hw.heap p,
                      collocates := { hw.collocates with
                        occupied := usub hw.collocates.occupied 1 } }
          else some
            { hw with frequencies := hw.frequencies.eraseIdx (hw.frequencies.indexOf p),
                      heap := markDeleted hw.heap p,
                      collocates := { hw.collocates with
                        occupied := usub hw.collocates.occupied 1 } }) with
      | none => rw [hr] at h; simp at h
      | some hw2 =>
        rw [hr] at h
        simp only [Option.map_some', Option.some.injEq, Prod.mk.injEq] at h
        obtain ⟨hr1, rfl⟩ := h
        rw [setNode_eq ht]
        exact ⟨hr1.symm, hw2, rfl, rfl⟩
    · rename_i hpos
      simp only [Option.some.injEq, Prod.mk.injEq] at h
      exact Or.inr (Or.inr ⟨hone, hpos, h.1.symm, h.2.symm⟩)

/-- The node that `DeleteCollocate` writes back when the collocate is not the last one. -/
theorem DeleteCollocate_node {hw hw2 : headword_node} {p b0 : Nat} (hnode : NodeOK hw)
    (hd : hw.deleted = false) (hp : slot hw.collocates.table b0 = some p)
    (hpl : cdead hw.heap p = false)
    (hr : (if (GetCollocateTableLoad ({ hw.collocates with
              occupied := usub hw.collocates.occupied 1 } : collocate_table)).ltEighth
          then ResizeCollocateTable
            { hw with frequencies := hw.frequencies.eraseIdx (hw.frequencies.indexOf p),
                      heap := markDeleted hw.heap p,
                      collocates := { hw.collocates with
                        occupied := usub hw.collocates.occupied 1 } }
          else some
            { hw with frequencies := hw.frequencies.eraseIdx (hw.frequencies.indexOf p),
                      heap := markDeleted hw.heap p,
                      collocates := { hw.collocates with
                        occupied := usub hw.collocates.occupied 1 } }) = some hw2) :
    NodeOK hw2 ∧ hw2.deleted = false ∧ hw2.count = hw.count ∧
      hw2.collocates.occupied + 1 = hw.collocates.occupied ∧
      hw2.heap = markDeleted hw.heap p := by
  have hmark := liveCount_mark hnode hp hpl
  have hocc1 : 1 ≤ hw.collocates.occupied := by
    rw [hnode.tbl.occ]; omega
  have hcap := (ladder_bounds _ hnode.tbl.ladder).2
  have hle : hw.collocates.occupied ≤ hw.collocates.capacity := by
    rw [hnode.tbl.occ, ← hnode.tbl.len]; exact liveCount_le _ _
  have hocc : usub hw.collocates.occupied 1 = hw.collocates.occupied - 1 :=
    usub_of_le (by omega) hocc1
  have hnode1 : NodeOK
      { hw with frequencies := hw.frequencies.eraseIdx (hw.frequencies.indexOf p),
                heap := markDeleted hw.heap p,
                collocates := { hw.collocates with
                  occupied := usub hw.collocates.occupied 1 } } := by
    refine ⟨?_, ?_, ?_⟩
    · constructor
      · dsimp only
        exact hnode.tbl.len
      · dsimp only
        exact hnode.tbl.ladder
      · dsimp only
        rw [hocc, hnode.tbl.occ]
        omega
    · intro b' q hq
      dsimp only at hq ⊢
      rw [length_mark]
      exact hnode.valid b' q hq
    · dsimp only
      exact hnode.inj
  split at hr
  · obtain ⟨nt, rfl, hreh⟩ := ResizeCollocateTable_spec hnode1 hr
    have ho := hreh.occupied hnode1.tbl
    dsimp only at ho
    refine ⟨hnode1.rehashedNode hreh, ?_, ?_, ?_, ?_⟩
    · dsimp only
      exact hd
    · dsimp only
    · dsimp only
      rw [ho, hocc]
      omega
    · dsimp only
  · simp only [Option.some.injEq] at hr
    subst hr
    refine ⟨hnode1, ?_, ?_, ?_, ?_⟩
    · dsimp only
      exact hd
    · dsimp only
    · dsimp only
      rw [hocc]
      omega
    · dsimp only

/-- `DeleteCollocate` of a live collocate node of a live headword node. -/
theorem DeleteCollocate_spec {lm lm' : State} {b p : Nat} {r : Bool}
    (h : DeleteCollocate lm b p = some (r, lm')) {t : head_table} {hw : headword_node}
    (ht : lm.main_table = some t) (hok : TrainedOK lm.ngram_size t lm.unique_ngrams_count)
    (hs : slot t.table b = some hw) (hd : hw.deleted = false) (hn : lm.ngram_size ≠ 1)
    {b0 : Nat} (hp : slot hw.collocates.table b0 = some p) (hpl : cdead hw.heap p = false) :
    StateOK lm' ∧ lm'.ngram_size = lm.ngram_size := by
  have hblen := slot_some_lt hs
  have hnode := hok.nodes b hw hs hd
  have hu := hok.unique
  rw [if_neg hn] at hu
  have e1 : occWeight (some hw) = hw.collocates.occupied := by
    simp only [occWeight]
    rw [hd]
    rfl
  rcases DeleteCollocate_cases h ht hs with
    ⟨hone, hdel⟩ | ⟨hone, hpos, _, hw2, hr, rfl⟩ | ⟨_, _, _, rfl⟩
  · have hsum := slotSum_set occWeight t.table b
      (some { hw with heap := markDeleted hw.heap p,
                      collocates := { hw.collocates with
                        occupied := usub hw.collocates.occupied 1 },
                      deleted := true }) hblen
    rw [hs, e1, occWeight_dead _ rfl] at hsum
    dsimp only at hsum
    obtain ⟨_, hst, hnn, _⟩ := DeleteHeadword_spec hdel
      (t := { t with table := t.table.set b (some
                { hw with heap := markDeleted hw.heap p,
                          collocates := { hw.collocates with
                            occupied := usub hw.collocates.occupied 1 } }) })
      rfl (hok.table.set_live hs hd hd) (slot_set_self _ _ _ hblen) hd
      (by
        intro b' nd hne hs' hdn
        rw [slot_set_ne _ _ _ _ hne] at hs'
        exact hok.nodes b' nd hs' hdn)
      (by
        dsimp only
        rw [if_neg hn, List.set_set, hu]
        unfold UMOD
        omega)
    exact ⟨hst, hnn⟩
  · obtain ⟨hn2, hd2, _, ho2, _⟩ := DeleteCollocate_node hnode hd hp hpl hr
    refine ⟨?_, rfl⟩
    unfold StateOK
    dsimp only
    refine ⟨hok.table.set_live hs hd hd2, ?_, ?_⟩
    · intro b' nd hs' hdn
      rw [slot_set] at hs'
      split at hs'
      · simp only [Option.some.injEq] at hs'
        subst hs'
        exact hn2
      · exact hok.nodes b' nd hs' hdn
    · rw [if_neg hn]
      have hsum := slotSum_set occWeight t.table b (some hw2) hblen
      have e2 : occWeight (some hw2) = hw2.collocates.occupied := by
        simp only [occWeight]
        rw [hd2]
        rfl
      rw [hs, e1, e2] at hsum
      have e3 : slotSum occWeight t.table =
          slotSum occWeight (t.table.set b (some hw2)) + 1 := by
        omega
      rw [hu, e3]
      dsimp only
      unfold usub UMOD
      omega
  · exact ⟨by unfold StateOK; rw [ht]; exact hok, rfl⟩

end LM

namespace LM

/-! ## The counters after ingestion -/

theorem ingestPairs_length (n : Nat) : ∀ (words ngram : List String) (count : Nat),
    count + words.length < UMOD →
    (ingestPairs n words ngram count).length =
      (count + words.length - (n - 1)) - (count - (n - 1)) := by
  intro words
  induction words with
  | nil =>
    intro ngram count _
    simp [ingestPairs]
  | cons word rest ih =>
    intro ngram count hlt
    simp only [List.length_cons] at hlt ⊢
    have hc : uadd count 1 = count + 1 := uadd_one_of_lt (by omega)
    unfold ingestPairs
    rw [hc]
    split_ifs with hge
    · cases hng : ngram ++ [stripPunct word] with
      | nil => simp at hng
      | cons headword ng =>
        simp only [List.length_cons]
        rw [ih ng (count + 1) (by omega)]
        omega
    · rw [ih _ (count + 1) (by omega)]
      omega

theorem ingest_counters : ∀ (words : List String) (lm : State) (ngram : List String)
    (count : Nat) (lm' : State) (t : head_table),
    ingest words lm ngram count = some (true, lm') → lm.main_table = some t →
    TrainedOK lm.ngram_size t lm.unique_ngrams_count →
    lm'.ngrams_total % UMOD =
      (lm.ngrams_total + (ingestPairs lm.ngram_size words ngram count).length) % UMOD ∧
    lm'.tokens % UMOD =
      (lm.tokens + (ingestPairs lm.ngram_size words ngram count).length) % UMOD := by
  intro words
  induction words with
  | nil =>
    intro lm ngram count lm' t h ht hok
    simp only [ingest, Option.some.injEq, Prod.mk.injEq] at h
    obtain ⟨_, rfl⟩ := h
    simp [ingestPairs]
  | cons word rest ih =>
    intro lm ngram count lm' t h ht hok
    rcases ingest_cons h with ⟨hlt, hrec⟩ | ⟨hge, headword, ng, lm1, st, lm2, heq, h1, h2, hfin⟩
    · have := ih lm _ _ lm' t hrec ht hok
      simp only [ingestPairs, hlt, ↓reduceIte]
      exact this
    · obtain ⟨t1, rfl, hr⟩ := growHead_spec ht hok.table h1
      have hok1 := hok.rehashedMain hr
      obtain ⟨t2, ht2, hok2, hn2, hcase, _⟩ := InsertNGram_spec h2 (t := t1) rfl hok1
      simp only at hn2 hok2
      have hpairs_eq : ingestPairs lm.ngram_size (word :: rest) ngram count =
          (headword, joinCollocate ng) :: ingestPairs lm.ngram_size rest ng (uadd count 1) := by
        simp only [ingestPairs, hge, ↓reduceIte, heq]
      rcases hfin with ⟨_, hr', _⟩ | ⟨hst, hrec⟩
      · cases hr'
      · have hok2' : TrainedOK lm2.ngram_size t2 lm2.unique_ngrams_count := by
          rw [hn2]; exact hok2
        obtain ⟨ha, hb⟩ := ih lm2 _ _ lm' t2 hrec ht2 hok2'
        rw [hn2] at ha hb
        rw [hpairs_eq, List.length_cons]
        rcases hcase with ⟨hm, _⟩ | ⟨_, htot, htk, _⟩
        · omega
        · simp only at htot htk
          rw [htot] at ha
          rw [htk] at hb
          unfold uadd UMOD at *
          omega

theorem reset_eq_init {lm : State} (hok : StateOK lm) :
    (if lm.main_table.isSome then Reset lm else lm) = init lm.ngram_size := by
  cases hm : lm.main_table with
  | some t => rfl
  | none =>
    unfold StateOK at hok
    rw [hm] at hok
    obtain ⟨h1, h2, h3⟩ := hok
    simp only [Option.isSome_none, Bool.false_eq_true, ↓reduceIte]
    cases lm
    simp only at hm h1 h2 h3
    subst hm h1 h2 h3
    rfl

theorem Train_unfold {lm lm' : State} {src : Source} {r : Bool} (hok : StateOK lm)
    (h : Train lm src = some (r, lm')) (hest : 0 ≤ src.estimate) :
    ∃ t0, InitHeadTable (src.estimate * 2).toNat = some t0 ∧
      ((src.words = none ∧ r = false ∧
          lm' = { init lm.ngram_size with main_table := some t0 }) ∨
       (∃ ws, src.words = some ws ∧
          ingestAndSort { init lm.ngram_size with main_table := some t0,
                                                  tokens := usub lm.ngram_size 1 } ws =
            some (r, lm'))) := by
  unfold Train at h
  rw [if_neg (by omega)] at h
  simp only [reset_eq_init hok] at h
  split_ifs at h
  cases hi : InitHeadTable (src.estimate * 2).toNat with
  | none =>
    rw [hi] at h
    simp at h
  | some t0 =>
    rw [hi] at h
    simp only [Option.some_bind] at h
    refine ⟨t0, rfl, ?_⟩
    cases hw : src.words with
    | none =>
      rw [hw] at h
      simp only [Option.some.injEq, Prod.mk.injEq] at h
      exact Or.inl ⟨rfl, h.1.symm, h.2.symm⟩
    | some ws =>
      rw [hw] at h
      exact Or.inr ⟨ws, rfl, h⟩

theorem ingestAndSort_cases {lm lm' : State} {words : List String} {r : Bool}
    (h : ingestAndSort lm words = some (r, lm')) :
    ∃ lm2, ingest words lm [] 0 = some (r, lm2) ∧
      (lm' = lm2 ∨ (r = true ∧ 1 < lm2.ngram_size ∧ lm' = SortCounts lm2)) := by
  unfold ingestAndSort at h
  cases hi : ingest words lm [] 0 with
  | none =>
    rw [hi] at h
    simp at h
  | some res =>
    obtain ⟨r1, lm1⟩ := res
    rw [hi] at h
    simp only [Option.map_some', Option.some.injEq] at h
    cases r1
    · simp only [Bool.false_eq_true, ↓reduceIte, Prod.mk.injEq] at h
      obtain ⟨rfl, rfl⟩ := h
      exact ⟨_, rfl, Or.inl rfl⟩
    · simp only [↓reduceIte, Prod.mk.injEq] at h
      obtain ⟨rfl, rfl⟩ := h
      refine ⟨_, rfl, ?_⟩
      split_ifs with hn
      · exact Or.inr ⟨rfl, hn, rfl⟩
      · exact Or.inl rfl

theorem toInt_congr {a b : Nat} (h : a % UMOD = b % UMOD) : toInt a = toInt b := by
  unfold toInt
  rw [h]

theorem StateOK.unique_mod {lm : State} (hok : StateOK lm) :
    lm.unique_ngrams_count % UMOD = liveEntries lm % UMOD := by
  unfold StateOK at hok
  unfold liveEntries
  cases hm : lm.main_table with
  | none =>
    rw [hm] at hok
    dsimp only
    rw [hok.1]
  | some t =>
    rw [hm] at hok
    dsimp only
    rw [hok.unique]
    by_cases hn : lm.ngram_size = 1
    · rw [if_pos hn, if_pos hn, hok.table.occ, Nat.mod_mod]
    · rw [if_neg hn, if_neg hn, Nat.mod_mod]
      congr 1
      unfold slotSum
      congr 1
      apply List.map_congr_left
      intro s hs
      cases s with
      | none => rfl
      | some node =>
        obtain ⟨b, _, hb⟩ := mem_slot hs
        unfold occWeight entryWeight
        dsimp only
        cases hd : node.deleted
        · simp only [Bool.false_eq_true, ↓reduceIte]
          exact (hok.nodes b node hb hd).tbl.occ
        · rfl

end LM

namespace LM

/-! ## `Remove` and histories keep the invariant -/

theorem FindCollocate_slot {hw : headword_node} {c : String} {p : Nat}
    (h : FindCollocate hw c = some p) :
    ∃ b0, slot hw.collocates.table b0 = some p ∧ cdead hw.heap p = false ∧
      ckey hw.heap p = c := by
  unfold FindCollocate at h
  split at h
  · rename_i b hb
    obtain ⟨x, hx, hd, hk⟩ := findSlot_sound hb
    rw [hx] at h
    simp only [Option.some.injEq] at h
    subst h
    exact ⟨b, hx, hd, hk⟩
  · simp at h

theorem Remove_spec {lm lm' : State} {k : String} {r : Bool}
    (h : Remove lm k = some (r, lm')) (hok : StateOK lm) :
    StateOK lm' ∧ lm'.ngram_size = lm.ngram_size := by
  have triv : ∀ r', some (r', lm) = some (r, lm') →
      StateOK lm' ∧ lm'.ngram_size = lm.ngram_size := by
    intro r' h'
    simp only [Option.some.injEq, Prod.mk.injEq] at h'
    obtain ⟨_, rfl⟩ := h'
    exact ⟨hok, rfl⟩
  unfold Remove at h
  cases ht : lm.main_table with
  | none =>
    rw [ht] at h
    exact triv _ h
  | some t =>
    rw [ht] at h
    dsimp only at h
    have hT : TrainedOK lm.ngram_size t lm.unique_ngrams_count := by
      unfold StateOK at hok
      rw [ht] at hok
      exact hok
    by_cases hlen : k.length > 0
    · rw [if_pos hlen] at h
      cases hs : SplitNGram k with
      | none =>
        rw [hs] at h
        simp at h
      | some grams =>
        rw [hs] at h
        simp only [Option.some_bind] at h
        by_cases hc : (lm.ngram_size = 1 ∧ grams.length > 1) ∨
            (lm.ngram_size > 1 ∧ grams.length = 1)
        · rw [if_pos hc] at h
          exact triv _ h
        · rw [if_neg hc] at h
          cases grams with
          | nil => simp at h
          | cons headword rest =>
            dsimp only at h
            cases hf : FindHeadword lm headword with
            | none =>
              rw [hf] at h
              exact triv _ h
            | some b =>
              rw [hf] at h
              dsimp only at h
              obtain ⟨t2, node, ht2, hsl, hd, _⟩ := FindHeadword_sound hf
              rw [ht] at ht2
              cases ht2
              by_cases hn : lm.ngram_size = 1
              · rw [if_pos hn] at h
                have hu := hT.unique
                rw [if_pos hn] at hu
                obtain ⟨_, hok', hn', _⟩ := DeleteHeadword_spec h ht hT.table hsl hd
                  (fun b' nd _ hs' hd' => hT.nodes b' nd hs' hd') (by rw [if_pos hn]; exact hu)
                exact ⟨hok', hn'⟩
              · rw [if_neg hn, hsl] at h
                dsimp only at h
                split at h
                · rename_i p hfc
                  obtain ⟨b0, hp, hpl, _⟩ := FindCollocate_slot hfc
                  exact DeleteCollocate_spec h ht hT hsl hd hn hp hpl
                · exact triv _ h
    · rw [if_neg hlen] at h
      exact triv _ h

theorem applyOp_StateOK {op : Op} {lm lm' : State} {r : Bool}
    (h : applyOp lm op = some (r, lm')) (hs : Op.sized op = true) (hok : StateOK lm) :
    StateOK lm' ∧ lm'.ngram_size = lm.ngram_size := by
  cases op with
  | train src =>
    have h' : Train lm src = some (r, lm') := h
    obtain ⟨h1, h2, _⟩ := Train_spec h' hok
    exact ⟨h1, h2⟩
  | grow src =>
    have h' : Grow lm src = some (r, lm') := h
    have hsz : src.estimate ≤ MAX_ESTIMATE := by
      simpa [Op.sized] using hs
    obtain ⟨h1, h2, _⟩ := Grow_spec h' hok hsz
    exact ⟨h1, h2⟩
  | remove k =>
    have h' : Remove lm k = some (r, lm') := h
    exact Remove_spec h' hok

theorem run_StateOK : ∀ (ops : List Op) (lm lm' : State), ops.all Op.sized = true →
    StateOK lm → run lm ops = some lm' → StateOK lm' ∧ lm'.ngram_size = lm.ngram_size := by
  intro ops
  induction ops with
  | nil =>
    intro lm lm' _ hok h
    simp only [run, Option.some.injEq] at h
    subst h
    exact ⟨hok, rfl⟩
  | cons op ops ih =>
    intro lm lm' hs hok h
    simp only [List.all_cons, Bool.and_eq_true] at hs
    unfold run at h
    cases ha : applyOp lm op with
    | none =>
      rw [ha] at h
      simp at h
    | some res =>
      obtain ⟨r, lm1⟩ := res
      rw [ha] at h
      simp only [Option.some_bind] at h
      obtain ⟨h1, h2⟩ := applyOp_StateOK ha hs.1 hok
      obtain ⟨h3, h4⟩ := ih lm1 lm' hs.2 h1 h
      exact ⟨h3, h4.trans h2⟩

end LM

namespace LM

/-! ## Words of a key -/

theorem isWord_iff {w : String} :
    isWord w = true ↔ w.data ≠ [] ∧ ∀ c ∈ w.data, isspace c = false := by
  unfold isWord
  simp only [Bool.and_eq_true, Bool.not_eq_true', List.isEmpty_eq_false, List.all_eq_true,
    ne_eq]

theorem scanWords_word : ∀ (w rest cur : List Char), (∀ c ∈ w, isspace c = false) →
    scanWords (w ++ rest) cur = scanWords rest (w.reverse ++ cur) := by
  intro w
  induction w with
  | nil => intro rest cur _; rfl
  | cons c w ih =>
    intro rest cur h
    have hc : isspace c = false := h c (List.mem_cons_self _ _)
    rw [List.cons_append, scanWords, if_neg (by simp [hc]),
      ih rest (c :: cur) (fun x hx => h x (List.mem_cons_of_mem _ hx))]
    simp

theorem scanWords_space (rest cur : List Char) (h : cur ≠ []) :
    scanWords (' ' :: rest) cur = String.mk cur.reverse :: scanWords rest [] := by
  have hs : isspace ' ' = true := by decide
  have hc : cur.isEmpty = false := by
    cases cur with
    | nil => exact absurd rfl h
    | cons _ _ => rfl
  simp only [scanWords, hs, ↓reduceIte, hc, Bool.false_eq_true]

/-- Scan of a word followed by more words, each after one space. -/
theorem scanWords_join : ∀ (ws : List String) (w : String), isWord w = true →
    (∀ x ∈ ws, isWord x = true) →
    scanWords (w.data ++ ws.flatMap fun x => ' ' :: x.data) [] = w :: ws := by
  intro ws
  induction ws with
  | nil =>
    intro w hw _
    obtain ⟨hne, hsp⟩ := isWord_iff.mp hw
    have := scanWords_word w.data [] [] hsp
    simp only [List.flatMap_nil, List.append_nil] at this ⊢
    rw [this]
    have hc : w.data.reverse.isEmpty = false := by
      cases hd : w.data with
      | nil => exact absurd hd hne
      | cons _ _ => simp
    simp only [scanWords, hc, Bool.false_eq_true, ↓reduceIte, List.reverse_reverse]
  | cons x ws ih =>
    intro w hw hws
    obtain ⟨hne, hsp⟩ := isWord_iff.mp hw
    simp only [List.flatMap_cons, List.cons_append]
    rw [scanWords_word w.data _ [] hsp, List.append_nil,
      scanWords_space _ _ (by simpa using hne), List.reverse_reverse]
    rw [ih x (hws x (List.mem_cons_self _ _)) (fun y hy => hws y (List.mem_cons_of_mem _ hy))]

theorem joinSp_data : ∀ (ws : List String) (w : String),
    (ws.foldl (fun acc x => acc ++ " " ++ x) w).data =
      w.data ++ ws.flatMap fun x => ' ' :: x.data := by
  intro ws
  induction ws with
  | nil => intro w; simp
  | cons x ws ih =>
    intro w
    simp only [List.foldl_cons, List.flatMap_cons]
    rw [ih]
    simp [String.data_append]

/-- The words of a join of words by single spaces are those words. -/
theorem splitWords_joinSp (w : String) (ws : List String) (hw : isWord w = true)
    (hws : ∀ x ∈ ws, isWord x = true) :
    splitWords (ws.foldl (fun acc x => acc ++ " " ++ x) w) = w :: ws := by
  unfold splitWords
  rw [joinSp_data]
  exact scanWords_join ws w hw hws

theorem scanWords_isWord : ∀ (cs cur : List Char), (∀ c ∈ cur, isspace c = false) →
    ∀ w ∈ scanWords cs cur, isWord w = true := by
  intro cs
  induction cs with
  | nil =>
    intro cur hcur w hw
    unfold scanWords at hw
    split_ifs at hw with he
    · simp at hw
    · simp only [List.mem_singleton] at hw
      subst hw
      rw [isWord_iff]
      refine ⟨?_, ?_⟩
      · simpa using he
      · intro c hc
        exact hcur c (by simpa using hc)
  | cons c cs ih =>
    intro cur hcur w hw
    unfold scanWords at hw
    split_ifs at hw with hs he
    · exact ih [] (by simp) w hw
    · rcases List.mem_cons.mp hw with h | h
      · subst h
        rw [isWord_iff]
        refine ⟨?_, ?_⟩
        · simpa using he
        · intro c' hc'
          exact hcur c' (by simpa using hc')
      · exact ih [] (by simp) w h
    · apply ih (c :: cur) _ w hw
      intro c' hc'
      rcases List.mem_cons.mp hc' with h | h
      · subst h
        simpa using hs
      · exact hcur c' h

theorem splitWords_isWord (k : String) : ∀ w ∈ splitWords k, isWord w = true :=
  scanWords_isWord k.data [] (by simp)

theorem joinCollocate_cons (w : String) (ws : List String) (hw : isWord w = true) :
    joinCollocate (w :: ws) = ws.foldl (fun acc x => acc ++ " " ++ x) w := by
  have hne : w.length ≠ 0 := by
    have := (isWord_iff.mp hw).1
    simp only [String.length, ne_eq, List.length_eq_zero]
    exact this
  have key : ∀ (l : List String) (acc : String), acc.length ≠ 0 →
      l.foldl (fun collocate x => if collocate.length = 0 then x else collocate ++ " " ++ x) acc =
        l.foldl (fun acc x => acc ++ " " ++ x) acc := by
    intro l
    induction l with
    | nil => intro acc _; rfl
    | cons x l ih =>
      intro acc hacc
      simp only [List.foldl_cons, if_neg hacc]
      apply ih
      simp only [String.length_append, ne_eq]
      omega
  unfold joinCollocate
  simp only [List.foldl_cons, String.length, String.data, List.length_nil, ↓reduceIte]
  exact key ws w hne

theorem splitWords_joinCollocate (ws : List String) (hws : ∀ x ∈ ws, isWord x = true) :
    splitWords (joinCollocate ws) = ws := by
  cases ws with
  | nil => rfl
  | cons w ws =>
    rw [joinCollocate_cons w ws (hws w (List.mem_cons_self _ _))]
    exact splitWords_joinSp w ws (hws w (List.mem_cons_self _ _))
      (fun x hx => hws x (List.mem_cons_of_mem _ hx))

/-! ## The pairs of a stream are its windows -/

theorem windows_short {α : Type} (n : Nat) (l : List α) (h : l.length < n) :
    windows n l = [] := by
  cases l with
  | nil => rfl
  | cons x xs =>
    unfold windows
    rw [if_neg (by omega)]

theorem windows_mem {α : Type} (n : Nat) : ∀ (l : List α) (w : List α), w ∈ windows n l →
    w.length = n ∧ ∀ x ∈ w, x ∈ l := by
  intro l
  induction l with
  | nil => intro w hw; simp [windows] at hw
  | cons x xs ih =>
    intro w hw
    unfold windows at hw
    split_ifs at hw with hn
    · rcases List.mem_cons.mp hw with h | h
      · subst h
        refine ⟨by simp only [List.length_take]; omega, ?_⟩
        intro y hy
        exact List.mem_of_mem_take hy
      · obtain ⟨h1, h2⟩ := ih w h
        exact ⟨h1, fun y hy => List.mem_cons_of_mem _ (h2 y hy)⟩
    · simp at hw

theorem ingestPairs_windows (n : Nat) (hn : 1 ≤ n) : ∀ (words ngram : List String) (count : Nat),
    count + words.length < UMOD →
    ((count < n - 1 ∧ ngram.length = count) ∨ (n - 1 ≤ count ∧ ngram.length = n - 1)) →
    ingestPairs n words ngram count =
      (windows n (ngram ++ words.map stripPunct)).map pairOf := by
  intro words
  induction words with
  | nil =>
    intro ngram count _ hJ
    simp only [ingestPairs, List.map_nil, List.append_nil]
    rw [windows_short n ngram (by omega)]
    rfl
  | cons tok rest ih =>
    intro ngram count hlt hJ
    simp only [List.length_cons] at hlt
    have hc : uadd count 1 = count + 1 := uadd_one_of_lt (by omega)
    unfold ingestPairs
    rw [hc]
    split_ifs with hge
    · have hlen : ngram.length = n - 1 := by omega
      cases hng : ngram ++ [stripPunct tok] with
      | nil => simp at hng
      | cons headword ng =>
        have hl : (headword :: ng).length = n := by
          rw [← hng]
          simp only [List.length_append, List.length_singleton]
          omega
        have e1 : ngram ++ (tok :: rest).map stripPunct =
            headword :: (ng ++ rest.map stripPunct) := by
          rw [List.map_cons, ← List.cons_append, ← hng]
          simp
        dsimp only
        rw [e1, windows, if_pos (by simp only [List.length_cons, List.length_append] at hl ⊢; omega)]
        rw [List.map_cons, ih ng (count + 1) (by omega)
          (Or.inr ⟨by omega, by simp only [List.length_cons] at hl; omega⟩)]
        congr 1
        have : (headword :: (ng ++ rest.map stripPunct)).take n = headword :: ng := by
          rw [← List.cons_append]
          exact List.take_left' hl
        rw [this]
        rfl
    · rw [ih (ngram ++ [stripPunct tok]) (count + 1) (by omega)
        (by simp only [List.length_append, List.length_singleton]; omega)]
      simp

theorem clean_pairs {n : Nat} (hn : 1 ≤ n) {src : Source} (hc : Source.clean src = true)
    {ws : List String} (hw : src.words = some ws) :
    ∀ pr ∈ ingestPairs n ws [] 0, ∃ w, pr = pairOf w ∧ w.length = n ∧
      ∀ x ∈ w, isWord x = true := by
  unfold Source.clean at hc
  rw [hw] at hc
  simp only [Bool.and_eq_true, List.all_eq_true, decide_eq_true_eq] at hc
  intro pr hpr
  have hJ : (0 < n - 1 ∧ ([] : List String).length = 0) ∨
      (n - 1 ≤ 0 ∧ ([] : List String).length = n - 1) := by
    rcases Nat.lt_or_ge 0 (n - 1) with h | h
    · exact Or.inl ⟨h, rfl⟩
    · exact Or.inr ⟨h, by simp only [List.length_nil]; omega⟩
  rw [ingestPairs_windows n hn ws [] 0 (by unfold UMOD; omega) hJ] at hpr
  obtain ⟨w, hwin, rfl⟩ := List.mem_map.mp hpr
  obtain ⟨hl, hmem⟩ := windows_mem n _ w hwin
  refine ⟨w, rfl, hl, ?_⟩
  intro x hx
  have := hmem x hx
  simp only [List.nil_append, List.mem_map] at this
  obtain ⟨t, ht, rfl⟩ := this
  exact hc.1 t ht

theorem clean_collocates {n : Nat} (hn : 1 ≤ n) {src : Source} (hc : Source.clean src = true)
    {ws : List String} (hw : src.words = some ws) :
    ∀ pr ∈ ingestPairs n ws [] 0, (splitWords pr.2).length = n - 1 := by
  intro pr hpr
  obtain ⟨w, rfl, hl, hword⟩ := clean_pairs hn hc hw pr hpr
  unfold pairOf
  dsimp only
  rw [splitWords_joinCollocate w.tail (fun x hx => hword x (List.mem_of_mem_tail hx))]
  simp only [List.length_tail]
  omega

end LM

namespace LM

/-! ## Lookup in a table without tombstones -/

theorem add_mod_inj {cap s i j : Nat} (hi : i < cap) (hj : j < cap)
    (h : (s + i) % cap = (s + j) % cap) : i = j := by
  have h1 : Nat.ModEq cap (s + i) (s + j) := h
  have h2 : Nat.ModEq cap i j := Nat.ModEq.add_left_cancel' s h1
  exact Nat.ModEq.eq_of_lt_of_lt h2 hi hj

/-- A stored key is found. -/
theorem Clean.probe_hit {α : Type} {keyOf : α → String} {dead : α → Bool} {t : hash_table α}
    (hc : Clean keyOf dead t) (hok : TableOK dead t) {b : Nat} {x : α}
    (hs : slot t.table b = some x) :
    probe (slotFree dead t.table) (slotHit keyOf t.table (keyOf x)) t.capacity t.capacity
      (FNV1a (keyOf x) t.capacity) = Probe.hit b := by
  obtain ⟨j, hj, hb, hpath⟩ := hc.chain b x hs
  have hstart : FNV1a (keyOf x) t.capacity < t.capacity := FNV1a_lt _ hok.pos
  have hpassed : Passed (slotFree dead t.table) (slotHit keyOf t.table (keyOf x)) t.capacity
      (FNV1a (keyOf x) t.capacity) j := by
    intro i hi
    cases hy : slot t.table ((FNV1a (keyOf x) t.capacity + i) % t.capacity) with
    | none => exact absurd hy (hpath i hi)
    | some y =>
      refine ⟨?_, ?_⟩
      · simp only [slotFree, hy]
        exact hc.live _ y hy
      · simp only [slotHit, hy]
        by_contra hne
        have hk : keyOf y = keyOf x := by simpa using hne
        have := hc.keys _ _ y x hy hs hk
        rw [← hb] at this
        have := add_mod_inj (by omega) hj this
        omega
  have h := probe_eq_hit t.capacity (FNV1a (keyOf x) t.capacity) j hstart hj hpassed
    (by rw [hb]; simp only [slotFree, hs]; exact hc.live b x hs)
    (by rw [hb]; simp only [slotHit, hs, beq_self_eq_true])
  rw [hb] at h
  exact h

/-- What a probe that ends at a free bucket says about a table without tombstones. -/
theorem Clean.probe_free {α : Type} {keyOf : α → String} {dead : α → Bool} {t : hash_table α}
    (hc : Clean keyOf dead t) (hok : TableOK dead t) {k : String} {b : Nat}
    (h : probe (slotFree dead t.table) (slotHit keyOf t.table k) t.capacity t.capacity
      (FNV1a k t.capacity) = Probe.free b) :
    slot t.table b = none ∧ b < t.capacity ∧ (∀ b' x, slot t.table b' = some x → keyOf x ≠ k) ∧
    ∃ j, j < t.capacity ∧ (FNV1a k t.capacity + j) % t.capacity = b ∧
      ∀ i, i < j → slot t.table ((FNV1a k t.capacity + i) % t.capacity) ≠ none := by
  have hstart : FNV1a k t.capacity < t.capacity := FNV1a_lt _ hok.pos
  have hfresh : ∀ b' x, slot t.table b' = some x → keyOf x ≠ k := by
    intro b' x hs hk
    have := hc.probe_hit hok hs
    rw [hk, h] at this
    cases this
  rcases probe_cases (slotFree dead t.table) (slotHit keyOf t.table k) t.capacity t.capacity
      (FNV1a k t.capacity) hstart with ⟨j, hj, hp, hf, he⟩ | ⟨j, _, _, _, _, he⟩ | ⟨_, he⟩
  · rw [he] at h
    simp only [Probe.free.injEq] at h
    refine ⟨?_, ?_, hfresh, j, hj, h, ?_⟩
    · rw [h] at hf
      unfold slotFree at hf
      cases hy : slot t.table b with
      | none => rfl
      | some y =>
        rw [hy] at hf
        simp only at hf
        rw [hc.live b y hy] at hf
        cases hf
    · rw [← h]
      exact Nat.mod_lt _ hok.pos
    · intro i hi hnone
      have := (hp i hi).1
      unfold slotFree at this
      rw [hnone] at this
      cases this
  · rw [he] at h
    cases h
  · rw [he] at h
    cases h

theorem slot_set_ne_none {α : Type} (tbl : List (Option α)) (b p : Nat) (x : α)
    (h : slot tbl p ≠ none) : slot (tbl.set b (some x)) p ≠ none := by
  rw [slot_set]
  split_ifs
  · simp
  · exact h

/-- Insertion of a fresh key at the bucket where its probe ended. -/
theorem Clean.insert {α : Type} {keyOf : α → String} {dead : α → Bool} {t : hash_table α}
    (hc : Clean keyOf dead t) {b : Nat} {x : α} (o : Nat) (hd : dead x = false)
    (hnone : slot t.table b = none)
    (hfresh : ∀ b' y, slot t.table b' = some y → keyOf y ≠ keyOf x)
    (hchain : ∃ j, j < t.capacity ∧ (FNV1a (keyOf x) t.capacity + j) % t.capacity = b ∧
      ∀ i, i < j → slot t.table ((FNV1a (keyOf x) t.capacity + i) % t.capacity) ≠ none) :
    Clean keyOf dead { t with table := t.table.set b (some x), occupied := o } := by
  refine ⟨?_, ?_, ?_⟩
  · intro b1 y hy
    dsimp only at hy
    rw [slot_set] at hy
    split_ifs at hy
    · simp only [Option.some.injEq] at hy
      subst hy
      exact hd
    · exact hc.live b1 y hy
  · intro b1 b2 y1 y2 h1 h2 hk
    dsimp only at h1 h2
    rw [slot_set] at h1 h2
    split_ifs at h1 with c1 <;> split_ifs at h2 with c2
    · omega
    · simp only [Option.some.injEq] at h1
      subst h1
      exact absurd hk.symm (hfresh b2 y2 h2)
    · simp only [Option.some.injEq] at h2
      subst h2
      exact absurd hk (hfresh b1 y1 h1)
    · exact hc.keys b1 b2 y1 y2 h1 h2 hk
  · intro b1 y hy
    dsimp only at hy ⊢
    rw [slot_set] at hy
    split_ifs at hy with c1
    · simp only [Option.some.injEq] at hy
      subst hy
      obtain ⟨j, hj, hb, hpath⟩ := hchain
      exact ⟨j, hj, by rw [hb, c1.1], fun i hi => slot_set_ne_none _ _ _ _ (hpath i hi)⟩
    · obtain ⟨j, hj, hb, hpath⟩ := hc.chain b1 y hy
      exact ⟨j, hj, hb, fun i hi => slot_set_ne_none _ _ _ _ (hpath i hi)⟩

/-- Replacement of a node by a live node with the same key. -/
theorem Clean.replace {α : Type} {keyOf : α → String} {dead : α → Bool} {t : hash_table α}
    (hc : Clean keyOf dead t) {b : Nat} {x x' : α} (hs : slot t.table b = some x)
    (hk : keyOf x' = keyOf x) (hd : dead x' = false) :
    Clean keyOf dead { t with table := t.table.set b (some x') } := by
  have hblen := slot_some_lt hs
  refine ⟨?_, ?_, ?_⟩
  · intro b1 y hy
    dsimp only at hy
    rw [slot_set] at hy
    split_ifs at hy
    · simp only [Option.some.injEq] at hy
      subst hy
      exact hd
    · exact hc.live b1 y hy
  · intro b1 b2 y1 y2 h1 h2 hkk
    dsimp only at h1 h2
    rw [slot_set] at h1 h2
    split_ifs at h1 with c1 <;> split_ifs at h2 with c2
    · omega
    · simp only [Option.some.injEq] at h1
      subst h1
      rw [hk] at hkk
      have := hc.keys b b2 x y2 hs h2 hkk
      omega
    · simp only [Option.some.injEq] at h2
      subst h2
      rw [hk] at hkk
      have := hc.keys b1 b y1 x h1 hs hkk
      omega
    · exact hc.keys b1 b2 y1 y2 h1 h2 hkk
  · intro b1 y hy
    dsimp only at hy ⊢
    rw [slot_set] at hy
    split_ifs at hy with c1
    · simp only [Option.some.injEq] at hy
      subst hy
      obtain ⟨j, hj, hb, hpath⟩ := hc.chain b x hs
      rw [hk]
      exact ⟨j, hj, by rw [hb, c1.1], fun i hi => slot_set_ne_none _ _ _ _ (hpath i hi)⟩
    · obtain ⟨j, hj, hb, hpath⟩ := hc.chain b1 y hy
      exact ⟨j, hj, hb, fun i hi => slot_set_ne_none _ _ _ _ (hpath i hi)⟩

/-- The key and liveness functions may change outside the nodes of the table. -/
theorem Clean.congr_keys {α : Type} {keyOf keyOf' : α → String} {dead dead' : α → Bool}
    {t : hash_table α} (hc : Clean keyOf dead t)
    (h : ∀ b x, slot t.table b = some x → keyOf' x = keyOf x ∧ dead' x = dead x) :
    Clean keyOf' dead' t := by
  refine ⟨?_, ?_, ?_⟩
  · intro b x hs
    rw [(h b x hs).2]
    exact hc.live b x hs
  · intro b b' x x' hs hs' hk
    rw [(h b x hs).1, (h b' x' hs').1] at hk
    exact hc.keys b b' x x' hs hs' hk
  · intro b x hs
    rw [(h b x hs).1]
    exact hc.chain b x hs

theorem Clean.empty {α : Type} (keyOf : α → String) (dead : α → Bool) {t : hash_table α}
    (h : ∀ b, slot t.table b = none) : Clean keyOf dead t := by
  refine ⟨?_, ?_, ?_⟩
  · intro b x hs
    rw [h b] at hs
    cases hs
  · intro b _ x _ hs
    rw [h b] at hs
    cases hs
  · intro b x hs
    rw [h b] at hs
    cases hs

/-- The transfer loop builds a table without tombstones from the live, distinct nodes of the old
table. -/
theorem transfer_clean {α : Type} (keyOf : α → String) (dead : α → Bool) (old nt0 : hash_table α)
    (hold : old.table.length = old.capacity) (hnew : TableOK dead nt0)
    (hempty : ∀ b, slot nt0.table b = none) (hroom : liveCount dead old.table < nt0.capacity)
    (hlive : ∀ b x, slot old.table b = some x → dead x = false)
    (hkeys : ∀ b b' x x', slot old.table b = some x → slot old.table b' = some x' →
      keyOf x = keyOf x' → b = b') :
    Clean keyOf dead (transfer keyOf dead old nt0) := by
  have hinit : TransferInv dead old nt0.capacity 0 nt0 := by
    refine ⟨hnew, rfl, ?_, ?_, ?_, ?_⟩
    · intro g hg
      have : slotSum g nt0.table = 0 := by
        unfold slotSum
        apply List.sum_eq_zero
        intro n hn
        obtain ⟨s, hs, rfl⟩ := List.mem_map.mp hn
        obtain ⟨b, _, hb⟩ := mem_slot hs
        rw [← hb, hempty b]
        exact hg.1
      rw [this]
      simp [slotSum]
    · intro b x hx
      rw [hempty b] at hx
      cases hx
    · intro _ b b' x hx
      rw [hempty b] at hx
      cases hx
    · intro b' x hb'
      omega
  have key := transfer_induction keyOf dead old nt0
    (fun i nt => TransferInv dead old nt0.capacity i nt ∧ Clean keyOf dead nt)
    ⟨hinit, Clean.empty keyOf dead hempty⟩
    (by
      intro i nt hi hinv
      refine ⟨TransferInv_step keyOf dead old nt0.capacity hold hroom i nt hi hinv.1, ?_⟩
      obtain ⟨hinv, hclean⟩ := hinv
      cases hs : slot old.table i with
      | none => exact hclean
      | some x =>
        dsimp only
        have hilen : i < old.table.length := by rw [hold]; exact hi
        have hroom' : liveCount dead nt.table < nt.capacity := by
          rw [liveCount_eq_slotSum, hinv.sums _ (liveWeight_indicator dead),
            ← liveCount_eq_slotSum, hinv.cap]
          exact Nat.lt_of_le_of_lt (liveCount_take_le dead _ _) hroom
        obtain ⟨j, hj, hp, hf, he⟩ := insertNode_room keyOf dead hinv.ok hroom' x
        rw [he]
        dsimp only
        apply Clean.insert hclean _ (hlive i x hs)
        · unfold slotFree at hf
          cases hy : slot nt.table ((FNV1a (keyOf x) nt.capacity + j) % nt.capacity) with
          | none => rfl
          | some y =>
            rw [hy] at hf
            dsimp only at hf
            rw [hclean.live _ y hy] at hf
            cases hf
        · intro b' y hy hk
          obtain ⟨b'', hb'', hy'⟩ := hinv.from_old b' y hy
          have := hkeys b'' i y x hy' hs hk
          omega
        · refine ⟨j, hj, rfl, ?_⟩
          intro i' hi' hnone
          have := (hp i' hi').1
          unfold slotFree at this
          rw [hnone] at this
          cases this)
  exact key.2

theorem resize_cases {α : Type} (keyOf : α → String) (dead : α → Bool) {t t' : hash_table α}
    (hok : TableOK dead t) (h : resize keyOf dead t = some t') :
    (t' = t ∧ (tableLoad t).ltHalf = true) ∨ ∃ nt0, TableOK dead nt0 ∧
      (∀ b, slot nt0.table b = none) ∧ t.occupied < nt0.capacity ∧
      t' = transfer keyOf dead t nt0 ∧ t'.capacity = nt0.capacity := by
  have hcap := ladder_bounds _ hok.ladder
  have hocc : t.occupied ≤ t.capacity := by
    rw [hok.occ, ← hok.len]; exact liveCount_le _ _
  unfold resize at h
  cases hr : resizeRequest (tableLoad t) t.capacity with
  | none =>
    rw [hr] at h
    simp only [Option.some.injEq] at h
    refine Or.inl ⟨h.symm, ?_⟩
    unfold resizeRequest at hr
    split_ifs at hr with h1 h2
    exact h2
  | some c =>
    rw [hr] at h
    simp only at h
    cases hi : (InitTable c : Option (hash_table α)) with
    | none => rw [hi] at h; simp at h
    | some nt0 =>
      rw [hi] at h
      simp only [Option.map_some', Option.some.injEq] at h
      obtain ⟨hnew, hempty⟩ := InitTable_ok dead hi
      obtain ⟨hp, _, _⟩ := InitTable_spec hi
      have hroom : t.occupied < nt0.capacity := by
        unfold resizeRequest at hr
        split at hr
        · rename_i hcond
          simp only [Bool.and_eq_true, decide_eq_true_eq] at hcond
          simp only [Option.some.injEq] at hr
          subst hr
          have h4 := ltEighth_bound t (by omega) hcap.2 hcond.1
          have := ladder_shrink _ hok.ladder (by have := hcond.2; unfold MIN_SIZE at this; omega)
            nt0.capacity (by simpa using hp)
          omega
        · split at hr
          · cases hr
          · simp only [Option.some.injEq] at hr
            subst hr
            have := ladder_grow _ hok.ladder nt0.capacity (by simpa using hp)
            omega
      refine Or.inr ⟨nt0, hnew, hempty, hroom, h.symm, ?_⟩
      rw [← h]
      exact (transfer_spec keyOf dead t nt0 hok.len hnew hempty
        (by rw [← hok.occ]; exact hroom)).cap

/-- A resize of a table without tombstones gives a table without tombstones. -/
theorem resize_clean {α : Type} (keyOf : α → String) (dead : α → Bool) {t t' : hash_table α}
    (hok : TableOK dead t) (hc : Clean keyOf dead t) (h : resize keyOf dead t = some t') :
    Clean keyOf dead t' := by
  rcases resize_cases keyOf dead hok h with ⟨rfl, _⟩ | ⟨nt0, hnew, hempty, hroom, rfl, _⟩
  · exact hc
  · exact transfer_clean keyOf dead t nt0 hok.len hnew hempty (by rw [← hok.occ]; exact hroom)
      hc.live hc.keys

end LM

namespace LM

/-! ## Insertion of a collocate into a node without tombstones -/

theorem uadd_lt (a b : Nat) : uadd a b < UMOD := by
  unfold uadd
  exact Nat.mod_lt _ (by unfold UMOD; omega)

theorem deref_default (heap : List collocate_node) (p : Nat) (hp : heap.length ≤ p) :
    (deref heap p).count = 0 := by
  unfold deref
  rw [List.getD_eq_default _ _ hp]

theorem sum_set_nat : ∀ (l : List Nat) (i a : Nat) (hi : i < l.length),
    (l.set i a).sum + l[i] = l.sum + a := by
  intro l
  induction l with
  | nil => intro i a hi; simp at hi
  | cons x xs ih =>
    intro i a hi
    cases i with
    | zero =>
      simp only [List.set_cons_zero, List.sum_cons, List.getElem_cons_zero]
      omega
    | succ j =>
      simp only [List.set_cons_succ, List.sum_cons, List.getElem_cons_succ]
      have := ih j a (by simpa using hi)
      omega

theorem heapSum_append (hw hw' : headword_node) (c : String)
    (h : hw'.heap = hw.heap ++ [InitCollocate c]) :
    heapSum hw' % UMOD = (heapSum hw + 1) % UMOD := by
  unfold heapSum
  rw [h, List.map_append, List.sum_append]
  rfl

theorem heapSum_bump (hw hw' : headword_node) (p : Nat) (h : hw'.heap = bumpCount hw.heap p)
    (hp : p < hw.heap.length) :
    heapSum hw' % UMOD = (heapSum hw + 1) % UMOD := by
  unfold heapSum
  rw [h]
  unfold bumpCount
  rw [List.map_set]
  have h1 := sum_set_nat (hw.heap.map collocate_node.count) p
    (uadd (deref hw.heap p).count 1) (by rw [List.length_map]; exact hp)
  rw [List.getElem_map] at h1
  rw [deref_eq_getElem _ _ hp] at h1 ⊢
  dsimp only at h1 ⊢
  unfold uadd UMOD at *
  omega

/-- The three outcomes of `placeCollocate`. -/
theorem placeCollocate_cases {hw : headword_node} (c : String) {st : Int} {hw' : headword_node}
    {created : Bool} (h : placeCollocate hw c = (st, hw', created)) :
    (∃ b, probe (slotFree (cdead hw.heap) hw.collocates.table)
        (slotHit (ckey hw.heap) hw.collocates.table c) hw.collocates.capacity
        hw.collocates.capacity (FNV1a c hw.collocates.capacity) = Probe.free b ∧
      st = (b : Int) ∧ created = true ∧
      hw' = { hw with heap := hw.heap ++ [InitCollocate c],
                      collocates := { hw.collocates with
                        table := hw.collocates.table.set b (some hw.heap.length),
                        occupied := uadd hw.collocates.occupied 1 },
                      frequencies := hw.frequencies ++ [hw.heap.length] }) ∨
    (∃ b p, probe (slotFree (cdead hw.heap) hw.collocates.table)
        (slotHit (ckey hw.heap) hw.collocates.table c) hw.collocates.capacity
        hw.collocates.capacity (FNV1a c hw.collocates.capacity) = Probe.hit b ∧
      slot hw.collocates.table b = some p ∧ ckey hw.heap p = c ∧
      st = (b : Int) ∧ created = false ∧ hw' = { hw with heap := bumpCount hw.heap p }) ∨
    (probe (slotFree (cdead hw.heap) hw.collocates.table)
        (slotHit (ckey hw.heap) hw.collocates.table c) hw.collocates.capacity
        hw.collocates.capacity (FNV1a c hw.collocates.capacity) = Probe.full ∧
      st = -1 ∧ created = false ∧ hw' = hw) := by
  unfold placeCollocate at h
  dsimp only at h
  split at h
  · rename_i b hp
    simp only [Prod.mk.injEq] at h
    obtain ⟨h1, h2, h3⟩ := h
    exact Or.inl ⟨b, hp, h1.symm, h3.symm, h2.symm⟩
  · rename_i b hp
    have hhit := (probe_hit_sound _ _ _ hp).2
    unfold slotHit at hhit
    split at h
    · rename_i p hs
      rw [hs] at hhit
      simp only [beq_iff_eq] at hhit
      simp only [Prod.mk.injEq] at h
      obtain ⟨h1, h2, h3⟩ := h
      exact Or.inr (Or.inl ⟨b, p, hp, hs, hhit, h1.symm, h3.symm, h2.symm⟩)
    · rename_i hs
      rw [hs] at hhit
      cases hhit
  · rename_i hp
    simp only [Prod.mk.injEq] at h
    obtain ⟨h1, h2, h3⟩ := h
    exact Or.inr (Or.inr ⟨hp, h1.symm, h3.symm, h2.symm⟩)

theorem probe_not_full {α : Type} {dead : α → Bool} {t : hash_table α} (hok : TableOK dead t)
    (hroom : liveCount dead t.table < t.capacity) (isHit : Nat → Bool) (k : String) :
    probe (slotFree dead t.table) isHit t.capacity t.capacity (FNV1a k t.capacity) ≠
      Probe.full := by
  intro hfull
  have hs := FNV1a_lt k hok.pos
  obtain ⟨b0, hb0, hf0⟩ := exists_free dead t.table (by rw [hok.len]; exact hroom)
  rw [hok.len] at hb0
  obtain ⟨j0, hj0, hr0⟩ := reach t.capacity _ b0 hs hb0
  rcases probe_cases (slotFree dead t.table) isHit t.capacity t.capacity _ hs with
    ⟨j, _, _, _, he⟩ | ⟨j, _, _, _, _, he⟩ | ⟨hp, _⟩
  · rw [he] at hfull
    cases hfull
  · rw [he] at hfull
    cases hfull
  · have := (hp j0 hj0).1
    rw [hr0, hf0] at this
    cases this

theorem collocateWeight_append (heap : List collocate_node) (x : collocate_node) (c : String)
    {p : Nat} (hp : p < heap.length) :
    collocateWeight (heap ++ [x]) c (some p) = collocateWeight heap c (some p) := by
  simp only [collocateWeight, cdead, ckey, deref_append_lt _ _ _ hp]

/-- Effect of `placeCollocate` on a node without tombstones whose subtable has room. -/
theorem placeCollocate_clean {hw : headword_node} (hok : NodeOK hw) (hc : NodeClean hw)
    (hroom : hw.collocates.occupied < hw.collocates.capacity) (c : String)
    {st : Int} {hw' : headword_node} {created : Bool}
    (h : placeCollocate hw c = (st, hw', created)) :
    0 ≤ st ∧ NodeClean hw' ∧
      (∀ c', nodeCount hw' c' % UMOD = (nodeCount hw c' + if c' = c then 1 else 0) % UMOD) ∧
      heapSum hw' % UMOD = (heapSum hw + 1) % UMOD := by
  rcases placeCollocate_cases c h with
    ⟨b, hp, rfl, _, rfl⟩ | ⟨b, p, hp, hs, hkey, rfl, _, rfl⟩ | ⟨hp, _, _, _⟩
  · obtain ⟨hnone, hb, hfresh, j, hj, hjb, hpath⟩ := hc.tbl.probe_free hok.tbl hp
    have hblen : b < hw.collocates.table.length := by rw [hok.tbl.len]; exact hb
    have hkeep : ∀ b' x, slot hw.collocates.table b' = some x →
        ckey (hw.heap ++ [InitCollocate c]) x = ckey hw.heap x ∧
        cdead (hw.heap ++ [InitCollocate c]) x = cdead hw.heap x := by
      intro b' x hx
      unfold ckey cdead
      rw [deref_append_lt _ _ _ (hok.valid b' x hx)]
      exact ⟨rfl, rfl⟩
    have hknew : ckey (hw.heap ++ [InitCollocate c]) hw.heap.length = c := by
      unfold ckey
      rw [deref_append_length]
      rfl
    have hdnew : cdead (hw.heap ++ [InitCollocate c]) hw.heap.length = false := by
      unfold cdead
      rw [deref_append_length]
      rfl
    have hfull : liveCount (cdead (hw.heap ++ [InitCollocate c]))
        (hw.collocates.table.set b (some hw.heap.length)) =
        (hw.heap ++ [InitCollocate c]).length := by
      rw [List.length_append, List.length_singleton,
        liveCount_set_free hblen (by unfold slotFree; rw [hnone]) hw.heap.length, hdnew,
        liveCount_congr _ _ _ (fun b' x hx => (hkeep b' x hx).2), hc.full]
      rfl
    have hsmall : ∀ q, (deref (hw.heap ++ [InitCollocate c]) q).count < UMOD := by
      intro q
      rcases Nat.lt_trichotomy q hw.heap.length with hq | hq | hq
      · rw [deref_append_lt _ _ _ hq]
        exact hc.small q
      · rw [hq, deref_append_length]
        unfold InitCollocate UMOD
        dsimp only
        omega
      · rw [deref_default _ _ (by rw [List.length_append, List.length_singleton]; omega)]
        unfold UMOD
        omega
    refine ⟨Int.natCast_nonneg b, ⟨?_, ?_, ?_, hfull, hsmall⟩, ?_,
      heapSum_append hw _ c rfl⟩
    · dsimp only
      apply Clean.insert (hc.tbl.congr_keys hkeep) _ hdnew hnone
      · intro b' y hy
        rw [(hkeep b' y hy).1, hknew]
        exact hfresh b' y hy
      · rw [hknew]
        exact ⟨j, hj, hjb, hpath⟩
    · intro p hp'
      dsimp only at hp' ⊢
      simp only [List.length_append, List.length_singleton] at hp'
      by_cases hlt : p < hw.heap.length
      · obtain ⟨b', hb'⟩ := hc.onto p hlt
        refine ⟨b', ?_⟩
        rw [slot_set_ne _ _ _ _ (by intro he; rw [he, hnone] at hb'; cases hb')]
        exact hb'
      · have : p = hw.heap.length := by omega
        subst this
        exact ⟨b, slot_set_self _ _ _ hblen⟩
    · dsimp only
      rw [List.length_append, List.length_singleton, List.range_succ]
      exact List.Perm.append_right _ hc.freq
    · intro c'
      unfold nodeCount
      dsimp only
      have h1 := slotSum_set (collocateWeight (hw.heap ++ [InitCollocate c]) c')
        hw.collocates.table b (some hw.heap.length) hblen
      rw [hnone] at h1
      have h2 : slotSum (collocateWeight (hw.heap ++ [InitCollocate c]) c') hw.collocates.table =
          slotSum (collocateWeight hw.heap c') hw.collocates.table := by
        apply slotSum_congr
        intro b' _
        cases hx : slot hw.collocates.table b' with
        | none => rfl
        | some x => exact collocateWeight_append _ _ _ (hok.valid b' x hx)
      have h3 : collocateWeight (hw.heap ++ [InitCollocate c]) c' (some hw.heap.length) =
          if c' = c then 1 else 0 := by
        simp only [collocateWeight, hdnew, hknew, Bool.false_eq_true, ↓reduceIte,
          deref_append_length]
        by_cases hcc : c = c'
        · subst hcc
          simp [InitCollocate]
        · have : ¬ c' = c := fun e => hcc e.symm
          simp [hcc, this]
      have h4 : collocateWeight (hw.heap ++ [InitCollocate c]) c' none = 0 := rfl
      rw [h2, h3, h4, Nat.add_zero] at h1
      rw [h1]
  · have hblen := slot_some_lt hs
    have hlive := hc.tbl.live b p hs
    have hvalid := hok.valid b p hs
    have hfull : liveCount (cdead (bumpCount hw.heap p)) hw.collocates.table =
        (bumpCount hw.heap p).length := by
      rw [length_bump, liveCount_congr _ _ _ (fun b' x _ => cdead_bump _ _ _), hc.full]
    have hsmall : ∀ q, (deref (bumpCount hw.heap p) q).count < UMOD := by
      intro q
      unfold bumpCount
      rw [deref_set]
      split
      · exact uadd_lt _ _
      · exact hc.small q
    refine ⟨Int.natCast_nonneg b, ⟨?_, ?_, ?_, hfull, hsmall⟩, ?_, heapSum_bump hw _ p rfl hvalid⟩
    · dsimp only
      exact hc.tbl.congr_keys (fun b' x _ => ⟨ckey_bump _ _ _, cdead_bump _ _ _⟩)
    · intro q hq
      dsimp only at hq ⊢
      rw [length_bump] at hq
      exact hc.onto q hq
    · dsimp only
      rw [length_bump]
      exact hc.freq
    · intro c'
      unfold nodeCount
      dsimp only
      have h1 := slotSum_congr_except (collocateWeight hw.heap c')
        (collocateWeight (bumpCount hw.heap p) c') hw.collocates.table b hblen
        (by
          intro b' _ hne
          cases hx : slot hw.collocates.table b' with
          | none => rfl
          | some q =>
            have hqp : q ≠ p := by
              intro e
              subst e
              exact hne (hok.inj b' b q hx hs)
            have hd : deref (bumpCount hw.heap p) q = deref hw.heap q := by
              unfold bumpCount
              rw [deref_set, if_neg (fun hcon => hqp hcon.1)]
            simp only [collocateWeight, cdead_bump, ckey_bump, hd])
      rw [hs] at h1
      have h2 : collocateWeight hw.heap c' (some p) =
          if c' = c then (deref hw.heap p).count else 0 := by
        simp only [collocateWeight, hlive, hkey, Bool.false_eq_true, ↓reduceIte]
        by_cases hcc : c = c'
        · subst hcc; simp
        · have : ¬ c' = c := fun e => hcc e.symm
          simp [hcc, this]
      have h3 : collocateWeight (bumpCount hw.heap p) c' (some p) =
          if c' = c then uadd (deref hw.heap p).count 1 else 0 := by
        have hd : (deref (bumpCount hw.heap p) p).count = uadd (deref hw.heap p).count 1 := by
          unfold bumpCount
          rw [deref_set, if_pos ⟨rfl, hvalid⟩]
        simp only [collocateWeight, cdead_bump, ckey_bump, hlive, hkey, Bool.false_eq_true,
          ↓reduceIte, hd]
        by_cases hcc : c = c'
        · subst hcc; simp
        · have : ¬ c' = c := fun e => hcc e.symm
          simp [hcc, this]
      rw [h2, h3] at h1
      split_ifs at h1 ⊢
      · unfold uadd UMOD at *
        omega
      · unfold UMOD
        omega
  · exact absurd hp (probe_not_full hok.tbl (by rw [← hok.tbl.occ]; exact hroom) _ c)

theorem liveWeight_collocate (heap : List collocate_node) (c : String) :
    LiveWeight (cdead heap) (collocateWeight heap c) := by
  refine ⟨rfl, ?_⟩
  intro x hx
  simp only [collocateWeight, hx, ↓reduceIte]

/-- Effect of the resize at the head of `InsertCollocate` on a node without tombstones: the
node keeps its content and has room for one more collocate. -/
theorem growIfLoaded_clean {hw hw' : headword_node} (hok : NodeOK hw) (hc : NodeClean hw)
    (h : growIfLoaded hw = some hw') :
    NodeOK hw' ∧ NodeClean hw' ∧ hw'.collocates.occupied < hw'.collocates.capacity ∧
      (∀ c', nodeCount hw' c' = nodeCount hw c') ∧ hw'.headword = hw.headword ∧
      hw'.count = hw.count ∧ hw'.deleted = hw.deleted ∧ hw'.heap = hw.heap := by
  have hcap := ladder_bounds _ hok.tbl.ladder
  have hle : hw.collocates.occupied ≤ hw.collocates.capacity := by
    rw [hok.tbl.occ, ← hok.tbl.len]; exact liveCount_le _ _
  unfold growIfLoaded at h
  split_ifs at h with hg
  · unfold ResizeCollocateTable at h
    cases hr : resize (ckey hw.heap) (cdead hw.heap) hw.collocates with
    | none =>
      rw [hr] at h
      simp at h
    | some nt =>
      rw [hr] at h
      simp only [Option.map_some', Option.some.injEq] at h
      subst h
      have hreh := resize_spec (ckey hw.heap) (cdead hw.heap) hok.tbl hr
      have hclean := resize_clean (ckey hw.heap) (cdead hw.heap) hok.tbl hc.tbl hr
      have hfull : liveCount (cdead hw.heap) nt.table = hw.heap.length := by
        rw [liveCount_eq_slotSum, hreh.sums _ (liveWeight_indicator _), ← liveCount_eq_slotSum]
        exact hc.full
      refine ⟨hok.rehashedNode hreh, ⟨hclean, ?_, hc.freq, hfull, hc.small⟩, ?_, ?_, rfl, rfl,
        rfl, rfl⟩
      · intro p hp
        obtain ⟨b, hb⟩ := hc.onto p hp
        exact hreh.kept b p hb (hc.tbl.live b p hb)
      · dsimp only
        rcases resize_cases (ckey hw.heap) (cdead hw.heap) hok.tbl hr with
          ⟨_, hlt⟩ | ⟨nt0, _, _, hroom, _, hcap'⟩
        · have := (gtHalf_not_lt _ hg).2
          unfold GetCollocateTableLoad at this
          rw [hlt] at this
          cases this
        · rw [hreh.occupied hok.tbl, hcap']
          exact hroom
      · intro c'
        unfold nodeCount
        exact hreh.sums _ (liveWeight_collocate hw.heap c')
  · simp only [Option.some.injEq] at h
    subst h
    refine ⟨hok, hc, ?_, fun _ => rfl, rfl, rfl, rfl, rfl⟩
    by_contra hge
    have heq : hw.collocates.occupied = hw.collocates.capacity := by omega
    exact hg (gtHalf_full hw.collocates (by omega) hcap.2 heq)

end LM

namespace LM

/-! ## Insertion of an n-gram into a model without tombstones -/

theorem NodeClean_fresh (hd : String) : NodeClean (freshHead hd) := by
  refine ⟨Clean.empty _ _ (fun b => slot_replicate 7 b), ?_, List.Perm.refl _,
    liveCount_replicate _ 7, ?_⟩
  rotate_left 1
  · intro p
    rw [deref_default _ p (by simp [freshHead])]
    unfold UMOD
    omega
  intro p hp
  simp [freshHead] at hp

theorem counts_set {t : head_table}
    (hc : ∀ b node, slot t.table b = some node → node.count < UMOD) {x : headword_node}
    (hx : x.count < UMOD) (b : Nat) :
    ∀ b' node, slot (t.table.set b (some x)) b' = some node → node.count < UMOD := by
  intro b' node hs'
  rw [slot_set] at hs'
  split_ifs at hs'
  · simp only [Option.some.injEq] at hs'
    subst hs'
    exact hx
  · exact hc b' node hs'

theorem nodeCount_fresh (hd c : String) : nodeCount (freshHead hd) c = 0 := by
  simp [nodeCount, freshHead, slotSum, collocateWeight]

theorem liveWeight_pair (n : Nat) (h c : String) :
    LiveWeight headword_node.deleted (pairWeight n h c) := by
  refine ⟨rfl, ?_⟩
  intro x hx
  simp only [pairWeight, hx, ↓reduceIte]

/-- `InsertCollocate` on a live node of a main table without tombstones. -/
theorem InsertCollocate_clean {lm lm' : State} {b : Nat} {c : String} {st : Int} {n : Nat}
    (h : InsertCollocate lm b c = some (st, lm')) {t : head_table} {hw : headword_node}
    (ht : lm.main_table = some t) (hs : slot t.table b = some hw) (hnode : NodeOK hw)
    (hd : hw.deleted = false) (hcl : CleanOK n t) (hn : n ≠ 1) :
    ∃ t', lm'.main_table = some t' ∧ CleanOK n t' ∧
      (∀ P : String → Prop, HeadsSat P t → HeadsSat P t') ∧
      (∀ Q : String → String → Prop, PairsSat Q t → Q hw.headword c → PairsSat Q t') ∧
      ((∀ b' node, slot t.table b' = some node → b' ≠ b →
          node.count % UMOD = heapSum node % UMOD) →
        hw.count % UMOD = (heapSum hw + 1) % UMOD → CountsOK t') ∧
      ∀ h' c', slotSum (pairWeight n h' c') t'.table % UMOD =
        (slotSum (pairWeight n h' c') t.table +
          if h' = hw.headword ∧ c' = c then 1 else 0) % UMOD := by
  obtain ⟨t0, hw0, hw1, hw', created, ht0, hs0, hg, hpl, rfl⟩ := InsertCollocate_cases h
  rw [ht] at ht0
  cases ht0
  rw [hs] at hs0
  cases hs0
  have hblen := slot_some_lt hs
  obtain ⟨hok1, hc1, hroom1, hcnt1, hh1, hcount1, hd1, hheap1⟩ :=
    growIfLoaded_clean hnode (hcl.nodes hn b hw hs) hg
  obtain ⟨_, hc', hcnt', hheap'⟩ := placeCollocate_clean hok1 hc1 hroom1 c hpl
  obtain ⟨_, hh', hcount', hd', _, hkeys'⟩ := placeCollocate_spec hok1 c hpl
  have hkey : hw'.headword = hw.headword := hh'.trans hh1
  have hdead : hw'.deleted = false := by rw [hd', hd1, hd]
  have hcounts := counts_set hcl.counts (x := hw')
    (by rw [hcount', hcount1]; exact hcl.counts b hw hs) b
  have hown : (∀ b' node, slot t.table b' = some node → b' ≠ b →
      node.count % UMOD = heapSum node % UMOD) →
      hw.count % UMOD = (heapSum hw + 1) % UMOD →
      CountsOK { t with table := t.table.set b (some hw') } := by
    intro hothers htarget b' node hs'
    dsimp only at hs'
    rw [slot_set] at hs'
    split_ifs at hs' with hb
    · simp only [Option.some.injEq] at hs'
      subst hs'
      have e : heapSum hw1 = heapSum hw := by
        unfold heapSum
        rw [hheap1]
      rw [hcount', hcount1, hheap', e]
      exact htarget
    · exact hothers b' node hs' (fun e => hb ⟨e, hblen⟩)
  refine ⟨_, rfl, ⟨hcl.tbl.replace hs hkey hdead, ?_, hcounts⟩, ?_, ?_, hown, ?_⟩
  · intro _ b' node hs'
    dsimp only at hs'
    rw [slot_set] at hs'
    split_ifs at hs'
    · simp only [Option.some.injEq] at hs'
      subst hs'
      exact hc'
    · exact hcl.nodes hn b' node hs'
  · intro P hP b' node hs'
    dsimp only at hs'
    rw [slot_set] at hs'
    split_ifs at hs'
    · simp only [Option.some.injEq] at hs'
      subst hs'
      rw [hkey]
      exact hP b hw hs
    · exact hP b' node hs'
  · intro Q hQ hQc b' node hs' k hk
    dsimp only at hs'
    rw [slot_set] at hs'
    split_ifs at hs'
    · simp only [Option.some.injEq] at hs'
      subst hs'
      rw [hkey]
      rw [hkeys'] at hk
      have e : heapKeys hw1 = heapKeys hw := by
        unfold heapKeys
        rw [hheap1]
      rw [e] at hk
      rcases List.mem_append.mp hk with hk | hk
      · exact hQ b hw hs k hk
      · split_ifs at hk
        · simp only [List.mem_singleton] at hk
          subst hk
          exact hQc
        · simp at hk
    · exact hQ b' node hs' k hk
  · intro h' c'
    dsimp only
    have h1 := slotSum_set (pairWeight n h' c') t.table b (some hw') hblen
    rw [hs] at h1
    have e1 : pairWeight n h' c' (some hw) =
        if hw.headword = h' then nodeCount hw c' else 0 := by
      simp only [pairWeight, hd, hn, Bool.false_eq_true, ↓reduceIte]
    have e2 : pairWeight n h' c' (some hw') =
        if hw.headword = h' then nodeCount hw' c' else 0 := by
      simp only [pairWeight, hdead, hn, hkey, Bool.false_eq_true, ↓reduceIte]
    rw [e1, e2] at h1
    have h2 := hcnt' c'
    rw [hcnt1 c'] at h2
    by_cases hh : hw.headword = h'
    · rw [if_pos hh, if_pos hh] at h1
      by_cases hcc : c' = c
      · rw [if_pos hcc] at h2
        rw [if_pos ⟨hh.symm, hcc⟩]
        unfold UMOD at *
        omega
      · rw [if_neg hcc] at h2
        rw [if_neg (fun hcon => hcc hcon.2)]
        unfold UMOD at *
        omega
    · rw [if_neg hh, if_neg hh] at h1
      rw [if_neg (fun hcon => hh hcon.1.symm)]
      unfold UMOD at *
      omega

theorem PairsSat.set_node {Q : String → String → Prop} {t : head_table} (hQ : PairsSat Q t)
    {x : headword_node} (hx : ∀ k ∈ heapKeys x, Q x.headword k) (b : Nat) (t' : head_table)
    (ht' : t'.table = t.table.set b (some x)) : PairsSat Q t' := by
  intro b' node hs' k hk
  rw [ht', slot_set] at hs'
  split_ifs at hs'
  · simp only [Option.some.injEq] at hs'
    subst hs'
    exact hx k hk
  · exact hQ b' node hs' k hk

/-- `InsertNGram` on a model without tombstones whose main table has room. -/
theorem InsertNGram_clean {lm lm' : State} {hd c : String} {st : Int}
    (h : InsertNGram lm hd c = some (st, lm')) {t : head_table} (ht : lm.main_table = some t)
    (hok : TrainedOK lm.ngram_size t lm.unique_ngrams_count) (hcl : CleanOK lm.ngram_size t)
    (hroom : t.occupied < t.capacity) (hn1 : 1 ≤ lm.ngram_size) :
    0 ≤ st ∧ ∃ t', lm'.main_table = some t' ∧ CleanOK lm.ngram_size t' ∧
      (∀ P : String → Prop, HeadsSat P t → P hd → HeadsSat P t') ∧
      (∀ Q : String → String → Prop, PairsSat Q t → (lm.ngram_size ≠ 1 → Q hd c) →
        PairsSat Q t') ∧
      (lm.ngram_size ≠ 1 → CountsOK t → CountsOK t') ∧
      ∀ h' c', slotSum (pairWeight lm.ngram_size h' c') t'.table % UMOD =
        (slotSum (pairWeight lm.ngram_size h' c') t.table +
          if h' = hd ∧ (lm.ngram_size = 1 ∨ c' = c) then 1 else 0) % UMOD := by
  rcases InsertNGram_cases h with ⟨hnone, _, _⟩ | ⟨t0, ht0, hcase⟩
  · rw [ht] at hnone
    cases hnone
  rw [ht] at ht0
  cases ht0
  rcases hcase with ⟨hp, _, _⟩ | ⟨b, hp, hst, hcase⟩ | ⟨b, node, hp, hs, hst, hcase⟩
  · exact absurd hp (probe_not_full hok.table (by rw [← hok.table.occ]; exact hroom) _ hd)
  · -- a new headword node
    obtain ⟨hnone, hb, hfresh, hchain⟩ := hcl.tbl.probe_free hok.table hp
    have hblen : b < t.table.length := by rw [hok.table.len]; exact hb
    have hcl1 : CleanOK lm.ngram_size
        { t with table := t.table.set b (some (freshHead hd)), occupied := uadd t.occupied 1 } := by
      refine ⟨Clean.insert hcl.tbl _ rfl hnone hfresh hchain, ?_,
        counts_set hcl.counts (x := freshHead hd) (by unfold freshHead UMOD; dsimp only; omega) b⟩
      intro hn b' node hs'
      dsimp only at hs'
      rw [slot_set] at hs'
      split_ifs at hs'
      · simp only [Option.some.injEq] at hs'
        subst hs'
        exact NodeClean_fresh hd
      · exact hcl.nodes hn b' node hs'
    have hheads1 : ∀ P : String → Prop, HeadsSat P t → P hd → HeadsSat P
        { t with table := t.table.set b (some (freshHead hd)), occupied := uadd t.occupied 1 } := by
      intro P hP hPhd b' node hs'
      dsimp only at hs'
      rw [slot_set] at hs'
      split_ifs at hs'
      · simp only [Option.some.injEq] at hs'
        subst hs'
        exact hPhd
      · exact hP b' node hs'
    have hsum1 : ∀ h' c', slotSum (pairWeight lm.ngram_size h' c')
        (t.table.set b (some (freshHead hd))) =
        slotSum (pairWeight lm.ngram_size h' c') t.table +
          if hd = h' then (if lm.ngram_size = 1 then 1 else 0) else 0 := by
      intro h' c'
      have h1 := slotSum_set (pairWeight lm.ngram_size h' c') t.table b (some (freshHead hd))
        hblen
      rw [hnone] at h1
      have e1 : pairWeight lm.ngram_size h' c' (some (freshHead hd)) =
          if hd = h' then (if lm.ngram_size = 1 then 1 else 0) else 0 := by
        simp only [pairWeight, nodeCount_fresh]
        rfl
      have e2 : pairWeight lm.ngram_size h' c' none = 0 := rfl
      rw [e1, e2] at h1
      omega
    refine ⟨by rw [hst]; exact Int.natCast_nonneg b, ?_⟩
    rcases hcase with ⟨hn, rfl⟩ | ⟨hn, st2, hi⟩
    · refine ⟨_, rfl, hcl1, hheads1, fun Q hQ _ => hQ.set_node
        (by intro k hk; simp [heapKeys, freshHead] at hk) b _ rfl, fun h1 => absurd hn h1, ?_⟩
      intro h' c'
      dsimp only [withNewHead]
      rw [hsum1 h' c']
      simp only [hn, ↓reduceIte, true_or, and_true]
      by_cases hh : hd = h'
      · rw [if_pos hh, if_pos hh.symm]
      · rw [if_neg hh, if_neg (fun e => hh e.symm)]
    · obtain ⟨t', ht', hcl', hheads', hpairs', hown', hsum'⟩ := InsertCollocate_clean hi
        (t := { t with table := t.table.set b (some (freshHead hd)),
                       occupied := uadd t.occupied 1 })
        rfl (slot_set_self _ _ _ hblen) (NodeOK_init hd) rfl hcl1 hn
      refine ⟨t', ht', hcl', fun P hP hPhd => hheads' P (hheads1 P hP hPhd),
        fun Q hQ hQc => hpairs' Q (hQ.set_node
          (by intro k hk; simp [heapKeys, freshHead] at hk) b _ rfl) (hQc hn), ?_, ?_⟩
      · intro _ hC
        apply hown'
        · intro b' node hs' hne
          dsimp only at hs'
          rw [slot_set_ne _ _ _ _ hne] at hs'
          exact hC b' node hs'
        · rfl
      intro h' c'
      rw [hsum' h' c']
      dsimp only
      rw [hsum1 h' c']
      simp only [hn, ↓reduceIte, false_or, Nat.add_zero, ite_self]
      rfl
  · -- an existing headword node
    obtain ⟨hfree, hhit⟩ := probe_hit_sound _ _ _ hp
    have hdead : node.deleted = false := by
      unfold slotFree at hfree
      rw [hs] at hfree
      exact hfree
    have hkey : node.headword = hd := by
      unfold slotHit at hhit
      rw [hs] at hhit
      simpa using hhit
    subst hkey
    have hblen := slot_some_lt hs
    have hcl1 : CleanOK lm.ngram_size
        { t with table := t.table.set b (some { node with count := uadd node.count 1 }) } := by
      refine ⟨hcl.tbl.replace hs rfl hdead, ?_,
        counts_set hcl.counts (x := { node with count := uadd node.count 1 }) (uadd_lt _ _) b⟩
      intro hn b' nd hs'
      dsimp only at hs'
      rw [slot_set] at hs'
      split_ifs at hs'
      · simp only [Option.some.injEq] at hs'
        subst hs'
        have := hcl.nodes hn b node hs
        exact ⟨this.tbl, this.onto, this.freq, this.full, this.small⟩
      · exact hcl.nodes hn b' nd hs'
    have hheads1 : ∀ P : String → Prop, HeadsSat P t → HeadsSat P
        { t with table := t.table.set b (some { node with count := uadd node.count 1 }) } := by
      intro P hP b' nd hs'
      dsimp only at hs'
      rw [slot_set] at hs'
      split_ifs at hs'
      · simp only [Option.some.injEq] at hs'
        subst hs'
        exact hP b node hs
      · exact hP b' nd hs'
    have hsum1 : ∀ h' c', slotSum (pairWeight lm.ngram_size h' c')
        (t.table.set b (some { node with count := uadd node.count 1 })) % UMOD =
        (slotSum (pairWeight lm.ngram_size h' c') t.table +
          if node.headword = h' then (if lm.ngram_size = 1 then 1 else 0) else 0) % UMOD := by
      intro h' c'
      have h1 := slotSum_set (pairWeight lm.ngram_size h' c') t.table b
        (some { node with count := uadd node.count 1 }) hblen
      rw [hs] at h1
      have e1 : pairWeight lm.ngram_size h' c' (some node) =
          if node.headword = h' then (if lm.ngram_size = 1 then node.count else nodeCount node c')
          else 0 := by
        simp only [pairWeight, hdead, Bool.false_eq_true, ↓reduceIte]
      have e2 : pairWeight lm.ngram_size h' c' (some { node with count := uadd node.count 1 }) =
          if node.headword = h' then (if lm.ngram_size = 1 then uadd node.count 1 else nodeCount node c')
          else 0 := by
        simp only [pairWeight, hdead, Bool.false_eq_true, ↓reduceIte]
        rfl
      rw [e1, e2] at h1
      split_ifs at h1 ⊢
      · unfold uadd UMOD at *
        omega
      · unfold UMOD
        omega
      · unfold UMOD
        omega
    refine ⟨by rw [hst]; exact Int.natCast_nonneg b, ?_⟩
    rcases hcase with ⟨hn, st2, hi⟩ | ⟨hn, rfl⟩
    · have hne : lm.ngram_size ≠ 1 := by omega
      obtain ⟨t', ht', hcl', hheads', hpairs', hown', hsum'⟩ := InsertCollocate_clean hi
        (t := { t with table := t.table.set b (some { node with count := uadd node.count 1 }) })
        rfl (slot_set_self _ _ _ hblen)
        ((hok.nodes b node hs hdead).congr rfl rfl) hdead hcl1 hne
      refine ⟨t', ht', hcl', fun P hP _ => hheads' P (hheads1 P hP),
        fun Q hQ hQc => hpairs' Q (hQ.set_node (x := { node with count := uadd node.count 1 })
          (fun k hk => hQ b node hs k hk) b _ rfl) (hQc hne), ?_, ?_⟩
      · intro _ hC
        apply hown'
        · intro b' nd hs' hne'
          dsimp only at hs'
          rw [slot_set_ne _ _ _ _ hne'] at hs'
          exact hC b' nd hs'
        · have := hC b node hs
          show uadd node.count 1 % UMOD = (heapSum node + 1) % UMOD
          unfold uadd UMOD at *
          omega
      intro h' c'
      rw [hsum' h' c']
      have := hsum1 h' c'
      dsimp only at this ⊢
      simp only [hne, ↓reduceIte, false_or, ite_self, Nat.add_zero] at this ⊢
      unfold UMOD at *
      split_ifs <;> omega
    · have hn1' : lm.ngram_size = 1 := by omega
      refine ⟨_, rfl, hcl1, fun P hP _ => hheads1 P hP,
        fun Q hQ _ => hQ.set_node (x := { node with count := uadd node.count 1 })
          (fun k hk => hQ b node hs k hk) b _ rfl, fun h1 => absurd hn1' h1, ?_⟩
      intro h' c'
      have := hsum1 h' c'
      dsimp only [withBumpedHead]
      rw [this]
      simp only [hn1', ↓reduceIte, true_or, and_true]
      by_cases hh : node.headword = h'
      · rw [if_pos hh, if_pos hh.symm]
      · rw [if_neg hh, if_neg (fun e => hh e.symm)]

/-- The resize at the head of the ingestion loop on a model without tombstones: the table keeps
its content and has room for one more headword. -/
theorem growHead_clean {lm lm1 : State} {t : head_table} (ht : lm.main_table = some t)
    (hok : TrainedOK lm.ngram_size t lm.unique_ngrams_count) (hcl : CleanOK lm.ngram_size t)
    (h : (if (GetHeadTableLoad lm.main_table).gtHalf then ResizeHeadTable lm else some lm) =
      some lm1) :
    ∃ t1, lm1 = { lm with main_table := some t1 } ∧ Rehashed headword_node.deleted t t1 ∧
      CleanOK lm.ngram_size t1 ∧ t1.occupied < t1.capacity ∧
      (∀ P : String → Prop, HeadsSat P t → HeadsSat P t1) ∧
      (∀ Q : String → String → Prop, PairsSat Q t → PairsSat Q t1) ∧
      (CountsOK t → CountsOK t1) := by
  have hcap := ladder_bounds _ hok.table.ladder
  have hle : t.occupied ≤ t.capacity := by
    rw [hok.table.occ, ← hok.table.len]; exact liveCount_le _ _
  split_ifs at h with hg
  · unfold ResizeHeadTable at h
    rw [ht] at h hg
    dsimp only at h
    cases hr : resize headword_node.headword headword_node.deleted t with
    | none =>
      rw [hr] at h
      simp at h
    | some nt =>
      rw [hr] at h
      simp only [Option.map_some', Option.some.injEq] at h
      subst h
      have hreh := resize_spec headword_node.headword headword_node.deleted hok.table hr
      have hclean := resize_clean headword_node.headword headword_node.deleted hok.table
        hcl.tbl hr
      have hcounts : ∀ b node, slot nt.table b = some node → node.count < UMOD := by
        intro b node hs
        obtain ⟨b', hb'⟩ := hreh.from_old b node hs
        exact hcl.counts b' node hb'
      refine ⟨nt, rfl, hreh, ⟨hclean, ?_, hcounts⟩, ?_, ?_, ?_, ?_⟩
      rotate_left 4
      · intro hC b node hs
        obtain ⟨b', hb'⟩ := hreh.from_old b node hs
        exact hC b' node hb'
      rotate_left 3
      · intro Q hQ b node hs
        obtain ⟨b', hb'⟩ := hreh.from_old b node hs
        exact hQ b' node hb'
      · intro hn b node hs
        obtain ⟨b', hb'⟩ := hreh.from_old b node hs
        exact hcl.nodes hn b' node hb'
      · rcases resize_cases headword_node.headword headword_node.deleted hok.table hr with
          ⟨_, hlt⟩ | ⟨nt0, _, _, hroom, _, hcap'⟩
        · have := (gtHalf_not_lt _ hg).2
          unfold GetHeadTableLoad at this
          dsimp only at this
          rw [hlt] at this
          cases this
        · rw [hreh.occupied hok.table, hcap']
          exact hroom
      · intro P hP b node hs
        obtain ⟨b', hb'⟩ := hreh.from_old b node hs
        exact hP b' node hb'
  · simp only [Option.some.injEq] at h
    subst h
    refine ⟨t, ?_, Rehashed.refl hok.table, hcl, ?_, fun P hP => hP, fun Q hQ => hQ,
      fun hC => hC⟩
    · cases lm
      simp only at ht
      subst ht
      rfl
    · by_contra hge
      have heq : t.occupied = t.capacity := by omega
      rw [ht] at hg
      exact hg (gtHalf_full t (by omega) hcap.2 heq)

theorem pairHits_cons (n : Nat) (h c hd col : String) (ps : List (String × String)) :
    pairHits n h c ((hd, col) :: ps) =
      pairHits n h c ps + if h = hd ∧ (n = 1 ∨ c = col) then 1 else 0 := by
  unfold pairHits
  rw [List.countP_cons]
  congr 1
  by_cases h1 : hd = h ∧ (n = 1 ∨ col = c)
  · have h2 : h = hd ∧ (n = 1 ∨ c = col) := ⟨h1.1.symm, h1.2.imp id Eq.symm⟩
    rw [if_pos h2, if_pos (decide_eq_true h1)]
  · have h2 : ¬ (h = hd ∧ (n = 1 ∨ c = col)) := fun h2 => h1 ⟨h2.1.symm, h2.2.imp id Eq.symm⟩
    rw [if_neg h2, if_neg (fun hdec => h1 (of_decide_eq_true hdec))]

/-- The ingestion loop on a model without tombstones: it never fails, the model stays without
tombstones, and the count of every pair grows by the number of its occurrences among the pairs
of the stream. -/
theorem ingest_clean : ∀ (words : List String) (lm : State) (ngram : List String) (count : Nat)
    (r : Bool) (lm' : State) (t : head_table),
    ingest words lm ngram count = some (r, lm') → lm.main_table = some t →
    TrainedOK lm.ngram_size t lm.unique_ngrams_count → CleanOK lm.ngram_size t →
    1 ≤ lm.ngram_size →
    r = true ∧ ∃ t', lm'.main_table = some t' ∧ CleanOK lm.ngram_size t' ∧
      (∀ P : String → Prop, HeadsSat P t →
        (∀ pr ∈ ingestPairs lm.ngram_size words ngram count, P pr.1) → HeadsSat P t') ∧
      (∀ Q : String → String → Prop, PairsSat Q t →
        (∀ pr ∈ ingestPairs lm.ngram_size words ngram count, Q pr.1 pr.2) → PairsSat Q t') ∧
      (lm.ngram_size ≠ 1 → CountsOK t → CountsOK t') ∧
      ∀ h' c', slotSum (pairWeight lm.ngram_size h' c') t'.table % UMOD =
        (slotSum (pairWeight lm.ngram_size h' c') t.table +
          pairHits lm.ngram_size h' c' (ingestPairs lm.ngram_size words ngram count)) % UMOD := by
  intro words
  induction words with
  | nil =>
    intro lm ngram count r lm' t h ht hok hcl hn
    simp only [ingest, Option.some.injEq, Prod.mk.injEq] at h
    obtain ⟨rfl, rfl⟩ := h
    refine ⟨rfl, t, ht, hcl, fun P hP _ => hP, fun Q hQ _ => hQ, fun _ hC => hC, ?_⟩
    intro h' c'
    rfl
  | cons word rest ih =>
    intro lm ngram count r lm' t h ht hok hcl hn
    rcases ingest_cons h with ⟨hlt, hrec⟩ | ⟨hge, headword, ng, lm1, st, lm2, heq, h1, h2, hfin⟩
    · obtain ⟨hr, t', ht', hcl', hheads, hprs, hown, hsum⟩ :=
        ih lm _ _ r lm' t hrec ht hok hcl hn
      refine ⟨hr, t', ht', hcl', ?_, ?_, hown, ?_⟩
      · intro P hP hpairs
        apply hheads P hP
        intro pr hpr
        apply hpairs
        simp only [ingestPairs, hlt, ↓reduceIte]
        exact hpr
      · intro Q hQ hpairs
        apply hprs Q hQ
        intro pr hpr
        apply hpairs
        simp only [ingestPairs, hlt, ↓reduceIte]
        exact hpr
      · intro h' c'
        rw [hsum h' c']
        simp only [ingestPairs, hlt, ↓reduceIte]
    · obtain ⟨t1, rfl, hreh, hcl1, hroom1, hheads1, hprs1, hown1⟩ :=
        growHead_clean ht hok hcl h1
      have hok1 := hok.rehashedMain hreh
      obtain ⟨hst0, t2, ht2, hcl2, hheads2, hprs2, hown2, hsum2⟩ :=
        InsertNGram_clean h2 (t := t1) rfl hok1 hcl1 hroom1 hn
      obtain ⟨t2', ht2', hok2, hn2, _, _⟩ := InsertNGram_spec h2 (t := t1) rfl hok1
      rw [ht2] at ht2'
      cases ht2'
      dsimp only at hn2 hok2 hcl2 hsum2 hheads2 hown2
      have hpairs_eq : ingestPairs lm.ngram_size (word :: rest) ngram count =
          (headword, joinCollocate ng) :: ingestPairs lm.ngram_size rest ng (uadd count 1) := by
        simp only [ingestPairs, hge, ↓reduceIte, heq]
      rcases hfin with ⟨hst, _, _⟩ | ⟨_, hrec⟩
      · omega
      · have hok2' : TrainedOK lm2.ngram_size t2 lm2.unique_ngrams_count := by
          rw [hn2]; exact hok2
        have hcl2' : CleanOK lm2.ngram_size t2 := by
          rw [hn2]; exact hcl2
        obtain ⟨hr, t', ht', hcl', hheads, hprs, hown, hsum⟩ :=
          ih lm2 _ _ r lm' t2 hrec ht2 hok2' hcl2' (by rw [hn2]; exact hn)
        rw [hn2] at hcl' hheads hprs hsum hown
        refine ⟨hr, t', ht', hcl', ?_, ?_, fun h1 hC => hown h1 (hown2 h1 (hown1 hC)), ?_⟩
        · intro P hP hpairs
          apply hheads P
          · apply hheads2 P (hheads1 P hP)
            exact hpairs (headword, joinCollocate ng) (by rw [hpairs_eq]; exact List.mem_cons_self _ _)
          · intro pr hpr
            apply hpairs
            rw [hpairs_eq]
            exact List.mem_cons_of_mem _ hpr
        · intro Q hQ hpairs
          apply hprs Q
          · apply hprs2 Q (hprs1 Q hQ)
            intro _
            exact hpairs (headword, joinCollocate ng) (by rw [hpairs_eq]; exact List.mem_cons_self _ _)
          · intro pr hpr
            apply hpairs
            rw [hpairs_eq]
            exact List.mem_cons_of_mem _ hpr
        · intro h' c'
          have e1 := hsum h' c'
          have e2 := hsum2 h' c'
          have e3 := hreh.sums _ (liveWeight_pair lm.ngram_size h' c')
          rw [e3] at e2
          rw [hpairs_eq, pairHits_cons]
          unfold UMOD at *
          omega

end LM

namespace LM

/-- Content of a bucket after `SortCounts` on a table without tombstones. -/
theorem SortCounts_slot {n : Nat} {t : head_table} (hcl : CleanOK n t) (b : Nat) :
    slot (t.table.map fun s =>
        match s with
        | some node =>
          if node.deleted then some node
          else some { node with frequencies := sortFrequencies node.heap node.frequencies }
        | none => none) b =
      (slot t.table b).map fun node =>
        { node with frequencies := sortFrequencies node.heap node.frequencies } := by
  rw [slot_map _ rfl]
  cases hs : slot t.table b with
  | none => rfl
  | some node =>
    have := hcl.tbl.live b node hs
    simp only [this, Bool.false_eq_true, ↓reduceIte, Option.map_some']

/-- The function `SortCounts` keeps a model without tombstones, its headwords, its collocate keys
and its counts. -/
theorem SortCounts_clean {lm : State} {t : head_table} (ht : lm.main_table = some t) {n : Nat}
    (hcl : CleanOK n t) :
    ∃ t', SortCounts lm = { lm with main_table := some t' } ∧ CleanOK n t' ∧
      (∀ P : String → Prop, HeadsSat P t → HeadsSat P t') ∧
      (∀ Q : String → String → Prop, PairsSat Q t → PairsSat Q t') ∧
      (CountsOK t → CountsOK t') ∧
      ∀ h c, slotSum (pairWeight n h c) t'.table = slotSum (pairWeight n h c) t.table := by
  refine ⟨_, SortCounts_eq lm t ht, ?_, ?_, ?_, ?_, ?_⟩
  all_goals
    have hslot := SortCounts_slot hcl
    have key : ∀ b x, slot (t.table.map fun s =>
        match s with
        | some node =>
          if node.deleted then some node
          else some { node with frequencies := sortFrequencies node.heap node.frequencies }
        | none => none) b = some x →
        ∃ node, slot t.table b = some node ∧
          { node with frequencies := sortFrequencies node.heap node.frequencies } = x :=
      fun b x hs => Option.map_eq_some'.mp ((hslot b).symm.trans hs)
  · refine ⟨⟨?_, ?_, ?_⟩, ?_, ?_⟩
    rotate_left 4
    · intro b x hs
      obtain ⟨node, hnode, rfl⟩ := key b x hs
      exact hcl.counts b node hnode
    · intro b x hs
      obtain ⟨node, hnode, rfl⟩ := key b x hs
      exact hcl.tbl.live b node hnode
    · intro b b' x x' hs hs' hk
      obtain ⟨node, hnode, rfl⟩ := key b x hs
      obtain ⟨node', hnode', rfl⟩ := key b' x' hs'
      exact hcl.tbl.keys b b' node node' hnode hnode' hk
    · intro b x hs
      obtain ⟨node, hnode, rfl⟩ := key b x hs
      obtain ⟨j, hj, hb, hpath⟩ := hcl.tbl.chain b node hnode
      refine ⟨j, hj, hb, ?_⟩
      intro i hi hnone
      have h2 := (hslot _).symm.trans hnone
      have := hpath i hi
      cases hsi : slot t.table ((FNV1a node.headword t.capacity + i) % t.capacity) with
      | none => exact absurd hsi this
      | some y =>
        rw [hsi] at h2
        cases h2
    · intro hn b x hs
      obtain ⟨node, hnode, rfl⟩ := key b x hs
      have hc := hcl.nodes hn b node hnode
      refine ⟨hc.tbl, hc.onto, ?_, hc.full, hc.small⟩
      exact (List.perm_insertionSort _ _).trans hc.freq
  · intro P hP b x hs
    obtain ⟨node, hnode, rfl⟩ := key b x hs
    exact hP b node hnode
  · intro Q hQ b x hs k hk
    obtain ⟨node, hnode, rfl⟩ := key b x hs
    exact hQ b node hnode k hk
  · intro hC b x hs
    obtain ⟨node, hnode, rfl⟩ := key b x hs
    exact hC b node hnode
  · intro h c
    dsimp only
    apply slotSum_map
    intro s
    cases s with
    | none => rfl
    | some node =>
      by_cases hd : node.deleted = true
      · simp only [hd, ↓reduceIte]
      · have hd' : node.deleted = false := by simpa using hd
        simp only [hd', Bool.false_eq_true, ↓reduceIte, pairWeight, nodeCount]

/-- The ingestion of a stream into a model without tombstones, followed by the sort: the result
is `true`, the model stays without tombstones, and the count of every pair grows by the number of
its occurrences among the pairs of the stream. -/
theorem ingestAndSort_clean {lm lm' : State} {ws : List String} {r : Bool} {t : head_table}
    (h : ingestAndSort lm ws = some (r, lm')) (ht : lm.main_table = some t)
    (hok : TrainedOK lm.ngram_size t lm.unique_ngrams_count) (hcl : CleanOK lm.ngram_size t)
    (hn : 1 ≤ lm.ngram_size) :
    r = true ∧ lm'.ngram_size = lm.ngram_size ∧
    ∃ t', lm'.main_table = some t' ∧ CleanOK lm.ngram_size t' ∧
      (∀ P : String → Prop, HeadsSat P t →
        (∀ pr ∈ ingestPairs lm.ngram_size ws [] 0, P pr.1) → HeadsSat P t') ∧
      (∀ Q : String → String → Prop, PairsSat Q t →
        (∀ pr ∈ ingestPairs lm.ngram_size ws [] 0, Q pr.1 pr.2) → PairsSat Q t') ∧
      (lm.ngram_size ≠ 1 → CountsOK t → CountsOK t') ∧
      ∀ h' c', slotSum (pairWeight lm.ngram_size h' c') t'.table % UMOD =
        (slotSum (pairWeight lm.ngram_size h' c') t.table +
          pairHits lm.ngram_size h' c' (ingestPairs lm.ngram_size ws [] 0)) % UMOD := by
  obtain ⟨lm2, hi, hfin⟩ := ingestAndSort_cases h
  obtain ⟨hr, t2, ht2, hcl2, hheads2, hprs2, hown2, hsum2⟩ :=
    ingest_clean ws lm [] 0 r lm2 t hi ht hok hcl hn
  obtain ⟨_, _, _, hn2, _⟩ := ingest_spec ws lm [] 0 r lm2 t hi ht hok
  refine ⟨hr, ?_⟩
  rcases hfin with rfl | ⟨_, _, rfl⟩
  · exact ⟨hn2, t2, ht2, hcl2, hheads2, hprs2, hown2, hsum2⟩
  · obtain ⟨t3, hs3, hcl3, hheads3, hprs3, hown3, hsum3⟩ := SortCounts_clean ht2 hcl2
    rw [hs3]
    refine ⟨hn2, t3, rfl, hcl3, fun P hP hpr => hheads3 P (hheads2 P hP hpr),
      fun Q hQ hpr => hprs3 Q (hprs2 Q hQ hpr), fun h1 hC => hown3 (hown2 h1 hC), ?_⟩
    intro h' c'
    rw [hsum3 h' c', hsum2 h' c']

/-- Training on a readable source with a non-negative estimate: the result is `true`, and the
model is without tombstones and holds for every pair the number of its occurrences among the
pairs of the stream. -/
theorem Train_clean {lm lm' : State} {src : Source} {ws : List String} {r : Bool}
    (hok : StateOK lm) (hn : 1 ≤ lm.ngram_size) (hest : 0 ≤ src.estimate)
    (hw : src.words = some ws) (h : Train lm src = some (r, lm')) :
    r = true ∧ lm'.ngram_size = lm.ngram_size ∧
    ∃ t', lm'.main_table = some t' ∧ CleanOK lm.ngram_size t' ∧
      (∀ P : String → Prop,
        (∀ pr ∈ ingestPairs lm.ngram_size ws [] 0, P pr.1) → HeadsSat P t') ∧
      (∀ Q : String → String → Prop,
        (∀ pr ∈ ingestPairs lm.ngram_size ws [] 0, Q pr.1 pr.2) → PairsSat Q t') ∧
      (lm.ngram_size ≠ 1 → CountsOK t') ∧
      ∀ h' c', slotSum (pairWeight lm.ngram_size h' c') t'.table % UMOD =
        pairHits lm.ngram_size h' c' (ingestPairs lm.ngram_size ws [] 0) % UMOD := by
  obtain ⟨t0, hinit, hcase⟩ := Train_unfold hok h hest
  rcases hcase with ⟨hnone, _, _⟩ | ⟨ws', hws', hing⟩
  · rw [hw] at hnone
    cases hnone
  rw [hw] at hws'
  cases hws'
  obtain ⟨hok0, _, _⟩ := TrainedOK_init (n := lm.ngram_size) hinit
  obtain ⟨_, hempty⟩ := InitTable_ok headword_node.deleted hinit
  have hcl0 : CleanOK lm.ngram_size t0 := by
    refine ⟨Clean.empty _ _ hempty, ?_, ?_⟩
    · intro _ b node hs
      rw [hempty b] at hs
      cases hs
    · intro b node hs
      rw [hempty b] at hs
      cases hs
  have hzero : ∀ h' c', slotSum (pairWeight lm.ngram_size h' c') t0.table = 0 := by
    intro h' c'
    unfold slotSum
    apply List.sum_eq_zero
    intro x hx
    obtain ⟨s, hs, rfl⟩ := List.mem_map.mp hx
    obtain ⟨b, _, hb⟩ := mem_slot hs
    rw [← hb, hempty b]
    rfl
  have hh0 : ∀ P : String → Prop, HeadsSat P t0 := by
    intro P b node hs
    rw [hempty b] at hs
    cases hs
  have hp0 : ∀ Q : String → String → Prop, PairsSat Q t0 := by
    intro Q b node hs
    rw [hempty b] at hs
    cases hs
  have hc0 : CountsOK t0 := by
    intro b node hs
    rw [hempty b] at hs
    cases hs
  obtain ⟨hr, hn2, t2, ht2, hcl2, hheads2, hprs2, hown2, hsum2⟩ :=
    ingestAndSort_clean hing (t := t0) rfl hok0 hcl0 hn
  dsimp only [init] at hn2 hcl2 hheads2 hprs2 hsum2 hown2
  refine ⟨hr, hn2, t2, ht2, hcl2, fun P hP => hheads2 P (hh0 P) hP,
    fun Q hQ => hprs2 Q (hp0 Q) hQ, fun h1 => hown2 h1 hc0, ?_⟩
  intro h' c'
  rw [hsum2 h' c', hzero h' c', Nat.zero_add]

/-- The first part of `Grow` on a trained model with a non-negative estimate: the old table is
transferred into a new one with room for it. -/
theorem Grow_unfold {lm lm' : State} {src : Source} {r : Bool} {t : head_table}
    (ht : lm.main_table = some t) (hokt : TrainedOK lm.ngram_size t lm.unique_ngrams_count)
    (hest : 0 ≤ src.estimate) (hsz : src.estimate ≤ MAX_ESTIMATE)
    (h : Grow lm src = some (r, lm')) :
    ∃ nt t1, TableOK headword_node.deleted nt ∧ (∀ b, slot nt.table b = none) ∧
      t.occupied < nt.capacity ∧
      t1 = transfer headword_node.headword headword_node.deleted t nt ∧
      ((src.words = none ∧ r = false ∧ lm' = { lm with main_table := some t1 }) ∨
       (∃ ws, src.words = some ws ∧
          ingestAndSort { lm with main_table := some t1,
                                  tokens := uadd lm.tokens (usub lm.ngram_size 1) } ws =
            some (r, lm'))) := by
  unfold Grow at h
  rw [ht] at h
  simp only at h
  rw [if_neg (by omega)] at h
  split at h
  · cases h
  · cases hi : InitHeadTable (uadd (src.estimate * 2).toNat t.capacity) with
    | none => rw [hi] at h; simp at h
    | some nt =>
      rw [hi] at h
      simp only [Option.some_bind] at h
      obtain ⟨hnew, hempty⟩ := InitTable_ok headword_node.deleted hi
      obtain ⟨hp, _, _⟩ := InitTable_spec hi
      have hcapmax := ladder_max _ hokt.table.ladder
      have hreq : uadd (src.estimate * 2).toNat t.capacity =
          (src.estimate * 2).toNat + t.capacity := by
        unfold uadd
        apply Nat.mod_eq_of_lt
        unfold MAX_ESTIMATE at hsz
        unfold UMOD
        omega
      have hgt := PrimeSize_gt (by
        rw [hreq]
        unfold MAX_ESTIMATE at hsz
        omega) hp
      have hocc : t.occupied ≤ t.capacity := by
        rw [hokt.table.occ, ← hokt.table.len]; exact liveCount_le _ _
      refine ⟨nt, _, hnew, hempty, by rw [hreq] at hgt; omega, rfl, ?_⟩
      cases hw : src.words with
      | none =>
        rw [hw] at h
        simp only [Option.some.injEq, Prod.mk.injEq] at h
        exact Or.inl ⟨rfl, h.1.symm, h.2.symm⟩
      | some ws =>
        rw [hw] at h
        exact Or.inr ⟨ws, rfl, h⟩

/-- The transfer loop of `Grow` keeps a table without tombstones, its headwords, its stored pairs
and its counts. -/
theorem transfer_cleanOK {n : Nat} {t nt : head_table} {u : Nat} (hokt : TrainedOK n t u)
    (hcl : CleanOK n t) (hnew : TableOK headword_node.deleted nt)
    (hempty : ∀ b, slot nt.table b = none) (hroom : t.occupied < nt.capacity) :
    TrainedOK n (transfer headword_node.headword headword_node.deleted t nt) u ∧
    CleanOK n (transfer headword_node.headword headword_node.deleted t nt) ∧
    (∀ P : String → Prop, HeadsSat P t →
      HeadsSat P (transfer headword_node.headword headword_node.deleted t nt)) ∧
    (∀ Q : String → String → Prop, PairsSat Q t →
      PairsSat Q (transfer headword_node.headword headword_node.deleted t nt)) ∧
    (CountsOK t → CountsOK (transfer headword_node.headword headword_node.deleted t nt)) ∧
    ∀ h c, slotSum (pairWeight n h c)
        (transfer headword_node.headword headword_node.deleted t nt).table =
      slotSum (pairWeight n h c) t.table := by
  have hr : Rehashed headword_node.deleted t
      (transfer headword_node.headword headword_node.deleted t nt) :=
    Rehashed.of_transfer _ _ hokt.table hnew hempty hroom
  have hclean := transfer_clean headword_node.headword headword_node.deleted t nt
    hokt.table.len hnew hempty (by rw [← hokt.table.occ]; exact hroom) hcl.tbl.live hcl.tbl.keys
  refine ⟨hokt.rehashedMain hr, ⟨hclean, ?_, ?_⟩, ?_, ?_, ?_, ?_⟩
  · intro hn b node hs
    obtain ⟨b', hb'⟩ := hr.from_old b node hs
    exact hcl.nodes hn b' node hb'
  · intro b node hs
    obtain ⟨b', hb'⟩ := hr.from_old b node hs
    exact hcl.counts b' node hb'
  · intro P hP b node hs
    obtain ⟨b', hb'⟩ := hr.from_old b node hs
    exact hP b' node hb'
  · intro Q hQ b node hs
    obtain ⟨b', hb'⟩ := hr.from_old b node hs
    exact hQ b' node hb'
  · intro hC b node hs
    obtain ⟨b', hb'⟩ := hr.from_old b node hs
    exact hC b' node hb'
  · intro h c
    exact hr.sums _ (liveWeight_pair n h c)

end LM

namespace LM

theorem mapInsert_fresh (m : List (String × Int)) (k : String) (v : Int)
    (h : k ∉ m.map Prod.fst) : mapInsert m k v = m ++ [(k, v)] := by
  unfold mapInsert
  rw [if_neg]
  intro hany
  apply h
  obtain ⟨e, he, hk⟩ := List.any_eq_true.mp hany
  exact List.mem_map.mpr ⟨e, he, by simpa using hk⟩

theorem insertAll_append (m a b : List (String × Int)) :
    insertAll m (a ++ b) = insertAll (insertAll m a) b := by
  unfold insertAll
  rw [List.foldl_append]

/-- Inserting entries with fresh and distinct keys appends them. -/
theorem insertAll_nodup : ∀ (es m : List (String × Int)), ((m ++ es).map Prod.fst).Nodup →
    insertAll m es = m ++ es := by
  intro es
  induction es with
  | nil =>
    intro m _
    simp [insertAll]
  | cons e rest ih =>
    intro m h
    have h1 : e.1 ∉ m.map Prod.fst := by
      intro hmem
      rw [List.map_append, List.map_cons] at h
      have := (List.nodup_append.mp h).2.2
      exact this hmem (List.mem_cons_self _ _)
    have e1 : insertAll m (e :: rest) = insertAll (mapInsert m e.1 e.2) rest := rfl
    rw [e1, mapInsert_fresh m e.1 e.2 h1]
    have e2 : m ++ [(e.1, e.2)] ++ rest = m ++ e :: rest := by simp
    rw [ih _ (by rw [e2]; exact h), e2]

/-- The map of `NGrams` is the insertion of the entries of the table in order. -/
theorem NGrams_eq_insertAll {lm : State} {t : head_table} (ht : lm.main_table = some t) :
    NGrams lm = insertAll [] (tableEntries lm.ngram_size t) := by
  have hgen : ∀ (f : List (String × Int) → Option headword_node → List (String × Int))
      (hf : ∀ m s, f m s = insertAll m (slotEntries lm.ngram_size s))
      (tbl : List (Option headword_node)) (m : List (String × Int)),
      tbl.foldl f m = insertAll m (tbl.flatMap (slotEntries lm.ngram_size)) := by
    intro f hf tbl
    induction tbl with
    | nil => intro m; rfl
    | cons s rest ih =>
      intro m
      rw [List.foldl_cons, ih, hf, List.flatMap_cons, insertAll_append]
  unfold NGrams tableEntries
  rw [ht]
  dsimp only
  by_cases hn : lm.ngram_size = 1
  · rw [if_pos hn]
    apply hgen
    intro m s
    cases s with
    | none => rfl
    | some node =>
      by_cases hd : node.deleted = true
      · simp only [hd, ↓reduceIte, slotEntries]
        rfl
      · simp only [hd, Bool.false_eq_true, ↓reduceIte, slotEntries, nodeEntries, hn]
        rfl
  · rw [if_neg hn]
    apply hgen
    intro m s
    cases s with
    | none => rfl
    | some node =>
      by_cases hd : node.deleted = true
      · simp only [hd, ↓reduceIte, slotEntries]
        rfl
      · simp only [hd, Bool.false_eq_true, ↓reduceIte, slotEntries, nodeEntries, hn]
        unfold insertAll
        rw [List.foldl_map]

end LM

namespace LM

theorem slotSum_zero {α : Type} (g : Option α → Nat) (tbl : List (Option α))
    (h : ∀ b, b < tbl.length → g (slot tbl b) = 0) : slotSum g tbl = 0 := by
  unfold slotSum
  apply List.sum_eq_zero
  intro x hx
  obtain ⟨s, hs, rfl⟩ := List.mem_map.mp hx
  obtain ⟨b, hb, hsb⟩ := mem_slot hs
  rw [← hsb]
  exact h b hb

/-- A sum over buckets with a single non-zero term. -/
theorem slotSum_single {α : Type} (g : Option α → Nat) (tbl : List (Option α)) (b : Nat)
    (hb : b < tbl.length) (h : ∀ b', b' < tbl.length → b' ≠ b → g (slot tbl b') = 0) :
    slotSum g tbl = g (slot tbl b) := by
  have h1 := slotSum_congr_except g (fun _ => 0) tbl b hb (fun b' hb' hne => (h b' hb' hne).symm)
  have h2 : slotSum (fun _ => 0) tbl = 0 := slotSum_zero _ tbl (fun _ _ => rfl)
  rw [h2] at h1
  dsimp only at h1
  omega

theorem slotSum_ne_zero {α : Type} (g : Option α → Nat) (tbl : List (Option α))
    (h : slotSum g tbl ≠ 0) : ∃ b, b < tbl.length ∧ g (slot tbl b) ≠ 0 := by
  by_contra hcon
  push_neg at hcon
  exact h (slotSum_zero g tbl hcon)

/-- In a node without tombstones the count for the key of an allocated collocate node is the
count of that node. -/
theorem nodeCount_single {hw : headword_node} (hc : NodeClean hw) {p : Nat}
    (hp : p < hw.heap.length) : nodeCount hw (ckey hw.heap p) = (deref hw.heap p).count := by
  obtain ⟨b, hb⟩ := hc.onto p hp
  unfold nodeCount
  rw [slotSum_single _ _ b (slot_some_lt hb), hb]
  · have := hc.tbl.live b p hb
    simp only [collocateWeight, this, Bool.false_eq_true, ↓reduceIte]
  · intro b' _ hne
    cases hs : slot hw.collocates.table b' with
    | none => rfl
    | some q =>
      have hne' : ckey hw.heap q ≠ ckey hw.heap p := fun hk =>
        hne (hc.tbl.keys b' b q p hs hb hk)
      simp only [collocateWeight, hne', ↓reduceIte, ite_self]

/-- A non-zero count under a node comes from an allocated collocate node. -/
theorem nodeCount_ne_zero {hw : headword_node} {c : String} (h : nodeCount hw c ≠ 0) :
    ∃ p, p < hw.heap.length ∧ ckey hw.heap p = c := by
  obtain ⟨b, _, hb⟩ := slotSum_ne_zero _ _ h
  cases hs : slot hw.collocates.table b with
  | none =>
    rw [hs] at hb
    exact absurd rfl hb
  | some p =>
    rw [hs] at hb
    simp only [collocateWeight] at hb
    split_ifs at hb with h1 h2
    · exact absurd rfl hb
    · refine ⟨p, ?_, h2⟩
      by_contra hge
      apply hb
      unfold deref
      rw [List.getD_eq_default _ _ (by omega)]
    · exact absurd rfl hb

/-- In a table without tombstones the count of a pair is read from the node of its headword. -/
theorem pairWeight_single {n : Nat} {t : head_table} (hcl : CleanOK n t) {b : Nat}
    {node : headword_node} (hs : slot t.table b = some node) (c : String) :
    slotSum (pairWeight n node.headword c) t.table =
      if n = 1 then node.count else nodeCount node c := by
  rw [slotSum_single _ _ b (slot_some_lt hs), hs]
  · have := hcl.tbl.live b node hs
    simp only [pairWeight, this, Bool.false_eq_true, ↓reduceIte]
  · intro b' _ hne
    cases hs' : slot t.table b' with
    | none => rfl
    | some node' =>
      have hne' : node'.headword ≠ node.headword := fun hk =>
        hne (hcl.tbl.keys b' b node' node hs' hs hk)
      simp only [pairWeight, hne', ↓reduceIte, ite_self]

/-- A non-zero count of a pair comes from a node with that headword. -/
theorem pairWeight_ne_zero {n : Nat} {t : head_table} {h c : String}
    (hne : slotSum (pairWeight n h c) t.table ≠ 0) :
    ∃ b node, slot t.table b = some node ∧ node.deleted = false ∧ node.headword = h ∧
      (n ≠ 1 → nodeCount node c ≠ 0) := by
  obtain ⟨b, _, hb⟩ := slotSum_ne_zero _ _ hne
  cases hs : slot t.table b with
  | none =>
    rw [hs] at hb
    exact absurd rfl hb
  | some node =>
    rw [hs] at hb
    simp only [pairWeight] at hb
    split_ifs at hb with h1 h2 h3
    · exact absurd rfl hb
    · exact ⟨b, node, hs, by simpa using h1, h2, fun hn => absurd h3 hn⟩
    · exact ⟨b, node, hs, by simpa using h1, h2, fun _ => hb⟩
    · exact absurd rfl hb

theorem mem_tableEntries {n : Nat} {t : head_table} {e : String × Int} :
    e ∈ tableEntries n t ↔
      ∃ b node, slot t.table b = some node ∧ node.deleted = false ∧ e ∈ nodeEntries n node := by
  unfold tableEntries
  rw [List.mem_flatMap]
  constructor
  · rintro ⟨s, hs, he⟩
    cases s with
    | none => simp [slotEntries] at he
    | some node =>
      obtain ⟨b, _, hb⟩ := mem_slot hs
      by_cases hd : node.deleted = true
      · simp [slotEntries, hd] at he
      · have hd' : node.deleted = false := by simpa using hd
        simp only [slotEntries, hd', Bool.false_eq_true, ↓reduceIte] at he
        exact ⟨b, node, hb, hd', he⟩
  · rintro ⟨b, node, hs, hd, he⟩
    refine ⟨some node, slot_some_mem hs, ?_⟩
    simp only [slotEntries, hd, Bool.false_eq_true, ↓reduceIte]
    exact he

end LM

namespace LM

theorem append_sep_inj {α : Type} (a : α) : ∀ (l1 l2 r1 r2 : List α), a ∉ l1 → a ∉ l2 →
    l1 ++ a :: r1 = l2 ++ a :: r2 → l1 = l2 ∧ r1 = r2 := by
  intro l1
  induction l1 with
  | nil =>
    intro l2 r1 r2 _ h2 h
    cases l2 with
    | nil =>
      simp only [List.nil_append, List.cons.injEq, true_and] at h
      exact ⟨rfl, h⟩
    | cons y l2 =>
      simp only [List.nil_append, List.cons_append, List.cons.injEq] at h
      exact absurd (h.1 ▸ List.mem_cons_self _ _) h2
  | cons x l1 ih =>
    intro l2 r1 r2 h1 h2 h
    cases l2 with
    | nil =>
      simp only [List.nil_append, List.cons_append, List.cons.injEq] at h
      exact absurd (h.1 ▸ List.mem_cons_self _ _) h1
    | cons y l2 =>
      simp only [List.cons_append, List.cons.injEq] at h
      obtain ⟨e1, e2⟩ := ih l2 r1 r2 (fun hm => h1 (List.mem_cons_of_mem _ hm))
        (fun hm => h2 (List.mem_cons_of_mem _ hm)) h.2
      exact ⟨by rw [h.1, e1], e2⟩

theorem noSpace_iff {w : String} : noSpace w = true ↔ ∀ c ∈ w.data, isspace c = false := by
  unfold noSpace
  simp only [List.all_eq_true, Bool.not_eq_true']

theorem isWord_noSpace {w : String} (hw : isWord w = true) : noSpace w = true :=
  noSpace_iff.mpr (isWord_iff.mp hw).2

theorem noSpace_no_space {h : String} (hw : noSpace h = true) : ' ' ∉ h.data := by
  intro hmem
  have := noSpace_iff.mp hw ' ' hmem
  revert this
  decide

theorem key_data (h c : String) : (h ++ " " ++ c).data = h.data ++ ' ' :: c.data := by
  simp only [String.data_append, List.append_assoc]
  rfl

/-- The key of an n-gram determines its headword and its collocate when the headwords are
words. -/
theorem key_inj {h h' c c' : String} (hw : noSpace h = true) (hw' : noSpace h' = true)
    (hk : h ++ " " ++ c = h' ++ " " ++ c') : h = h' ∧ c = c' := by
  have hd := congrArg String.data hk
  rw [key_data, key_data] at hd
  obtain ⟨e1, e2⟩ := append_sep_inj ' ' _ _ _ _ (noSpace_no_space hw) (noSpace_no_space hw') hd
  exact ⟨String.ext e1, String.ext e2⟩

theorem key_cancel {h c c' : String} (hk : h ++ " " ++ c = h ++ " " ++ c') : c = c' := by
  have hd := congrArg String.data hk
  rw [key_data, key_data] at hd
  have := List.append_cancel_left hd
  simp only [List.cons.injEq, true_and] at this
  exact String.ext this

theorem mem_frequencies {hw : headword_node} (hc : NodeClean hw) (p : Nat) :
    p ∈ hw.frequencies ↔ p < hw.heap.length := by
  rw [hc.freq.mem_iff, List.mem_range]

/-- The keys read from a node are distinct. -/
theorem nodeEntries_keys_nodup {n : Nat} {node : headword_node}
    (hc : n ≠ 1 → NodeClean node) : ((nodeEntries n node).map Prod.fst).Nodup := by
  unfold nodeEntries
  by_cases hn : n = 1
  · rw [if_pos hn]
    simp
  · rw [if_neg hn, List.map_map]
    have hcl := hc hn
    apply List.Nodup.map_on
    · intro p hp q hq hk
      simp only [Function.comp_apply] at hk
      have hk' := key_cancel hk
      obtain ⟨b, hb⟩ := hcl.onto p ((mem_frequencies hcl p).mp hp)
      obtain ⟨b', hb'⟩ := hcl.onto q ((mem_frequencies hcl q).mp hq)
      have := hcl.tbl.keys b b' p q hb hb' hk'
      subst this
      rw [hb] at hb'
      exact Option.some.inj hb'
    · exact hcl.freq.nodup_iff.mpr (List.nodup_range _)

theorem nodeEntries_key {n : Nat} {node : headword_node} {e : String × Int}
    (he : e ∈ nodeEntries n node) : ∃ c, e.1 = keyOfPair n node.headword c := by
  unfold nodeEntries at he
  unfold keyOfPair
  by_cases hn : n = 1
  · rw [if_pos hn] at he
    simp only [List.mem_singleton] at he
    subst he
    exact ⟨"", by rw [if_pos hn]⟩
  · rw [if_neg hn] at he
    obtain ⟨p, _, rfl⟩ := List.mem_map.mp he
    exact ⟨(deref node.heap p).collocate, by rw [if_neg hn]⟩

theorem keyOfPair_inj {n : Nat} {h h' c c' : String} (hw : noSpace h = true)
    (hw' : noSpace h' = true) (hk : keyOfPair n h c = keyOfPair n h' c') :
    h = h' ∧ (n ≠ 1 → c = c') := by
  unfold keyOfPair at hk
  by_cases hn : n = 1
  · rw [if_pos hn, if_pos hn] at hk
    exact ⟨hk, fun h1 => absurd hn h1⟩
  · rw [if_neg hn, if_neg hn] at hk
    exact ⟨(key_inj hw hw' hk).1, fun _ => (key_inj hw hw' hk).2⟩

/-- The keys read from a table without tombstones whose headwords hold no white space are
distinct. -/
theorem tableEntries_keys_nodup {n : Nat} {t : head_table} (hcl : CleanOK n t)
    (hw : HeadsSat (fun h => noSpace h = true) t) :
    ((tableEntries n t).map Prod.fst).Nodup := by
  unfold tableEntries
  rw [List.map_flatMap, List.nodup_flatMap]
  constructor
  · intro s hs
    cases s with
    | none => simp [slotEntries]
    | some node =>
      obtain ⟨b, _, hb⟩ := mem_slot hs
      by_cases hd : node.deleted = true
      · simp [slotEntries, hd]
      · simp only [slotEntries, hd, Bool.false_eq_true, ↓reduceIte]
        exact nodeEntries_keys_nodup (fun hn => hcl.nodes hn b node hb)
  · rw [List.pairwise_iff_getElem]
    intro i j hi hj hij k hk1 hk2
    have hsi := slot_eq_getElem t.table i hi
    have hsj := slot_eq_getElem t.table j hj
    rw [← hsi] at hk1
    rw [← hsj] at hk2
    cases hi' : slot t.table i with
    | none =>
      rw [hi'] at hk1
      simp [slotEntries] at hk1
    | some x =>
      cases hj' : slot t.table j with
      | none =>
        rw [hj'] at hk2
        simp [slotEntries] at hk2
      | some y =>
        rw [hi'] at hk1
        rw [hj'] at hk2
        simp only [slotEntries, hcl.tbl.live i x hi', hcl.tbl.live j y hj', Bool.false_eq_true,
          ↓reduceIte] at hk1 hk2
        obtain ⟨e1, he1, rfl⟩ := List.mem_map.mp hk1
        obtain ⟨e2, he2, hk⟩ := List.mem_map.mp hk2
        obtain ⟨c1, hc1⟩ := nodeEntries_key he1
        obtain ⟨c2, hc2⟩ := nodeEntries_key he2
        rw [hc1, hc2] at hk
        have := (keyOfPair_inj (hw j y hj') (hw i x hi') hk).1
        have := hcl.tbl.keys j i y x hj' hi' this
        omega

/-- On a model without tombstones whose headwords hold no white space, `NGrams` returns the
entries of the table. -/
theorem NGrams_clean {lm : State} {t : head_table} (ht : lm.main_table = some t)
    (hcl : CleanOK lm.ngram_size t) (hw : HeadsSat (fun h => noSpace h = true) t) :
    NGrams lm = tableEntries lm.ngram_size t := by
  rw [NGrams_eq_insertAll ht, insertAll_nodup _ _ (by
    rw [List.nil_append]; exact tableEntries_keys_nodup hcl hw), List.nil_append]

/-- The entries of a table without tombstones: one for each stored pair, with its count. -/
theorem mem_tableEntries_count {n : Nat} {t : head_table} (hcl : CleanOK n t) (k : String)
    (v : Int) :
    (k, v) ∈ tableEntries n t ↔
      ∃ h c, k = keyOfPair n h c ∧ v = toInt (slotSum (pairWeight n h c) t.table) ∧
        ∃ b node, slot t.table b = some node ∧ node.headword = h ∧
          (n ≠ 1 → c ∈ heapKeys node) := by
  rw [mem_tableEntries]
  constructor
  · rintro ⟨b, node, hs, hd, he⟩
    unfold nodeEntries at he
    by_cases hn : n = 1
    · rw [if_pos hn] at he
      simp only [List.mem_singleton, Prod.mk.injEq] at he
      refine ⟨node.headword, "", ?_, ?_, b, node, hs, rfl, fun h1 => absurd hn h1⟩
      · unfold keyOfPair
        rw [if_pos hn]
        exact he.1
      · rw [pairWeight_single hcl hs, if_pos hn]
        exact he.2
    · rw [if_neg hn] at he
      obtain ⟨p, hp, hpe⟩ := List.mem_map.mp he
      simp only [Prod.mk.injEq] at hpe
      have hnc := hcl.nodes hn b node hs
      have hplt := (mem_frequencies hnc p).mp hp
      refine ⟨node.headword, ckey node.heap p, ?_, ?_, b, node, hs, rfl, fun _ => ?_⟩
      · unfold keyOfPair
        rw [if_neg hn]
        exact hpe.1.symm
      · rw [pairWeight_single hcl hs, if_neg hn, nodeCount_single hnc hplt]
        exact hpe.2.symm
      · unfold heapKeys ckey
        rw [deref_eq_getElem _ _ hplt]
        exact List.mem_map.mpr ⟨_, List.getElem_mem _, rfl⟩
  · rintro ⟨h, c, hk, hv, b, node, hs, hh, hmem⟩
    subst hh
    refine ⟨b, node, hs, hcl.tbl.live b node hs, ?_⟩
    unfold nodeEntries
    unfold keyOfPair at hk
    by_cases hn : n = 1
    · rw [if_pos hn] at hk ⊢
      rw [pairWeight_single hcl hs, if_pos hn] at hv
      rw [hk, hv]
      exact List.mem_singleton_self _
    · rw [if_neg hn] at hk ⊢
      have hnc := hcl.nodes hn b node hs
      obtain ⟨x, hx, hxc⟩ := List.mem_map.mp (hmem hn)
      obtain ⟨p, hp, hpx⟩ := List.getElem_of_mem hx
      have hck : ckey node.heap p = c := by
        unfold ckey
        rw [deref_eq_getElem _ _ hp, hpx]
        exact hxc
      subst hck
      rw [pairWeight_single hcl hs, if_neg hn, nodeCount_single hnc hp] at hv
      rw [hk, hv]
      exact List.mem_map.mpr ⟨p, (mem_frequencies hnc p).mpr hp, rfl⟩

end LM

namespace LM

theorem pairHits_pos {n : Nat} {pr : String × String} {ps : List (String × String)}
    (h : pr ∈ ps) : 0 < pairHits n pr.1 pr.2 ps := by
  unfold pairHits
  rw [List.countP_pos_iff]
  exact ⟨pr, h, by simp⟩

theorem pairHits_le (n : Nat) (h c : String) (ps : List (String × String)) :
    pairHits n h c ps ≤ ps.length :=
  List.countP_le_length _

theorem pairHits_one (h c c' : String) (ps : List (String × String)) :
    pairHits 1 h c ps = pairHits 1 h c' ps := by
  unfold pairHits
  apply List.countP_congr
  intro x _
  simp

theorem toInt_small {x : Nat} (h : x < 2147483648) : toInt x = (x : Int) := by
  unfold toInt UMOD
  rw [Nat.mod_eq_of_lt (by omega), if_pos h]

/-- The map of `NGrams` on a model that holds the pairs `ps`: one key for each pair of `ps`, with
the number of its occurrences in `ps`. -/
theorem Holds.mem_NGrams {lm : State} {t : head_table} {ps : List (String × String)}
    (ht : lm.main_table = some t) (hh : Holds lm.ngram_size t ps)
    (hwords : ∀ pr ∈ ps, noSpace pr.1 = true) (hlen : ps.length < 2147483648) :
    NGrams lm = tableEntries lm.ngram_size t ∧ ((NGrams lm).map Prod.fst).Nodup ∧
    ∀ k v, (k, v) ∈ NGrams lm ↔ ∃ pr ∈ ps, k = keyOfPair lm.ngram_size pr.1 pr.2 ∧
      v = (pairHits lm.ngram_size pr.1 pr.2 ps : Int) := by
  have hw : HeadsSat (fun h => noSpace h = true) t := by
    intro b node hs
    obtain ⟨pr, hpr, he⟩ := hh.heads b node hs
    rw [← he]
    exact hwords pr hpr
  have hN := NGrams_clean ht hh.clean hw
  have hval : ∀ h c, toInt (slotSum (pairWeight lm.ngram_size h c) t.table) =
      (pairHits lm.ngram_size h c ps : Int) := by
    intro h c
    rw [toInt_congr (hh.sums h c), toInt_small]
    have := pairHits_le lm.ngram_size h c ps
    omega
  refine ⟨hN, ?_, ?_⟩
  · rw [hN]
    exact tableEntries_keys_nodup hh.clean hw
  intro k v
  rw [hN, mem_tableEntries_count hh.clean]
  constructor
  · rintro ⟨h, c, hk, hv, b, node, hs, hhd, hmem⟩
    rw [hval] at hv
    by_cases hn : lm.ngram_size = 1
    · obtain ⟨pr, hpr, he⟩ := hh.heads b node hs
      refine ⟨pr, hpr, ?_, ?_⟩
      · rw [hk]
        unfold keyOfPair
        rw [if_pos hn, if_pos hn, he, hhd]
      · rw [hv, he, hhd, hn, pairHits_one h c pr.2]
    · have := hh.pairs b node hs c (hmem hn)
      rw [hhd] at this
      exact ⟨(h, c), this, hk, hv⟩
  · rintro ⟨pr, hpr, hk, hv⟩
    refine ⟨pr.1, pr.2, hk, by rw [hval]; exact hv, ?_⟩
    have hpos := pairHits_pos (n := lm.ngram_size) hpr
    have hle := pairHits_le lm.ngram_size pr.1 pr.2 ps
    have hne : slotSum (pairWeight lm.ngram_size pr.1 pr.2) t.table ≠ 0 := by
      intro h0
      have := hh.sums pr.1 pr.2
      rw [h0] at this
      unfold UMOD at this
      omega
    obtain ⟨b, node, hs, _, hhd, hcnt⟩ := pairWeight_ne_zero hne
    refine ⟨b, node, hs, hhd, fun hn => ?_⟩
    obtain ⟨p, hp, hpk⟩ := nodeCount_ne_zero (hcnt hn)
    unfold heapKeys
    unfold ckey at hpk
    rw [deref_eq_getElem _ _ hp] at hpk
    exact List.mem_map.mpr ⟨_, List.getElem_mem _, hpk⟩

/-- Training on a clean source builds a model that holds the pairs of the stream. -/
theorem Train_holds {lm lm' : State} {src : Source} {ws : List String}
    (hok : StateOK lm) (hn : 1 ≤ lm.ngram_size) (hw : src.words = some ws)
    (h : Train lm src = some (true, lm')) :
    lm'.ngram_size = lm.ngram_size ∧ ∃ t, lm'.main_table = some t ∧
      Holds lm.ngram_size t (ingestPairs lm.ngram_size ws [] 0) := by
  have hest : 0 ≤ src.estimate := by
    by_contra hneg
    unfold Train at h
    rw [if_pos (by omega)] at h
    simp at h
  obtain ⟨_, hsz, t, ht, hcl, hheads, hprs, hown, hsums⟩ := Train_clean hok hn hest hw h
  exact ⟨hsz, t, ht, hcl, hheads _ (fun pr hpr => ⟨pr, hpr, rfl⟩),
    hprs _ (fun pr hpr => hpr), hsums, hown⟩

theorem pairHits_append (n : Nat) (h c : String) (ps qs : List (String × String)) :
    pairHits n h c (ps ++ qs) = pairHits n h c ps + pairHits n h c qs := by
  unfold pairHits
  rw [List.countP_append]

/-- A model that holds `ps` and then takes the pairs `qs` holds `ps ++ qs`. -/
theorem Holds.ingest {n : Nat} {t t' : head_table} {ps qs : List (String × String)}
    (hh : Holds n t ps) (hcl : CleanOK n t')
    (hheads : ∀ P : String → Prop, HeadsSat P t → (∀ pr ∈ qs, P pr.1) → HeadsSat P t')
    (hprs : ∀ Q : String → String → Prop, PairsSat Q t → (∀ pr ∈ qs, Q pr.1 pr.2) →
      PairsSat Q t')
    (hown : n ≠ 1 → CountsOK t → CountsOK t')
    (hsum : ∀ h c, slotSum (pairWeight n h c) t'.table % UMOD =
      (slotSum (pairWeight n h c) t.table + pairHits n h c qs) % UMOD) :
    Holds n t' (ps ++ qs) := by
  refine ⟨hcl, ?_, ?_, ?_, fun h1 => hown h1 (hh.own h1)⟩
  · apply hheads
    · intro b node hs
      obtain ⟨pr, hpr, he⟩ := hh.heads b node hs
      exact ⟨pr, List.mem_append_left _ hpr, he⟩
    · intro pr hpr
      exact ⟨pr, List.mem_append_right _ hpr, rfl⟩
  · apply hprs
    · intro b node hs k hk
      exact List.mem_append_left _ (hh.pairs b node hs k hk)
    · intro pr hpr
      exact List.mem_append_right _ hpr
  · intro h c
    have e1 := hsum h c
    have e2 := hh.sums h c
    rw [pairHits_append]
    unfold UMOD at *
    omega

/-- The transfer loop of `Grow` keeps what the model holds. -/
theorem Holds.transfer {n : Nat} {t nt : head_table} {u : Nat} {ps : List (String × String)}
    (hh : Holds n t ps) (hokt : TrainedOK n t u) (hnew : TableOK headword_node.deleted nt)
    (hempty : ∀ b, slot nt.table b = none) (hroom : t.occupied < nt.capacity) :
    Holds n (LM.transfer headword_node.headword headword_node.deleted t nt) ps := by
  obtain ⟨_, hcl, hheads, hprs, hown, hsum⟩ :=
    transfer_cleanOK hokt hh.clean hnew hempty hroom
  refine ⟨hcl, hheads _ hh.heads, hprs _ hh.pairs, ?_, fun h1 => hown (hh.own h1)⟩
  intro h c
  rw [hsum h c]
  exact hh.sums h c

/-- A `Grow` that returns `true` on a model that holds `ps` reads a stream and builds a model that
holds `ps` and the pairs of the stream. -/
theorem Grow_holds {lm lm' : State} {src : Source} {t : head_table}
    {ps : List (String × String)} (ht : lm.main_table = some t)
    (hokt : TrainedOK lm.ngram_size t lm.unique_ngrams_count) (hn : 1 ≤ lm.ngram_size)
    (hsz : src.estimate ≤ MAX_ESTIMATE) (hh : Holds lm.ngram_size t ps)
    (h : Grow lm src = some (true, lm')) :
    ∃ ws, src.words = some ws ∧ lm'.ngram_size = lm.ngram_size ∧ ∃ t', lm'.main_table = some t' ∧
      Holds lm.ngram_size t' (ps ++ ingestPairs lm.ngram_size ws [] 0) := by
  have hest : 0 ≤ src.estimate := by
    by_contra hneg
    unfold Grow at h
    rw [ht] at h
    simp only at h
    rw [if_pos (by omega)] at h
    simp at h
  obtain ⟨nt, t1, hnew, hempty, hroom, rfl, hcase⟩ := Grow_unfold ht hokt hest hsz h
  rcases hcase with ⟨_, hr, _⟩ | ⟨ws, hw, hing⟩
  · cases hr
  obtain ⟨hok1, hcl1, _, _, _⟩ := transfer_cleanOK hokt hh.clean hnew hempty hroom
  have hh1 := hh.transfer hokt hnew hempty hroom
  obtain ⟨_, hn2, t2, ht2, hcl2, hheads2, hprs2, hown2, hsum2⟩ :=
    ingestAndSort_clean hing rfl hok1 hcl1 hn
  exact ⟨ws, hw, hn2, t2, ht2, hh1.ingest hcl2 hheads2 hprs2 hown2 hsum2⟩

end LM

namespace LM

theorem intercalate_go (s : String) : ∀ (l : List String) (acc : String),
    String.intercalate.go acc s l = l.foldl (fun acc x => acc ++ s ++ x) acc := by
  intro l
  induction l with
  | nil => intro acc; rfl
  | cons a as ih =>
    intro acc
    rw [String.intercalate.go, ih, List.foldl_cons]

theorem joinSp_prepend (a : String) : ∀ (r : List String) (b : String),
    a ++ " " ++ r.foldl (fun acc x => acc ++ " " ++ x) b =
      r.foldl (fun acc x => acc ++ " " ++ x) (a ++ " " ++ b) := by
  intro r
  induction r with
  | nil => intro b; rfl
  | cons x r ih =>
    intro b
    rw [List.foldl_cons, List.foldl_cons, ih]
    simp only [String.append_assoc]

/-- The key of a window of words is the window joined by single spaces. -/
theorem keyOfPair_window {n : Nat} {w : List String} (hl : w.length = n) (hn : 1 ≤ n)
    (hw : ∀ x ∈ w, isWord x = true) :
    keyOfPair n (pairOf w).1 (pairOf w).2 = " ".intercalate w := by
  unfold keyOfPair pairOf
  cases w with
  | nil =>
    simp only [List.length_nil] at hl
    omega
  | cons a r =>
    cases r with
    | nil =>
      simp only [List.length_singleton] at hl
      rw [if_pos hl.symm]
      rfl
    | cons b r =>
      simp only [List.length_cons] at hl
      rw [if_neg (by omega)]
      simp only [List.headD_cons, List.tail_cons]
      rw [joinCollocate_cons b r (hw b (by simp)), joinSp_prepend]
      have e : " ".intercalate (a :: b :: r) = String.intercalate.go a " " (b :: r) := rfl
      rw [e, intercalate_go]
      rfl

theorem joinCollocate_snoc (l : List String) (w : String) :
    joinCollocate (l ++ [w]) =
      if (joinCollocate l).length = 0 then w else joinCollocate l ++ " " ++ w := by
  unfold joinCollocate
  rw [List.foldl_append]
  rfl

theorem key_inj_right {s s' w w' : String} (hw : noSpace w = true) (hw' : noSpace w' = true)
    (hk : s ++ " " ++ w = s' ++ " " ++ w') : s = s' ∧ w = w' := by
  have hd := congrArg (fun x => x.data.reverse) hk
  simp only [key_data, List.reverse_append, List.reverse_cons, List.append_assoc,
    List.singleton_append] at hd
  obtain ⟨e1, e2⟩ := append_sep_inj ' ' _ _ _ _
    (by rw [List.mem_reverse]; exact noSpace_no_space hw)
    (by rw [List.mem_reverse]; exact noSpace_no_space hw') hd
  exact ⟨String.ext (List.reverse_injective e2), String.ext (List.reverse_injective e1)⟩

theorem length_zero_iff (s : String) : s.length = 0 ↔ s = "" := by
  constructor
  · intro h
    apply String.ext
    exact List.length_eq_zero.mp h
  · rintro rfl
    rfl

/-- The collocate built from a window of given length determines the window, when the tokens
hold no white space. -/
theorem joinCollocate_inj : ∀ (l l' : List String), l.length = l'.length →
    (∀ x ∈ l, noSpace x = true) → (∀ x ∈ l', noSpace x = true) →
    joinCollocate l = joinCollocate l' → l = l' := by
  intro l
  induction l using List.reverseRecOn with
  | nil =>
    intro l' hl _ _ _
    simp only [List.length_nil] at hl
    exact (List.length_eq_zero.mp hl.symm).symm
  | append_singleton l w ih =>
    intro l' hl hw hw' hj
    rcases List.eq_nil_or_concat l' with rfl | ⟨m, w', rfl⟩
    · simp at hl
    simp only [List.concat_eq_append] at hl hw' hj ⊢
    simp only [List.length_append, List.length_singleton, Nat.add_right_cancel_iff] at hl
    have hwl : ∀ x ∈ l, noSpace x = true := fun x hx => hw x (List.mem_append_left _ hx)
    have hwm : ∀ x ∈ m, noSpace x = true := fun x hx => hw' x (List.mem_append_left _ hx)
    have hww : noSpace w = true := hw w (by simp)
    have hww' : noSpace w' = true := hw' w' (by simp)
    rw [joinCollocate_snoc, joinCollocate_snoc] at hj
    by_cases h1 : (joinCollocate l).length = 0
    · by_cases h2 : (joinCollocate m).length = 0
      · rw [if_pos h1, if_pos h2] at hj
        have := ih m hl hwl hwm (by
          rw [(length_zero_iff _).mp h1, (length_zero_iff _).mp h2])
        rw [this, hj]
      · rw [if_pos h1, if_neg h2] at hj
        exfalso
        apply noSpace_no_space hww
        rw [hj, key_data]
        simp
    · by_cases h2 : (joinCollocate m).length = 0
      · rw [if_neg h1, if_pos h2] at hj
        exfalso
        apply noSpace_no_space hww'
        rw [← hj, key_data]
        simp
      · rw [if_neg h1, if_neg h2] at hj
        obtain ⟨e1, e2⟩ := key_inj_right hww hww' hj
        rw [ih m hl hwl hwm e1, e2]

/-- Two windows of tokens without white space count for the same pair exactly when they are
equal. -/
theorem pairOf_match {n : Nat} {w w' : List String} (hl : w.length = n) (hl' : w'.length = n)
    (hn : 1 ≤ n) (hw : ∀ x ∈ w, noSpace x = true) (hw' : ∀ x ∈ w', noSpace x = true) :
    ((pairOf w').1 = (pairOf w).1 ∧ (n = 1 ∨ (pairOf w').2 = (pairOf w).2)) ↔ w' = w := by
  constructor
  · rintro ⟨h1, h2⟩
    cases w with
    | nil =>
      simp only [List.length_nil] at hl
      omega
    | cons a r =>
      cases w' with
      | nil =>
        simp only [List.length_nil] at hl'
        omega
      | cons a' r' =>
        simp only [pairOf, List.headD_cons, List.tail_cons] at h1 h2
        subst h1
        simp only [List.length_cons] at hl hl'
        rcases h2 with h2 | h2
        · have e1 : r = [] := List.length_eq_zero.mp (by omega)
          have e2 : r' = [] := List.length_eq_zero.mp (by omega)
          rw [e1, e2]
        · rw [joinCollocate_inj r' r (by omega)
            (fun x hx => hw' x (List.mem_cons_of_mem _ hx))
            (fun x hx => hw x (List.mem_cons_of_mem _ hx)) h2]
  · rintro rfl
    exact ⟨rfl, Or.inr rfl⟩

/-- The number of pairs that count for a window is the number of its occurrences. -/
theorem pairHits_windows {n : Nat} (hn : 1 ≤ n) {W : List (List String)}
    (hW : ∀ w ∈ W, w.length = n ∧ ∀ x ∈ w, noSpace x = true) {w : List String} (hw : w ∈ W) :
    pairHits n (pairOf w).1 (pairOf w).2 (W.map pairOf) = W.count w := by
  unfold pairHits
  rw [List.countP_map, List.count_eq_countP]
  apply List.countP_congr
  intro w' hw'
  simp only [Function.comp_apply, decide_eq_true_eq, beq_iff_eq]
  exact pairOf_match (hW w hw).1 (hW w' hw').1 hn (hW w hw).2 (hW w' hw').2

theorem windows_one {α : Type} : ∀ (l : List α), windows 1 l = l.map fun x => [x] := by
  intro l
  induction l with
  | nil => rfl
  | cons x xs ih =>
    unfold windows
    rw [if_pos (by simp), ih]
    rfl

/-- The pairs of a clean stream are the pairs of the windows of its tokens. -/
theorem ingestPairs_eq_windows {n : Nat} (hn : 1 ≤ n) (ws : List String)
    (hmax : ws.length < 2147483648) :
    ingestPairs n ws [] 0 = (windows n (ws.map stripPunct)).map pairOf := by
  have hJ : (0 < n - 1 ∧ ([] : List String).length = 0) ∨
      (n - 1 ≤ 0 ∧ ([] : List String).length = n - 1) := by
    rcases Nat.lt_or_ge 0 (n - 1) with h | h
    · exact Or.inl ⟨h, rfl⟩
    · exact Or.inr ⟨h, by simp only [List.length_nil]; omega⟩
  rw [ingestPairs_windows n hn ws [] 0 (by unfold UMOD; omega) hJ, List.nil_append]

theorem windows_length_le {α : Type} (n : Nat) : ∀ (l : List α),
    (windows n l).length ≤ l.length := by
  intro l
  induction l with
  | nil => simp [windows]
  | cons x xs ih =>
    unfold windows
    split_ifs
    · simp only [List.length_cons]
      omega
    · simp

end LM

namespace LM

/-- In a model without tombstones the live entries are the entries that `NGrams` reads. -/
theorem liveEntries_clean {lm : State} {t : head_table} (ht : lm.main_table = some t)
    (hcl : CleanOK lm.ngram_size t) :
    liveEntries lm = (tableEntries lm.ngram_size t).length := by
  unfold liveEntries tableEntries
  rw [ht, List.length_flatMap]
  dsimp only
  have hsum : ∀ g : Option headword_node → Nat,
      (∀ b, b < t.table.length → g (slot t.table b) =
        (slotEntries lm.ngram_size (slot t.table b)).length) →
      slotSum g t.table = (t.table.map (List.length ∘ slotEntries lm.ngram_size)).sum := by
    intro g hg
    have := slotSum_congr (fun s => (slotEntries lm.ngram_size s).length) g t.table hg
    rw [this]
    rfl
  by_cases hn : lm.ngram_size = 1
  · rw [if_pos hn, liveCount_eq_slotSum]
    apply hsum
    intro b _
    cases hs : slot t.table b with
    | none => rfl
    | some node =>
      have := hcl.tbl.live b node hs
      simp [liveSlot, slotEntries, nodeEntries, this, hn]
  · rw [if_neg hn]
    apply hsum
    intro b _
    cases hs : slot t.table b with
    | none => rfl
    | some node =>
      have hd := hcl.tbl.live b node hs
      have hc := hcl.nodes hn b node hs
      simp only [entryWeight, slotEntries, nodeEntries, hd, hn, Bool.false_eq_true, ↓reduceIte,
        List.length_map]
      rw [hc.full, hc.freq.length_eq, List.length_range]

/-- A model that holds the pairs of the windows of tokens without white space has as many
entries as there are distinct windows. -/
theorem Holds.length_NGrams {lm : State} {t : head_table} {W : List (List String)}
    (ht : lm.main_table = some t) (hn : 1 ≤ lm.ngram_size)
    (hh : Holds lm.ngram_size t (W.map pairOf))
    (hW : ∀ w ∈ W, w.length = lm.ngram_size ∧ ∀ x ∈ w, noSpace x = true)
    (hlen : W.length < 2147483648) :
    NGrams lm = tableEntries lm.ngram_size t ∧ (NGrams lm).length = W.dedup.length := by
  have hhead : ∀ w ∈ W, noSpace (pairOf w).1 = true := by
    intro w hw
    obtain ⟨hl, hx⟩ := hW w hw
    cases w with
    | nil =>
      simp only [List.length_nil] at hl
      omega
    | cons a r => exact hx a (List.mem_cons_self _ _)
  obtain ⟨hN, hnd, hiff⟩ := hh.mem_NGrams ht
    (by
      intro pr hpr
      obtain ⟨w, hw, rfl⟩ := List.mem_map.mp hpr
      exact hhead w hw)
    (by rw [List.length_map]; exact hlen)
  refine ⟨hN, ?_⟩
  have hD : (W.dedup.map fun w =>
      keyOfPair lm.ngram_size (pairOf w).1 (pairOf w).2).Nodup := by
    apply List.Nodup.map_on _ (List.nodup_dedup W)
    intro w hw w' hw' hk
    have hw1 := List.mem_dedup.mp hw
    have hw2 := List.mem_dedup.mp hw'
    obtain ⟨e1, e2⟩ := keyOfPair_inj (hhead w hw1) (hhead w' hw2) hk
    refine ((pairOf_match (hW w' hw2).1 (hW w hw1).1 hn (hW w' hw2).2 (hW w hw1).2).mp
      ⟨e1, ?_⟩)
    by_cases h1 : lm.ngram_size = 1
    · exact Or.inl h1
    · exact Or.inr (e2 h1)
  have hperm : ((NGrams lm).map Prod.fst).Perm (W.dedup.map fun w =>
      keyOfPair lm.ngram_size (pairOf w).1 (pairOf w).2) := by
    rw [List.perm_ext_iff_of_nodup hnd hD]
    intro k
    constructor
    · intro hk
      obtain ⟨e, he, rfl⟩ := List.mem_map.mp hk
      obtain ⟨pr, hpr, hk', _⟩ := (hiff e.1 e.2).mp he
      obtain ⟨w, hw, rfl⟩ := List.mem_map.mp hpr
      exact List.mem_map.mpr ⟨w, List.mem_dedup.mpr hw, hk'.symm⟩
    · intro hk
      obtain ⟨w, hw, rfl⟩ := List.mem_map.mp hk
      have := (hiff (keyOfPair lm.ngram_size (pairOf w).1 (pairOf w).2)
        (pairHits lm.ngram_size (pairOf w).1 (pairOf w).2 (W.map pairOf) : Int)).mpr
        ⟨pairOf w, List.mem_map.mpr ⟨w, List.mem_dedup.mp hw, rfl⟩, rfl, rfl⟩
      exact List.mem_map.mpr ⟨_, this, rfl⟩
  have := hperm.length_eq
  rw [List.length_map, List.length_map] at this
  exact this

end LM

namespace LM

/-- The counters after a `Grow` that returns `true`: `tokens` grows by the number of tokens of the
stream and `ngrams_total` by the number of its windows. -/
theorem Grow_counters {lm lm' : State} {src : Source} {ws : List String} {t : head_table}
    (ht : lm.main_table = some t)
    (hokt : TrainedOK lm.ngram_size t lm.unique_ngrams_count) (hn : 1 ≤ lm.ngram_size)
    (hsz : src.estimate ≤ MAX_ESTIMATE) (hw : src.words = some ws)
    (hL : lm.ngram_size - 1 ≤ ws.length) (hmax : ws.length < 2147483648)
    (h : Grow lm src = some (true, lm')) :
    lm'.tokens % UMOD = (lm.tokens + ws.length) % UMOD ∧
    lm'.ngrams_total % UMOD = (lm.ngrams_total + (ws.length - (lm.ngram_size - 1))) % UMOD := by
  have hest : 0 ≤ src.estimate := by
    by_contra hneg
    unfold Grow at h
    rw [ht] at h
    simp only at h
    rw [if_pos (by omega)] at h
    simp at h
  obtain ⟨nt, t1, hnew, hempty, hroom, rfl, hcase⟩ := Grow_unfold ht hokt hest hsz h
  rcases hcase with ⟨_, hr, _⟩ | ⟨ws', hw', hing⟩
  · cases hr
  rw [hw] at hw'
  cases hw'
  have hok1 := hokt.rehashedMain
    (Rehashed.of_transfer headword_node.headword _ hokt.table hnew hempty hroom)
  obtain ⟨lm2, h2, hlm'⟩ := ingestAndSort_cases hing
  obtain ⟨ha, hb⟩ := ingest_counters ws _ [] 0 lm2 _ h2 rfl hok1
  obtain ⟨t2, ht2, _⟩ := ingest_spec ws _ [] 0 true lm2 _ h2 rfl hok1
  have hlen := ingestPairs_length lm.ngram_size ws [] 0 (by unfold UMOD; omega)
  dsimp only at ha hb
  rw [hlen] at ha hb
  have hc : lm'.ngrams_total = lm2.ngrams_total ∧ lm'.tokens = lm2.tokens := by
    rcases hlm' with rfl | ⟨_, _, rfl⟩
    · exact ⟨rfl, rfl⟩
    · rw [SortCounts_eq lm2 t2 ht2]
      exact ⟨rfl, rfl⟩
  rw [hc.1, hc.2, ha, hb]
  unfold uadd usub UMOD
  constructor <;> omega

/-- The map of `NGrams` on a model that holds the pairs of the windows of tokens without white
space: one key for each distinct window, with the number of its occurrences. -/
theorem Holds.mem_windows_NGrams {lm : State} {t : head_table} {W : List (List String)}
    (ht : lm.main_table = some t) (hn : 1 ≤ lm.ngram_size)
    (hh : Holds lm.ngram_size t (W.map pairOf))
    (hW : ∀ w ∈ W, w.length = lm.ngram_size ∧ ∀ x ∈ w, noSpace x = true)
    (hlen : W.length < 2147483648) :
    ((NGrams lm).map Prod.fst).Nodup ∧
    ∀ k v, (k, v) ∈ NGrams lm ↔ ∃ w ∈ W,
      k = keyOfPair lm.ngram_size (pairOf w).1 (pairOf w).2 ∧ v = (W.count w : Int) := by
  have hhead : ∀ w ∈ W, noSpace (pairOf w).1 = true := by
    intro w hw
    obtain ⟨hl, hx⟩ := hW w hw
    cases w with
    | nil =>
      simp only [List.length_nil] at hl
      omega
    | cons a r => exact hx a (List.mem_cons_self _ _)
  obtain ⟨_, hnd, hiff⟩ := hh.mem_NGrams ht
    (by
      intro pr hpr
      obtain ⟨w, hw, rfl⟩ := List.mem_map.mp hpr
      exact hhead w hw)
    (by rw [List.length_map]; exact hlen)
  refine ⟨hnd, fun k v => ?_⟩
  rw [hiff]
  constructor
  · rintro ⟨pr, hpr, hk, hv⟩
    obtain ⟨w, hw, rfl⟩ := List.mem_map.mp hpr
    exact ⟨w, hw, hk, by rw [hv, pairHits_windows hn hW hw]⟩
  · rintro ⟨w, hw, hk, hv⟩
    exact ⟨pairOf w, List.mem_map.mpr ⟨w, hw, rfl⟩, hk, by rw [hv, pairHits_windows hn hW hw]⟩

theorem toInt_of_mod {x y : Nat} (h : x % UMOD = y % UMOD) (hy : y < 2147483648) :
    toInt x = (y : Int) := by
  rw [toInt_congr h, toInt_small hy]

theorem mod_of_toInt {x y : Nat} (h : toInt x = (y : Int)) (hy : y < 2147483648) :
    x % UMOD = y % UMOD := by
  unfold toInt UMOD at *
  split_ifs at h <;> omega

/-! ## The counters stay in the range of `unsigned int` -/

theorem usub_lt (a b : Nat) : usub a b < UMOD := by
  unfold usub
  exact Nat.mod_lt _ (by unfold UMOD; omega)

theorem ingest_small : ∀ (words : List String) (lm : State) (ngram : List String) (count : Nat)
    (r : Bool) (lm' : State) (t : head_table),
    ingest words lm ngram count = some (r, lm') → lm.main_table = some t →
    TrainedOK lm.ngram_size t lm.unique_ngrams_count →
    lm.ngrams_total < UMOD ∧ lm.tokens < UMOD →
    lm'.ngrams_total < UMOD ∧ lm'.tokens < UMOD := by
  intro words
  induction words with
  | nil =>
    intro lm ngram count r lm' t h _ _ hsm
    simp only [ingest, Option.some.injEq, Prod.mk.injEq] at h
    obtain ⟨_, rfl⟩ := h
    exact hsm
  | cons word rest ih =>
    intro lm ngram count r lm' t h ht hok hsm
    rcases ingest_cons h with ⟨_, hrec⟩ | ⟨_, headword, ng, lm1, st, lm2, _, h1, h2, hfin⟩
    · exact ih lm _ _ r lm' t hrec ht hok hsm
    · obtain ⟨t1, rfl, hr⟩ := growHead_spec ht hok.table h1
      have hok1 := hok.rehashedMain hr
      obtain ⟨t2, ht2, hok2, hn2, hcase, _⟩ := InsertNGram_spec h2 (t := t1) rfl hok1
      simp only at hn2 hok2
      have hsm2 : lm2.ngrams_total < UMOD ∧ lm2.tokens < UMOD := by
        rcases hcase with ⟨_, rfl⟩ | ⟨_, htot, htk, _⟩
        · exact hsm
        · rw [htot, htk]
          exact ⟨uadd_lt _ _, uadd_lt _ _⟩
      rcases hfin with ⟨_, _, rfl⟩ | ⟨_, hrec⟩
      · exact hsm2
      · exact ih lm2 _ _ r lm' t2 hrec ht2 (by rw [hn2]; exact hok2) hsm2

theorem ingestAndSort_small {lm lm' : State} {ws : List String} {r : Bool} {t : head_table}
    (h : ingestAndSort lm ws = some (r, lm')) (ht : lm.main_table = some t)
    (hok : TrainedOK lm.ngram_size t lm.unique_ngrams_count)
    (hsm : lm.ngrams_total < UMOD ∧ lm.tokens < UMOD) :
    lm'.ngrams_total < UMOD ∧ lm'.tokens < UMOD := by
  obtain ⟨lm2, h2, hlm'⟩ := ingestAndSort_cases h
  have := ingest_small ws lm [] 0 r lm2 t h2 ht hok hsm
  obtain ⟨t2, ht2, _⟩ := ingest_spec ws lm [] 0 r lm2 t h2 ht hok
  rcases hlm' with rfl | ⟨_, _, rfl⟩
  · exact this
  · rw [SortCounts_eq lm2 t2 ht2]
    exact this

/-- After a `Train` that returns `true` the counters are in the range of `unsigned int`. -/
theorem Train_small {lm lm' : State} {src : Source} (hok : StateOK lm)
    (h : Train lm src = some (true, lm')) :
    lm'.ngrams_total < UMOD ∧ lm'.tokens < UMOD := by
  have hest : 0 ≤ src.estimate := by
    by_contra hneg
    unfold Train at h
    rw [if_pos (by omega)] at h
    simp at h
  obtain ⟨t0, hi, hcase⟩ := Train_unfold hok h hest
  rcases hcase with ⟨_, hr, _⟩ | ⟨ws, _, hing⟩
  · cases hr
  · exact ingestAndSort_small hing (t := t0) rfl (TrainedOK_init (n := lm.ngram_size) hi).1
      ⟨by unfold UMOD; simp [init], usub_lt _ _⟩

/-- After a `Grow` that returns `true` the counters are in the range of `unsigned int`. -/
theorem Grow_small {lm lm' : State} {src : Source} {t : head_table}
    (ht : lm.main_table = some t)
    (hokt : TrainedOK lm.ngram_size t lm.unique_ngrams_count)
    (hsz : src.estimate ≤ MAX_ESTIMATE) (hsm : lm.ngrams_total < UMOD)
    (h : Grow lm src = some (true, lm')) :
    lm'.ngrams_total < UMOD ∧ lm'.tokens < UMOD := by
  have hest : 0 ≤ src.estimate := by
    by_contra hneg
    unfold Grow at h
    rw [ht] at h
    simp only at h
    rw [if_pos (by omega)] at h
    simp at h
  obtain ⟨nt, t1, hnew, hempty, hroom, rfl, hcase⟩ := Grow_unfold ht hokt hest hsz h
  rcases hcase with ⟨_, hr, _⟩ | ⟨ws, _, hing⟩
  · cases hr
  · exact ingestAndSort_small hing rfl (hokt.rehashedMain
      (Rehashed.of_transfer headword_node.headword _ hokt.table hnew hempty hroom))
      ⟨hsm, uadd_lt _ _⟩

theorem eq_of_mod_small {x y : Nat} (hx : x < UMOD) (hy : y < UMOD)
    (h : x % UMOD = y % UMOD) : x = y := by
  rw [Nat.mod_eq_of_lt hx, Nat.mod_eq_of_lt hy] at h
  exact h

end LM

namespace LM

/-! ## Lookups in tables without tombstones -/

theorem findSlot_hit {α : Type} {keyOf : α → String} {dead : α → Bool} {t : hash_table α}
    (hc : Clean keyOf dead t) (hok : TableOK dead t) {b : Nat} {x : α}
    (hs : slot t.table b = some x) : findSlot keyOf dead t (keyOf x) = some b := by
  unfold findSlot
  rw [hc.probe_hit hok hs]

/-- In a table without tombstones `FindHeadword` finds every stored headword. -/
theorem FindHeadword_hit {lm : State} {t : head_table} (ht : lm.main_table = some t)
    (hc : Clean headword_node.headword headword_node.deleted t)
    (hok : TableOK headword_node.deleted t) {b : Nat} {node : headword_node}
    (hs : slot t.table b = some node) : FindHeadword lm node.headword = some b := by
  unfold FindHeadword
  rw [ht]
  exact findSlot_hit hc hok hs

/-- In a node without tombstones `FindCollocate` finds every allocated collocate node. -/
theorem FindCollocate_hit {hw : headword_node} (hok : NodeOK hw) (hc : NodeClean hw) {p : Nat}
    (hp : p < hw.heap.length) : FindCollocate hw (ckey hw.heap p) = some p := by
  obtain ⟨b, hb⟩ := hc.onto p hp
  unfold FindCollocate
  rw [findSlot_hit hc.tbl hok.tbl hb]
  exact hb

/-- `SplitNGram` on the key of a window of at least two words. -/
theorem SplitNGram_window {n : Nat} {w : List String} (hl : w.length = n) (hn : 2 ≤ n)
    (hw : ∀ x ∈ w, isWord x = true) :
    SplitNGram (keyOfPair n (pairOf w).1 (pairOf w).2) = some [(pairOf w).1, (pairOf w).2] ∧
      (keyOfPair n (pairOf w).1 (pairOf w).2).length > 0 := by
  cases w with
  | nil =>
    simp only [List.length_nil] at hl
    omega
  | cons a r =>
    cases r with
    | nil =>
      simp only [List.length_singleton] at hl
      omega
    | cons b r =>
      have hk : keyOfPair n (pairOf (a :: b :: r)).1 (pairOf (a :: b :: r)).2 =
          (b :: r).foldl (fun acc x => acc ++ " " ++ x) a := by
        unfold keyOfPair pairOf
        rw [if_neg (by omega)]
        simp only [List.headD_cons, List.tail_cons]
        rw [joinCollocate_cons b r (hw b (by simp)), joinSp_prepend]
        rfl
      have hsplit := splitWords_joinSp a (b :: r) (hw a (by simp))
        (fun x hx => hw x (List.mem_cons_of_mem _ hx))
      have hlen : ((b :: r).foldl (fun acc x => acc ++ " " ++ x) a).length ≠ 0 := by
        intro h0
        rw [splitWords_of_length_zero h0] at hsplit
        cases hsplit
      rw [hk]
      refine ⟨?_, by omega⟩
      unfold SplitNGram
      rw [if_neg hlen, hsplit]
      simp only [pairOf, List.headD_cons, List.tail_cons]
      rw [joinCollocate_cons b r (hw b (by simp))]

/-- `Frequency` on a key that splits into a stored headword and one of its collocates, in a model
without tombstones of order at least 2. -/
theorem Frequency_hit {lm : State} {t : head_table} (ht : lm.main_table = some t)
    (hok : TrainedOK lm.ngram_size t lm.unique_ngrams_count) (hcl : CleanOK lm.ngram_size t)
    (hn : 2 ≤ lm.ngram_size) {b : Nat} {node : headword_node} (hs : slot t.table b = some node)
    {p : Nat} (hp : p < node.heap.length) {k : String} (hk : k.length > 0)
    (hsplit : SplitNGram k = some [node.headword, ckey node.heap p]) :
    Frequency lm k =
      some { num := toFloat (deref node.heap p).count, den := toFloat lm.ngrams_total } := by
  have hlive := hcl.tbl.live b node hs
  unfold Frequency
  rw [ht]
  simp only
  rw [if_pos hk, hsplit]
  simp only [Option.some_bind, List.length_cons, List.length_nil, List.headD_cons, ↓reduceIte]
  rw [FindHeadword_hit ht hcl.tbl hok.table hs]
  simp only [hs]
  rw [if_neg (by omega), if_neg (by omega),
    FindCollocate_hit (hok.nodes b node hs hlive) (hcl.nodes (by omega) b node hs) hp]

/-- A resize that is requested because the load is below one eighth returns a table. -/
theorem ladder_shrink_isSome : ∀ c ∈ LADDER,
    (PrimeSize (2 ^ (PowerOfTwoExponent c - 2))).isSome = true := by
  decide

theorem resize_shrink_isSome {α : Type} (keyOf : α → String) (dead : α → Bool)
    (t : hash_table α) (hl : t.capacity ∈ LADDER) (hload : (tableLoad t).ltEighth = true) :
    ∃ t', resize keyOf dead t = some t' := by
  unfold resize resizeRequest
  by_cases hc : t.capacity > MIN_SIZE
  · simp only [hload, hc, decide_True, Bool.and_self, ↓reduceIte]
    unfold InitTable
    have := ladder_shrink_isSome t.capacity hl
    obtain ⟨c, hc'⟩ := Option.isSome_iff_exists.mp this
    rw [hc']
    exact ⟨_, rfl⟩
  · have hlt : (tableLoad t).ltHalf = true := by
      unfold Load.ltEighth at hload
      unfold Load.ltHalf
      simp only [decide_eq_true_eq] at hload ⊢
      omega
    simp only [hload, hc, decide_False, Bool.and_false, Bool.false_eq_true, ↓reduceIte, hlt]
    exact ⟨t, rfl⟩

/-! ## Removal of a stored n-gram -/

/-- `DeleteHeadword` on an occupied bucket returns `true`. -/
theorem DeleteHeadword_true {lm : State} {t : head_table} (ht : lm.main_table = some t)
    (hl : t.capacity ∈ LADDER) {b : Nat} {node : headword_node}
    (hs : slot t.table b = some node) : ∃ lm', DeleteHeadword lm b = some (true, lm') := by
  unfold DeleteHeadword
  rw [ht]
  simp only
  by_cases h1 : t.occupied = 1
  · rw [if_pos h1]
    exact ⟨_, rfl⟩
  · rw [if_neg h1, hs]
    simp only
    split_ifs with hload
    · unfold ResizeHeadTable
      simp only
      unfold GetHeadTableLoad at hload
      simp only at hload
      obtain ⟨t', ht'⟩ := resize_shrink_isSome headword_node.headword headword_node.deleted _
        (by exact hl) hload
      rw [ht']
      exact ⟨_, rfl⟩
    · exact ⟨_, rfl⟩

/-- `DeleteCollocate` on a collocate node that is listed in `frequencies` returns `true`. -/
theorem DeleteCollocate_true {lm : State} {t : head_table} (ht : lm.main_table = some t)
    (hl : t.capacity ∈ LADDER) {b : Nat} {hw : headword_node}
    (hs : slot t.table b = some hw) (hlc : hw.collocates.capacity ∈ LADDER) {p : Nat}
    (hp : p ∈ hw.frequencies) : ∃ lm', DeleteCollocate lm b p = some (true, lm') := by
  have hblen := slot_some_lt hs
  unfold DeleteCollocate
  rw [ht]
  simp only
  rw [hs]
  simp only
  by_cases h1 : hw.collocates.occupied = 1
  · rw [if_pos h1]
    apply DeleteHeadword_true (t := { t with table := t.table.set b (some
        { hw with heap := markDeleted hw.heap p,
                  collocates := { hw.collocates with
                    occupied := usub hw.collocates.occupied 1 } }) })
    · unfold setNode
      rw [ht]
    · exact hl
    · exact slot_set_self _ _ _ hblen
  · rw [if_neg h1, if_pos (List.indexOf_lt_length.mpr hp)]
    split_ifs with hload
    · unfold ResizeCollocateTable
      unfold GetCollocateTableLoad at hload
      obtain ⟨t', ht'⟩ := resize_shrink_isSome
        (ckey (markDeleted hw.heap p)) (cdead (markDeleted hw.heap p)) _ (by exact hlc) hload
      simp only at ht' ⊢
      rw [ht']
      exact ⟨_, rfl⟩
    · exact ⟨_, rfl⟩

/-- `Remove` on a key that splits into a stored headword and one of its collocates, in a model
without tombstones of order at least 2, returns `true`. -/
theorem Remove_hit {lm : State} {t : head_table} (ht : lm.main_table = some t)
    (hok : TrainedOK lm.ngram_size t lm.unique_ngrams_count) (hcl : CleanOK lm.ngram_size t)
    (hn : 2 ≤ lm.ngram_size) {b : Nat} {node : headword_node} (hs : slot t.table b = some node)
    {p : Nat} (hp : p < node.heap.length) {k : String} (hk : k.length > 0)
    (hsplit : SplitNGram k = some [node.headword, ckey node.heap p]) :
    ∃ lm', Remove lm k = some (true, lm') := by
  have hlive := hcl.tbl.live b node hs
  have hnc := hcl.nodes (by omega) b node hs
  have hno := hok.nodes b node hs hlive
  unfold Remove
  rw [ht]
  simp only
  rw [if_pos hk, hsplit]
  simp only [Option.some_bind, List.length_cons, List.length_nil, List.headD_cons, ↓reduceIte]
  rw [if_neg (by omega), FindHeadword_hit ht hcl.tbl hok.table hs]
  simp only [hs]
  rw [if_neg (by omega), FindCollocate_hit hno hnc hp]
  exact DeleteCollocate_true ht hok.table.ladder hs hno.tbl.ladder
    ((hnc.freq.mem_iff).mpr (List.mem_range.mpr hp))

/-! ## The entries of a model that holds windows of words -/

/-- In a model that holds `ps`, with fewer than `2^31` pairs, the count of a stored collocate node
is the number of occurrences of its pair. -/
theorem Holds.count_exact {n : Nat} {t : head_table} {ps : List (String × String)}
    (hh : Holds n t ps) (hn : n ≠ 1) (hlen : ps.length < 2147483648) {b : Nat}
    {node : headword_node} (hs : slot t.table b = some node) {p : Nat}
    (hp : p < node.heap.length) :
    (deref node.heap p).count = pairHits n node.headword (ckey node.heap p) ps := by
  have hnc := hh.clean.nodes hn b node hs
  have h1 := hh.sums node.headword (ckey node.heap p)
  rw [pairWeight_single hh.clean hs, if_neg hn, nodeCount_single hnc hp] at h1
  have hle := pairHits_le n node.headword (ckey node.heap p) ps
  exact eq_of_mod_small (hnc.small p) (by unfold UMOD; omega) h1

/-- Every entry of `NGrams`, in a model of order at least 2 that holds the pairs of windows of
words, comes from a collocate node whose key is split by `SplitNGram` into its headword and its
collocate. -/
theorem Holds.entry {lm : State} {t : head_table} {W : List (List String)}
    (ht : lm.main_table = some t) (hn : 2 ≤ lm.ngram_size)
    (hh : Holds lm.ngram_size t (W.map pairOf))
    (hW : ∀ w ∈ W, w.length = lm.ngram_size ∧ ∀ x ∈ w, isWord x = true)
    (hlen : W.length < 2147483648) {k : String} {v : Int} (hkv : (k, v) ∈ NGrams lm) :
    ∃ b node p, slot t.table b = some node ∧ p < node.heap.length ∧ k.length > 0 ∧
      SplitNGram k = some [node.headword, ckey node.heap p] ∧
      v = ((deref node.heap p).count : Int) ∧
      (deref node.heap p).count < 2147483648 := by
  have hne : lm.ngram_size ≠ 1 := by omega
  have hlen' : (W.map pairOf).length < 2147483648 := by rw [List.length_map]; exact hlen
  obtain ⟨hN, _, _⟩ := hh.mem_NGrams ht
    (by
      intro pr hpr
      obtain ⟨w, hw, rfl⟩ := List.mem_map.mp hpr
      obtain ⟨hl, hx⟩ := hW w hw
      cases w with
      | nil =>
        simp only [List.length_nil] at hl
        omega
      | cons a r => exact isWord_noSpace (hx a (List.mem_cons_self _ _)))
    hlen'
  rw [hN] at hkv
  obtain ⟨b, node, hs, _, he⟩ := mem_tableEntries.mp hkv
  unfold nodeEntries at he
  rw [if_neg hne] at he
  obtain ⟨p, hp, hpe⟩ := List.mem_map.mp he
  simp only [Prod.mk.injEq] at hpe
  have hnc := hh.clean.nodes hne b node hs
  have hplt := (mem_frequencies hnc p).mp hp
  have hmem : ckey node.heap p ∈ heapKeys node := by
    unfold heapKeys ckey
    rw [deref_eq_getElem _ _ hplt]
    exact List.mem_map.mpr ⟨_, List.getElem_mem _, rfl⟩
  obtain ⟨w, hw, hpair⟩ := List.mem_map.mp (hh.pairs b node hs _ hmem)
  obtain ⟨hsplit, hpos⟩ := SplitNGram_window (hW w hw).1 hn (hW w hw).2
  rw [hpair] at hsplit hpos
  have hkey : k = keyOfPair lm.ngram_size node.headword (ckey node.heap p) := by
    unfold keyOfPair
    rw [if_neg hne, ← hpe.1]
    rfl
  have hcount := hh.count_exact hne hlen' hs hplt
  have hle := pairHits_le lm.ngram_size node.headword (ckey node.heap p) (W.map pairOf)
  refine ⟨b, node, p, hs, hplt, by rw [hkey]; exact hpos, by rw [hkey]; exact hsplit, ?_,
    by omega⟩
  rw [← hpe.2, toInt_small (by omega)]

/-- The counter of n-grams after a `Train` that returns `true` on fewer than `2^31` tokens is the
number of pairs of the stream. -/
theorem Train_total_exact {lm lm' : State} {src : Source} {ws : List String}
    (hok : StateOK lm) (hw : src.words = some ws) (hmax : ws.length < 2147483648)
    (h : Train lm src = some (true, lm')) :
    lm'.ngrams_total = (ingestPairs lm.ngram_size ws [] 0).length := by
  have hsm := (Train_small hok h).1
  have hest : 0 ≤ src.estimate := by
    by_contra hneg
    unfold Train at h
    rw [if_pos (by omega)] at h
    simp at h
  obtain ⟨t0, hi, hcase⟩ := Train_unfold hok h hest
  rcases hcase with ⟨_, hr, _⟩ | ⟨ws', hw', hing⟩
  · cases hr
  rw [hw] at hw'
  cases hw'
  obtain ⟨lm2, h2, hlm'⟩ := ingestAndSort_cases hing
  have hinit := (TrainedOK_init (n := lm.ngram_size) hi).1
  obtain ⟨ha, _⟩ := ingest_counters ws _ [] 0 lm2 t0 h2 rfl hinit
  obtain ⟨t2, ht2, _⟩ := ingest_spec ws _ [] 0 true lm2 t0 h2 rfl hinit
  have hlen := ingestPairs_length lm.ngram_size ws [] 0 (by unfold UMOD; omega)
  simp only [init] at ha
  have hc : lm'.ngrams_total = lm2.ngrams_total := by
    rcases hlm' with rfl | ⟨_, _, rfl⟩
    · rfl
    · rw [SortCounts_eq lm2 t2 ht2]
  rw [← hc, Nat.zero_add] at ha
  exact eq_of_mod_small hsm (by rw [hlen]; unfold UMOD; omega) ha

end LM

namespace LM

/-! ## Frequencies in a model that holds a list of pairs -/


theorem floatShift_cases (y : Nat) :
    (y < 16777216 ∧ floatShift y = 0) ∨ (16777216 ≤ y ∧ y < 33554432 ∧ floatShift y = 1) ∨
    (33554432 ≤ y ∧ y < 67108864 ∧ floatShift y = 2) ∨
    (67108864 ≤ y ∧ y < 134217728 ∧ floatShift y = 3) ∨
    (134217728 ≤ y ∧ y < 268435456 ∧ floatShift y = 4) ∨
    (268435456 ≤ y ∧ y < 536870912 ∧ floatShift y = 5) ∨
    (536870912 ≤ y ∧ y < 1073741824 ∧ floatShift y = 6) ∨
    (1073741824 ≤ y ∧ y < 2147483648 ∧ floatShift y = 7) ∨
    (2147483648 ≤ y ∧ floatShift y = 8) := by
  unfold floatShift
  split_ifs <;> omega

theorem floatShift_double (x : Nat) (h1 : 8388608 ≤ x) (hx : x < 2147483648) :
    floatShift (2 * x) = floatShift x + 1 := by
  have a := floatShift_cases x
  have b := floatShift_cases (2 * x)
  omega

theorem round_double (k x : Nat) :
    (if 2 * (2 * x % 2 ^ (k + 1)) > 2 ^ (k + 1) ∨
        (2 * (2 * x % 2 ^ (k + 1)) = 2 ^ (k + 1) ∧ 2 * x / 2 ^ (k + 1) % 2 = 1)
      then (2 * x / 2 ^ (k + 1) + 1) * 2 ^ (k + 1) else 2 * x / 2 ^ (k + 1) * 2 ^ (k + 1)) =
    2 * (if 2 * (x % 2 ^ k) > 2 ^ k ∨ (2 * (x % 2 ^ k) = 2 ^ k ∧ x / 2 ^ k % 2 = 1)
      then (x / 2 ^ k + 1) * 2 ^ k else x / 2 ^ k * 2 ^ k) := by
  have e1 : 2 ^ (k + 1) = 2 * 2 ^ k := by rw [pow_succ, Nat.mul_comm]
  have e2 : 2 * x / (2 * 2 ^ k) = x / 2 ^ k := Nat.mul_div_mul_left _ _ (by omega)
  have e3 : 2 * x % (2 * 2 ^ k) = 2 * (x % 2 ^ k) := Nat.mul_mod_mul_left _ _ _
  rw [e1, e2, e3]
  by_cases hc : 2 * (x % 2 ^ k) > 2 ^ k ∨ (2 * (x % 2 ^ k) = 2 ^ k ∧ x / 2 ^ k % 2 = 1)
  · rw [if_pos hc, if_pos (by omega)]
    ring
  · rw [if_neg hc, if_neg (by omega)]
    ring

/-- Doubling commutes with the conversion to `float`. -/
theorem toFloat_double (x : Nat) (hx : x < 2147483648) : toFloat (2 * x) = 2 * toFloat x := by
  by_cases h1 : 8388608 ≤ x
  · unfold toFloat
    simp only
    rw [floatShift_double x h1 hx]
    exact round_double _ x
  · have e1 : floatShift x = 0 := by unfold floatShift; rw [if_pos (by omega)]
    have e2 : floatShift (2 * x) = 0 := by unfold floatShift; rw [if_pos (by omega)]
    unfold toFloat
    simp only [e1, e2, pow_zero, Nat.mod_one, Nat.div_one, Nat.mul_zero, Nat.mul_one]
    rw [if_neg (by omega), if_neg (by omega)]

theorem toFloat_pos (x : Nat) (h0 : 0 < x) (hx : x < UMOD) : 0 < toFloat x := by
  have := (toFloat_bounds x hx).1
  omega


/-- A pair with occurrences is stored. -/
theorem Holds.stored_of_hits {n : Nat} {t : head_table} {ps : List (String × String)}
    (hh : Holds n t ps) (hlen : ps.length < 2147483648) {w c : String}
    (hne : pairHits n w c ps ≠ 0) :
    ∃ b node, slot t.table b = some node ∧ node.headword = w ∧
      (n ≠ 1 → ∃ p, p < node.heap.length ∧ ckey node.heap p = c) := by
  have hle := pairHits_le n w c ps
  have hs0 : slotSum (pairWeight n w c) t.table ≠ 0 := by
    intro h0
    have := hh.sums w c
    rw [h0] at this
    unfold UMOD at this
    omega
  obtain ⟨b, node, hs, _, hhd, hcnt⟩ := pairWeight_ne_zero hs0
  exact ⟨b, node, hs, hhd, fun hn => nodeCount_ne_zero (hcnt hn)⟩

/-- `Frequency` of a key of two parts in a model of order at least 2 that holds `ps`: the float
quotient of the number of occurrences of the pair and of the counter of n-grams, and zero for a
pair without occurrences. -/
theorem Holds.Frequency_pair {lm : State} {t : head_table} {ps : List (String × String)}
    (ht : lm.main_table = some t)
    (hok : TrainedOK lm.ngram_size t lm.unique_ngrams_count) (hh : Holds lm.ngram_size t ps)
    (hn : 2 ≤ lm.ngram_size) (hlen : ps.length < 2147483648) {k w c : String}
    (hk : k.length > 0) (hsplit : SplitNGram k = some [w, c]) :
    Frequency lm k = some (if pairHits lm.ngram_size w c ps = 0 then zeroFrequency
      else { num := toFloat (pairHits lm.ngram_size w c ps), den := toFloat lm.ngrams_total }) := by
  have hne : lm.ngram_size ≠ 1 := by omega
  unfold Frequency
  rw [ht]
  simp only
  rw [if_pos hk, hsplit]
  simp only [Option.some_bind, List.length_cons, List.length_nil, List.headD_cons, ↓reduceIte]
  cases hf : FindHeadword lm w with
  | none =>
    simp only
    rw [if_pos]
    by_contra h0
    obtain ⟨b, node, hs, hhd, _⟩ := hh.stored_of_hits hlen h0
    have := FindHeadword_hit ht hh.clean.tbl hok.table hs
    rw [hhd, hf] at this
    cases this
  | some b =>
    obtain ⟨t', node, ht', hs, hd, hhw⟩ := FindHeadword_sound hf
    rw [ht] at ht'
    cases ht'
    simp only [hs]
    rw [if_neg hne, if_neg (by omega)]
    have hno := hok.nodes b node hs hd
    have hnc := hh.clean.nodes hne b node hs
    cases hc : FindCollocate node c with
    | none =>
      simp only
      rw [if_pos]
      by_contra h0
      obtain ⟨b', node', hs', hhd', hp'⟩ := hh.stored_of_hits hlen h0
      have hb := hh.clean.tbl.keys b' b node' node hs' hs (by rw [hhd', hhw])
      subst hb
      rw [hs] at hs'
      cases hs'
      obtain ⟨p, hp, hpk⟩ := hp' hne
      have := FindCollocate_hit hno hnc hp
      rw [hpk, hc] at this
      cases this
    | some p =>
      obtain ⟨b0, hb0, _, hpk⟩ := FindCollocate_slot hc
      have hp := hno.valid b0 p hb0
      have hcount := hh.count_exact hne hlen hs hp
      rw [hhw, hpk] at hcount
      have hmem : ckey node.heap p ∈ heapKeys node := by
        unfold heapKeys ckey
        rw [deref_eq_getElem _ _ hp]
        exact List.mem_map.mpr ⟨_, List.getElem_mem _, rfl⟩
      have hin := hh.pairs b node hs _ hmem
      rw [hhw, hpk] at hin
      have hpos : 0 < pairHits lm.ngram_size w c ps := pairHits_pos hin
      simp only
      rw [if_neg (by omega), hcount]

/-- `Frequency` of a key of one word in a model of order 1 that holds `ps`. -/
theorem Holds.Frequency_unigram {lm : State} {t : head_table} {ps : List (String × String)}
    (ht : lm.main_table = some t)
    (hok : TrainedOK lm.ngram_size t lm.unique_ngrams_count) (hh : Holds lm.ngram_size t ps)
    (hn : lm.ngram_size = 1) (hlen : ps.length < 2147483648) {k w : String}
    (hk : k.length > 0) (hsplit : SplitNGram k = some [w]) :
    Frequency lm k = some (if pairHits lm.ngram_size w "" ps = 0 then zeroFrequency
      else { num := toFloat (pairHits lm.ngram_size w "" ps),
             den := toFloat lm.ngrams_total }) := by
  unfold Frequency
  rw [ht]
  simp only
  rw [if_pos hk, hsplit]
  simp only [Option.some_bind, List.length_cons, List.length_nil, List.headD_nil]
  cases hf : FindHeadword lm w with
  | none =>
    simp only
    rw [if_pos]
    by_contra h0
    obtain ⟨b, node, hs, hhd, _⟩ := hh.stored_of_hits hlen h0
    have := FindHeadword_hit ht hh.clean.tbl hok.table hs
    rw [hhd, hf] at this
    cases this
  | some b =>
    obtain ⟨t', node, ht', hs, hd, hhw⟩ := FindHeadword_sound hf
    rw [ht] at ht'
    cases ht'
    simp only [hs]
    rw [if_pos hn]
    have h1 := hh.sums w ""
    rw [← hhw, pairWeight_single hh.clean hs, if_pos hn] at h1
    have hle := pairHits_le lm.ngram_size node.headword "" ps
    have hcount := eq_of_mod_small (hh.clean.counts b node hs) (by unfold UMOD; omega) h1
    obtain ⟨pr, hpr, he⟩ := hh.heads b node hs
    have hpos := pairHits_pos (n := lm.ngram_size) hpr
    rw [hn, pairHits_one pr.1 pr.2 "", he] at hpos
    rw [hn] at hcount
    rw [hhw] at hcount hpos
    rw [hn, if_neg (by omega), hcount]

/-- The parts of a key of `n` words. -/
theorem SplitNGram_full {n : Nat} {k : String} (hk : (splitWords k).length = n) (hn : 1 ≤ n) :
    k.length > 0 ∧
    (n = 1 → ∃ w, SplitNGram k = some [w]) ∧
    (2 ≤ n → ∃ w c, SplitNGram k = some [w, c]) := by
  have hpos : k.length ≠ 0 := by
    intro h0
    rw [splitWords_of_length_zero h0] at hk
    simp only [List.length_nil] at hk
    omega
  refine ⟨by omega, ?_, ?_⟩
  · intro h1
    unfold SplitNGram
    rw [if_neg hpos]
    match hsw : splitWords k, hk with
    | [w], _ => exact ⟨w, rfl⟩
    | [], hk' => simp at hk'; omega
    | _ :: _ :: _, hk' => simp at hk'; omega
  · intro h2
    unfold SplitNGram
    rw [if_neg hpos]
    match hsw : splitWords k, hk with
    | w :: w1 :: rest, _ => exact ⟨w, _, rfl⟩
    | [], hk' => simp at hk'; omega
    | [_], hk' => simp at hk'; omega

/-- Doubling the count and the total keeps the ratio of a frequency. -/
theorem ratio_double (h T : Nat) (hh : h < 2147483648) (hT : T < 2147483648) (hpos : 0 < T) :
    ((if 2 * h = 0 then zeroFrequency
        else { num := toFloat (2 * h), den := toFloat (2 * T) }).num *
      (if h = 0 then zeroFrequency else { num := toFloat h, den := toFloat T }).den =
     (if h = 0 then zeroFrequency else { num := toFloat h, den := toFloat T }).num *
      (if 2 * h = 0 then zeroFrequency
        else { num := toFloat (2 * h), den := toFloat (2 * T) }).den) ∧
    0 < (if h = 0 then zeroFrequency else { num := toFloat h, den := toFloat T }).den ∧
    0 < (if 2 * h = 0 then zeroFrequency
      else { num := toFloat (2 * h), den := toFloat (2 * T) }).den := by
  by_cases h0 : h = 0
  · subst h0
    simp [zeroFrequency]
  · rw [if_neg h0, if_neg (by omega), toFloat_double h hh, toFloat_double T hT]
    have := toFloat_pos T hpos (by unfold UMOD; omega)
    refine ⟨by dsimp only; ring, this, by dsimp only; omega⟩

/-- The counter of distinct n-grams of a model that holds the pairs of windows of tokens without
white space is the number of distinct windows, and the number of entries of `NGrams`. -/
theorem Holds.unique_count {lm : State} {t : head_table} {W : List (List String)}
    (ht : lm.main_table = some t) (hok : StateOK lm) (hn : 1 ≤ lm.ngram_size)
    (hh : Holds lm.ngram_size t (W.map pairOf))
    (hW : ∀ w ∈ W, w.length = lm.ngram_size ∧ ∀ x ∈ w, noSpace x = true)
    (hlen : W.length < 2147483648) :
    UniqueNGramsCount lm = (W.dedup.length : Int) ∧
    UniqueNGramsCount lm = ((NGrams lm).length : Int) := by
  obtain ⟨hN, hlenN⟩ := Holds.length_NGrams ht hn hh hW hlen
  have hu : UniqueNGramsCount lm = ((NGrams lm).length : Int) := by
    unfold UniqueNGramsCount
    rw [toInt_congr hok.unique_mod, liveEntries_clean ht hh.clean, ← hN, toInt_small]
    have := (List.dedup_sublist W).length_le
    omega
  refine ⟨?_, hu⟩
  rw [hu, hlenN]

theorem dedup_append_self {α : Type} [DecidableEq α] (l : List α) :
    (l ++ l).dedup.length = l.dedup.length := by
  apply List.Perm.length_eq
  rw [List.perm_ext_iff_of_nodup (List.nodup_dedup _) (List.nodup_dedup _)]
  intro a
  simp only [List.mem_dedup, List.mem_append, or_self]

end LM

namespace LM

/-! ## The collocates of a headword -/

theorem sum_indicator_le_one (c' : String) : ∀ (K : List String), K.Nodup →
    (K.map fun c => if c' = c then 1 else 0).sum ≤ 1 := by
  intro K
  induction K with
  | nil => intro _; simp
  | cons x xs ih =>
    intro hnd
    rw [List.nodup_cons] at hnd
    rw [List.map_cons, List.sum_cons]
    by_cases hx : c' = x
    · subst hx
      rw [if_pos rfl]
      have : (xs.map fun c => if c' = c then 1 else 0).sum = 0 := by
        apply List.sum_eq_zero
        intro y hy
        obtain ⟨c, hc, rfl⟩ := List.mem_map.mp hy
        rw [if_neg]
        intro e
        exact hnd.1 (e ▸ hc)
      omega
    · rw [if_neg hx]
      have := ih hnd.2
      omega

/-- The numbers of occurrences of the pairs of one headword with pairwise different collocates
add up to at most the number of pairs. -/
theorem sum_pairHits_le {n : Nat} (hn : n ≠ 1) (h : String) (K : List String) (hK : K.Nodup) :
    ∀ ps : List (String × String), (K.map fun c => pairHits n h c ps).sum ≤ ps.length := by
  intro ps
  induction ps with
  | nil =>
    apply Nat.le_of_eq
    apply List.sum_eq_zero
    intro y hy
    obtain ⟨c, _, rfl⟩ := List.mem_map.mp hy
    rfl
  | cons pr ps ih =>
    have e : (K.map fun c => pairHits n h c (pr :: ps)) =
        K.map fun c => pairHits n h c ps + if h = pr.1 ∧ (n = 1 ∨ c = pr.2) then 1 else 0 := by
      apply List.map_congr_left
      intro c _
      exact pairHits_cons n h c pr.1 pr.2 ps
    rw [e, List.sum_map_add, List.length_cons]
    have h2 : (K.map fun c => if h = pr.1 ∧ (n = 1 ∨ c = pr.2) then 1 else 0).sum ≤ 1 := by
      by_cases hh : h = pr.1
      · have e2 : (K.map fun c => if h = pr.1 ∧ (n = 1 ∨ c = pr.2) then 1 else 0) =
            K.map fun c => if pr.2 = c then 1 else 0 := by
          apply List.map_congr_left
          intro c _
          by_cases hc : c = pr.2
          · rw [if_pos ⟨hh, Or.inr hc⟩, if_pos hc.symm]
          · rw [if_neg (fun hcon => hcon.2.elim hn hc), if_neg (fun e => hc e.symm)]
        rw [e2]
        exact sum_indicator_le_one pr.2 K hK
      · have : (K.map fun c => if h = pr.1 ∧ (n = 1 ∨ c = pr.2) then 1 else 0).sum = 0 := by
          apply List.sum_eq_zero
          intro y hy
          obtain ⟨c, _, rfl⟩ := List.mem_map.mp hy
          rw [if_neg (fun hcon => hh hcon.1)]
        omega
    omega

theorem map_range_deref {α : Type} (heap : List collocate_node) (f : collocate_node → α) :
    (List.range heap.length).map (fun p => f (deref heap p)) = heap.map f := by
  apply List.ext_getElem
  · simp
  · intro i h1 h2
    simp only [List.getElem_map, List.getElem_range]
    rw [deref_eq_getElem _ _ (by simpa using h1)]

/-- The keys of the collocate nodes of a node without tombstones are pairwise different. -/
theorem NodeClean.keys_nodup {hw : headword_node} (hc : NodeClean hw) :
    (heapKeys hw).Nodup := by
  have e : heapKeys hw = (List.range hw.heap.length).map (ckey hw.heap) := by
    unfold heapKeys
    exact (map_range_deref hw.heap collocate_node.collocate).symm
  rw [e]
  apply List.Nodup.map_on _ (List.nodup_range _)
  intro p hp q hq hk
  obtain ⟨b, hb⟩ := hc.onto p (List.mem_range.mp hp)
  obtain ⟨b', hb'⟩ := hc.onto q (List.mem_range.mp hq)
  have := hc.tbl.keys b b' p q hb hb' hk
  subst this
  rw [hb] at hb'
  exact Option.some.inj hb'

end LM

namespace LM

/-! ## Room after the load check -/

/-- After the load check that precedes an insertion the table has a bucket that holds no live
node. -/
theorem loadCheck_room {α : Type} (keyOf : α → String) (dead : α → Bool) {t t' : hash_table α}
    (hok : TableOK dead t)
    (h : (if (tableLoad t).gtHalf then resize keyOf dead t else some t) = some t') :
    Rehashed dead t t' ∧ t'.occupied < t'.capacity := by
  have hcap := ladder_bounds _ hok.ladder
  have hle : t.occupied ≤ t.capacity := by
    rw [hok.occ, ← hok.len]; exact liveCount_le _ _
  split_ifs at h with hg
  · have hreh := resize_spec keyOf dead hok h
    refine ⟨hreh, ?_⟩
    rcases resize_cases keyOf dead hok h with ⟨_, hlt⟩ | ⟨nt0, _, _, hroom, _, hcap'⟩
    · have := (gtHalf_not_lt _ hg).2
      rw [hlt] at this
      cases this
    · rw [hreh.occupied hok, hcap']
      exact hroom
  · simp only [Option.some.injEq] at h
    subst h
    refine ⟨Rehashed.refl hok, ?_⟩
    by_contra hge
    have heq : t.occupied = t.capacity := by omega
    exact hg (gtHalf_full t (by omega) hcap.2 heq)

theorem growIfLoaded_room {hw hw' : headword_node} (hok : NodeOK hw)
    (h : growIfLoaded hw = some hw') :
    NodeOK hw' ∧ hw'.collocates.occupied < hw'.collocates.capacity := by
  obtain ⟨nt, rfl, hr⟩ := growIfLoaded_spec hok h
  refine ⟨hok.rehashedNode hr, ?_⟩
  unfold growIfLoaded ResizeCollocateTable GetCollocateTableLoad at h
  have h2 : (if (tableLoad hw.collocates).gtHalf then
      resize (ckey hw.heap) (cdead hw.heap) hw.collocates else some hw.collocates) = some nt := by
    split_ifs at h ⊢ with hg
    · cases hr2 : resize (ckey hw.heap) (cdead hw.heap) hw.collocates with
      | none => rw [hr2] at h; simp at h
      | some nt2 =>
        rw [hr2] at h
        simp only [Option.map_some', Option.some.injEq] at h
        have := congrArg headword_node.collocates h
        exact congrArg some this
    · simp only [Option.some.injEq] at h
      have := congrArg headword_node.collocates h
      exact congrArg some this
  exact (loadCheck_room _ _ hok.tbl h2).2

theorem growHead_room {lm lm1 : State} {t : head_table} (ht : lm.main_table = some t)
    (hok : TableOK headword_node.deleted t)
    (h : (if (GetHeadTableLoad lm.main_table).gtHalf then ResizeHeadTable lm else some lm) =
      some lm1) :
    ∃ t1, lm1 = { lm with main_table := some t1 } ∧ Rehashed headword_node.deleted t t1 ∧
      t1.occupied < t1.capacity := by
  obtain ⟨t1, rfl, hr⟩ := growHead_spec ht hok h
  refine ⟨t1, rfl, hr, ?_⟩
  unfold ResizeHeadTable at h
  rw [ht] at h
  unfold GetHeadTableLoad at h
  dsimp only at h
  have h2 : (if (tableLoad t).gtHalf then
      resize headword_node.headword headword_node.deleted t else some t) = some t1 := by
    split_ifs at h ⊢ with hg
    · cases hr2 : resize headword_node.headword headword_node.deleted t with
      | none => rw [hr2] at h; simp at h
      | some nt2 =>
        rw [hr2] at h
        simp only [Option.map_some', Option.some.injEq] at h
        have := congrArg State.main_table h
        exact this
    · simp only [Option.some.injEq] at h
      have := congrArg State.main_table h
      dsimp only at this
      rw [← this, ht]
  exact (loadCheck_room _ _ hok h2).2

/-- A probing loop that stops at a bucket has made fewer than `fuel` steps to it. -/
theorem probe_within (isFree isHit : Nat → Bool) (cap fuel start : Nat) (hs : start < cap)
    (b : Nat) (h : probe isFree isHit cap fuel start = Probe.free b ∨
      probe isFree isHit cap fuel start = Probe.hit b) :
    ∃ j, j < fuel ∧ b = (start + j) % cap := by
  rcases probe_cases isFree isHit cap fuel start hs with
    ⟨j, hj, _, _, he⟩ | ⟨j, hj, _, _, _, he⟩ | ⟨_, he⟩
  · rw [he] at h
    rcases h with h | h
    · exact ⟨j, hj, (Probe.free.inj h).symm⟩
    · cases h
  · rw [he] at h
    rcases h with h | h
    · cases h
    · exact ⟨j, hj, (Probe.hit.inj h).symm⟩
  · rw [he] at h
    rcases h with h | h <;> cases h

/-- The probing loop of `InsertCollocate` on a subtable with room finds a bucket. -/
theorem placeCollocate_status {hw : headword_node} (hok : NodeOK hw)
    (hroom : hw.collocates.occupied < hw.collocates.capacity) (c : String) {st : Int}
    {hw' : headword_node} {created : Bool} (h : placeCollocate hw c = (st, hw', created)) :
    ∃ j, j < hw.collocates.capacity ∧
      st = (((FNV1a c hw.collocates.capacity + j) % hw.collocates.capacity : Nat) : Int) := by
  have hs := FNV1a_lt c hok.tbl.pos
  rcases placeCollocate_cases c h with ⟨b, hp, rfl, _, _⟩ | ⟨b, p, hp, _, _, rfl, _, _⟩ |
    ⟨hp, _, _, _⟩
  · obtain ⟨j, hj, rfl⟩ := probe_within _ _ _ _ _ hs b (Or.inl hp)
    exact ⟨j, hj, rfl⟩
  · obtain ⟨j, hj, rfl⟩ := probe_within _ _ _ _ _ hs b (Or.inr hp)
    exact ⟨j, hj, rfl⟩
  · exact absurd hp (probe_not_full hok.tbl (by rw [← hok.tbl.occ]; exact hroom) _ c)

/-- `InsertCollocate` on a well-formed node finds a bucket of the subtable it probes. -/
theorem InsertCollocate_status {lm lm' : State} {b : Nat} {c : String} {st : Int}
    (h : InsertCollocate lm b c = some (st, lm')) {t : head_table} {hw : headword_node}
    (ht : lm.main_table = some t) (hs : slot t.table b = some hw) (hok : NodeOK hw) :
    ∃ hw1 j, growIfLoaded hw = some hw1 ∧ j < hw1.collocates.capacity ∧
      st = (((FNV1a c hw1.collocates.capacity + j) % hw1.collocates.capacity : Nat) : Int) := by
  obtain ⟨t0, hw0, hw1, hw', created, ht0, hs0, hg, hp, _⟩ := InsertCollocate_cases h
  rw [ht] at ht0
  cases ht0
  rw [hs] at hs0
  cases hs0
  obtain ⟨hok1, hroom⟩ := growIfLoaded_room hok hg
  obtain ⟨j, hj, hst⟩ := placeCollocate_status hok1 hroom c hp
  exact ⟨hw1, j, hg, hj, hst⟩

/-- `InsertNGram` on a main table with room finds a bucket. -/
theorem InsertNGram_status {lm lm' : State} {hd c : String} {st : Int}
    (h : InsertNGram lm hd c = some (st, lm')) {t : head_table} (ht : lm.main_table = some t)
    (hok : TableOK headword_node.deleted t) (hroom : t.occupied < t.capacity) :
    ∃ j, j < t.capacity ∧ st = (((FNV1a hd t.capacity + j) % t.capacity : Nat) : Int) := by
  have hs := FNV1a_lt hd hok.pos
  rcases InsertNGram_cases h with ⟨hnone, _, _⟩ | ⟨t0, ht0, hcase⟩
  · rw [ht] at hnone
    cases hnone
  · rw [ht] at ht0
    cases ht0
    rcases hcase with ⟨hp, _, _⟩ | ⟨b, hp, rfl, _⟩ | ⟨b, node, hp, _, rfl, _⟩
    · exact absurd hp (probe_not_full hok (by rw [← hok.occ]; exact hroom) _ hd)
    · obtain ⟨j, hj, rfl⟩ := probe_within _ _ _ _ _ hs b (Or.inl hp)
      exact ⟨j, hj, rfl⟩
    · obtain ⟨j, hj, rfl⟩ := probe_within _ _ _ _ _ hs b (Or.inr hp)
      exact ⟨j, hj, rfl⟩

/-- The `InsertCollocate` call that `InsertNGram` makes on the new or on the found headword node
finds a bucket. -/
theorem InsertCollocate_inner {lm : State} {t : head_table} {n u : Nat} (hok : TrainedOK n t u)
    {b : Nat} (hb : b < t.capacity) {hd c : String} {lmx lm3 : State} {st2 : Int}
    (hx : lmx = withNewHead lm t b hd ∨
      ∃ node, slot t.table b = some node ∧ node.deleted = false ∧ lmx = withBumpedHead lm t b node)
    (h : InsertCollocate lmx b c = some (st2, lm3)) : 0 ≤ st2 := by
  have hblen : b < t.table.length := by rw [hok.table.len]; exact hb
  rcases hx with rfl | ⟨node, hs, hd', rfl⟩
  · obtain ⟨_, j, _, _, hst⟩ := InsertCollocate_status h (t := { t with
        table := t.table.set b (some (freshHead hd)), occupied := uadd t.occupied 1 })
      rfl (slot_set_self _ _ _ hblen) (NodeOK_init hd)
    omega
  · obtain ⟨_, j, _, _, hst⟩ := InsertCollocate_status h (t := { t with
        table := t.table.set b (some { node with count := uadd node.count 1 }) })
      rfl (slot_set_self _ _ _ hblen) ((hok.nodes b node hs hd').congr rfl rfl)
    omega

/-- The ingestion loop on a well-formed trained model never stops for want of a bucket. -/
theorem ingest_true : ∀ (words : List String) (lm : State) (ngram : List String) (count : Nat)
    (r : Bool) (lm' : State) (t : head_table),
    ingest words lm ngram count = some (r, lm') → lm.main_table = some t →
    TrainedOK lm.ngram_size t lm.unique_ngrams_count → r = true := by
  intro words
  induction words with
  | nil =>
    intro lm ngram count r lm' t h ht hok
    simp only [ingest, Option.some.injEq, Prod.mk.injEq] at h
    exact h.1.symm
  | cons word rest ih =>
    intro lm ngram count r lm' t h ht hok
    rcases ingest_cons h with ⟨hlt, hrec⟩ | ⟨hge, headword, ng, lm1, st, lm2, heq, h1, h2, hfin⟩
    · exact ih lm _ _ r lm' t hrec ht hok
    · obtain ⟨t1, rfl, hr, hroom⟩ := growHead_room ht hok.table h1
      have hok1 := hok.rehashedMain hr
      obtain ⟨j, _, hst⟩ := InsertNGram_status h2 (t := t1) rfl hok1.table hroom
      obtain ⟨t2, ht2, hok2, hn2, _, _⟩ := InsertNGram_spec h2 (t := t1) rfl hok1
      simp only at hn2 hok2
      rcases hfin with ⟨hneg, _, _⟩ | ⟨_, hrec⟩
      · omega
      · have hok2' : TrainedOK lm2.ngram_size t2 lm2.unique_ngrams_count := by
          rw [hn2]; exact hok2
        exact ih lm2 _ _ r lm' t2 hrec ht2 hok2'

theorem ingestAndSort_true {lm lm' : State} {words : List String} {r : Bool} {t : head_table}
    (h : ingestAndSort lm words = some (r, lm')) (ht : lm.main_table = some t)
    (hok : TrainedOK lm.ngram_size t lm.unique_ngrams_count) : r = true := by
  obtain ⟨lm2, hi, _⟩ := ingestAndSort_cases h
  exact ingest_true _ _ _ _ _ _ _ hi ht hok

/-- In a well-formed trained state the insertions of the ingestion loop find their buckets. -/
theorem finds_slot_of_ok {lmi : State} {t : head_table} (ht : lmi.main_table = some t)
    (hok : TrainedOK lmi.ngram_size t lmi.unique_ngrams_count) :
    ∀ (lm1 : State), (if (GetHeadTableLoad lmi.main_table).gtHalf then ResizeHeadTable lmi
        else some lmi) = some lm1 →
      ∃ t1, lm1.main_table = some t1 ∧
        (∀ (h c : String) (st : Int) (lm2 : State), InsertNGram lm1 h c = some (st, lm2) →
          ∃ j, j < t1.capacity ∧
            st = (((FNV1a h t1.capacity + j) % t1.capacity : Nat) : Int)) ∧
        (∀ (b : Nat) (h c : String) (lmx lm3 : State) (st2 : Int), b < t1.capacity →
          (lmx = withNewHead lm1 t1 b h ∨ ∃ node, slot t1.table b = some node ∧
            node.deleted = false ∧ lmx = withBumpedHead lm1 t1 b node) →
          InsertCollocate lmx b c = some (st2, lm3) → 0 ≤ st2) := by
  intro lm1 h1
  obtain ⟨t1, rfl, hr, hroom⟩ := growHead_room ht hok.table h1
  have hok1 := hok.rehashedMain hr
  refine ⟨t1, rfl, ?_, ?_⟩
  · intro h c st lm2 h2
    exact InsertNGram_status h2 (t := t1) rfl hok1.table hroom
  · intro b h c lmx lm3 st2 hb hx h3
    exact InsertCollocate_inner hok1 hb hx h3

/-- The new table of `Grow` is well formed, empty, and larger than the number of live entries of
the old one. -/
theorem grow_table_room {t nt : head_table} {est : Int} (hokt : TableOK headword_node.deleted t)
    (hest : 0 ≤ est) (hsz : est ≤ MAX_ESTIMATE)
    (hi : InitHeadTable (uadd (est * 2).toNat t.capacity) = some nt) :
    Rehashed headword_node.deleted t
      (transfer headword_node.headword headword_node.deleted t nt) := by
  obtain ⟨hnew, hempty⟩ := InitTable_ok headword_node.deleted hi
  obtain ⟨hp, _, _⟩ := InitTable_spec hi
  have hcapmax := ladder_max _ hokt.ladder
  have hreq : uadd (est * 2).toNat t.capacity = (est * 2).toNat + t.capacity := by
    unfold uadd
    apply Nat.mod_eq_of_lt
    unfold MAX_ESTIMATE at hsz
    unfold UMOD
    omega
  have hgt := PrimeSize_gt (by
    rw [hreq]
    unfold MAX_ESTIMATE at hsz
    omega) hp
  have hocc : t.occupied ≤ t.capacity := by
    rw [hokt.occ, ← hokt.len]; exact liveCount_le _ _
  exact Rehashed.of_transfer _ _ hokt hnew hempty (by rw [hreq] at hgt; omega)

/-- C32: let a model be in a state reached by any sequence of `Train`, `Grow` and `Remove`
calls (each `Grow` with an estimate of at most `MAX_ESTIMATE`).  A `Train` or `Grow` that opens
its stream returns `true`: no insertion of its loop returns `-1`.  In the state itself and in
every state that the loop of a following `Train` or `Grow` passes through, the load check
`load > 0.5` followed by `InsertNGram` returns a bucket that lies fewer than `capacity` probes
behind the hash of the headword, and the `InsertCollocate` call that `InsertNGram` makes on the
new or on the found headword node returns a bucket too, never `-1`. -/
theorem insertion_finds_slot (n : Nat) (ops : List Op) (lm : State)
    (hs : ops.all Op.sized = true) (hrun : run (init n) ops = some lm) :
    (∀ (src : Source) (ws : List String) (r : Bool) (lm' : State), src.words = some ws →
      0 ≤ src.estimate → Train lm src = some (r, lm') → r = true) ∧
    (∀ (src : Source) (ws : List String) (r : Bool) (lm' : State), src.words = some ws →
      0 ≤ src.estimate → src.estimate ≤ MAX_ESTIMATE → lm.main_table.isSome = true →
      Grow lm src = some (r, lm') → r = true) ∧
    ∀ lmi : State,
      ((lmi = lm ∧ lm.main_table.isSome = true) ∨
       (∃ (x : Nat) (t0 : head_table) (pre : List String) (r : Bool),
          InitHeadTable x = some t0 ∧
          ingest pre { init n with main_table := some t0, tokens := usub n 1 } [] 0 =
            some (r, lmi)) ∨
       (∃ (t nt t1 : head_table) (est : Int) (pre : List String) (r : Bool),
          lm.main_table = some t ∧ 0 ≤ est ∧ est ≤ MAX_ESTIMATE ∧
          InitHeadTable (uadd (est * 2).toNat t.capacity) = some nt ∧
          t1 = transfer headword_node.headword headword_node.deleted t nt ∧
          ingest pre { lm with main_table := some t1,
                               tokens := uadd lm.tokens (usub lm.ngram_size 1) } [] 0 =
            some (r, lmi))) →
      ∀ lm1 : State, (if (GetHeadTableLoad lmi.main_table).gtHalf then ResizeHeadTable lmi
          else some lmi) = some lm1 →
        ∃ t1, lm1.main_table = some t1 ∧
          (∀ (h c : String) (st : Int) (lm2 : State), InsertNGram lm1 h c = some (st, lm2) →
            ∃ j, j < t1.capacity ∧
              st = (((FNV1a h t1.capacity + j) % t1.capacity : Nat) : Int)) ∧
          (∀ (b : Nat) (h c : String) (lmx lm3 : State) (st2 : Int), b < t1.capacity →
            (lmx = withNewHead lm1 t1 b h ∨ ∃ node, slot t1.table b = some node ∧
              node.deleted = false ∧ lmx = withBumpedHead lm1 t1 b node) →
            InsertCollocate lmx b c = some (st2, lm3) → 0 ≤ st2) := by
  obtain ⟨hok, hsize⟩ := run_StateOK ops (init n) lm hs ⟨rfl, rfl, rfl⟩ hrun
  have hsize' : lm.ngram_size = n := hsize
  refine ⟨?_, ?_, ?_⟩
  · intro src ws r lm' hw hest h
    obtain ⟨t0, hi, hcase⟩ := Train_unfold hok h hest
    rcases hcase with ⟨hnone, _, _⟩ | ⟨ws', _, hing⟩
    · rw [hw] at hnone
      cases hnone
    · exact ingestAndSort_true hing rfl (TrainedOK_init hi).1
  · intro src ws r lm' hw hest hsz hsome h
    cases ht : lm.main_table with
    | none => rw [ht] at hsome; cases hsome
    | some t =>
      have hokt : TrainedOK lm.ngram_size t lm.unique_ngrams_count := by
        unfold StateOK at hok
        rw [ht] at hok
        exact hok
      obtain ⟨nt, t1, hnew, hempty, hroom, rfl, hcase⟩ := Grow_unfold ht hokt hest hsz h
      rcases hcase with ⟨hnone, _, _⟩ | ⟨ws', _, hing⟩
      · rw [hw] at hnone
        cases hnone
      · exact ingestAndSort_true hing rfl
          (hokt.rehashedMain (Rehashed.of_transfer _ _ hokt.table hnew hempty hroom))
  · intro lmi hmid
    rcases hmid with ⟨rfl, hsome⟩ | ⟨x, t0, pre, r, hi, hing⟩ |
      ⟨t, nt, t1, est, pre, r, ht, hest, hsz, hi, rfl, hing⟩
    · cases ht : lmi.main_table with
      | none => rw [ht] at hsome; cases hsome
      | some t =>
        have hokt : TrainedOK lmi.ngram_size t lmi.unique_ngrams_count := by
          unfold StateOK at hok
          rw [ht] at hok
          exact hok
        rw [← ht]
        exact finds_slot_of_ok ht hokt
    · obtain ⟨t', ht', hok', hn', _⟩ := ingest_spec pre _ [] 0 r lmi t0 hing rfl
        (TrainedOK_init (n := n) hi).1
      exact finds_slot_of_ok ht' (by rw [hn']; exact hok')
    · have hokt : TrainedOK lm.ngram_size t lm.unique_ngrams_count := by
        unfold StateOK at hok
        rw [ht] at hok
        exact hok
      obtain ⟨t', ht', hok', hn', _⟩ := ingest_spec pre _ [] 0 r lmi _ hing rfl
        (hokt.rehashedMain (grow_table_room hokt.table hest hsz hi))
      exact finds_slot_of_ok ht' (by rw [hn']; exact hok')

theorem insertion_finds_slot_witness :
    ∃ lm, Train (init 2) ⟨1, some ["to", "be", "to"]⟩ = some (true, lm) := by
  have h1 : (Train (init 2) ⟨1, some ["to", "be", "to"]⟩).isSome = true := by decide
  cases h : Train (init 2) ⟨1, some ["to", "be", "to"]⟩ with
  | none =>
    rw [h] at h1
    cases h1
  | some p =>
    obtain ⟨r, lm⟩ := p
    have := (insertion_finds_slot 2 [] (init 2) rfl rfl).1 ⟨1, some ["to", "be", "to"]⟩
      ["to", "be", "to"] r lm rfl (by decide) h
    subst this
    exact ⟨lm, rfl⟩

end LM

namespace LM

/-! ## The frequency index under the node operations -/

theorem FreqOK.rehashed {hw : headword_node} {nt : collocate_table} (hf : FreqOK hw)
    (hr : Rehashed (cdead hw.heap) hw.collocates nt) : FreqOK { hw with collocates := nt } := by
  refine ⟨hf.nodup, fun p => ?_⟩
  dsimp only
  rw [hf.mem p]
  constructor
  · rintro ⟨b, hb, hl⟩
    obtain ⟨b', hb'⟩ := hr.kept b p hb hl
    exact ⟨b', hb', hl⟩
  · rintro ⟨b, hb, hl⟩
    obtain ⟨b', hb'⟩ := hr.from_old b p hb
    exact ⟨b', hb', hl⟩

theorem FreqOK.congr_freq {hw hw' : headword_node} (hf : FreqOK hw)
    (h1 : hw'.collocates = hw.collocates) (h2 : hw'.heap = hw.heap)
    (h3 : hw'.frequencies = hw.frequencies) : FreqOK hw' := by
  refine ⟨by rw [h3]; exact hf.nodup, fun p => ?_⟩
  rw [h1, h2, h3]
  exact hf.mem p

/-- A table that holds a live node has a positive live count. -/
theorem liveCount_pos {α : Type} {dead : α → Bool} {tbl : List (Option α)} {b : Nat} {x : α}
    (hs : slot tbl b = some x) (hd : dead x = false) : 1 ≤ liveCount dead tbl := by
  unfold liveCount
  apply List.countP_pos_iff.mpr
  exact ⟨some x, slot_some_mem hs, by simp [liveSlot, hd]⟩

/-- The frequency index after the probing loop of `InsertCollocate`. -/
theorem placeCollocate_fit {hw : headword_node} (hok : NodeOK hw) (hf : FreqOK hw) (c : String)
    {st : Int} {hw' : headword_node} {created : Bool}
    (h : placeCollocate hw c = (st, hw', created)) :
    FreqOK hw' ∧ (0 ≤ st → 1 ≤ hw'.collocates.occupied) := by
  have hstart := FNV1a_lt c hok.tbl.pos
  have hok' := (placeCollocate_spec hok c h).1
  rcases placeCollocate_cases c h with ⟨b, hp, rfl, _, rfl⟩ | ⟨b, p, hp, hs, _, rfl, _, rfl⟩ |
    ⟨_, rfl, _, rfl⟩
  · have hfree := probe_free_sound _ _ _ hp
    obtain ⟨j, _, hbj⟩ := probe_within _ _ _ _ _ hstart b (Or.inl hp)
    have hb : b < hw.collocates.table.length := by
      rw [hok.tbl.len, hbj]
      exact Nat.mod_lt _ hok.tbl.pos
    have hnotb : ∀ b0 q, slot hw.collocates.table b0 = some q → cdead hw.heap q = false →
        b0 ≠ b := by
      intro b0 q hq hl hbb
      subst hbb
      unfold slotFree at hfree
      rw [hq] at hfree
      dsimp only at hfree
      rw [hl] at hfree
      cases hfree
    have hnew : hw.heap.length ∉ hw.frequencies := by
      intro hin
      obtain ⟨b0, hb0, _⟩ := (hf.mem _).mp hin
      have := hok.valid b0 _ hb0
      omega
    have hdl : ∀ q, q < hw.heap.length →
        cdead (hw.heap ++ [InitCollocate c]) q = cdead hw.heap q := by
      intro q hq
      unfold cdead
      rw [deref_append_lt _ _ _ hq]
    have hdn : cdead (hw.heap ++ [InitCollocate c]) hw.heap.length = false := by
      unfold cdead
      rw [deref_append_length]
      rfl
    refine ⟨⟨?_, ?_⟩, ?_⟩
    · dsimp only
      rw [List.nodup_append]
      refine ⟨hf.nodup, List.nodup_singleton _, ?_⟩
      intro a ha hb'
      rw [List.mem_singleton] at hb'
      subst hb'
      exact hnew ha
    · intro q
      dsimp only
      rw [List.mem_append, List.mem_singleton, hf.mem q]
      constructor
      · rintro (⟨b0, hb0, hl⟩ | rfl)
        · refine ⟨b0, ?_, ?_⟩
          · rw [slot_set_ne _ _ _ _ (hnotb b0 q hb0 hl)]
            exact hb0
          · rw [hdl q (hok.valid b0 q hb0)]
            exact hl
        · exact ⟨b, slot_set_self _ _ _ hb, hdn⟩
      · rintro ⟨b0, hb0, hl⟩
        rw [slot_set] at hb0
        split at hb0
        · right
          exact (Option.some.inj hb0).symm
        · left
          refine ⟨b0, hb0, ?_⟩
          rw [← hdl q (hok.valid b0 q hb0)]
          exact hl
    · intro _
      rw [hok'.tbl.occ]
      exact liveCount_pos (slot_set_self _ _ _ hb) hdn
  · have hfalse := (probe_hit_sound _ _ _ hp).1
    obtain ⟨x, hx, hxl⟩ := slotFree_false hfalse
    rw [hs] at hx
    cases hx
    refine ⟨⟨hf.nodup, ?_⟩, ?_⟩
    · intro q
      dsimp only
      rw [cdead_bump]
      exact hf.mem q
    · intro _
      dsimp only
      rw [hok.tbl.occ]
      exact liveCount_pos hs hxl
  · exact ⟨hf, fun h0 => by omega⟩

/-- The node after `InsertCollocate`: load check, then the probing loop. -/
theorem insertCollocate_fit {n : Nat} {hw hw1 hw' : headword_node} (hok : NodeOK hw)
    (hf : FreqOK hw) (hd : hw.deleted = false) {c : String} {st : Int} {created : Bool}
    (hg : growIfLoaded hw = some hw1) (hp : placeCollocate hw1 c = (st, hw', created)) :
    NodeFit n hw' ∧ hw'.deleted = false := by
  obtain ⟨hok1, hroom⟩ := growIfLoaded_room hok hg
  obtain ⟨nt, rfl, hr⟩ := growIfLoaded_spec hok hg
  have hf1 := hf.rehashed hr
  obtain ⟨j, _, hst⟩ := placeCollocate_status hok1 hroom c hp
  obtain ⟨hok', _, _, hd', _⟩ := placeCollocate_spec hok1 c hp
  obtain ⟨hf', hocc⟩ := placeCollocate_fit hok1 hf1 c hp
  have hd2 : hw'.deleted = false := by rw [hd']; exact hd
  exact ⟨⟨hok', fun _ => hf', fun _ _ => hocc (by omega)⟩, hd2⟩

theorem FreqOK_init (h : String) : FreqOK (freshHead h) := by
  refine ⟨List.nodup_nil, fun p => ?_⟩
  constructor
  · intro hp
    cases hp
  · rintro ⟨b, hb, _⟩
    unfold freshHead at hb
    dsimp only at hb
    rw [slot_replicate] at hb
    cases hb

end LM

namespace LM

/-! ## The nodes of the main table under insertion -/

theorem NodeFit.congr_fit {n : Nat} {hw hw' : headword_node} (h : NodeFit n hw)
    (h1 : hw'.collocates = hw.collocates) (h2 : hw'.heap = hw.heap)
    (h3 : hw'.frequencies = hw.frequencies) (h4 : hw'.deleted = hw.deleted) : NodeFit n hw' := by
  refine ⟨h.ok.congr h1 h2, fun hd => (h.freq (by rw [← h4]; exact hd)).congr_freq h1 h2 h3, ?_⟩
  intro hd hn
  rw [h1]
  exact h.live (by rw [← h4]; exact hd) hn

theorem NodeFit_dead {n : Nat} {hw : headword_node} (hok : NodeOK hw) (hd : hw.deleted = true) :
    NodeFit n hw :=
  ⟨hok, fun h => (by rw [hd] at h; cases h), fun h _ => (by rw [hd] at h; cases h)⟩

/-- Writing a fitting node into a bucket keeps the property of the table. -/
theorem Fit.set_fit {n : Nat} {t t' : head_table} {b : Nat} {node : headword_node}
    (h : ∀ b' nd, b' ≠ b → slot t.table b' = some nd → NodeFit n nd) (hn : NodeFit n node)
    (ht' : t'.table = t.table.set b (some node)) : Fit n t' := by
  intro b' nd hs
  rw [ht', slot_set] at hs
  split at hs
  · cases hs
    exact hn
  · rename_i hne
    by_cases hbb : b' = b
    · subst hbb
      have hge : t.table.length ≤ b' := by
        by_contra hlt
        exact hne ⟨rfl, by omega⟩
      rw [slot_of_ge _ _ hge] at hs
      cases hs
    · exact h b' nd hbb hs

theorem Fit.rehashedFit {n : Nat} {t t' : head_table} (h : Fit n t)
    (hr : Rehashed headword_node.deleted t t') : Fit n t' := by
  intro b nd hs
  obtain ⟨b', hb'⟩ := hr.from_old b nd hs
  exact h b' nd hb'

theorem Fit.others {n : Nat} {t : head_table} (h : Fit n t) (b : Nat) :
    ∀ b' nd, b' ≠ b → slot t.table b' = some nd → NodeFit n nd :=
  fun b' nd _ hs => h b' nd hs

/-- `InsertCollocate` on a live node with a fitting frequency index. -/
theorem InsertCollocate_fit {n : Nat} {lm lm' : State} {b : Nat} {c : String} {st : Int}
    (h : InsertCollocate lm b c = some (st, lm')) {t : head_table} {hw : headword_node}
    (ht : lm.main_table = some t) (hs : slot t.table b = some hw) (hok : NodeOK hw)
    (hf : FreqOK hw) (hd : hw.deleted = false)
    (hothers : ∀ b' nd, b' ≠ b → slot t.table b' = some nd → NodeFit n nd) :
    ∃ t', lm'.main_table = some t' ∧ Fit n t' := by
  obtain ⟨t0, hw0, hw1, hw', created, ht0, hs0, hg, hp, rfl⟩ := InsertCollocate_cases h
  rw [ht] at ht0
  cases ht0
  rw [hs] at hs0
  cases hs0
  obtain ⟨hfit, _⟩ := insertCollocate_fit (n := n) hok hf hd hg hp
  exact ⟨_, rfl, Fit.set_fit hothers hfit rfl⟩

/-- `InsertNGram` keeps the property of the nodes. -/
theorem InsertNGram_fit {lm lm' : State} {hd c : String} {st : Int}
    (h : InsertNGram lm hd c = some (st, lm')) {t : head_table} (ht : lm.main_table = some t)
    (hok : TableOK headword_node.deleted t) (hfit : Fit lm.ngram_size t) :
    ∃ t', lm'.main_table = some t' ∧ Fit lm.ngram_size t' := by
  have hstart := FNV1a_lt hd hok.pos
  rcases InsertNGram_cases h with ⟨hnone, _, _⟩ | ⟨t0, ht0, hcase⟩
  · rw [ht] at hnone
    cases hnone
  · rw [ht] at ht0
    cases ht0
    rcases hcase with ⟨_, _, rfl⟩ | ⟨b, hp, _, hcase⟩ | ⟨b, node, hp, hs, _, hcase⟩
    · exact ⟨t, ht, hfit⟩
    · obtain ⟨j, _, hbj⟩ := probe_within _ _ _ _ _ hstart b (Or.inl hp)
      have hb : b < t.table.length := by
        rw [hok.len, hbj]
        exact Nat.mod_lt _ hok.pos
      rcases hcase with ⟨hn, rfl⟩ | ⟨hn, st2, hins⟩
      · refine ⟨_, rfl, Fit.set_fit (hfit.others b) ?_ rfl⟩
        exact ⟨NodeOK_init hd, fun _ => FreqOK_init hd, fun _ h1 => absurd hn h1⟩
      · refine InsertCollocate_fit hins (t := { t with
            table := t.table.set b (some (freshHead hd)), occupied := uadd t.occupied 1 })
          rfl (slot_set_self _ _ _ hb) (NodeOK_init hd) (FreqOK_init hd) rfl ?_
        intro b' nd hne hs'
        dsimp only at hs'
        rw [slot_set_ne _ _ _ _ hne] at hs'
        exact hfit b' nd hs'
    · have hb := slot_some_lt hs
      have hfalse := (probe_hit_sound _ _ _ hp).1
      obtain ⟨x, hx, hxl⟩ := slotFree_false hfalse
      rw [hs] at hx
      cases hx
      have hnode := hfit b node hs
      rcases hcase with ⟨hn, st2, hins⟩ | ⟨hn, rfl⟩
      · refine InsertCollocate_fit hins (t := { t with
            table := t.table.set b (some { node with count := uadd node.count 1 }) })
          rfl (slot_set_self _ _ _ hb) (hnode.ok.congr rfl rfl)
          ((hnode.freq hxl).congr_freq rfl rfl rfl) hxl ?_
        intro b' nd hne hs'
        dsimp only at hs'
        rw [slot_set_ne _ _ _ _ hne] at hs'
        exact hfit b' nd hs'
      · have hbump : NodeFit lm.ngram_size { node with count := uadd node.count 1 } :=
          hnode.congr_fit rfl rfl rfl rfl
        exact ⟨_, rfl, Fit.set_fit (hfit.others b) hbump rfl⟩

/-- The ingestion loop keeps the property of the nodes. -/
theorem ingest_fit : ∀ (words : List String) (lm : State) (ngram : List String) (count : Nat)
    (r : Bool) (lm' : State) (t : head_table),
    ingest words lm ngram count = some (r, lm') → lm.main_table = some t →
    TrainedOK lm.ngram_size t lm.unique_ngrams_count → Fit lm.ngram_size t →
    ∃ t', lm'.main_table = some t' ∧ Fit lm.ngram_size t' := by
  intro words
  induction words with
  | nil =>
    intro lm ngram count r lm' t h ht hok hfit
    simp only [ingest, Option.some.injEq, Prod.mk.injEq] at h
    obtain ⟨_, rfl⟩ := h
    exact ⟨t, ht, hfit⟩
  | cons word rest ih =>
    intro lm ngram count r lm' t h ht hok hfit
    rcases ingest_cons h with ⟨hlt, hrec⟩ | ⟨hge, headword, ng, lm1, st, lm2, heq, h1, h2, hfin⟩
    · exact ih lm _ _ r lm' t hrec ht hok hfit
    · obtain ⟨t1, rfl, hr⟩ := growHead_spec ht hok.table h1
      have hok1 := hok.rehashedMain hr
      have hfit1 := hfit.rehashedFit hr
      obtain ⟨t2, ht2, hok2, hn2, _, _⟩ := InsertNGram_spec h2 (t := t1) rfl hok1
      obtain ⟨t2', ht2', hfit2⟩ := InsertNGram_fit h2 (t := t1) rfl hok1.table hfit1
      rw [ht2] at ht2'
      cases ht2'
      simp only at hn2 hok2 hfit2
      rcases hfin with ⟨_, _, rfl⟩ | ⟨_, hrec⟩
      · exact ⟨t2, ht2, hfit2⟩
      · have hok2' : TrainedOK lm2.ngram_size t2 lm2.unique_ngrams_count := by
          rw [hn2]; exact hok2
        obtain ⟨t', ht', hfit'⟩ := ih lm2 _ _ r lm' t2 hrec ht2 hok2' (by rw [hn2]; exact hfit2)
        rw [hn2] at hfit'
        exact ⟨t', ht', hfit'⟩

end LM

namespace LM

/-! ## The nodes of the main table under sorting, training and growth -/

theorem FreqOK.sorted {hw : headword_node} (hf : FreqOK hw) :
    FreqOK { hw with frequencies := sortFrequencies hw.heap hw.frequencies } := by
  have hperm : (sortFrequencies hw.heap hw.frequencies).Perm hw.frequencies :=
    List.perm_insertionSort _ _
  refine ⟨hperm.nodup_iff.mpr hf.nodup, fun p => ?_⟩
  dsimp only
  rw [hperm.mem_iff]
  exact hf.mem p

theorem SortCounts_fit {n : Nat} {lm : State} {t : head_table} (ht : lm.main_table = some t)
    (hfit : Fit n t) : ∃ t', (SortCounts lm).main_table = some t' ∧ Fit n t' := by
  unfold SortCounts
  rw [ht]
  refine ⟨_, rfl, ?_⟩
  intro b nd hs
  dsimp only at hs
  rw [slot_map _ rfl] at hs
  cases hsl : slot t.table b with
  | none =>
    rw [hsl] at hs
    cases hs
  | some node =>
    rw [hsl] at hs
    dsimp only at hs
    have hnode := hfit b node hsl
    split at hs
    · cases hs
      exact hnode
    · cases hs
      exact ⟨hnode.ok.congr rfl rfl, fun hd => (hnode.freq hd).sorted,
        fun hd hn => hnode.live hd hn⟩

theorem ingestAndSort_fit {lm lm' : State} {words : List String} {r : Bool} {t : head_table}
    (h : ingestAndSort lm words = some (r, lm')) (ht : lm.main_table = some t)
    (hok : TrainedOK lm.ngram_size t lm.unique_ngrams_count) (hfit : Fit lm.ngram_size t) :
    ∃ t', lm'.main_table = some t' ∧ Fit lm.ngram_size t' := by
  obtain ⟨lm2, hi, hfin⟩ := ingestAndSort_cases h
  obtain ⟨t2, ht2, hfit2⟩ := ingest_fit _ _ _ _ _ _ _ hi ht hok hfit
  rcases hfin with rfl | ⟨_, _, rfl⟩
  · exact ⟨t2, ht2, hfit2⟩
  · exact SortCounts_fit ht2 hfit2

theorem Fit_empty {n : Nat} {t : head_table} (h : ∀ b, slot t.table b = none) : Fit n t := by
  intro b nd hs
  rw [h b] at hs
  cases hs

theorem Train_fit {lm lm' : State} {src : Source} {r : Bool}
    (h : Train lm src = some (r, lm')) (hok : StateOK lm) (hfit : StateFit lm) :
    StateFit lm' := by
  obtain ⟨_, hsz, hneg, _⟩ := Train_spec h hok
  by_cases hest : src.estimate < 0
  · rw [hneg hest]
    exact hfit
  · obtain ⟨t0, hi, hcase⟩ := Train_unfold hok h (by omega)
    obtain ⟨_, hempty⟩ := InitTable_ok headword_node.deleted hi
    intro t' ht'
    rw [hsz]
    rcases hcase with ⟨_, _, rfl⟩ | ⟨ws, _, hing⟩
    · cases ht'
      exact Fit_empty hempty
    · obtain ⟨t'', ht'', hfit''⟩ := ingestAndSort_fit hing rfl
        (TrainedOK_init hi).1 (Fit_empty hempty)
      rw [ht'] at ht''
      cases ht''
      exact hfit''

theorem Grow_fit {lm lm' : State} {src : Source} {r : Bool}
    (h : Grow lm src = some (r, lm')) (hok : StateOK lm) (hsz : src.estimate ≤ MAX_ESTIMATE)
    (hfit : StateFit lm) : StateFit lm' := by
  obtain ⟨_, hn, hnone, hneg, _⟩ := Grow_spec h hok hsz
  cases ht : lm.main_table with
  | none =>
    rw [hnone ht]
    exact hfit
  | some t =>
    by_cases hest : src.estimate < 0
    · rw [hneg hest]
      exact hfit
    · have hokt : TrainedOK lm.ngram_size t lm.unique_ngrams_count := by
        unfold StateOK at hok
        rw [ht] at hok
        exact hok
      obtain ⟨nt, t1, hnew, hempty, hroom, rfl, hcase⟩ := Grow_unfold ht hokt (by omega) hsz h
      have hreh := Rehashed.of_transfer headword_node.headword headword_node.deleted hokt.table
        hnew hempty hroom
      have hfit1 := (hfit t ht).rehashedFit hreh
      intro t' ht'
      rw [hn]
      rcases hcase with ⟨_, _, rfl⟩ | ⟨ws, _, hing⟩
      · cases ht'
        exact hfit1
      · obtain ⟨t'', ht'', hfit''⟩ := ingestAndSort_fit hing rfl (hokt.rehashedMain hreh) hfit1
        rw [ht'] at ht''
        cases ht''
        exact hfit''

end LM

namespace LM

/-! ## The nodes of the main table under deletion -/

/-- The node after a live collocate is tombstoned and `occupied` is lowered. -/
theorem NodeOK_mark {hw : headword_node} (hnode : NodeOK hw) {b0 p : Nat}
    (hp : slot hw.collocates.table b0 = some p) (hpl : cdead hw.heap p = false)
    (fr : List Nat) :
    NodeOK { hw with frequencies := fr, heap := markDeleted hw.heap p,
                     collocates := { hw.collocates with
                       occupied := usub hw.collocates.occupied 1 } } := by
  have hmark := liveCount_mark hnode hp hpl
  have hocc1 : 1 ≤ hw.collocates.occupied := by
    rw [hnode.tbl.occ]; omega
  have hcap := (ladder_bounds _ hnode.tbl.ladder).2
  have hle : hw.collocates.occupied ≤ hw.collocates.capacity := by
    rw [hnode.tbl.occ, ← hnode.tbl.len]; exact liveCount_le _ _
  have hocc : usub hw.collocates.occupied 1 = hw.collocates.occupied - 1 :=
    usub_of_le (by omega) hocc1
  refine ⟨?_, ?_, ?_⟩
  · constructor
    · dsimp only
      exact hnode.tbl.len
    · dsimp only
      exact hnode.tbl.ladder
    · dsimp only
      rw [hocc, hnode.tbl.occ]
      omega
  · intro b' q hq
    dsimp only at hq ⊢
    rw [length_mark]
    exact hnode.valid b' q hq
  · dsimp only
    exact hnode.inj

/-- The frequency index after a live collocate is tombstoned and erased from the index. -/
theorem FreqOK_mark {hw : headword_node} (hnode : NodeOK hw) (hf : FreqOK hw) {b0 p : Nat}
    (hp : slot hw.collocates.table b0 = some p) :
    FreqOK { hw with frequencies := hw.frequencies.eraseIdx (hw.frequencies.indexOf p),
                     heap := markDeleted hw.heap p,
                     collocates := { hw.collocates with
                       occupied := usub hw.collocates.occupied 1 } } := by
  have hv := hnode.valid b0 p hp
  have he : hw.frequencies.eraseIdx (hw.frequencies.indexOf p) = hw.frequencies.erase p :=
    List.eraseIdx_indexOf_eq_erase p hw.frequencies
  refine ⟨?_, fun q => ?_⟩
  · dsimp only
    rw [he]
    exact hf.nodup.erase p
  · dsimp only
    rw [he, hf.nodup.mem_erase_iff, hf.mem q]
    constructor
    · rintro ⟨hne, b, hb, hl⟩
      refine ⟨b, hb, ?_⟩
      rw [cdead_mark, if_neg (fun hc => hne hc.1)]
      exact hl
    · rintro ⟨b, hb, hl⟩
      rw [cdead_mark] at hl
      split at hl
      · cases hl
      · rename_i hne
        exact ⟨fun hc => hne ⟨hc, hv⟩, b, hb, hl⟩

/-- `DeleteHeadword` on the live node in `bucket`, whose subtable is well formed. -/
theorem DeleteHeadword_fit {n : Nat} {lm lm' : State} {b : Nat} {r : Bool}
    (h : DeleteHeadword lm b = some (r, lm')) {t : head_table} {node : headword_node}
    (ht : lm.main_table = some t) (htbl : TableOK headword_node.deleted t)
    (hs : slot t.table b = some node) (hd : node.deleted = false) (hnode : NodeOK node)
    (hothers : ∀ b' nd, b' ≠ b → slot t.table b' = some nd → NodeFit n nd) :
    ∀ t', lm'.main_table = some t' → Fit n t' := by
  have hblen := slot_some_lt hs
  unfold DeleteHeadword at h
  rw [ht] at h
  simp only at h
  split at h
  · simp only [Option.some.injEq, Prod.mk.injEq] at h
    obtain ⟨_, rfl⟩ := h
    intro t' ht'
    simp [Reset] at ht'
  · rw [hs] at h
    simp only at h
    have hlive := slotSum_set (fun s => if liveSlot headword_node.deleted s then 1 else 0) t.table b
      (some { node with deleted := true }) hblen
    rw [hs, ← liveCount_eq_slotSum, ← liveCount_eq_slotSum] at hlive
    simp only [liveSlot, hd, Bool.not_false, ↓reduceIte, Bool.not_true, Bool.false_eq_true,
      Nat.add_zero] at hlive
    have hcap := (ladder_bounds _ htbl.ladder).2
    have hle : t.occupied ≤ t.capacity := by
      rw [htbl.occ, ← htbl.len]; exact liveCount_le _ _
    have hocc : usub t.occupied 1 = t.occupied - 1 :=
      usub_of_le (by omega) (by rw [htbl.occ]; omega)
    have htbl1 : TableOK headword_node.deleted
        { t with table := t.table.set b (some { node with deleted := true }),
                 occupied := usub t.occupied 1 } := by
      refine ⟨by simpa using htbl.len, htbl.ladder, ?_⟩
      simp only
      rw [hocc, htbl.occ]
      omega
    have hdead : NodeFit n { node with deleted := true } :=
      NodeFit_dead (hnode.congr rfl rfl) rfl
    have hfit1 : ∀ t1 : head_table,
        t1.table = t.table.set b (some { node with deleted := true }) → Fit n t1 :=
      fun t1 h1 => Fit.set_fit hothers hdead h1
    obtain ⟨lm2, hlm2, heq⟩ := Option.map_eq_some'.mp h
    simp only [Prod.mk.injEq] at heq
    obtain ⟨_, rfl⟩ := heq
    split at hlm2
    · obtain ⟨t2, rfl, hreh⟩ := ResizeHeadTable_spec hlm2 rfl htbl1
      intro t' ht'
      cases ht'
      exact (hfit1 _ rfl).rehashedFit hreh
    · cases hlm2
      intro t' ht'
      cases ht'
      exact hfit1 _ rfl

/-- `DeleteCollocate` of a live collocate node of a live headword node. -/
theorem DeleteCollocate_fit {lm lm' : State} {b p : Nat} {r : Bool}
    (h : DeleteCollocate lm b p = some (r, lm')) {t : head_table} {hw : headword_node}
    (ht : lm.main_table = some t) (hok : TrainedOK lm.ngram_size t lm.unique_ngrams_count)
    (hfit : Fit lm.ngram_size t) (hs : slot t.table b = some hw) (hd : hw.deleted = false)
    (hn : lm.ngram_size ≠ 1) {b0 : Nat} (hp : slot hw.collocates.table b0 = some p)
    (hpl : cdead hw.heap p = false) :
    ∀ t', lm'.main_table = some t' → Fit lm.ngram_size t' := by
  have hblen := slot_some_lt hs
  have hnode := hfit b hw hs
  rcases DeleteCollocate_cases h ht hs with
    ⟨hone, hdel⟩ | ⟨hone, hpos, _, hw2, hr, rfl⟩ | ⟨_, _, _, rfl⟩
  · refine DeleteHeadword_fit hdel (t := { t with table := t.table.set b (some
        { hw with heap := markDeleted hw.heap p,
                  collocates := { hw.collocates with
                    occupied := usub hw.collocates.occupied 1 } }) })
      rfl (hok.table.set_live hs hd hd) (slot_set_self _ _ _ hblen) hd
      (NodeOK_mark hnode.ok hp hpl hw.frequencies) ?_
    intro b' nd hne hs'
    dsimp only at hs'
    rw [slot_set_ne _ _ _ _ hne] at hs'
    exact hfit b' nd hs'
  · have hnode1 := NodeOK_mark hnode.ok hp hpl
      (hw.frequencies.eraseIdx (hw.frequencies.indexOf p))
    have hf1 := FreqOK_mark hnode.ok (hnode.freq hd) hp
    obtain ⟨hn2, hd2, _, ho2, _⟩ := DeleteCollocate_node hnode.ok hd hp hpl hr
    have hlive := hnode.live hd hn
    have hf2 : FreqOK hw2 := by
      split at hr
      · obtain ⟨nt, rfl, hreh⟩ := ResizeCollocateTable_spec hnode1 hr
        exact hf1.rehashed hreh
      · cases hr
        exact hf1
    have hfit2 : NodeFit lm.ngram_size hw2 := ⟨hn2, fun _ => hf2, fun _ _ => by omega⟩
    intro t' ht'
    cases ht'
    exact Fit.set_fit (hfit.others b) hfit2 rfl
  · intro t' ht'
    rw [ht] at ht'
    cases ht'
    exact hfit

theorem Remove_fit {lm lm' : State} {k : String} {r : Bool}
    (h : Remove lm k = some (r, lm')) (hok : StateOK lm) (hfit : StateFit lm) :
    StateFit lm' := by
  obtain ⟨_, hsz⟩ := Remove_spec h hok
  have triv : ∀ r', some (r', lm) = some (r, lm') → StateFit lm' := by
    intro r' h'
    simp only [Option.some.injEq, Prod.mk.injEq] at h'
    obtain ⟨_, rfl⟩ := h'
    exact hfit
  unfold Remove at h
  cases ht : lm.main_table with
  | none =>
    rw [ht] at h
    exact triv _ h
  | some t =>
    rw [ht] at h
    dsimp only at h
    have hT : TrainedOK lm.ngram_size t lm.unique_ngrams_count := by
      unfold StateOK at hok
      rw [ht] at hok
      exact hok
    have hF := hfit t ht
    by_cases hlen : k.length > 0
    · rw [if_pos hlen] at h
      cases hs : SplitNGram k with
      | none =>
        rw [hs] at h
        simp at h
      | some grams =>
        rw [hs] at h
        simp only [Option.some_bind] at h
        by_cases hc : (lm.ngram_size = 1 ∧ grams.length > 1) ∨
            (lm.ngram_size > 1 ∧ grams.length = 1)
        · rw [if_pos hc] at h
          exact triv _ h
        · rw [if_neg hc] at h
          cases grams with
          | nil => simp at h
          | cons headword rest =>
            dsimp only at h
            cases hf : FindHeadword lm headword with
            | none =>
              rw [hf] at h
              exact triv _ h
            | some b =>
              rw [hf] at h
              dsimp only at h
              obtain ⟨t2, node, ht2, hsl, hd, _⟩ := FindHeadword_sound hf
              rw [ht] at ht2
              cases ht2
              by_cases hn : lm.ngram_size = 1
              · rw [if_pos hn] at h
                intro t' ht'
                rw [hsz]
                exact DeleteHeadword_fit h ht hT.table hsl hd (hF b node hsl).ok
                  (hF.others b) t' ht'
              · rw [if_neg hn, hsl] at h
                dsimp only at h
                split at h
                · rename_i p hfc
                  obtain ⟨b0, hp, hpl, _⟩ := FindCollocate_slot hfc
                  intro t' ht'
                  rw [hsz]
                  exact DeleteCollocate_fit h ht hT hF hsl hd hn hp hpl t' ht'
                · exact triv _ h
    · rw [if_neg hlen] at h
      exact triv _ h

theorem applyOp_fit {op : Op} {lm lm' : State} {r : Bool}
    (h : applyOp lm op = some (r, lm')) (hs : Op.sized op = true) (hok : StateOK lm)
    (hfit : StateFit lm) : StateFit lm' := by
  cases op with
  | train src => exact Train_fit h hok hfit
  | grow src =>
    have hsz : src.estimate ≤ MAX_ESTIMATE := by
      simpa [Op.sized] using hs
    exact Grow_fit h hok hsz hfit
  | remove k => exact Remove_fit h hok hfit

theorem run_fit : ∀ (ops : List Op) (lm lm' : State), ops.all Op.sized = true →
    StateOK lm → StateFit lm → run lm ops = some lm' → StateFit lm' := by
  intro ops
  induction ops with
  | nil =>
    intro lm lm' _ _ hfit h
    simp only [run, Option.some.injEq] at h
    subst h
    exact hfit
  | cons op ops ih =>
    intro lm lm' hs hok hfit h
    simp only [List.all_cons, Bool.and_eq_true] at hs
    unfold run at h
    cases ha : applyOp lm op with
    | none =>
      rw [ha] at h
      simp at h
    | some res =>
      obtain ⟨r, lm1⟩ := res
      rw [ha] at h
      simp only [Option.some_bind] at h
      obtain ⟨h1, _⟩ := applyOp_StateOK ha hs.1 hok
      exact ih lm1 lm' hs.2 h1 (applyOp_fit ha hs.1 hok hfit) h

theorem StateFit_init (n : Nat) : StateFit (init n) := by
  intro t ht
  cases ht

end LM

namespace LM

/-! ## Removal of a key that is not stored -/

/-- C9: on a trained model, `Remove` of a key of the model's arity whose headword is not stored,
or (order at least 2) whose collocate is not stored under that headword, returns `false` and
leaves the whole state (tables and the three counters) as it was. -/
theorem Remove_absent_key (lm : State) (k : String) (ht : lm.main_table.isSome = true)
    (hn : 1 ≤ lm.ngram_size) (hk : (splitWords k).length = lm.ngram_size)
    (habs : headwordStored lm (keyHeadword k) = false ∨
      (2 ≤ lm.ngram_size ∧ ngramStored lm (keyHeadword k) (keyCollocate k) = false)) :
    Remove lm k = some (false, lm) := by
  obtain ⟨t, ht⟩ := Option.isSome_iff_exists.mp ht
  have hlen : ¬ k.length = 0 := by
    intro h0
    rw [splitWords_of_length_zero h0] at hk
    simp at hk
    omega
  have hfind : ∀ b, FindHeadword lm (keyHeadword k) = some b →
      ∃ node, slot t.table b = some node ∧ 2 ≤ lm.ngram_size ∧
        ∀ p, FindCollocate node (keyCollocate k) ≠ some p := by
    intro b hb
    obtain ⟨t', node, ht', hs, hd, hh⟩ := FindHeadword_sound hb
    rw [ht] at ht'
    cases ht'
    rcases habs with habs | ⟨h2, habs⟩
    · exfalso
      have : headwordStored lm (keyHeadword k) = true := by
        unfold headwordStored
        rw [ht, List.any_eq_true]
        exact ⟨some node, slot_some_mem hs, by simp [hd, hh]⟩
      rw [habs] at this
      cases this
    · refine ⟨node, hs, h2, fun p hp => ?_⟩
      have : ngramStored lm (keyHeadword k) (keyCollocate k) = true := by
        unfold ngramStored
        rw [ht, List.any_eq_true]
        exact ⟨some node, slot_some_mem hs, by simp [hd, hh, FindCollocate_sound hp]⟩
      rw [habs] at this
      cases this
  unfold Remove
  rw [ht]
  simp only [gt_iff_lt, Nat.pos_iff_ne_zero, ne_eq, hlen, not_false_eq_true, ↓reduceIte,
    SplitNGram]
  unfold keyHeadword keyCollocate at hfind
  rcases hw : splitWords k with _ | ⟨w, _ | ⟨w1, rest⟩⟩
  · rw [hw] at hk
    simp at hk
    omega
  · rw [hw] at hk hfind
    simp only [List.length_singleton] at hk
    simp only [List.headD_cons] at hfind
    have h1 : lm.ngram_size = 1 := hk.symm
    simp only [Option.some_bind, h1, List.length_singleton, lt_self_iff_false, and_false,
      Nat.lt_irrefl, and_true, or_self, ↓reduceIte]
    cases hf : FindHeadword lm w with
    | none => rfl
    | some b =>
      obtain ⟨node, _, h2, _⟩ := hfind b hf
      omega
  · rw [hw] at hk hfind
    simp only [List.length_cons] at hk
    simp only [List.headD_cons] at hfind
    have h1 : lm.ngram_size ≠ 1 := by omega
    simp only [Option.some_bind, h1, List.length_cons, List.length_nil, false_and, and_false,
      or_self, ↓reduceIte, List.headD_cons]
    simp only [Nat.reduceAdd, Nat.succ_ne_self, and_false, or_self, ↓reduceIte, OfNat.ofNat_ne_one]
    cases hf : FindHeadword lm w with
    | none => rfl
    | some b =>
      obtain ⟨node, hs, _, hc⟩ := hfind b hf
      simp only [hs]
      cases hfc : FindCollocate node (List.foldl (fun collocate x => collocate ++ " " ++ x) w1 rest) with
      | none => rfl
      | some p => exact absurd hfc (hc p)

/-- The state of a bigram model trained on the text "one bigram". -/
theorem Train_one_bigram :
    Train (init 2) { estimate := 1, words := some ["one", "bigram"] } =
      some (true,
        { ngram_size := 2,
          main_table := some
            { capacity := 7, occupied := 1,
              table := [none,
                some { headword := "one", count := 1,
                       collocates := { capacity := 7, occupied := 1,
                                       table := [none, none, none, none, none, some 0, none] },
                       frequencies := [0], deleted := false,
                       heap := [{ collocate := "bigram", count := 1, deleted := false }] },
                none, none, none, none, none] },
          unique_ngrams_count := 1, ngrams_total := 1, tokens := 2 }) := by
  decide

/-- Witness of C9: in the bigram model trained on "one bigram" the key "one trigram" has a stored
headword and a collocate that is not stored under it. -/
theorem Remove_absent_key_witness :
    ∃ lm, Train (init 2) { estimate := 1, words := some ["one", "bigram"] } = some (true, lm) ∧
      headwordStored lm "one" = true ∧ Remove lm "one trigram" = some (false, lm) :=
  ⟨_, Train_one_bigram, by decide,
    Remove_absent_key _ "one trigram" (by decide) (by decide) (by decide)
      (Or.inr ⟨by decide, by decide⟩)⟩

end LM

namespace LM

/-! ## Runs of the model on small texts -/

/-- C4 (failing input): bigram model trained on "a b a c"; after `Remove("a b")` the counters are
2, 2, 2; `Remove("a c")` (count 1, not the only n-gram) then leaves 1, 0 and -1 instead of
1, 1 and 0. -/
theorem Remove_last_collocate_counts :
    ((Train (init 2) ⟨1, some ["a", "b", "a", "c"]⟩).bind fun r0 =>
      (Remove r0.2 "a b").bind fun r1 =>
        (Remove r1.2 "a c").map fun r2 =>
          ((UniqueNGramsCount r1.2, NGramsTotal r1.2, TotalTokens r1.2), r2.1,
            (UniqueNGramsCount r2.2, NGramsTotal r2.2, TotalTokens r2.2))) =
      some ((2, 2, 2), true, (1, 0, -1)) := by
  decide

/-- C5 (failing input): after the same two removals the model is still trained, its only live
entry "b a" has count 1, and `NGramsTotal` is 0. -/
theorem NGramsTotal_after_removals :
    ((Train (init 2) ⟨1, some ["a", "b", "a", "c"]⟩).bind fun r0 =>
      (Remove r0.2 "a b").bind fun r1 =>
        (Remove r1.2 "a c").map fun r2 =>
          (r2.2.main_table.isSome, NGrams r2.2, liveNGramTotal r2.2, NGramsTotal r2.2)) =
      some (true, [("b a", 1)], 1, 0) := by
  decide

/-- C7 (counterexample): in the bigram model trained on the one document "a b a c",
after `Remove("a b")` the live headword counts sum to 3, so the claimed value of `TotalTokens`
is 3 + (2 - 1), while `TotalTokens` is 2. -/
theorem TotalTokens_after_Remove :
    ((Train (init 2) ⟨1, some ["a", "b", "a", "c"]⟩).bind fun r0 =>
      (Remove r0.2 "a b").map fun r1 =>
        (r1.1, r1.2.main_table.isSome, liveHeadCount r1.2, TotalTokens r1.2)) =
      some (true, true, 3, 2) := by
  decide

/-- C8 (failing input): bigram model trained on "dog fish fish" ("dog" and "fish" share a home
bucket); after `Remove("dog fish")` the only live n-gram is "fish fish", and
`Remove("fish fish")` returns `false` and leaves the model trained with counters 1, 1, 1. -/
theorem Remove_only_ngram_behind_tombstone :
    ((Train (init 2) ⟨2, some ["dog", "fish", "fish"]⟩).bind fun r0 =>
      (Remove r0.2 "dog fish").bind fun r1 =>
        (Remove r1.2 "fish fish").map fun r2 =>
          ((r1.1, NGrams r1.2), (r2.1, r2.2.main_table.isSome),
            (UniqueNGramsCount r2.2, NGramsTotal r2.2, TotalTokens r2.2))) =
      some ((true, [("fish fish", 1)]), (false, true), (1, 1, 1)) := by
  decide

/-- C10 (counterexample): trigram model trained on the words "a", "&", "c"; the key "a c" has two
words and `Remove` returns `true`. -/
theorem Remove_two_word_key_in_trigram_model :
    (splitWords "a c").length = 2 ∧
    ((Train (init 3) ⟨1, some ["a", "&", "c"]⟩).bind fun r0 =>
      (Remove r0.2 "a c").map fun r1 => (r0.1, NGrams r0.2, r1.1)) =
      some (true, [("a c", 1)], true) := by
  decide

/-- C12 (counterexample): in the bigram model trained on "a b a c", inserting the n-gram "a d"
that is not stored and removing it again leaves `TotalTokens` at 3 instead of 4. -/
theorem Insert_then_Remove_tokens :
    ((Train (init 2) ⟨1, some ["a", "b", "a", "c"]⟩).bind fun r0 =>
      (InsertNGram r0.2 "a" "d").bind fun r1 =>
        (Remove r1.2 "a d").map fun r2 =>
          (ngramStored r0.2 "a" "d",
            (UniqueNGramsCount r0.2, NGramsTotal r0.2, TotalTokens r0.2), r2.1,
            (UniqueNGramsCount r2.2, NGramsTotal r2.2, TotalTokens r2.2))) =
      some (false, (3, 3, 4), true, (3, 3, 3)) := by
  decide

/-- C17 (counterexample): a trained model (counters 1, 1, 2) on which `Train` fails because the
file does not open is left with a new empty table and counters 0, 0, 0. -/
theorem Train_open_failure_resets :
    ((Train (init 2) ⟨1, some ["one", "bigram"]⟩).bind fun r0 =>
      (Train r0.2 ⟨1, none⟩).map fun r1 =>
        ((UniqueNGramsCount r0.2, NGramsTotal r0.2, TotalTokens r0.2), r1.1,
          r1.2.main_table.map (fun t => t.occupied),
          (UniqueNGramsCount r1.2, NGramsTotal r1.2, TotalTokens r1.2))) =
      some ((1, 1, 2), false, some 0, (0, 0, 0)) := by
  decide

/-- C18 (failing input): in the bigram model trained on "dog fish fish", after
`Remove("dog fish")` the n-gram "fish fish" is stored with count 1 and `NGramsTotal` is 1, and
`Frequency("fish fish")` is 0. -/
theorem Frequency_behind_tombstone :
    ((Train (init 2) ⟨2, some ["dog", "fish", "fish"]⟩).bind fun r0 =>
      (Remove r0.2 "dog fish").map fun r1 =>
        (ngramStored r1.2 "fish" "fish", NGrams r1.2, NGramsTotal r1.2,
          Frequency r1.2 "fish fish")) =
      some (true, [("fish fish", 1)], 1, some zeroFrequency) := by
  decide

/-- C19 (failing input): in the bigram model trained on "a b a c", after `Remove("a b")` and
`Remove("a c")` the quotient of `Frequency("b a")` has the denominator 0. -/
theorem Frequency_zero_denominator :
    ((Train (init 2) ⟨1, some ["a", "b", "a", "c"]⟩).bind fun r0 =>
      (Remove r0.2 "a b").bind fun r1 =>
        (Remove r1.2 "a c").bind fun r2 => Frequency r2.2 "b a") =
      some { num := 1, den := 0 } := by
  decide

/-- C20 (failing input): in the bigram model trained on "dog fish fish", after
`Remove("dog fish")` the headword "fish" is stored with one live collocate, and
`Collocates("fish", 5)` is empty. -/
theorem Collocates_behind_tombstone :
    ((Train (init 2) ⟨2, some ["dog", "fish", "fish"]⟩).bind fun r0 =>
      (Remove r0.2 "dog fish").map fun r1 =>
        (headwordStored r1.2 "fish", ngramStored r1.2 "fish" "fish", Collocates r1.2 "fish" 5)) =
      some (true, true, []) := by
  decide


/-- C11 (failing input): bigram model trained on "the a the b the c the d the j"; after
`Remove` of "the b", "the c", "the a", `Grow` with "the j" and `Remove` of "the d", the call
`Remove("the j")` returns `true`; afterwards `Frequency("the j")` is 1/5 and a second
`Remove("the j")` returns `true` and changes the counters from 5, 5, 2 to 4, -1, -5. -/
theorem Remove_twice_duplicate_key :
    ((Train (init 2) ⟨1, some ["the", "a", "the", "b", "the", "c", "the", "d", "the", "j"]⟩).bind
      fun r0 => (Remove r0.2 "the b").bind fun r1 => (Remove r1.2 "the c").bind fun r2 =>
        (Remove r2.2 "the a").bind fun r3 => (Grow r3.2 ⟨1, some ["the", "j"]⟩).bind fun r4 =>
          (Remove r4.2 "the d").bind fun r5 => (Remove r5.2 "the j").bind fun r6 =>
            (Remove r6.2 "the j").map fun r7 =>
              ((r6.1, Frequency r6.2 "the j"),
                (UniqueNGramsCount r6.2, NGramsTotal r6.2, TotalTokens r6.2), r7.1,
                (UniqueNGramsCount r7.2, NGramsTotal r7.2, TotalTokens r7.2))) =
      some ((true, some { num := 1, den := 5 }), (5, 5, 2), true, (4, -1, -5)) := by
  decide

/-- C22 (counterexample): bigram model trained on the words "a", "&"; the only key of `NGrams`
is "a " (the second token is empty after stripping), `Remove` of that key returns `false` and
`Frequency` of it is 1/2 although its count is 1 and `NGramsTotal` is 1. -/
theorem NGrams_key_with_empty_token :
    ((Train (init 2) ⟨1, some ["a", "&"]⟩).bind fun r0 =>
      (Remove r0.2 "a ").map fun r1 =>
        (NGrams r0.2, NGramsTotal r0.2, r1.1, Frequency r0.2 "a ")) =
      some ([("a ", 1)], 1, false, some { num := 1, den := 2 }) := by
  decide

/-- C23 (failing input): on the bigram model trained on "one bigram" the key " " makes
`Remove` and `Frequency` throw (`words.at(0)` on an empty vector), and `UniqueUnigramCount`
dereferences the null table of an untrained model. -/
theorem whitespace_key_throws :
    ((Train (init 2) ⟨1, some ["one", "bigram"]⟩).map fun r0 =>
      (Remove r0.2 " ", Frequency r0.2 " ")) = some (none, none) ∧
    UniqueUnigramCount (init 2) = none := by
  decide

/-- C24 (failing input): the text "a a a" has one distinct token and a bigram model trained on
it reports 2 unique unigrams. -/
theorem UniqueUnigramCount_repeated_token :
    distinctTokens ["a", "a", "a"] = 1 ∧
    ((Train (init 2) ⟨1, some ["a", "a", "a"]⟩).bind fun r0 => UniqueUnigramCount r0.2) =
      some 2 := by
  decide

/-- C26 (failing input): for the request `2^31 + 1` the exponent is 32 and the access to
`PRIMES` is out of range. -/
theorem PrimeSize_out_of_range :
    PowerOfTwoExponent 2147483649 = 32 ∧ PRIMES.length = 32 ∧ PrimeSize 2147483649 = none := by
  decide

/-- C27 (failing input): for the key "é" (bytes 195 and 169) the loop of `FNV1a`, in which a
`char` is signed, yields 1023043777 and the FNV-1a hash of the two bytes is 513665217. -/
theorem FNV1a_high_bytes :
    bytes "é" = [195, 169] ∧ FNV1aLoop (bytes "é") 2166136261 = 1023043777 ∧
    FNV1aReference (bytes "é") = 513665217 := by
  decide

/-- C28 (failing input): in the bigram model trained on "dog fish fish", after
`Remove("dog fish")` the headword "fish" is live in the table and `FindHeadword` returns the
null pointer for it. -/
theorem FindHeadword_stops_at_tombstone :
    ((Train (init 2) ⟨2, some ["dog", "fish", "fish"]⟩).bind fun r0 =>
      (Remove r0.2 "dog fish").map fun r1 =>
        (r1.1, headwordStored r1.2 "fish", FindHeadword r1.2 "fish")) =
      some (true, true, none) := by
  decide

/-- C29 (failing input): bigram model trained on "h dog h fish"; after `Remove("h dog")` and
`Grow` with "h fish" the subtable of "h" holds two live entries with the collocate "fish". -/
theorem duplicate_collocate_after_Grow :
    ((Train (init 2) ⟨1, some ["h", "dog", "h", "fish"]⟩).bind fun r0 =>
      (Remove r0.2 "h dog").bind fun r1 =>
        (Grow r1.2 ⟨1, some ["h", "fish"]⟩).bind fun r2 =>
          (FindHeadword r2.2 "h").bind fun b =>
            r2.2.main_table.bind fun t =>
              (slot t.table b).map fun hw => (r1.1, r2.1, liveKeyCount hw "fish")) =
      some (true, true, 2) := by
  decide

/-- C30 (counterexample): bigram model trained on "h a h b h c h d"; after `Remove("h a")` and
`Grow` with "h e", the subtable of "h" (capacity 7, one tombstone) is resized to capacity 11 and
the new table still holds one tombstoned slot. -/
theorem Resize_carries_tombstone :
    ((Train (init 2) ⟨1, some ["h", "a", "h", "b", "h", "c", "h", "d"]⟩).bind fun r0 =>
      (Remove r0.2 "h a").bind fun r1 =>
        (Grow r1.2 ⟨1, some ["h", "e"]⟩).bind fun r2 =>
          (FindHeadword r2.2 "h").bind fun b =>
            r2.2.main_table.bind fun t =>
              (slot t.table b).bind fun hw =>
                (ResizeCollocateTable hw).map fun hw2 =>
                  ((hw.collocates.capacity, tombstones (cdead hw.heap) hw.collocates.table),
                    (hw2.collocates.capacity, tombstones (cdead hw2.heap) hw2.collocates.table))) =
      some ((7, 1), (11, 1)) := by
  decide

end LM

namespace LM

/-! ## Claims about `Grow`, `Train` and the resize functions -/

/-- C15: `Grow` on a model without a headword table returns `false` and the state it was given:
the model stays untrained and the three counters keep their values. -/
theorem Grow_untrained (lm : State) (src : Source) (h : lm.main_table = none) :
    Grow lm src = some (false, lm) := by
  unfold Grow
  rw [h]

theorem Grow_untrained_witness :
    (init 2).main_table = none ∧
      Grow (init 2) ⟨1, some ["one", "bigram"]⟩ = some (false, init 2) :=
  ⟨rfl, Grow_untrained (init 2) ⟨1, some ["one", "bigram"]⟩ rfl⟩

/-- C17 (amended): when the source cannot be sized, `Train` returns `false` and the state it was
given; when the source is sized and cannot be opened, `Train` returns `false` and a state whose
headword table is a new empty table, with the three counters at 0 if the model was trained and
unchanged if it was not. -/
theorem Train_failure_state (lm : State) (src : Source) :
    (src.estimate < 0 → Train lm src = some (false, lm)) ∧
    (0 ≤ src.estimate → src.estimate * 2 < 2147483648 → src.words = none →
      ∃ t lm', Train lm src = some (false, lm') ∧ lm'.main_table = some t ∧
        t.occupied = 0 ∧ (∀ b, slot t.table b = none) ∧ lm'.ngram_size = lm.ngram_size ∧
        (lm.main_table.isSome = true →
          lm'.unique_ngrams_count = 0 ∧ lm'.ngrams_total = 0 ∧ lm'.tokens = 0) ∧
        (lm.main_table = none →
          lm'.unique_ngrams_count = lm.unique_ngrams_count ∧
          lm'.ngrams_total = lm.ngrams_total ∧ lm'.tokens = lm.tokens)) := by
  constructor
  · intro h
    unfold Train
    rw [if_pos h]
  · intro h0 h1 hw
    obtain ⟨c, hc⟩ := PrimeSize_isSome (x := (src.estimate * 2).toNat) (by omega)
    have hi : InitHeadTable (src.estimate * 2).toNat =
        some { capacity := c, occupied := 0, table := List.replicate c none } := by
      simp only [InitHeadTable, InitTable, hc, Option.map_some']
    refine ⟨{ capacity := c, occupied := 0, table := List.replicate c none },
      { (if lm.main_table.isSome then Reset lm else lm) with
        main_table := some { capacity := c, occupied := 0, table := List.replicate c none } },
      ?_, rfl, rfl, ?_, ?_, ?_, ?_⟩
    · unfold Train
      rw [if_neg (by omega), if_neg (by omega), hi, hw]
      rfl
    · intro b
      exact slot_replicate c b
    · dsimp only
      split_ifs <;> rfl
    · intro ht
      dsimp only
      rw [if_pos ht]
      exact ⟨rfl, rfl, rfl⟩
    · intro ht
      dsimp only
      rw [ht]
      exact ⟨rfl, rfl, rfl⟩

theorem Train_failure_state_witness : Train (init 2) ⟨-1, none⟩ = some (false, init 2) :=
  (Train_failure_state (init 2) ⟨-1, none⟩).1 (by decide)

/-- C30 (amended): a resize of a headword table or of a collocate subtable of capacity at most
`2^31` returns a table that is well formed (as many slots as its capacity, `occupied` equal to
the number of live slots), has the `occupied` count of the old table, holds every entry that was
live in the old table and holds no entry that the old table did not hold.  Tombstoned nodes of
the old table are inserted as well, so nothing is said about the absence of tombstones. -/
theorem Resize_keeps_live_entries :
    (∀ (lm : State) (t : head_table), lm.main_table = some t →
      TableOK headword_node.deleted t → t.capacity ≤ 2147483648 →
      ∃ t', ResizeHeadTable lm = some { lm with main_table := some t' } ∧
        Rehashed headword_node.deleted t t' ∧ t'.occupied = t.occupied) ∧
    (∀ hw : headword_node, NodeOK hw → hw.collocates.capacity ≤ 2147483648 →
      ∃ nt, ResizeCollocateTable hw = some { hw with collocates := nt } ∧
        Rehashed (cdead hw.heap) hw.collocates nt ∧ nt.occupied = hw.collocates.occupied) := by
  constructor
  · intro lm t ht hok hc
    obtain ⟨t', h⟩ := resize_isSome headword_node.headword headword_node.deleted t hc
    have hr := resize_spec headword_node.headword headword_node.deleted hok h
    refine ⟨t', ?_, hr, hr.occupied hok⟩
    unfold ResizeHeadTable
    rw [ht]
    simp only [h, Option.map_some']
  · intro hw hok hc
    obtain ⟨nt, h⟩ := resize_isSome (ckey hw.heap) (cdead hw.heap) hw.collocates hc
    have hr := resize_spec (ckey hw.heap) (cdead hw.heap) hok.tbl h
    refine ⟨nt, ?_, hr, hr.occupied hok.tbl⟩
    unfold ResizeCollocateTable
    simp only [h, Option.map_some']

theorem Resize_keeps_live_entries_witness :
    ∃ t', ResizeHeadTable { init 1 with main_table := some sampleTable } =
        some { init 1 with main_table := some t' } ∧
      Rehashed headword_node.deleted sampleTable t' ∧ t'.occupied = sampleTable.occupied :=
  Resize_keeps_live_entries.1 _ _ rfl ⟨by decide, by decide, by decide⟩ (by decide)

/-! ## The token counter and the documents of a history -/

theorem Remove_unigram_spec {lm lm' : State} {k : String} {r : Bool}
    (h : Remove lm k = some (r, lm')) (hok : StateOK lm) (hn : lm.ngram_size = 1) :
    StateOK lm' ∧ lm'.ngram_size = lm.ngram_size ∧
    (lm'.main_table.isSome = true →
      (lm'.tokens + liveHeadCount lm) % UMOD = (lm.tokens + liveHeadCount lm') % UMOD) := by
  have triv : ∀ r', some (r', lm) = some (r, lm') → StateOK lm' ∧ lm'.ngram_size = lm.ngram_size ∧
      (lm'.main_table.isSome = true →
        (lm'.tokens + liveHeadCount lm) % UMOD = (lm.tokens + liveHeadCount lm') % UMOD) := by
    intro r' h'
    simp only [Option.some.injEq, Prod.mk.injEq] at h'
    obtain ⟨_, rfl⟩ := h'
    exact ⟨hok, rfl, fun _ => rfl⟩
  unfold Remove at h
  cases ht : lm.main_table with
  | none =>
    rw [ht] at h
    exact triv _ h
  | some t =>
    rw [ht] at h
    dsimp only at h
    split_ifs at h with hlen
    · cases hs : SplitNGram k with
      | none =>
        rw [hs] at h
        simp at h
      | some grams =>
        rw [hs] at h
        simp only [Option.some_bind] at h
        split_ifs at h with hc
        · exact triv _ h
        · cases grams with
          | nil => simp at h
          | cons headword rest =>
            dsimp only at h
            cases hf : FindHeadword lm headword with
            | none =>
              rw [hf] at h
              exact triv _ h
            | some b =>
              rw [hf] at h
              simp only [hn, ↓reduceIte] at h
              obtain ⟨t2, node, ht2, hsl, hd, _⟩ := FindHeadword_sound hf
              rw [ht] at ht2
              cases ht2
              have hT : TrainedOK lm.ngram_size t lm.unique_ngrams_count := by
                unfold StateOK at hok
                rw [ht] at hok
                exact hok
              have hu := hT.unique
              rw [if_pos hn] at hu
              obtain ⟨_, hok', hn', htok⟩ := DeleteHeadword_spec h ht hT.table hsl hd
                (fun b' nd _ hs' hd' => hT.nodes b' nd hs' hd') (by rw [if_pos hn]; exact hu)
              refine ⟨hok', hn', ?_⟩
              intro hsome
              obtain ⟨t', ht'⟩ := Option.isSome_iff_exists.mp hsome
              obtain ⟨h1, h2⟩ := htok t' ht'
              unfold liveHeadCount
              rw [ht, ht', h1]
              dsimp only
              rw [← h2]
              unfold usub UMOD
              omega
    · exact triv _ h

theorem applyOp_tokens {n : Nat} {op : Op} {lm0 lm1 : State} {d0 : Nat} {r : Bool}
    (ha : applyOp lm0 op = some (r, lm1))
    (hop : (Op.sized op && (Op.ingests op || decide (n = 1))) = true)
    (hok : StateOK lm0) (hn : lm0.ngram_size = n)
    (hinv : lm0.tokens % UMOD = (liveHeadCount lm0 + d0 * usub n 1) % UMOD) :
    StateOK lm1 ∧ lm1.ngram_size = n ∧
      lm1.tokens % UMOD = (liveHeadCount lm1 + docsAfter lm0 lm1 d0 op * usub n 1) % UMOD := by
  cases op with
  | train src =>
    have ha' : Train lm0 src = some (r, lm1) := ha
    obtain ⟨hok1, hn1, hneg, hpos, _⟩ := Train_spec ha' hok
    refine ⟨hok1, hn1.trans hn, ?_⟩
    by_cases hest : src.estimate < 0
    · rw [hneg hest]
      simp only [docsAfter, hest, ↓reduceIte]
      exact hinv
    · obtain ⟨t', ht', htok⟩ := hpos (by omega)
      rw [hn] at htok
      simp only [docsAfter, hest, ↓reduceIte, liveHeadCount, ht']
      rw [htok]
      split_ifs <;> simp
  | grow src =>
    have ha' : Grow lm0 src = some (r, lm1) := ha
    have hsz : src.estimate ≤ MAX_ESTIMATE := by
      simp only [Op.sized, Bool.and_eq_true, decide_eq_true_eq] at hop
      exact hop.1
    obtain ⟨hok1, hn1, hnone, hneg, hsome, _⟩ := Grow_spec ha' hok hsz
    refine ⟨hok1, hn1.trans hn, ?_⟩
    cases hm : lm0.main_table with
    | none =>
      rw [hnone hm]
      simp only [docsAfter, hm, Option.isSome_none, Bool.false_and, Bool.false_eq_true,
        ↓reduceIte]
      exact hinv
    | some t =>
      by_cases hest : src.estimate < 0
      · rw [hneg hest]
        have : ¬ 0 ≤ src.estimate := by omega
        simp only [docsAfter, this, decide_False, Bool.and_false, Bool.false_and,
          Bool.false_eq_true, ↓reduceIte]
        exact hinv
      · obtain ⟨t', ht', htok⟩ := hsome t hm (by omega)
        have h0 : 0 ≤ src.estimate := by omega
        rw [hn] at htok
        simp only [liveHeadCount, hm] at hinv
        simp only [docsAfter, hm, Option.isSome_some, h0, decide_True, Bool.and_self,
          Bool.true_and, liveHeadCount, ht']
        cases hw : src.words.isSome
        · simp only [hw, Bool.false_eq_true, ↓reduceIte, add_zero] at htok ⊢
          generalize d0 * usub n 1 = X at hinv ⊢
          unfold UMOD at *
          omega
        · simp only [hw, ↓reduceIte] at htok ⊢
          rw [Nat.add_mul, Nat.one_mul]
          generalize d0 * usub n 1 = X at hinv ⊢
          unfold UMOD at *
          omega
  | remove k =>
    have ha' : Remove lm0 k = some (r, lm1) := ha
    have h1 : n = 1 := by
      simp only [Op.ingests, Bool.false_or, Bool.and_eq_true, decide_eq_true_eq] at hop
      exact hop.2
    obtain ⟨hok1, hn1, htok⟩ := Remove_unigram_spec ha' hok (hn.trans h1)
    refine ⟨hok1, hn1.trans hn, ?_⟩
    cases hm : lm1.main_table with
    | none =>
      unfold StateOK at hok1
      rw [hm] at hok1
      simp only [docsAfter, hm, Option.isSome_none, Bool.false_eq_true, ↓reduceIte,
        liveHeadCount, hok1.2.2]
      simp
    | some t' =>
      have htok := htok (by rw [hm]; rfl)
      simp only [docsAfter, hm, Option.isSome_some, ↓reduceIte]
      generalize d0 * usub n 1 = X at hinv ⊢
      unfold UMOD at *
      omega

theorem runDocs_tokens (n : Nat) : ∀ (ops : List Op) (lm0 : State) (d0 : Nat) (lm : State)
    (d : Nat), ops.all (fun op => Op.sized op && (Op.ingests op || decide (n = 1))) = true →
    StateOK lm0 → lm0.ngram_size = n →
    lm0.tokens % UMOD = (liveHeadCount lm0 + d0 * usub n 1) % UMOD →
    runDocs lm0 d0 ops = some (lm, d) →
    StateOK lm ∧ lm.ngram_size = n ∧
      lm.tokens % UMOD = (liveHeadCount lm + d * usub n 1) % UMOD := by
  intro ops
  induction ops with
  | nil =>
    intro lm0 d0 lm d _ hok hn hinv h
    simp only [runDocs, Option.some.injEq, Prod.mk.injEq] at h
    obtain ⟨rfl, rfl⟩ := h
    exact ⟨hok, hn, hinv⟩
  | cons op ops ih =>
    intro lm0 d0 lm d hops hok hn hinv h
    simp only [List.all_cons, Bool.and_eq_true] at hops
    obtain ⟨hop, hops⟩ := hops
    unfold runDocs at h
    cases ha : applyOp lm0 op with
    | none =>
      rw [ha] at h
      simp at h
    | some res =>
      obtain ⟨r, lm1⟩ := res
      rw [ha] at h
      simp only [Option.some_bind] at h
      obtain ⟨s1, s2, s3⟩ := applyOp_tokens ha (by simpa using hop) hok hn hinv
      exact ih lm1 _ lm d (by simpa using hops) s1 s2 s3 h

/-- C7 (amended): after every sequence of `Train` and `Grow` calls on a new model of order `n`
(with `Remove` calls as well when `n = 1`), each `Grow` with an estimate of at most
`MAX_ESTIMATE`, `TotalTokens` is the `int` value of the sum of the counts of the live headword
entries plus `n - 1` for each document that the model holds, computed modulo `2^32`. -/
theorem TotalTokens_documents (n : Nat) (ops : List Op) (lm : State) (docs : Nat)
    (hops : ops.all (fun op => Op.sized op && (Op.ingests op || decide (n = 1))) = true)
    (h : runDocs (init n) 0 ops = some (lm, docs)) :
    TotalTokens lm = toInt (liveHeadCount lm + docs * usub n 1) := by
  have h0 : StateOK (init n) := ⟨rfl, rfl, rfl⟩
  obtain ⟨_, _, h3⟩ := runDocs_tokens n ops (init n) 0 lm docs hops h0 rfl (by simp [init, liveHeadCount]) h
  exact toInt_congr h3

theorem TotalTokens_documents_witness :
    ∃ lm, runDocs (init 2) 0 [Op.train ⟨1, some ["one", "bigram"]⟩,
        Op.grow ⟨1, some ["one", "more", "bigram"]⟩] = some (lm, 2) ∧
      TotalTokens lm = toInt (liveHeadCount lm + 2 * usub 2 1) ∧ TotalTokens lm = 5 := by
  have h1 : (runDocs (init 2) 0 [Op.train ⟨1, some ["one", "bigram"]⟩,
      Op.grow ⟨1, some ["one", "more", "bigram"]⟩]).map
        (fun p => (p.2, TotalTokens p.1)) = some (2, 5) := by
    decide
  cases h : runDocs (init 2) 0 [Op.train ⟨1, some ["one", "bigram"]⟩,
      Op.grow ⟨1, some ["one", "more", "bigram"]⟩] with
  | none =>
    rw [h] at h1
    cases h1
  | some p =>
    obtain ⟨lm, d⟩ := p
    rw [h] at h1
    simp only [Option.map_some', Option.some.injEq, Prod.mk.injEq] at h1
    obtain ⟨rfl, h5⟩ := h1
    exact ⟨lm, rfl, TotalTokens_documents 2 _ lm 2 (by decide) h, h5⟩

theorem Train_counters_of_StateOK {lm lm' : State} {src : Source} {ws : List String}
    (hok : StateOK lm) (hn : 1 ≤ lm.ngram_size) (hw : src.words = some ws)
    (hL : lm.ngram_size - 1 ≤ ws.length) (hmax : ws.length < 2147483648)
    (h : Train lm src = some (true, lm')) :
    TotalTokens lm' = (ws.length : Int) ∧
      NGramsTotal lm' = (ws.length : Int) - ((lm.ngram_size : Int) - 1) := by
  have hest : 0 ≤ src.estimate := by
    by_contra hneg
    unfold Train at h
    rw [if_pos (by omega)] at h
    simp at h
  obtain ⟨t0, hi, hcase⟩ := Train_unfold hok h hest
  rcases hcase with ⟨_, hr, _⟩ | ⟨ws', hw', hing⟩
  · cases hr
  · rw [hw] at hw'
    cases hw'
    obtain ⟨lm2, h2, hlm'⟩ := ingestAndSort_cases hing
    have hinit := (TrainedOK_init (n := lm.ngram_size) hi).1
    obtain ⟨ha, hb⟩ := ingest_counters ws _ [] 0 lm2 t0 h2 rfl hinit
    obtain ⟨t2, ht2, _⟩ := ingest_spec ws _ [] 0 true lm2 t0 h2 rfl hinit
    have hlen := ingestPairs_length lm.ngram_size ws [] 0 (by unfold UMOD; omega)
    simp only [init] at ha hb
    rw [hlen] at ha hb
    have hc : lm'.ngrams_total = lm2.ngrams_total ∧ lm'.tokens = lm2.tokens := by
      rcases hlm' with rfl | ⟨_, _, rfl⟩
      · exact ⟨rfl, rfl⟩
      · rw [SortCounts_eq lm2 t2 ht2]
        exact ⟨rfl, rfl⟩
    unfold TotalTokens NGramsTotal toInt
    rw [hc.1, hc.2, ha, hb]
    unfold usub UMOD
    constructor <;> split_ifs <;> omega

/-- C2: let a model of order `n ≥ 1` be in a state reached by any sequence of `Train`, `Grow`
and `Remove` calls (each `Grow` with an estimate of at most `MAX_ESTIMATE`).  After a successful
`Train` on a token list of length `L` with `n - 1 ≤ L < 2^31`, `TotalTokens` is `L` and
`NGramsTotal` is `L - (n - 1)`. -/
theorem Train_counters (n : Nat) (ops : List Op) (lm lm' : State) (src : Source)
    (ws : List String) (hs : ops.all Op.sized = true) (hrun : run (init n) ops = some lm)
    (hn : 1 ≤ n) (hw : src.words = some ws) (hL : n - 1 ≤ ws.length)
    (hmax : ws.length < 2147483648) (h : Train lm src = some (true, lm')) :
    TotalTokens lm' = (ws.length : Int) ∧ NGramsTotal lm' = (ws.length : Int) - ((n : Int) - 1) := by
  obtain ⟨hok, hsize⟩ := run_StateOK ops (init n) lm hs ⟨rfl, rfl, rfl⟩ hrun
  have hsize' : lm.ngram_size = n := hsize
  have := Train_counters_of_StateOK hok (by omega) hw (by omega) hmax h
  rw [hsize'] at this
  exact this

theorem Train_counters_witness :
    ∃ lm, Train (init 2) ⟨1, some ["one", "bigram"]⟩ = some (true, lm) ∧
      UniqueNGramsCount lm = 1 ∧ NGramsTotal lm = 1 ∧ TotalTokens lm = 2 := by
  have h1 : (Train (init 2) ⟨1, some ["one", "bigram"]⟩).map
      (fun p => (p.1, UniqueNGramsCount p.2)) = some (true, 1) := by
    decide
  cases h : Train (init 2) ⟨1, some ["one", "bigram"]⟩ with
  | none =>
    rw [h] at h1
    cases h1
  | some p =>
    obtain ⟨r, lm⟩ := p
    rw [h] at h1
    simp only [Option.map_some', Option.some.injEq, Prod.mk.injEq] at h1
    obtain ⟨rfl, h5⟩ := h1
    have := Train_counters 2 [] (init 2) lm ⟨1, some ["one", "bigram"]⟩ ["one", "bigram"]
      rfl rfl (by decide) rfl (by decide) (by decide) h
    exact ⟨lm, rfl, h5, by simpa using this.2, by simpa using this.1⟩

/-! ## The counter of unique n-grams -/

/-- C6: after every sequence of `Train`, `Grow` and `Remove` calls on a new model (each `Grow`
with an estimate of at most `MAX_ESTIMATE`), `UniqueNGramsCount` is the `int` value of the number
of live entries: the live collocate entries under the live headwords, or the live headword
entries when the order is 1.  It is that number itself when the number is below `2^31`, and it
is 0 when the model is untrained. -/
theorem UniqueNGramsCount_live_entries (n : Nat) (ops : List Op) (lm : State)
    (hs : ops.all Op.sized = true) (hrun : run (init n) ops = some lm) :
    UniqueNGramsCount lm = toInt (liveEntries lm) ∧
    (liveEntries lm < 2147483648 → UniqueNGramsCount lm = (liveEntries lm : Int)) ∧
    (lm.main_table = none → UniqueNGramsCount lm = 0) := by
  obtain ⟨hok, _⟩ := run_StateOK ops (init n) lm hs ⟨rfl, rfl, rfl⟩ hrun
  have h1 : UniqueNGramsCount lm = toInt (liveEntries lm) := toInt_congr hok.unique_mod
  refine ⟨h1, ?_, ?_⟩
  · intro hlt
    rw [h1]
    unfold toInt UMOD
    split_ifs <;> omega
  · intro hm
    rw [h1]
    unfold liveEntries
    rw [hm]
    rfl

theorem UniqueNGramsCount_live_entries_witness :
    ∃ lm, run (init 2) [Op.train ⟨1, some ["a", "b", "a", "c"]⟩, Op.remove "a b",
        Op.grow ⟨1, some ["b", "a"]⟩] = some lm ∧
      UniqueNGramsCount lm = toInt (liveEntries lm) ∧ liveEntries lm = 2 := by
  have h1 : (run (init 2) [Op.train ⟨1, some ["a", "b", "a", "c"]⟩, Op.remove "a b",
      Op.grow ⟨1, some ["b", "a"]⟩]).map liveEntries = some 2 := by
    decide
  cases h : run (init 2) [Op.train ⟨1, some ["a", "b", "a", "c"]⟩, Op.remove "a b",
      Op.grow ⟨1, some ["b", "a"]⟩] with
  | none =>
    rw [h] at h1
    cases h1
  | some lm =>
    rw [h] at h1
    simp only [Option.map_some', Option.some.injEq] at h1
    exact ⟨lm, rfl, (UniqueNGramsCount_live_entries 2 _ lm (by decide) h).1, h1⟩

/-! ## `Train` starts again from nothing -/

theorem Train_eq_init {lm : State} (src : Source) (hok : StateOK lm) (hest : 0 ≤ src.estimate) :
    Train lm src = Train (init lm.ngram_size) src := by
  have h0 : StateOK (init lm.ngram_size) := ⟨rfl, rfl, rfl⟩
  unfold Train
  rw [if_neg (not_lt.mpr hest), if_neg (not_lt.mpr hest)]
  simp only [reset_eq_init hok, reset_eq_init h0]
  rfl

/-- C16: for two models of order `n`, each in a state reached by any sequence of `Train`, `Grow`
and `Remove` calls (each `Grow` with an estimate of at most `MAX_ESTIMATE`), `Train` on a source
that can be sized returns the same result and the same state, namely what `Train` returns on a
new model of order `n`; so the counters and every query on the result agree in both runs. -/
theorem Train_replaces_model (n : Nat) (ops1 ops2 : List Op) (lm1 lm2 : State) (src : Source)
    (hs1 : ops1.all Op.sized = true) (hs2 : ops2.all Op.sized = true)
    (h1 : run (init n) ops1 = some lm1) (h2 : run (init n) ops2 = some lm2)
    (hest : 0 ≤ src.estimate) :
    Train lm1 src = Train lm2 src ∧ Train lm1 src = Train (init n) src := by
  obtain ⟨hok1, hn1⟩ := run_StateOK ops1 (init n) lm1 hs1 ⟨rfl, rfl, rfl⟩ h1
  obtain ⟨hok2, hn2⟩ := run_StateOK ops2 (init n) lm2 hs2 ⟨rfl, rfl, rfl⟩ h2
  have e1 := Train_eq_init src hok1 hest
  have e2 := Train_eq_init src hok2 hest
  rw [hn1] at e1
  rw [hn2] at e2
  exact ⟨e1.trans e2.symm, e1⟩

theorem Train_replaces_model_witness :
    ∃ lm1 lm2, run (init 2) [] = some lm1 ∧
      run (init 2) [Op.train ⟨1, some ["a", "b", "a", "c"]⟩, Op.remove "a b"] = some lm2 ∧
      lm1 ≠ lm2 ∧
      Train lm1 ⟨1, some ["one", "bigram"]⟩ = Train lm2 ⟨1, some ["one", "bigram"]⟩ := by
  have h1 : ((run (init 2) [Op.train ⟨1, some ["a", "b", "a", "c"]⟩, Op.remove "a b"]).map
      fun lm => lm.tokens) = some 2 := by
    decide
  cases h : run (init 2) [Op.train ⟨1, some ["a", "b", "a", "c"]⟩, Op.remove "a b"] with
  | none =>
    rw [h] at h1
    cases h1
  | some lm2 =>
    rw [h] at h1
    simp only [Option.map_some', Option.some.injEq] at h1
    refine ⟨init 2, lm2, rfl, rfl, ?_, ?_⟩
    · intro he
      rw [← he] at h1
      cases h1
    · exact (Train_replaces_model 2 [] _ (init 2) lm2 ⟨1, some ["one", "bigram"]⟩ rfl
        (by decide) rfl h (by decide)).1

end LM

namespace LM

/-! ## The capacity that `PrimeSize` returns -/

/-- C25: `PrimeSize x` is 7 for `x < 7`; for `7 ≤ x ≤ 2^31` it is the smallest prime number
greater than `2^e`, where `e` is the least exponent with `x ≤ 2^e`.  In particular
`PrimeSize` maps 4 to 7, 8 to 11, 4095 and 4096 to 4099, and 4101 to 8209. -/
theorem PrimeSize_smallest_prime :
    (∀ x, x < 7 → PrimeSize x = some 7) ∧
    (∀ x, 7 ≤ x → x ≤ 2147483648 →
      ∃ e p, PrimeSize x = some p ∧ x ≤ 2 ^ e ∧ (∀ e', x ≤ 2 ^ e' → e ≤ e') ∧
        p.Prime ∧ 2 ^ e < p ∧ ∀ q, q.Prime → 2 ^ e < q → p ≤ q) ∧
    PrimeSize 4 = some 7 ∧ PrimeSize 8 = some 11 ∧ PrimeSize 4095 = some 4099 ∧
      PrimeSize 4096 = some 4099 ∧ PrimeSize 4101 = some 8209 := by
  refine ⟨?_, ?_, by decide, by decide, by decide, by decide, by decide⟩
  · intro x hx
    unfold PrimeSize MIN_SIZE
    rw [if_pos hx]
  · intro x h7 hmax
    have h3 : 3 ≤ PowerOfTwoExponent x := PowerOfTwoExponent_ge_three h7
    have h31 : PowerOfTwoExponent x ≤ 31 :=
      PowerOfTwoExponent_least (by omega) (by norm_num; exact hmax)
    obtain ⟨hp, hgt, hgap⟩ := primeEntryCheck_spec (primes_entry h3 h31)
    refine ⟨PowerOfTwoExponent x, PRIMES.getD (PowerOfTwoExponent x) 0, ?_,
      le_pow_PowerOfTwoExponent (by omega), ?_, hp, hgt, ?_⟩
    · unfold PrimeSize MIN_SIZE
      rw [if_neg (by omega)]
      have hlen : PowerOfTwoExponent x < PRIMES.length := by
        have : PRIMES.length = 32 := by decide
        omega
      rw [List.getD_eq_getElem?_getD, List.getElem?_eq_getElem hlen]
      rfl
    · intro e' he'
      exact PowerOfTwoExponent_least (by omega) he'
    · intro q hq hlt
      by_contra hcon
      exact hgap q hlt (by omega) hq

theorem PrimeSize_smallest_prime_witness :
    ∃ e p, PrimeSize 4101 = some p ∧ 4101 ≤ 2 ^ e ∧ (∀ e', 4101 ≤ 2 ^ e' → e ≤ e') ∧
      p.Prime ∧ 2 ^ e < p ∧ ∀ q, q.Prime → 2 ^ e < q → p ≤ q :=
  PrimeSize_smallest_prime.2.1 4101 (by decide) (by decide)

end LM

namespace LM

/-! ## Keys of the wrong arity -/

theorem run_keys (n : Nat) (hn : 1 ≤ n) : ∀ (ops : List Op) (lm lm' : State),
    ops.all (fun op => Op.sized op && Op.ingests op && Op.clean op) = true →
    StateOK lm → lm.ngram_size = n →
    StateKeysSat (fun c => (splitWords c).length = n - 1) lm → run lm ops = some lm' →
    StateOK lm' ∧ lm'.ngram_size = n ∧
      StateKeysSat (fun c => (splitWords c).length = n - 1) lm' := by
  intro ops
  induction ops with
  | nil =>
    intro lm lm' _ hok hsz hkeys h
    simp only [run, Option.some.injEq] at h
    subst h
    exact ⟨hok, hsz, hkeys⟩
  | cons op ops ih =>
    intro lm lm' hs hok hsz hkeys h
    simp only [List.all_cons, Bool.and_eq_true] at hs
    obtain ⟨⟨⟨hsized, hing⟩, hclean⟩, hrest⟩ := hs
    unfold run at h
    cases ha : applyOp lm op with
    | none =>
      rw [ha] at h
      simp at h
    | some res =>
      obtain ⟨r, lm1⟩ := res
      rw [ha] at h
      simp only [Option.some_bind] at h
      have step : StateOK lm1 ∧ lm1.ngram_size = n ∧
          StateKeysSat (fun c => (splitWords c).length = n - 1) lm1 := by
        cases op with
        | train src =>
          have ha' : Train lm src = some (r, lm1) := ha
          obtain ⟨h1, h2, hneg, _, h5⟩ := Train_spec ha' hok
          refine ⟨h1, h2.trans hsz, ?_⟩
          by_cases hest : src.estimate < 0
          · rw [hneg hest]
            exact hkeys
          · refine h5 (fun c => (splitWords c).length = n - 1) ?_ (by omega)
            intro ws hw pr hpr
            rw [hsz] at hpr
            exact clean_collocates hn hclean hw pr hpr
        | grow src =>
          have ha' : Grow lm src = some (r, lm1) := ha
          have hsz' : src.estimate ≤ MAX_ESTIMATE := by
            simpa [Op.sized] using hsized
          obtain ⟨h1, h2, _, _, _, h6⟩ := Grow_spec ha' hok hsz'
          refine ⟨h1, h2.trans hsz, ?_⟩
          refine h6 (fun c => (splitWords c).length = n - 1) hkeys ?_
          intro ws hw pr hpr
          rw [hsz] at hpr
          exact clean_collocates hn hclean hw pr hpr
        | remove k => simp [Op.ingests] at hing
      exact ih lm1 lm' (by simpa [Bool.and_eq_true] using hrest) step.1 step.2.1 step.2.2 h

theorem Remove_arity_of_keys {lm : State} {k : String} {n : Nat} (hn : 1 ≤ n)
    (hok : StateOK lm) (hsz : lm.ngram_size = n)
    (hkeys : StateKeysSat (fun c => (splitWords c).length = n - 1) lm)
    (hk1 : 1 ≤ (splitWords k).length) (hk : (splitWords k).length ≠ n) :
    Remove lm k = some (false, lm) := by
  unfold Remove
  cases ht : lm.main_table with
  | none => rfl
  | some t =>
    dsimp only
    have hT : TrainedOK lm.ngram_size t lm.unique_ngrams_count := by
      unfold StateOK at hok
      rw [ht] at hok
      exact hok
    by_cases hlen : k.length > 0
    · rw [if_pos hlen]
      unfold SplitNGram
      rw [if_neg (by omega)]
      have hwords := splitWords_isWord k
      rcases hsw : splitWords k with _ | ⟨w, _ | ⟨w1, rest⟩⟩
      · rw [hsw] at hk1
        simp at hk1
      · rw [hsw] at hk
        simp only [List.length_singleton] at hk
        have h1 : lm.ngram_size > 1 := by omega
        simp only [Option.some_bind, List.length_singleton, h1, and_self, or_true, ↓reduceIte]
      · rw [hsw] at hk hwords
        simp only [List.length_cons] at hk
        simp only [Option.some_bind, List.length_cons, List.length_singleton, List.length_nil,
          Nat.reduceAdd, gt_iff_lt, Nat.lt_add_one, and_true, OfNat.ofNat_ne_one, and_false,
          or_false, ↓reduceIte, List.headD_cons]
        by_cases h1 : lm.ngram_size = 1
        · rw [if_pos h1]
        · rw [if_neg h1]
          cases hf : FindHeadword lm w with
          | none => rfl
          | some b =>
            dsimp only
            obtain ⟨t2, node, ht2, hsl, hd, _⟩ := FindHeadword_sound hf
            rw [ht] at ht2
            cases ht2
            rw [hsl]
            dsimp only
            cases hfc : FindCollocate node
                (rest.foldl (fun collocate x => collocate ++ " " ++ x) w1) with
            | none => rw [if_neg h1]
            | some p =>
              exfalso
              obtain ⟨b0, hp, _, hkey⟩ := FindCollocate_slot hfc
              have hv := (hT.nodes b node hsl hd).valid b0 p hp
              have hmem : ckey node.heap p ∈ heapKeys node := by
                unfold ckey heapKeys
                rw [deref_eq_getElem _ _ hv]
                exact List.mem_map_of_mem _ (List.getElem_mem _)
              have hP := hkeys t ht b node hsl _ hmem
              rw [hkey] at hP
              rw [splitWords_joinSp w1 rest (hwords w1 (by simp))
                (fun x hx => hwords x (by simp [hx]))] at hP
              simp only [List.length_cons] at hP
              omega
    · rw [if_neg hlen]

/-- C10 (amended): let a model of order `n ≥ 1` be built by `Train` and `Grow` calls from sources
whose tokens are all words (non-empty, without white space) after punctuation stripping.  For a
key with at least one word whose number of words differs from `n`, `Remove` returns `false` and
the state it was given: the tables and the three counters are unchanged. -/
theorem Remove_wrong_arity (n : Nat) (ops : List Op) (lm : State) (k : String) (hn : 1 ≤ n)
    (hops : ops.all (fun op => Op.sized op && Op.ingests op && Op.clean op) = true)
    (hrun : run (init n) ops = some lm)
    (hk1 : 1 ≤ (splitWords k).length) (hk : (splitWords k).length ≠ n) :
    Remove lm k = some (false, lm) := by
  have h0 : StateKeysSat (fun c => (splitWords c).length = n - 1) (init n) := by
    intro t ht
    cases ht
  obtain ⟨hok, hsz, hkeys⟩ := run_keys n hn ops (init n) lm hops ⟨rfl, rfl, rfl⟩ rfl h0 hrun
  exact Remove_arity_of_keys hn hok hsz hkeys hk1 hk

theorem Remove_wrong_arity_witness :
    ∃ lm, run (init 2) [Op.train ⟨1, some ["four", "score", "and", "seven", "years", "ago"]⟩] =
        some lm ∧
      Remove lm "and seven years" = some (false, lm) ∧ Remove lm "seven" = some (false, lm) := by
  have h1 : (run (init 2)
      [Op.train ⟨1, some ["four", "score", "and", "seven", "years", "ago"]⟩]).isSome = true := by
    decide
  obtain ⟨lm, h⟩ := Option.isSome_iff_exists.mp h1
  exact ⟨lm, h,
    Remove_wrong_arity 2 _ lm "and seven years" (by decide) (by decide) h (by decide) (by decide),
    Remove_wrong_arity 2 _ lm "seven" (by decide) (by decide) h (by decide) (by decide)⟩

end LM

namespace LM

/-! ## The map of n-grams after training -/

theorem windows_words {n : Nat} {ws : List String}
    (hc : ∀ t ∈ ws, isWord (stripPunct t) = true) :
    ∀ w ∈ windows n (ws.map stripPunct), w.length = n ∧ ∀ x ∈ w, isWord x = true := by
  intro w hw
  obtain ⟨hl, hsub⟩ := windows_mem n _ w hw
  refine ⟨hl, fun x hx => ?_⟩
  obtain ⟨t, ht, rfl⟩ := List.mem_map.mp (hsub x hx)
  exact hc t ht

theorem pairOf_head_word {n : Nat} (hn : 1 ≤ n) {w : List String} (hl : w.length = n)
    (hw : ∀ x ∈ w, isWord x = true) : isWord (pairOf w).1 = true := by
  cases w with
  | nil =>
    simp only [List.length_nil] at hl
    omega
  | cons a r => exact hw a (List.mem_cons_self _ _)

theorem count_singletons (k : String) : ∀ (l : List String),
    (l.map fun x => [x]).count [k] = l.count k := by
  intro l
  induction l with
  | nil => rfl
  | cons x xs ih =>
    rw [List.map_cons, List.count_cons, List.count_cons, ih]
    congr 1
    by_cases hx : x = k
    · subst hx
      simp
    · simp [hx]

/-- A model that holds the pairs of the windows of a list of words: the map of `NGrams` has one
key for each distinct window, with the number of its occurrences. -/
theorem Holds.windows_NGrams {lm : State} {t : head_table} {W : List (List String)}
    (ht : lm.main_table = some t) (hn : 1 ≤ lm.ngram_size)
    (hh : Holds lm.ngram_size t (W.map pairOf))
    (hW : ∀ w ∈ W, w.length = lm.ngram_size ∧ ∀ x ∈ w, isWord x = true)
    (hlen : W.length < 2147483648) :
    ((NGrams lm).map Prod.fst).Nodup ∧
    ∀ k v, (k, v) ∈ NGrams lm ↔ ∃ w ∈ W, k = " ".intercalate w ∧ v = (W.count w : Int) := by
  have hW' : ∀ w ∈ W, w.length = lm.ngram_size ∧ ∀ x ∈ w, noSpace x = true :=
    fun w hw => ⟨(hW w hw).1, fun x hx => isWord_noSpace ((hW w hw).2 x hx)⟩
  obtain ⟨_, hnd, hiff⟩ := hh.mem_NGrams ht
    (by
      intro pr hpr
      obtain ⟨w, hw, rfl⟩ := List.mem_map.mp hpr
      exact isWord_noSpace (pairOf_head_word hn (hW w hw).1 (hW w hw).2))
    (by rw [List.length_map]; exact hlen)
  refine ⟨hnd, fun k v => ?_⟩
  rw [hiff]
  constructor
  · rintro ⟨pr, hpr, hk, hv⟩
    obtain ⟨w, hw, rfl⟩ := List.mem_map.mp hpr
    refine ⟨w, hw, ?_, ?_⟩
    · rw [hk, keyOfPair_window (hW w hw).1 hn (hW w hw).2]
    · rw [hv, pairHits_windows hn hW' hw]
  · rintro ⟨w, hw, hk, hv⟩
    refine ⟨pairOf w, List.mem_map.mpr ⟨w, hw, rfl⟩, ?_, ?_⟩
    · rw [hk, keyOfPair_window (hW w hw).1 hn (hW w hw).2]
    · rw [hv, pairHits_windows hn hW' hw]

/-- C1: after `Train` on a stream whose tokens are words after punctuation stripping, the map of
`NGrams` has exactly one key for each distinct window of `n` consecutive tokens, the key is the
window joined by single spaces, and its value is the number of positions at which the window
occurs; for `n = 1` the keys are the distinct tokens and the values their numbers of
occurrences. -/
theorem Train_NGrams_windows (n : Nat) (ops : List Op) (lm lm' : State) (src : Source)
    (ws : List String) (hs : ops.all Op.sized = true) (hrun : run (init n) ops = some lm)
    (hn : 1 ≤ n) (hw : src.words = some ws)
    (hc : ∀ t ∈ ws, isWord (stripPunct t) = true) (hmax : ws.length < 2147483648)
    (h : Train lm src = some (true, lm')) :
    ((NGrams lm').map Prod.fst).Nodup ∧
    (∀ k v, (k, v) ∈ NGrams lm' ↔ ∃ w ∈ windows n (ws.map stripPunct),
        k = " ".intercalate w ∧ v = ((windows n (ws.map stripPunct)).count w : Int)) ∧
    (n = 1 → ∀ k v, (k, v) ∈ NGrams lm' ↔
        k ∈ ws.map stripPunct ∧ v = ((ws.map stripPunct).count k : Int)) := by
  obtain ⟨hok, hsize⟩ := run_StateOK ops (init n) lm hs ⟨rfl, rfl, rfl⟩ hrun
  have hsize' : lm.ngram_size = n := hsize
  obtain ⟨hsz, t, ht, hh⟩ := Train_holds hok (by omega) hw h
  rw [hsize'] at hsz hh
  rw [ingestPairs_eq_windows hn ws hmax] at hh
  have hlen : (windows n (ws.map stripPunct)).length < 2147483648 := by
    have := windows_length_le n (ws.map stripPunct)
    rw [List.length_map] at this
    omega
  have hmain := Holds.windows_NGrams ht (by omega) (by rw [hsz]; exact hh)
    (by rw [hsz]; exact windows_words hc) hlen
  refine ⟨hmain.1, hmain.2, ?_⟩
  intro h1 k v
  rw [hmain.2, h1, windows_one]
  constructor
  · rintro ⟨w, hw', hk, hv⟩
    obtain ⟨x, hx, rfl⟩ := List.mem_map.mp hw'
    have e : " ".intercalate [x] = x := rfl
    rw [e] at hk
    subst hk
    refine ⟨hx, ?_⟩
    rw [hv, count_singletons]
  · rintro ⟨hk, hv⟩
    refine ⟨[k], List.mem_map.mpr ⟨k, hk, rfl⟩, rfl, ?_⟩
    rw [hv, count_singletons]

theorem Train_NGrams_windows_witness :
    ∃ lm, Train (init 2) ⟨1, some ["to", "be", "to"]⟩ = some (true, lm) ∧
      ((NGrams lm).map Prod.fst).Nodup ∧
      ∀ k v, (k, v) ∈ NGrams lm ↔
        ∃ w ∈ windows 2 (["to", "be", "to"].map stripPunct),
          k = " ".intercalate w ∧
            v = ((windows 2 (["to", "be", "to"].map stripPunct)).count w : Int) := by
  have h1 : (Train (init 2) ⟨1, some ["to", "be", "to"]⟩).map (fun p => p.1) = some true := by
    decide
  cases h : Train (init 2) ⟨1, some ["to", "be", "to"]⟩ with
  | none =>
    rw [h] at h1
    cases h1
  | some p =>
    obtain ⟨r, lm⟩ := p
    rw [h] at h1
    simp only [Option.map_some', Option.some.injEq] at h1
    subst h1
    have := Train_NGrams_windows 2 [] (init 2) lm ⟨1, some ["to", "be", "to"]⟩
      ["to", "be", "to"] rfl rfl (by decide) rfl (by decide) (by decide) h
    exact ⟨lm, rfl, this.1, this.2.1⟩

/-! ## The number of distinct n-grams after training -/

/-- C3: after `Train` on a stream whose tokens hold no white space, `UniqueNGramsCount` is the
number of distinct windows of `n` consecutive tokens, and it is the number of entries of the map
of `NGrams`. -/
theorem Train_unique_windows (n : Nat) (ops : List Op) (lm lm' : State) (src : Source)
    (ws : List String) (hs : ops.all Op.sized = true) (hrun : run (init n) ops = some lm)
    (hn : 1 ≤ n) (hw : src.words = some ws)
    (hc : ∀ t ∈ ws, noSpace (stripPunct t) = true) (hmax : ws.length < 2147483648)
    (h : Train lm src = some (true, lm')) :
    UniqueNGramsCount lm' = ((windows n (ws.map stripPunct)).dedup.length : Int) ∧
    UniqueNGramsCount lm' = ((NGrams lm').length : Int) := by
  obtain ⟨hok, hsize⟩ := run_StateOK ops (init n) lm hs ⟨rfl, rfl, rfl⟩ hrun
  have hsize' : lm.ngram_size = n := hsize
  obtain ⟨hsz, t, ht, hh⟩ := Train_holds hok (by omega) hw h
  rw [hsize'] at hsz hh
  rw [ingestPairs_eq_windows hn ws hmax] at hh
  have hlen : (windows n (ws.map stripPunct)).length < 2147483648 := by
    have := windows_length_le n (ws.map stripPunct)
    rw [List.length_map] at this
    omega
  have hW : ∀ w ∈ windows n (ws.map stripPunct),
      w.length = lm'.ngram_size ∧ ∀ x ∈ w, noSpace x = true := by
    intro w hw'
    obtain ⟨hl, hsub⟩ := windows_mem n _ w hw'
    refine ⟨by rw [hsz]; exact hl, fun x hx => ?_⟩
    obtain ⟨t', ht', rfl⟩ := List.mem_map.mp (hsub x hx)
    exact hc t' ht'
  obtain ⟨hN, hlenN⟩ := Holds.length_NGrams ht (by omega) (by rw [hsz]; exact hh)
    hW hlen
  have hok' := (Train_spec h hok).1
  have hcl : CleanOK lm'.ngram_size t := by rw [hsz]; exact hh.clean
  have hu : UniqueNGramsCount lm' = ((NGrams lm').length : Int) := by
    unfold UniqueNGramsCount
    rw [toInt_congr hok'.unique_mod, liveEntries_clean ht hcl, ← hN, toInt_small]
    have := (List.dedup_sublist (windows n (ws.map stripPunct))).length_le
    omega
  refine ⟨?_, hu⟩
  rw [hu, hlenN]

theorem Train_unique_windows_witness :
    ∃ lm, Train (init 2) ⟨1, some ["to", "be", "to", "be"]⟩ = some (true, lm) ∧
      UniqueNGramsCount lm = 2 ∧ ((NGrams lm).length : Int) = 2 := by
  have h1 : (Train (init 2) ⟨1, some ["to", "be", "to", "be"]⟩).map (fun p => p.1) =
      some true := by
    decide
  cases h : Train (init 2) ⟨1, some ["to", "be", "to", "be"]⟩ with
  | none =>
    rw [h] at h1
    cases h1
  | some p =>
    obtain ⟨r, lm⟩ := p
    rw [h] at h1
    simp only [Option.map_some', Option.some.injEq] at h1
    subst h1
    have := Train_unique_windows 2 [] (init 2) lm ⟨1, some ["to", "be", "to", "be"]⟩
      ["to", "be", "to", "be"] rfl rfl (by decide) rfl (by decide) (by decide) h
    have e : ((windows 2 (["to", "be", "to", "be"].map stripPunct)).dedup.length : Int) = 2 := by
      decide
    exact ⟨lm, rfl, by rw [this.1, e], by rw [← this.2, this.1, e]⟩

end LM

namespace LM

/-! ## Training followed by growing -/

/-- C13: after `Train` on a first stream and `Grow` on a second one, both of tokens without white
space and of lengths `L1, L2 ≥ n - 1`, the map of `NGrams` has one key for each distinct window of
either stream (no window spans the two streams), its value is the number of occurrences of the
window in the first stream plus the number in the second, the key of a window of non-empty tokens
is the window joined by single spaces, `TotalTokens` is `L1 + L2` and `NGramsTotal` is
`(L1 - (n - 1)) + (L2 - (n - 1))`. -/
theorem Train_Grow_counts (n : Nat) (ops : List Op) (lm lm1 lm2 : State) (src1 src2 : Source)
    (ws1 ws2 : List String) (hs : ops.all Op.sized = true) (hrun : run (init n) ops = some lm)
    (hn : 1 ≤ n) (hw1 : src1.words = some ws1) (hw2 : src2.words = some ws2)
    (hsz : src2.estimate ≤ MAX_ESTIMATE)
    (hc1 : ∀ t ∈ ws1, noSpace (stripPunct t) = true)
    (hc2 : ∀ t ∈ ws2, noSpace (stripPunct t) = true)
    (hL1 : n - 1 ≤ ws1.length) (hL2 : n - 1 ≤ ws2.length)
    (hmax : ws1.length + ws2.length < 2147483648)
    (h1 : Train lm src1 = some (true, lm1)) (h2 : Grow lm1 src2 = some (true, lm2)) :
    ((NGrams lm2).map Prod.fst).Nodup ∧
    (∀ k v, (k, v) ∈ NGrams lm2 ↔
      ∃ w ∈ windows n (ws1.map stripPunct) ++ windows n (ws2.map stripPunct),
        k = keyOfPair n (pairOf w).1 (pairOf w).2 ∧
        v = (((windows n (ws1.map stripPunct)).count w +
              (windows n (ws2.map stripPunct)).count w : Nat) : Int)) ∧
    (∀ w ∈ windows n (ws1.map stripPunct) ++ windows n (ws2.map stripPunct),
      (∀ x ∈ w, isWord x = true) → keyOfPair n (pairOf w).1 (pairOf w).2 = " ".intercalate w) ∧
    TotalTokens lm2 = ((ws1.length + ws2.length : Nat) : Int) ∧
    NGramsTotal lm2 = (((ws1.length - (n - 1)) + (ws2.length - (n - 1)) : Nat) : Int) := by
  obtain ⟨hok, hsize⟩ := run_StateOK ops (init n) lm hs ⟨rfl, rfl, rfl⟩ hrun
  have hsize' : lm.ngram_size = n := hsize
  obtain ⟨hsz1, t1, ht1, hh1⟩ := Train_holds hok (by omega) hw1 h1
  rw [hsize'] at hsz1 hh1
  have hok1 := (Train_spec h1 hok).1
  have hokt1 : TrainedOK lm1.ngram_size t1 lm1.unique_ngrams_count := by
    unfold StateOK at hok1
    rw [ht1] at hok1
    exact hok1
  obtain ⟨ws, hw, hsz2, t2, ht2, hh2⟩ := Grow_holds ht1 hokt1 (by omega) hsz
    (by rw [hsz1]; exact hh1) h2
  rw [hw2] at hw
  cases hw
  rw [hsz1] at hsz2 hh2
  rw [ingestPairs_eq_windows hn ws1 (by omega), ingestPairs_eq_windows hn ws2 (by omega),
    ← List.map_append] at hh2
  have hlen : (windows n (ws1.map stripPunct) ++ windows n (ws2.map stripPunct)).length <
      2147483648 := by
    have a1 := windows_length_le n (ws1.map stripPunct)
    have a2 := windows_length_le n (ws2.map stripPunct)
    rw [List.length_map] at a1 a2
    rw [List.length_append]
    omega
  have hwin : ∀ (l : List String), (∀ t ∈ l, noSpace (stripPunct t) = true) →
      ∀ w ∈ windows n (l.map stripPunct), w.length = n ∧ ∀ x ∈ w, noSpace x = true := by
    intro l hl w hw'
    obtain ⟨hlw, hsub⟩ := windows_mem n _ w hw'
    refine ⟨hlw, fun x hx => ?_⟩
    obtain ⟨t', ht', rfl⟩ := List.mem_map.mp (hsub x hx)
    exact hl t' ht'
  have hW : ∀ w ∈ windows n (ws1.map stripPunct) ++ windows n (ws2.map stripPunct),
      w.length = lm2.ngram_size ∧ ∀ x ∈ w, noSpace x = true := by
    intro w hw'
    rw [hsz2]
    rcases List.mem_append.mp hw' with hw' | hw'
    · exact hwin ws1 hc1 w hw'
    · exact hwin ws2 hc2 w hw'
  obtain ⟨hnd, hiff⟩ := Holds.mem_windows_NGrams ht2 (by omega) (by rw [hsz2]; exact hh2) hW hlen
  refine ⟨hnd, ?_, ?_, ?_⟩
  · intro k v
    rw [hiff, hsz2]
    simp only [List.count_append]
  · intro w hw' hword
    exact keyOfPair_window (by rw [(hW w hw').1, hsz2]) hn hword
  · obtain ⟨ha, hb⟩ := Train_counters_of_StateOK hok (by omega) hw1 (by omega) (by omega) h1
    obtain ⟨hc, hd⟩ := Grow_counters ht1 hokt1 (by omega) hsz hw2 (by omega) (by omega) h2
    rw [hsz1] at hd
    rw [hsize'] at hb
    have ha' := mod_of_toInt ha (by omega)
    have hb' := mod_of_toInt (y := ws1.length - (n - 1)) (by
      unfold NGramsTotal at hb
      rw [hb]
      omega) (by omega)
    constructor
    · apply toInt_of_mod _ (by omega)
      rw [hc]
      unfold UMOD at *
      omega
    · apply toInt_of_mod _ (by omega)
      rw [hd]
      unfold UMOD at *
      omega

theorem Train_Grow_counts_witness :
    ∃ lm1 lm2, Train (init 2) ⟨1, some ["to", "be"]⟩ = some (true, lm1) ∧
      Grow lm1 ⟨1, some ["be", "to", "be"]⟩ = some (true, lm2) ∧
      TotalTokens lm2 = 5 ∧ NGramsTotal lm2 = 3 ∧
      ∀ k v, (k, v) ∈ NGrams lm2 ↔
        ∃ w ∈ windows 2 (["to", "be"].map stripPunct) ++
            windows 2 (["be", "to", "be"].map stripPunct),
          k = keyOfPair 2 (pairOf w).1 (pairOf w).2 ∧
          v = (((windows 2 (["to", "be"].map stripPunct)).count w +
                (windows 2 (["be", "to", "be"].map stripPunct)).count w : Nat) : Int) := by
  have e : ((Train (init 2) ⟨1, some ["to", "be"]⟩).bind fun p =>
      (Grow p.2 ⟨1, some ["be", "to", "be"]⟩).map fun q => (p.1, q.1)) = some (true, true) := by
    decide
  cases h1 : Train (init 2) ⟨1, some ["to", "be"]⟩ with
  | none =>
    rw [h1] at e
    cases e
  | some p =>
    obtain ⟨r1, lm1⟩ := p
    rw [h1] at e
    simp only [Option.some_bind] at e
    cases h2 : Grow lm1 ⟨1, some ["be", "to", "be"]⟩ with
    | none =>
      rw [h2] at e
      cases e
    | some q =>
      obtain ⟨r2, lm2⟩ := q
      rw [h2] at e
      simp only [Option.map_some', Option.some.injEq, Prod.mk.injEq] at e
      obtain ⟨rfl, rfl⟩ := e
      have := Train_Grow_counts 2 [] (init 2) lm1 lm2 ⟨1, some ["to", "be"]⟩
        ⟨1, some ["be", "to", "be"]⟩ ["to", "be"] ["be", "to", "be"] rfl rfl (by decide) rfl rfl
        (by decide) (by decide) (by decide) (by decide) (by decide) (by decide) h1 h2
      exact ⟨lm1, lm2, rfl, h2, this.2.2.2.1, this.2.2.2.2, this.2.1⟩

/-! ## Growing with the source of the training -/

/-- C14: after `Train` on a stream of at least `n` tokens without white space, followed by `Grow`
on the same stream, `UniqueNGramsCount` is unchanged, `NGramsTotal` and `TotalTokens` are
doubled, and `Frequency` of every key of `n` words is a fraction with the same ratio as before
the `Grow`. -/
theorem Train_Grow_same_source (n : Nat) (ops : List Op) (lm lm1 lm2 : State) (src : Source)
    (ws : List String) (hs : ops.all Op.sized = true) (hrun : run (init n) ops = some lm)
    (hn : 1 ≤ n) (hw : src.words = some ws) (hsz : src.estimate ≤ MAX_ESTIMATE)
    (hc : ∀ t ∈ ws, noSpace (stripPunct t) = true) (hL : n ≤ ws.length)
    (hmax : ws.length < 1073741824)
    (h1 : Train lm src = some (true, lm1)) (h2 : Grow lm1 src = some (true, lm2)) :
    UniqueNGramsCount lm2 = UniqueNGramsCount lm1 ∧
    NGramsTotal lm2 = 2 * NGramsTotal lm1 ∧ TotalTokens lm2 = 2 * TotalTokens lm1 ∧
    ∀ k, (splitWords k).length = n → ∃ f1 f2, Frequency lm1 k = some f1 ∧
      Frequency lm2 k = some f2 ∧ f2.num * f1.den = f1.num * f2.den ∧
      0 < f1.den ∧ 0 < f2.den := by
  obtain ⟨hok, hsize⟩ := run_StateOK ops (init n) lm hs ⟨rfl, rfl, rfl⟩ hrun
  have hsize' : lm.ngram_size = n := hsize
  obtain ⟨hsz1, t1, ht1, hh1⟩ := Train_holds hok (by omega) hw h1
  have htot1 := Train_total_exact hok hw (by omega) h1
  rw [hsize'] at hsz1 hh1 htot1
  have hok1 := (Train_spec h1 hok).1
  have hokt1 : TrainedOK lm1.ngram_size t1 lm1.unique_ngrams_count := by
    unfold StateOK at hok1
    rw [ht1] at hok1
    exact hok1
  obtain ⟨ws', hw', hsz2, t2, ht2, hh2⟩ := Grow_holds ht1 hokt1 (by omega) hsz
    (by rw [hsz1]; exact hh1) h2
  rw [hw] at hw'
  cases hw'
  rw [hsz1] at hsz2 hh2
  have hok2 := (Grow_spec h2 hok1 hsz).1
  have hokt2 : TrainedOK lm2.ngram_size t2 lm2.unique_ngrams_count := by
    unfold StateOK at hok2
    rw [ht2] at hok2
    exact hok2
  have hplen := ingestPairs_length n ws [] 0 (by unfold UMOD; omega)
  simp only [Nat.zero_add, Nat.zero_sub, Nat.sub_zero] at hplen
  -- the counters
  obtain ⟨ha, _⟩ := Train_counters_of_StateOK hok (by omega) hw (by omega) (by omega) h1
  obtain ⟨hc2, hd2⟩ := Grow_counters ht1 hokt1 (by omega) hsz hw (by omega) (by omega) h2
  rw [hsz1] at hd2
  have hsm1 := Train_small hok h1
  have hsm2 := Grow_small ht1 hokt1 hsz hsm1.1 h2
  rw [hplen] at htot1
  have htot2 : lm2.ngrams_total = 2 * (ws.length - (n - 1)) := by
    apply eq_of_mod_small hsm2.1 (by unfold UMOD; omega)
    rw [hd2, htot1]
    congr 1
    omega
  have ha' := mod_of_toInt ha (by omega)
  have htok2 : TotalTokens lm2 = ((2 * ws.length : Nat) : Int) := by
    apply toInt_of_mod _ (by omega)
    rw [hc2]
    unfold UMOD at *
    omega
  -- the windows
  have hwin : ∀ w ∈ windows n (ws.map stripPunct),
      w.length = n ∧ ∀ x ∈ w, noSpace x = true := by
    intro w hw'
    obtain ⟨hlw, hsub⟩ := windows_mem n _ w hw'
    refine ⟨hlw, fun x hx => ?_⟩
    obtain ⟨t', ht', rfl⟩ := List.mem_map.mp (hsub x hx)
    exact hc t' ht'
  have hwl := windows_length_le n (ws.map stripPunct)
  rw [List.length_map] at hwl
  have hpw := ingestPairs_eq_windows hn ws (by omega)
  have hu1 := (Holds.unique_count ht1 hok1 (by omega)
    (by rw [hsz1, ← hpw]; exact hh1) (by rw [hsz1]; exact hwin) (by omega)).1
  have hu2 := (Holds.unique_count (W := windows n (ws.map stripPunct) ++
      windows n (ws.map stripPunct)) ht2 hok2 (by omega)
    (by rw [hsz2, List.map_append, ← hpw]; exact hh2)
    (by
      rw [hsz2]
      intro w hw'
      rcases List.mem_append.mp hw' with hw' | hw' <;> exact hwin w hw')
    (by rw [List.length_append]; omega)).1
  refine ⟨by rw [hu1, hu2, dedup_append_self], ?_, ?_, ?_⟩
  · unfold NGramsTotal
    rw [htot1, htot2, toInt_small (by omega), toInt_small (by omega)]
    push_cast
    ring
  · rw [htok2, ha]
    push_cast
    ring
  · intro k hk
    obtain ⟨hpos, hone, htwo⟩ := SplitNGram_full hk hn
    have hl1 : (ingestPairs n ws [] 0).length < 2147483648 := by rw [hplen]; omega
    have hl2 : (ingestPairs n ws [] 0 ++ ingestPairs n ws [] 0).length < 2147483648 := by
      rw [List.length_append, hplen]; omega
    by_cases h1n : n = 1
    · obtain ⟨w, hsplit⟩ := hone h1n
      have e1 := Holds.Frequency_unigram ht1 hokt1 (by rw [hsz1]; exact hh1)
        (by rw [hsz1]; exact h1n) hl1 hpos hsplit
      have e2 := Holds.Frequency_unigram ht2 hokt2 (by rw [hsz2]; exact hh2)
        (by rw [hsz2]; exact h1n) hl2 hpos hsplit
      rw [hsz1, htot1] at e1
      rw [hsz2, htot2, pairHits_append, ← Nat.two_mul] at e2
      have hle := pairHits_le n w "" (ingestPairs n ws [] 0)
      obtain ⟨r1, r2, r3⟩ := ratio_double (pairHits n w "" (ingestPairs n ws [] 0))
        (ws.length - (n - 1)) (by omega) (by omega) (by omega)
      exact ⟨_, _, e1, e2, r1, r2, r3⟩
    · obtain ⟨w, c, hsplit⟩ := htwo (by omega)
      have e1 := Holds.Frequency_pair ht1 hokt1 (by rw [hsz1]; exact hh1)
        (by rw [hsz1]; omega) hl1 hpos hsplit
      have e2 := Holds.Frequency_pair ht2 hokt2 (by rw [hsz2]; exact hh2)
        (by rw [hsz2]; omega) hl2 hpos hsplit
      rw [hsz1, htot1] at e1
      rw [hsz2, htot2, pairHits_append, ← Nat.two_mul] at e2
      have hle := pairHits_le n w c (ingestPairs n ws [] 0)
      obtain ⟨r1, r2, r3⟩ := ratio_double (pairHits n w c (ingestPairs n ws [] 0))
        (ws.length - (n - 1)) (by omega) (by omega) (by omega)
      exact ⟨_, _, e1, e2, r1, r2, r3⟩

theorem Train_Grow_same_source_witness :
    ∃ lm1 lm2, Train (init 2) ⟨1, some ["to", "be", "to"]⟩ = some (true, lm1) ∧
      Grow lm1 ⟨1, some ["to", "be", "to"]⟩ = some (true, lm2) ∧
      UniqueNGramsCount lm2 = UniqueNGramsCount lm1 ∧
      NGramsTotal lm2 = 2 * NGramsTotal lm1 ∧ TotalTokens lm2 = 2 * TotalTokens lm1 ∧
      ∀ k, (splitWords k).length = 2 → ∃ f1 f2, Frequency lm1 k = some f1 ∧
        Frequency lm2 k = some f2 ∧ f2.num * f1.den = f1.num * f2.den ∧
        0 < f1.den ∧ 0 < f2.den := by
  have e : ((Train (init 2) ⟨1, some ["to", "be", "to"]⟩).bind fun p =>
      (Grow p.2 ⟨1, some ["to", "be", "to"]⟩).map fun q => (p.1, q.1)) = some (true, true) := by
    decide
  cases h1 : Train (init 2) ⟨1, some ["to", "be", "to"]⟩ with
  | none =>
    rw [h1] at e
    cases e
  | some p =>
    obtain ⟨r1, lm1⟩ := p
    rw [h1] at e
    simp only [Option.some_bind] at e
    cases h2 : Grow lm1 ⟨1, some ["to", "be", "to"]⟩ with
    | none =>
      rw [h2] at e
      cases e
    | some q =>
      obtain ⟨r2, lm2⟩ := q
      rw [h2] at e
      simp only [Option.map_some', Option.some.injEq, Prod.mk.injEq] at e
      obtain ⟨rfl, rfl⟩ := e
      exact ⟨lm1, lm2, rfl, h2, Train_Grow_same_source 2 [] (init 2) lm1 lm2
        ⟨1, some ["to", "be", "to"]⟩ ["to", "be", "to"] rfl rfl (by decide) rfl (by decide)
        (by decide) (by decide) (by decide) h1 h2⟩

end LM

namespace LM

/-! ## Keys of `NGrams` as queries -/

/-- C22 (amended): in a model of order `n ≥ 2` built by `Train` from a stream whose tokens are
words after punctuation stripping, every key `k` of the map of `NGrams` addresses its n-gram when
used as a query: `Frequency k` is the float quotient of the value of `k` in the map and of
`NGramsTotal`, and `Remove k` returns `true`. -/
theorem Train_key_round_trip (n : Nat) (ops : List Op) (lm lm' : State) (src : Source)
    (ws : List String) (hs : ops.all Op.sized = true) (hrun : run (init n) ops = some lm)
    (hn : 2 ≤ n) (hw : src.words = some ws)
    (hc : ∀ t ∈ ws, isWord (stripPunct t) = true) (hmax : ws.length < 2147483648)
    (h : Train lm src = some (true, lm')) :
    ∀ k v, (k, v) ∈ NGrams lm' →
      ∃ c T : Nat, v = (c : Int) ∧ NGramsTotal lm' = (T : Int) ∧
        Frequency lm' k = some { num := toFloat c, den := toFloat T } ∧
        ∃ lm'', Remove lm' k = some (true, lm'') := by
  intro k v hkv
  obtain ⟨hok, hsize⟩ := run_StateOK ops (init n) lm hs ⟨rfl, rfl, rfl⟩ hrun
  have hsize' : lm.ngram_size = n := hsize
  obtain ⟨hsz, t, ht, hh⟩ := Train_holds hok (by omega) hw h
  have htot := Train_total_exact hok hw hmax h
  rw [hsize'] at hsz hh htot
  rw [ingestPairs_eq_windows (by omega) ws hmax] at hh htot
  have hlen : (windows n (ws.map stripPunct)).length < 2147483648 := by
    have := windows_length_le n (ws.map stripPunct)
    rw [List.length_map] at this
    omega
  have hok' := (Train_spec h hok).1
  have hokt : TrainedOK lm'.ngram_size t lm'.unique_ngrams_count := by
    unfold StateOK at hok'
    rw [ht] at hok'
    exact hok'
  have hh' : Holds lm'.ngram_size t ((windows n (ws.map stripPunct)).map pairOf) := by
    rw [hsz]; exact hh
  obtain ⟨b, node, p, hsl, hp, hpos, hsplit, hv, _⟩ := Holds.entry ht (by omega) hh'
    (by rw [hsz]; exact windows_words hc) hlen hkv
  refine ⟨(deref node.heap p).count, lm'.ngrams_total, hv, ?_,
    Frequency_hit ht hokt hh'.clean (by omega) hsl hp hpos hsplit,
    Remove_hit ht hokt hh'.clean (by omega) hsl hp hpos hsplit⟩
  unfold NGramsTotal
  rw [toInt_small]
  rw [htot, List.length_map]
  exact hlen

theorem Train_key_round_trip_witness :
    ∃ lm, Train (init 2) ⟨1, some ["to", "be", "to"]⟩ = some (true, lm) ∧
      ∀ k v, (k, v) ∈ NGrams lm →
        ∃ c T : Nat, v = (c : Int) ∧ NGramsTotal lm = (T : Int) ∧
          Frequency lm k = some { num := toFloat c, den := toFloat T } ∧
          ∃ lm'', Remove lm k = some (true, lm'') := by
  have h1 : (Train (init 2) ⟨1, some ["to", "be", "to"]⟩).map (fun p => p.1) = some true := by
    decide
  cases h : Train (init 2) ⟨1, some ["to", "be", "to"]⟩ with
  | none =>
    rw [h] at h1
    cases h1
  | some p =>
    obtain ⟨r, lm⟩ := p
    rw [h] at h1
    simp only [Option.map_some', Option.some.injEq] at h1
    subst h1
    exact ⟨lm, rfl, Train_key_round_trip 2 [] (init 2) lm ⟨1, some ["to", "be", "to"]⟩
      ["to", "be", "to"] rfl rfl (by decide) rfl (by decide) (by decide) h⟩

end LM

namespace LM

/-! ## The punctuation loop -/

/-- With enough fuel the punctuation loop, started at position `i`, keeps the characters before
`i` and filters the others. -/
theorem stripLoop_filter : ∀ (fuel i : Nat) (word : List Char), word.length - i ≤ fuel →
    stripLoop fuel i word = word.take i ++
      (word.drop i).filter fun c => !(ispunct c && c != Char.ofNat 45) := by
  intro fuel
  induction fuel with
  | zero =>
    intro i word h
    have hle : word.length ≤ i := by omega
    rw [List.drop_of_length_le hle, List.take_of_length_le hle]
    simp [stripLoop]
  | succ fuel ih =>
    intro i word h
    unfold stripLoop
    by_cases hi : i < word.length
    · rw [if_pos hi]
      have hget : word.getD i (Char.ofNat 0) = word[i] := by
        rw [List.getD_eq_getElem?_getD, List.getElem?_eq_getElem hi]
        rfl
      have hdrop : word.drop i = word[i] :: word.drop (i + 1) := List.drop_eq_getElem_cons hi
      rw [hget]
      by_cases hp : (ispunct word[i] && word[i] != Char.ofNat 45) = true
      · rw [if_pos hp, ih i (word.eraseIdx i) (by rw [List.length_eraseIdx, if_pos hi]; omega)]
        rw [hdrop, List.filter_cons_of_neg (by rw [hp]; decide)]
        rw [List.eraseIdx_eq_take_drop_succ]
        rw [List.take_append_of_le_length (by rw [List.length_take]; omega),
          List.drop_append_of_le_length (by rw [List.length_take]; omega)]
        rw [List.take_take, Nat.min_self, List.drop_take, Nat.sub_self, List.take_zero,
          List.nil_append]
      · rw [if_neg hp, ih (i + 1) word (by omega)]
        have hp' : (fun c => !(ispunct c && c != Char.ofNat 45)) word[i] = true := by
          rw [Bool.not_eq_true] at hp
          dsimp only
          rw [hp]
          rfl
        rw [hdrop, List.filter_cons_of_pos (p := fun c => !(ispunct c && c != Char.ofNat 45)) hp']
        rw [List.take_succ, List.getElem?_eq_getElem hi, Option.toList, List.append_assoc,
          List.singleton_append]
    · rw [if_neg hi]
      have hle : word.length ≤ i := by omega
      rw [List.drop_of_length_le hle, List.take_of_length_le hle]
      simp

theorem windows_plain {n : Nat} {ws : List String}
    (hc : ∀ t ∈ ws, noSpace (stripPunct t) = true) :
    ∀ w ∈ windows n (ws.map stripPunct), w.length = n ∧ ∀ x ∈ w, noSpace x = true := by
  intro w hw
  obtain ⟨hl, hsub⟩ := windows_mem n _ w hw
  refine ⟨hl, fun x hx => ?_⟩
  obtain ⟨t, ht, rfl⟩ := List.mem_map.mp (hsub x hx)
  exact hc t ht

/-- C39: for every raw token the punctuation loop of `Train` and `Grow` ends within the
length of the token (more fuel changes nothing) and yields the characters of the token that are
not punctuation, or are a hyphen, in their order: the filter over the characters.  A token made
only of punctuation other than the hyphen becomes the empty string, and it is ingested as any
other token: after a successful `Train` every window of `n` stripped tokens, the empty ones
included, is an entry of `NGrams` with the number of its occurrences. -/
theorem stripPunct_filter :
    (∀ (word : String) (fuel : Nat), word.data.length ≤ fuel →
      stripLoop fuel 0 word.data =
        word.data.filter fun c => !(ispunct c && c != Char.ofNat 45)) ∧
    (∀ word : String, stripPunct word =
      String.mk (word.data.filter fun c => !(ispunct c && c != Char.ofNat 45))) ∧
    (∀ word : String, (∀ c ∈ word.data, ispunct c = true ∧ c ≠ Char.ofNat 45) →
      stripPunct word = "") ∧
    (∀ (n : Nat) (ops : List Op) (lm lm' : State) (src : Source) (ws : List String),
      ops.all Op.sized = true → run (init n) ops = some lm → 1 ≤ n → src.words = some ws →
      (∀ t ∈ ws, noSpace (stripPunct t) = true) → ws.length < 2147483648 →
      Train lm src = some (true, lm') →
      ∀ w ∈ windows n (ws.map stripPunct),
        (keyOfPair n (pairOf w).1 (pairOf w).2,
          ((windows n (ws.map stripPunct)).count w : Int)) ∈ NGrams lm') := by
  have hloop : ∀ (word : String) (fuel : Nat), word.data.length ≤ fuel →
      stripLoop fuel 0 word.data =
        word.data.filter fun c => !(ispunct c && c != Char.ofNat 45) := by
    intro word fuel hf
    rw [stripLoop_filter fuel 0 word.data (by omega), List.take_zero, List.drop_zero,
      List.nil_append]
  have hstrip : ∀ word : String, stripPunct word =
      String.mk (word.data.filter fun c => !(ispunct c && c != Char.ofNat 45)) := by
    intro word
    unfold stripPunct
    rw [hloop word _ (Nat.le_refl _)]
  refine ⟨hloop, hstrip, ?_, ?_⟩
  · intro word hall
    rw [hstrip]
    have : (word.data.filter fun c => !(ispunct c && c != Char.ofNat 45)) = [] := by
      rw [List.filter_eq_nil_iff]
      intro c hc
      obtain ⟨h1, h2⟩ := hall c hc
      rw [h1]
      simpa using h2
    rw [this]
  · intro n ops lm lm' src ws hs hrun hn hw hc hmax h w hmem
    obtain ⟨hok, hsize⟩ := run_StateOK ops (init n) lm hs ⟨rfl, rfl, rfl⟩ hrun
    have hsize' : lm.ngram_size = n := hsize
    obtain ⟨hsz, t, ht, hh⟩ := Train_holds hok (by omega) hw h
    rw [hsize'] at hsz hh
    rw [ingestPairs_eq_windows hn ws hmax] at hh
    have hlen : (windows n (ws.map stripPunct)).length < 2147483648 := by
      have := windows_length_le n (ws.map stripPunct)
      rw [List.length_map] at this
      omega
    have hh' : Holds lm'.ngram_size t ((windows n (ws.map stripPunct)).map pairOf) := by
      rw [hsz]; exact hh
    have hW : ∀ w ∈ windows n (ws.map stripPunct),
        w.length = lm'.ngram_size ∧ ∀ x ∈ w, noSpace x = true := by
      intro w hw'
      rw [hsz]
      exact windows_plain hc w hw'
    have := (Holds.mem_windows_NGrams ht (by omega) hh' hW hlen).2
      (keyOfPair n (pairOf w).1 (pairOf w).2) ((windows n (ws.map stripPunct)).count w : Int)
    rw [hsz] at this
    exact this.mpr ⟨w, hmem, rfl, rfl⟩

theorem stripPunct_filter_witness :
    ∃ lm, Train (init 1) ⟨1, some ["&", "a"]⟩ = some (true, lm) ∧ stripPunct "&" = "" ∧
      ("", 1) ∈ NGrams lm := by
  have h1 : (Train (init 1) ⟨1, some ["&", "a"]⟩).map (fun p => p.1) = some true := by
    decide
  cases h : Train (init 1) ⟨1, some ["&", "a"]⟩ with
  | none =>
    rw [h] at h1
    cases h1
  | some p =>
    obtain ⟨r, lm⟩ := p
    rw [h] at h1
    simp only [Option.map_some', Option.some.injEq] at h1
    subst h1
    exact ⟨lm, rfl, by decide, stripPunct_filter.2.2.2 1 [] (init 1) lm ⟨1, some ["&", "a"]⟩
      ["&", "a"] rfl rfl (by decide) rfl (by decide) (by decide) h [""] (by decide)⟩

end LM

namespace LM

/-! ## Shape of the tables of a reachable state -/

theorem ladder_eq : LADDER = 7 :: (List.range 29).map fun i => PRIMES.getD (i + 3) 0 := by
  decide

theorem ladder_prime : ∀ c ∈ LADDER, c.Prime := by
  intro c hc
  rw [ladder_eq, List.mem_cons] at hc
  rcases hc with rfl | hc
  · norm_num
  · obtain ⟨i, hi, rfl⟩ := List.mem_map.mp hc
    rw [List.mem_range] at hi
    exact (primeEntryCheck_spec (primes_entry (e := i + 3) (by omega) (by omega))).1

theorem ladder_entry : ∀ c ∈ LADDER, c = MIN_SIZE ∨ c ∈ PRIMES := by
  intro c hc
  unfold LADDER at hc
  rw [List.mem_cons] at hc
  rcases hc with rfl | hc
  · exact Or.inl rfl
  · exact Or.inr (List.mem_of_mem_drop hc)

/-- A reachable state is well formed and all its nodes fit. -/
theorem run_ok_fit {n : Nat} {ops : List Op} {lm : State} (hs : ops.all Op.sized = true)
    (hrun : run (init n) ops = some lm) : StateOK lm ∧ lm.ngram_size = n ∧ StateFit lm := by
  obtain ⟨hok, hsize⟩ := run_StateOK ops (init n) lm hs ⟨rfl, rfl, rfl⟩ hrun
  exact ⟨hok, hsize, run_fit ops (init n) lm hs ⟨rfl, rfl, rfl⟩ (StateFit_init n) hrun⟩

theorem TableOK.shape {α : Type} {dead : α → Bool} {t : hash_table α} (h : TableOK dead t) :
    t.capacity.Prime ∧ 7 ≤ t.capacity ∧ (t.capacity = MIN_SIZE ∨ t.capacity ∈ PRIMES) ∧
      t.table.length = t.capacity ∧ t.occupied = t.table.countP (liveSlot dead) :=
  ⟨ladder_prime _ h.ladder, (ladder_bounds _ h.ladder).1, ladder_entry _ h.ladder, h.len, h.occ⟩

/-- C37: after every sequence of `Train`, `Grow` and `Remove` calls on a new model (each `Grow`
with an estimate of at most `MAX_ESTIMATE`), the headword table and the collocate subtable of
every headword node, live or tombstoned, have a capacity that is a prime number, at least 7, and
equal to `MIN_SIZE` or to an entry of `PRIMES`; the slot vector has `capacity` slots, and
`occupied` is the number of slots that hold a node that is not deleted. -/
theorem table_shape (n : Nat) (ops : List Op) (lm : State)
    (hs : ops.all Op.sized = true) (hrun : run (init n) ops = some lm) :
    ∀ t, lm.main_table = some t →
      (t.capacity.Prime ∧ 7 ≤ t.capacity ∧ (t.capacity = MIN_SIZE ∨ t.capacity ∈ PRIMES) ∧
        t.table.length = t.capacity ∧
        t.occupied = t.table.countP (liveSlot headword_node.deleted)) ∧
      ∀ b node, slot t.table b = some node →
        node.collocates.capacity.Prime ∧ 7 ≤ node.collocates.capacity ∧
        (node.collocates.capacity = MIN_SIZE ∨ node.collocates.capacity ∈ PRIMES) ∧
        node.collocates.table.length = node.collocates.capacity ∧
        node.collocates.occupied = node.collocates.table.countP (liveSlot (cdead node.heap)) := by
  obtain ⟨hok, _, hfit⟩ := run_ok_fit hs hrun
  intro t ht
  have hokt : TrainedOK lm.ngram_size t lm.unique_ngrams_count := by
    unfold StateOK at hok
    rw [ht] at hok
    exact hok
  exact ⟨hokt.table.shape, fun b node hsl => (hfit t ht b node hsl).ok.tbl.shape⟩

theorem table_shape_witness :
    ∃ lm t, run (init 2) [Op.train ⟨1, some ["to", "be", "to"]⟩, Op.remove "to be"] = some lm ∧
      lm.main_table = some t ∧ t.capacity.Prime ∧
      t.occupied = t.table.countP (liveSlot headword_node.deleted) := by
  have h1 : ((run (init 2) [Op.train ⟨1, some ["to", "be", "to"]⟩, Op.remove "to be"]).bind
      fun lm => lm.main_table).isSome = true := by
    decide
  cases h : run (init 2) [Op.train ⟨1, some ["to", "be", "to"]⟩, Op.remove "to be"] with
  | none =>
    rw [h] at h1
    cases h1
  | some lm =>
    rw [h] at h1
    cases ht : lm.main_table with
    | none =>
      simp only [Option.some_bind] at h1
      rw [ht] at h1
      cases h1
    | some t =>
      have := (table_shape 2 [Op.train ⟨1, some ["to", "be", "to"]⟩, Op.remove "to be"] lm rfl h
        t ht).1
      exact ⟨lm, t, rfl, ht, this.1, this.2.2.2.2⟩

/-- C35: after every sequence of `Train`, `Grow` and `Remove` calls on a new model (each `Grow`
with an estimate of at most `MAX_ESTIMATE`), the frequency index of every live headword node has
no duplicates and holds exactly the pointers to the live entries of the collocate subtable of
the node.  No pointer sits in two buckets, so every live collocate entry is referenced exactly
once, and no tombstoned entry is referenced.  This holds for every order of the model. -/
theorem frequencies_index_live (n : Nat) (ops : List Op) (lm : State)
    (hs : ops.all Op.sized = true) (hrun : run (init n) ops = some lm) :
    ∀ t b node, lm.main_table = some t → slot t.table b = some node → node.deleted = false →
      node.frequencies.Nodup ∧
      (∀ p, p ∈ node.frequencies ↔
        ∃ b', slot node.collocates.table b' = some p ∧ (deref node.heap p).deleted = false) ∧
      (∀ b' p, slot node.collocates.table b' = some p → (deref node.heap p).deleted = false →
        node.frequencies.count p = 1 ∧
        ∀ b'', slot node.collocates.table b'' = some p → b'' = b') ∧
      (∀ p ∈ node.frequencies, (deref node.heap p).deleted = false) := by
  obtain ⟨_, _, hfit⟩ := run_ok_fit hs hrun
  intro t b node ht hsl hd
  have hnode := hfit t ht b node hsl
  have hf := hnode.freq hd
  refine ⟨hf.nodup, hf.mem, ?_, ?_⟩
  · intro b' p hb' hl
    refine ⟨List.count_eq_one_of_mem hf.nodup ((hf.mem p).mpr ⟨b', hb', hl⟩), ?_⟩
    intro b'' hb''
    exact hnode.ok.inj b'' b' p hb'' hb'
  · intro p hp
    obtain ⟨_, _, hl⟩ := (hf.mem p).mp hp
    exact hl

theorem frequencies_index_live_witness :
    ∃ lm t node, run (init 2) [Op.train ⟨1, some ["a", "b", "a", "c"]⟩, Op.remove "a b"] =
        some lm ∧ lm.main_table = some t ∧ slot t.table 6 = some node ∧
      node.frequencies.Nodup ∧ ∀ p ∈ node.frequencies, (deref node.heap p).deleted = false := by
  have h1 : ((run (init 2) [Op.train ⟨1, some ["a", "b", "a", "c"]⟩, Op.remove "a b"]).bind
      fun lm => lm.main_table.bind fun t => (slot t.table 6).map
        fun node => node.deleted) = some false := by
    decide
  cases h : run (init 2) [Op.train ⟨1, some ["a", "b", "a", "c"]⟩, Op.remove "a b"] with
  | none =>
    rw [h] at h1
    cases h1
  | some lm =>
    rw [h] at h1
    simp only [Option.some_bind] at h1
    cases ht : lm.main_table with
    | none =>
      rw [ht] at h1
      cases h1
    | some t =>
      rw [ht] at h1
      simp only [Option.some_bind] at h1
      cases hsl : slot t.table 6 with
      | none =>
        rw [hsl] at h1
        cases h1
      | some node =>
        rw [hsl] at h1
        simp only [Option.map_some', Option.some.injEq] at h1
        have := frequencies_index_live 2
          [Op.train ⟨1, some ["a", "b", "a", "c"]⟩, Op.remove "a b"] lm rfl h t 6 node ht hsl h1
        exact ⟨lm, t, node, rfl, ht, hsl, this.1, this.2.2.2⟩

/-- C36: after every sequence of `Train`, `Grow` and `Remove` calls on a new model of order
`n ≥ 2` (each `Grow` with an estimate of at most `MAX_ESTIMATE`), the collocate subtable of
every live headword node has `occupied ≥ 1`, `occupied` being the number of its live entries,
and so holds a live collocate entry.  The states after a `Remove` are among these states: a
headword whose last live collocate is removed does not stay live. -/
theorem live_headword_has_collocate (n : Nat) (ops : List Op) (lm : State)
    (hs : ops.all Op.sized = true) (hrun : run (init n) ops = some lm) (hn : 2 ≤ n) :
    ∀ t b node, lm.main_table = some t → slot t.table b = some node → node.deleted = false →
      1 ≤ node.collocates.occupied ∧
      node.collocates.occupied = node.collocates.table.countP (liveSlot (cdead node.heap)) ∧
      ∃ b' p, slot node.collocates.table b' = some p ∧ (deref node.heap p).deleted = false := by
  obtain ⟨_, hsize, hfit⟩ := run_ok_fit hs hrun
  have hsize' : lm.ngram_size = n := hsize
  intro t b node ht hsl hd
  have hnode := hfit t ht b node hsl
  have hlive := hnode.live hd (by omega)
  refine ⟨hlive, hnode.ok.tbl.occ, ?_⟩
  have hpos : 0 < node.collocates.table.countP (liveSlot (cdead node.heap)) := by
    have := hnode.ok.tbl.occ
    unfold liveCount at this
    omega
  obtain ⟨s, hmem, hls⟩ := List.countP_pos_iff.mp hpos
  obtain ⟨b', _, hb'⟩ := mem_slot hmem
  cases s with
  | none => cases hls
  | some p =>
    refine ⟨b', p, hb', ?_⟩
    simpa [liveSlot, cdead] using hls

theorem live_headword_has_collocate_witness :
    ∃ lm t node, run (init 2) [Op.train ⟨1, some ["a", "b", "a", "c"]⟩, Op.remove "a c"] =
        some lm ∧ lm.main_table = some t ∧ slot t.table 6 = some node ∧
      1 ≤ node.collocates.occupied := by
  have h1 : ((run (init 2) [Op.train ⟨1, some ["a", "b", "a", "c"]⟩, Op.remove "a c"]).bind
      fun lm => lm.main_table.bind fun t => (slot t.table 6).map
        fun node => node.deleted) = some false := by
    decide
  cases h : run (init 2) [Op.train ⟨1, some ["a", "b", "a", "c"]⟩, Op.remove "a c"] with
  | none =>
    rw [h] at h1
    cases h1
  | some lm =>
    rw [h] at h1
    simp only [Option.some_bind] at h1
    cases ht : lm.main_table with
    | none =>
      rw [ht] at h1
      cases h1
    | some t =>
      rw [ht] at h1
      simp only [Option.some_bind] at h1
      cases hsl : slot t.table 6 with
      | none =>
        rw [hsl] at h1
        cases h1
      | some node =>
        rw [hsl] at h1
        simp only [Option.map_some', Option.some.injEq] at h1
        have := live_headword_has_collocate 2
          [Op.train ⟨1, some ["a", "b", "a", "c"]⟩, Op.remove "a c"] lm rfl h (by decide)
          t 6 node ht hsl h1
        exact ⟨lm, t, node, rfl, ht, hsl, this.1⟩

end LM

namespace LM

/-! ## The capacity after a resize -/

theorem ladder_half : ∀ c ∈ LADDER, ∀ c' ∈ PrimeSize c, 3 * c ≤ 2 * c' := by decide

theorem insertNode_capacity {α : Type} (keyOf : α → String) (dead : α → Bool) (t : hash_table α)
    (x : α) : (insertNode keyOf dead t x).2.capacity = t.capacity := by
  unfold insertNode
  split <;> rfl

theorem transfer_capacity {α : Type} (keyOf : α → String) (dead : α → Bool)
    (old nt : hash_table α) : (transfer keyOf dead old nt).capacity = nt.capacity := by
  unfold transfer
  generalize List.range old.capacity = l
  induction l generalizing nt with
  | nil => rfl
  | cons i l ih =>
    rw [List.foldl_cons, ih]
    split
    · exact insertNode_capacity keyOf dead nt _
    · rfl

/-- The capacity of the table that a resize builds for the request `x`. -/
theorem resize_request {α : Type} (keyOf : α → String) (dead : α → Bool) {t t' : hash_table α}
    (h : resize keyOf dead t = some t') {x : Nat}
    (hr : resizeRequest (tableLoad t) t.capacity = some x) :
    PrimeSize x = some t'.capacity := by
  unfold resize at h
  rw [hr] at h
  simp only at h
  cases hi : (InitTable x : Option (hash_table α)) with
  | none => rw [hi] at h; simp at h
  | some nt =>
    rw [hi] at h
    simp only [Option.map_some', Option.some.injEq] at h
    obtain ⟨hp, _, _⟩ := InitTable_spec hi
    rw [hp, ← h, transfer_capacity]

theorem resize_same {α : Type} (keyOf : α → String) (dead : α → Bool) {t : hash_table α}
    (hr : resizeRequest (tableLoad t) t.capacity = none) : resize keyOf dead t = some t := by
  unfold resize
  rw [hr]

theorem ltEighth_ltHalf (l : Load) (h : l.ltEighth = true) : l.ltHalf = true := by
  simp only [Load.ltEighth, Load.ltHalf, decide_eq_true_eq] at *
  omega

/-- The four cases of a resize of a well-formed table of capacity below `2^31`. -/
theorem resize_bounds {α : Type} (keyOf : α → String) (dead : α → Bool) (t : hash_table α)
    (hok : TableOK dead t) (hc : t.capacity < 2147483648) :
    ((tableLoad t).gtHalf = true →
      ∃ t', resize keyOf dead t = some t' ∧ t.capacity < t'.capacity ∧
        t'.occupied = t.occupied ∧
        (4 * t.occupied ≤ 3 * t.capacity → 2 * t'.occupied ≤ t'.capacity)) ∧
    ((tableLoad t).ltEighth = true → 7 < t.capacity →
      ∃ t', resize keyOf dead t = some t' ∧ t'.capacity < t.capacity ∧ 7 ≤ t'.capacity ∧
        t'.occupied = t.occupied) ∧
    ((tableLoad t).ltEighth = true → t.capacity = 7 → resize keyOf dead t = some t) ∧
    ((tableLoad t).ltEighth = false → (tableLoad t).ltHalf = true →
      resize keyOf dead t = some t) := by
  refine ⟨?_, ?_, ?_, ?_⟩
  · intro hg
    obtain ⟨h8, h2⟩ := gtHalf_not_lt _ hg
    obtain ⟨t', h⟩ := resize_isSome keyOf dead t (by omega)
    have hr : resizeRequest (tableLoad t) t.capacity = some t.capacity := by
      unfold resizeRequest
      rw [h8, h2]
      rfl
    have hp := resize_request keyOf dead h hr
    have hocc := (resize_spec keyOf dead hok h).occupied hok
    have hgrow := ladder_grow _ hok.ladder t'.capacity (by simpa using hp)
    have hhalf := ladder_half _ hok.ladder t'.capacity (by simpa using hp)
    exact ⟨t', h, hgrow, hocc, fun h4 => by omega⟩
  · intro h8 h7
    obtain ⟨t', h⟩ := resize_shrink_isSome keyOf dead t hok.ladder h8
    have hr : resizeRequest (tableLoad t) t.capacity =
        some (2 ^ (PowerOfTwoExponent t.capacity - 2)) := by
      unfold resizeRequest
      rw [if_pos (by
        simp only [Bool.and_eq_true, decide_eq_true_eq]
        exact ⟨h8, by unfold MIN_SIZE; omega⟩)]
    have hp := resize_request keyOf dead h hr
    have hocc := (resize_spec keyOf dead hok h).occupied hok
    have hshrink := ladder_shrink _ hok.ladder h7 t'.capacity (by simpa using hp)
    have hmem := ladder_bounds _ (PrimeSize_mem_ladder hp)
    exact ⟨t', h, hshrink.2, hmem.1, hocc⟩
  · intro h8 h7
    apply resize_same
    unfold resizeRequest
    rw [if_neg (by
      simp only [Bool.and_eq_true, decide_eq_true_eq]
      unfold MIN_SIZE
      omega), if_pos (ltEighth_ltHalf _ h8)]
  · intro h8 h2
    apply resize_same
    unfold resizeRequest
    rw [h8, if_neg (by simp), if_pos h2]

/-- C34 (amended): let a well-formed table have a capacity `c` below `2^31` (`c` is 7 or an
entry of `PRIMES`, and `occupied` counts the live slots).  `ResizeHeadTable` and
`ResizeCollocateTable` with load above 1/2 build a table of a capacity above `c` with the same
`occupied`, and `occupied` is at most half the new capacity when it was at most three quarters
of `c`.  With load below 1/8 and `c > 7` they build a table of a capacity below `c` and at
least 7 with the same `occupied`.  With load below 1/8 and `c = 7`, or with a load that is not
below 1/8 and is below 1/2, they leave the table as it is. -/
theorem Resize_boundary :
    (∀ (lm : State) (t : head_table), lm.main_table = some t →
      TableOK headword_node.deleted t → t.capacity < 2147483648 →
      ((tableLoad t).gtHalf = true →
        ∃ t', ResizeHeadTable lm = some { lm with main_table := some t' } ∧
          t.capacity < t'.capacity ∧ t'.occupied = t.occupied ∧
          (4 * t.occupied ≤ 3 * t.capacity → 2 * t'.occupied ≤ t'.capacity)) ∧
      ((tableLoad t).ltEighth = true → 7 < t.capacity →
        ∃ t', ResizeHeadTable lm = some { lm with main_table := some t' } ∧
          t'.capacity < t.capacity ∧ 7 ≤ t'.capacity ∧ t'.occupied = t.occupied) ∧
      ((tableLoad t).ltEighth = true → t.capacity = 7 → ResizeHeadTable lm = some lm) ∧
      ((tableLoad t).ltEighth = false → (tableLoad t).ltHalf = true →
        ResizeHeadTable lm = some lm)) ∧
    (∀ hw : headword_node, NodeOK hw → hw.collocates.capacity < 2147483648 →
      ((tableLoad hw.collocates).gtHalf = true →
        ∃ nt, ResizeCollocateTable hw = some { hw with collocates := nt } ∧
          hw.collocates.capacity < nt.capacity ∧ nt.occupied = hw.collocates.occupied ∧
          (4 * hw.collocates.occupied ≤ 3 * hw.collocates.capacity →
            2 * nt.occupied ≤ nt.capacity)) ∧
      ((tableLoad hw.collocates).ltEighth = true → 7 < hw.collocates.capacity →
        ∃ nt, ResizeCollocateTable hw = some { hw with collocates := nt } ∧
          nt.capacity < hw.collocates.capacity ∧ 7 ≤ nt.capacity ∧
          nt.occupied = hw.collocates.occupied) ∧
      ((tableLoad hw.collocates).ltEighth = true → hw.collocates.capacity = 7 →
        ResizeCollocateTable hw = some hw) ∧
      ((tableLoad hw.collocates).ltEighth = false → (tableLoad hw.collocates).ltHalf = true →
        ResizeCollocateTable hw = some hw)) := by
  constructor
  · intro lm t ht hok hc
    obtain ⟨h1, h2, h3, h4⟩ :=
      resize_bounds headword_node.headword headword_node.deleted t hok hc
    have hwrap : ∀ t', resize headword_node.headword headword_node.deleted t = some t' →
        ResizeHeadTable lm = some { lm with main_table := some t' } := by
      intro t' h
      unfold ResizeHeadTable
      rw [ht]
      simp only [h, Option.map_some']
    have hsame : ({ lm with main_table := some t } : State) = lm := by
      cases lm
      simp only at ht
      subst ht
      rfl
    refine ⟨?_, ?_, ?_, ?_⟩
    · intro hg
      obtain ⟨t', h, r⟩ := h1 hg
      exact ⟨t', hwrap t' h, r⟩
    · intro h8 h7
      obtain ⟨t', h, r⟩ := h2 h8 h7
      exact ⟨t', hwrap t' h, r⟩
    · intro h8 h7
      rw [hwrap t (h3 h8 h7), hsame]
    · intro h8 hh
      rw [hwrap t (h4 h8 hh), hsame]
  · intro hw hok hc
    obtain ⟨h1, h2, h3, h4⟩ :=
      resize_bounds (ckey hw.heap) (cdead hw.heap) hw.collocates hok.tbl hc
    have hwrap : ∀ nt, resize (ckey hw.heap) (cdead hw.heap) hw.collocates = some nt →
        ResizeCollocateTable hw = some { hw with collocates := nt } := by
      intro nt h
      unfold ResizeCollocateTable
      simp only [h, Option.map_some']
    refine ⟨?_, ?_, ?_, ?_⟩
    · intro hg
      obtain ⟨t', h, r⟩ := h1 hg
      exact ⟨t', hwrap t' h, r⟩
    · intro h8 h7
      obtain ⟨t', h, r⟩ := h2 h8 h7
      exact ⟨t', hwrap t' h, r⟩
    · intro h8 h7
      rw [hwrap _ (h3 h8 h7)]
    · intro h8 hh
      rw [hwrap _ (h4 h8 hh)]

theorem Resize_boundary_witness :
    ∃ t', ResizeHeadTable { init 1 with main_table := some sampleTable } =
        some { init 1 with main_table := some t' } ∧
      sampleTable.capacity < t'.capacity ∧ t'.occupied = sampleTable.occupied ∧
      2 * t'.occupied ≤ t'.capacity := by
  obtain ⟨t', h1, h2, h3, h4⟩ := (Resize_boundary.1 { init 1 with main_table := some sampleTable }
    sampleTable rfl ⟨by decide, by decide, by decide⟩ (by decide)).1 (by decide)
  exact ⟨t', h1, h2, h3, h4 (by decide)⟩

/-- A headword table of capacity 7 with six live entries is rebuilt with capacity 11, where the
six entries are more than half the slots. -/
theorem Resize_crowded_table :
    crowdedTable.capacity = 7 ∧ crowdedTable.table.length = 7 ∧
    crowdedTable.occupied = liveCount headword_node.deleted crowdedTable.table ∧
    (tableLoad crowdedTable).gtHalf = true ∧
    (ResizeHeadTable { init 1 with main_table := some crowdedTable }).map
      (fun lm => lm.main_table.map fun t => (t.capacity, t.occupied)) = some (some (11, 6)) ∧
    ¬ 2 * 6 ≤ 11 := by
  decide

end LM

namespace LM

/-! ## Lookups after a rebuild -/

/-- A live node of a findable table is found by the lookup for its key. -/
theorem Findable.find {α : Type} {keyOf : α → String} {dead : α → Bool} {t : hash_table α}
    (hc : Findable keyOf dead t) (hok : TableOK dead t) {b : Nat} {x : α}
    (hs : slot t.table b = some x) (hd : dead x = false) :
    findSlot keyOf dead t (keyOf x) = some b := by
  obtain ⟨j, hj, hb, hpath⟩ := hc.chain b x hs hd
  have hstart : FNV1a (keyOf x) t.capacity < t.capacity := FNV1a_lt _ hok.pos
  have hpassed : Passed (slotFree dead t.table) (slotHit keyOf t.table (keyOf x)) t.capacity
      (FNV1a (keyOf x) t.capacity) j := by
    intro i hi
    refine ⟨hpath i hi, ?_⟩
    obtain ⟨y, hy, hyd⟩ := slotFree_false (hpath i hi)
    simp only [slotHit, hy]
    by_contra hne
    have hk : keyOf y = keyOf x := by simpa using hne
    have := hc.keys _ _ y x hy hs hyd hd hk
    rw [← hb] at this
    have := add_mod_inj (by omega) hj this
    omega
  have h := probe_eq_hit t.capacity (FNV1a (keyOf x) t.capacity) j hstart hj hpassed
    (by rw [hb]; simp only [slotFree, hs]; exact hd)
    (by rw [hb]; simp only [slotHit, hs, beq_self_eq_true])
  rw [hb] at h
  unfold findSlot
  rw [h]

theorem Findable.of_empty {α : Type} (keyOf : α → String) (dead : α → Bool) {t : hash_table α}
    (h : ∀ b, slot t.table b = none) : Findable keyOf dead t := by
  refine ⟨?_, ?_⟩
  · intro b _ x _ hs
    rw [h b] at hs
    cases hs
  · intro b x hs
    rw [h b] at hs
    cases hs

theorem slotFree_set_ne {α : Type} (dead : α → Bool) (tbl : List (Option α)) (b p : Nat)
    (s : Option α) (h : p ≠ b) : slotFree dead (tbl.set b s) p = slotFree dead tbl p := by
  unfold slotFree
  rw [slot_set_ne _ _ _ _ h]

/-- Insertion of a node at the free bucket where its probe ended keeps a table findable, when no
live node of the table has the key of a live node that comes in. -/
theorem Findable.insert_free {α : Type} {keyOf : α → String} {dead : α → Bool} {t : hash_table α}
    (hc : Findable keyOf dead t) {b : Nat} {x : α} (o : Nat)
    (hfree : slotFree dead t.table b = true)
    (hfresh : dead x = false → ∀ b' y, slot t.table b' = some y → dead y = false →
      keyOf y ≠ keyOf x)
    (hchain : ∃ j, j < t.capacity ∧ (FNV1a (keyOf x) t.capacity + j) % t.capacity = b ∧
      ∀ i, i < j → slotFree dead t.table ((FNV1a (keyOf x) t.capacity + i) % t.capacity) = false) :
    Findable keyOf dead { t with table := t.table.set b (some x), occupied := o } := by
  have hlive_ne : ∀ b1 y, slot t.table b1 = some y → dead y = false → b1 ≠ b := by
    intro b1 y hy hyd hbb
    subst hbb
    unfold slotFree at hfree
    rw [hy] at hfree
    dsimp only at hfree
    rw [hyd] at hfree
    cases hfree
  have hnf_ne : ∀ p, slotFree dead t.table p = false → p ≠ b := by
    intro p hp hpb
    subst hpb
    rw [hfree] at hp
    cases hp
  refine ⟨?_, ?_⟩
  · intro b1 b2 y1 y2 h1 h2 hd1 hd2 hk
    dsimp only at h1 h2
    rw [slot_set] at h1 h2
    split at h1
    · rename_i hb1
      cases h1
      split at h2
      · rename_i hb2
        rw [hb1.1, hb2.1]
      · exact absurd hk.symm (hfresh hd1 b2 y2 h2 hd2)
    · split at h2
      · cases h2
        exact absurd hk (hfresh hd2 b1 y1 h1 hd1)
      · exact hc.keys b1 b2 y1 y2 h1 h2 hd1 hd2 hk
  · intro b1 y hy hyd
    dsimp only at hy ⊢
    rw [slot_set] at hy
    split at hy
    · rename_i hb1
      cases hy
      obtain ⟨j, hj, hjb, hpath⟩ := hchain
      refine ⟨j, hj, by rw [hjb, hb1.1], ?_⟩
      intro i hi
      rw [slotFree_set_ne _ _ _ _ _ (hnf_ne _ (hpath i hi))]
      exact hpath i hi
    · obtain ⟨j, hj, hjb, hpath⟩ := hc.chain b1 y hy hyd
      refine ⟨j, hj, hjb, ?_⟩
      intro i hi
      rw [slotFree_set_ne _ _ _ _ _ (hnf_ne _ (hpath i hi))]
      exact hpath i hi

/-- The transfer loop builds a findable table from a table whose live nodes have pairwise
different keys. -/
theorem transfer_findable {α : Type} (keyOf : α → String) (dead : α → Bool)
    (old nt0 : hash_table α) (hold : old.table.length = old.capacity) (hnew : TableOK dead nt0)
    (hempty : ∀ b, slot nt0.table b = none) (hroom : liveCount dead old.table < nt0.capacity)
    (hkeys : LiveKeysInj keyOf dead old.table) :
    Findable keyOf dead (transfer keyOf dead old nt0) := by
  have hinit : TransferInv dead old nt0.capacity 0 nt0 := by
    refine ⟨hnew, rfl, ?_, ?_, ?_, ?_⟩
    · intro g hg
      have : slotSum g nt0.table = 0 := by
        unfold slotSum
        apply List.sum_eq_zero
        intro n hn
        obtain ⟨s, hs, rfl⟩ := List.mem_map.mp hn
        obtain ⟨b, _, hb⟩ := mem_slot hs
        rw [← hb, hempty b]
        exact hg.1
      rw [this]
      simp [slotSum]
    · intro b x hx
      rw [hempty b] at hx
      cases hx
    · intro _ b b' x hx
      rw [hempty b] at hx
      cases hx
    · intro b' x hb'
      omega
  have key := transfer_induction keyOf dead old nt0
    (fun i nt => TransferInv dead old nt0.capacity i nt ∧ Findable keyOf dead nt)
    ⟨hinit, Findable.of_empty keyOf dead hempty⟩
    (by
      intro i nt hi hinv
      refine ⟨TransferInv_step keyOf dead old nt0.capacity hold hroom i nt hi hinv.1, ?_⟩
      obtain ⟨hinv, hfind⟩ := hinv
      cases hs : slot old.table i with
      | none => exact hfind
      | some x =>
        dsimp only
        have hroom' : liveCount dead nt.table < nt.capacity := by
          rw [liveCount_eq_slotSum, hinv.sums _ (liveWeight_indicator dead),
            ← liveCount_eq_slotSum, hinv.cap]
          exact Nat.lt_of_le_of_lt (liveCount_take_le dead _ _) hroom
        obtain ⟨j, hj, hp, hf, he⟩ := insertNode_room keyOf dead hinv.ok hroom' x
        rw [he]
        dsimp only
        apply Findable.insert_free hfind _ hf
        · intro hxd b' y hy hyd hk
          obtain ⟨b'', hb'', hy'⟩ := hinv.from_old b' y hy
          have := hkeys b'' i y x hy' hs hyd hxd hk
          omega
        · exact ⟨j, hj, rfl, fun i' hi' => (hp i' hi').1⟩)
  exact key.2

/-- A check of `LiveKeysInj` on a given slot vector. -/
theorem liveKeysInj_of_check {α : Type} (keyOf : α → String) (dead : α → Bool)
    (tbl : List (Option α))
    (h : ((List.range tbl.length).all fun b => (List.range tbl.length).all fun b' =>
      match slot tbl b, slot tbl b' with
      | some x, some x' => dead x || dead x' || keyOf x != keyOf x' || b == b'
      | _, _ => true) = true) : LiveKeysInj keyOf dead tbl := by
  intro b b' x x' hs hs' hd hd' hk
  rw [List.all_eq_true] at h
  have h1 := h b (List.mem_range.mpr (slot_some_lt hs))
  rw [List.all_eq_true] at h1
  have h2 := h1 b' (List.mem_range.mpr (slot_some_lt hs'))
  rw [hs, hs'] at h2
  simpa [hd, hd', hk] using h2

theorem Rebuilt.by_transfer {α : Type} (keyOf : α → String) (dead : α → Bool)
    {old nt0 : hash_table α} (hold : TableOK dead old) (hnew : TableOK dead nt0)
    (hempty : ∀ b, slot nt0.table b = none) (hroom : old.occupied < nt0.capacity)
    (hkeys : LiveKeysInj keyOf dead old.table) :
    Rebuilt keyOf dead old (transfer keyOf dead old nt0) := by
  have hreh := Rehashed.of_transfer keyOf dead hold hnew hempty hroom
  have hfind := transfer_findable keyOf dead old nt0 hold.len hnew hempty
    (by rw [← hold.occ]; exact hroom) hkeys
  refine ⟨hreh.ok, by rw [hreh.occupied hold, hold.occ], ?_, hreh.from_old⟩
  intro b x hs hd
  obtain ⟨b', hb'⟩ := hreh.kept b x hs hd
  exact ⟨b', hb', hfind.find hreh.ok hb' hd⟩

/-- A resize returns the table as it is or rebuilds it. -/
theorem resize_rebuilt {α : Type} (keyOf : α → String) (dead : α → Bool) {t t' : hash_table α}
    (hok : TableOK dead t) (hkeys : LiveKeysInj keyOf dead t.table)
    (h : resize keyOf dead t = some t') : t' = t ∨ Rebuilt keyOf dead t t' := by
  rcases resize_cases keyOf dead hok h with ⟨rfl, _⟩ | ⟨nt0, hnew, hempty, hroom, rfl, _⟩
  · exact Or.inl rfl
  · exact Or.inr (Rebuilt.by_transfer keyOf dead hok hnew hempty hroom hkeys)

/-- C31 (amended): let a well-formed table have live entries with pairwise different keys.  The
transfer loop of `Grow`, and `ResizeHeadTable` and `ResizeCollocateTable` when they rebuild the
table, give a well-formed table whose `occupied` is the number of live entries of the old table,
which holds every entry that was live (the same node, so with its count) and no entry that the
old table did not hold, and in which `FindHeadword` / `FindCollocate` return every such entry
for its key.  When `ResizeHeadTable` or `ResizeCollocateTable` return without rebuilding, the
table is the old one. -/
theorem rebuild_keeps_lookups :
    (∀ (lm lm' : State) (t : head_table) (est : Int) (r : Bool), lm.main_table = some t →
      TableOK headword_node.deleted t →
      LiveKeysInj headword_node.headword headword_node.deleted t.table →
      0 ≤ est → est ≤ MAX_ESTIMATE → Grow lm ⟨est, none⟩ = some (r, lm') →
      ∃ t', lm'.main_table = some t' ∧
        Rebuilt headword_node.headword headword_node.deleted t t' ∧
        ∀ b node, slot t.table b = some node → node.deleted = false →
          ∃ b', FindHeadword lm' node.headword = some b' ∧ slot t'.table b' = some node) ∧
    (∀ (lm lm' : State) (t : head_table), lm.main_table = some t →
      TableOK headword_node.deleted t →
      LiveKeysInj headword_node.headword headword_node.deleted t.table →
      ResizeHeadTable lm = some lm' →
      lm' = lm ∨ ∃ t', lm'.main_table = some t' ∧
        Rebuilt headword_node.headword headword_node.deleted t t' ∧
        ∀ b node, slot t.table b = some node → node.deleted = false →
          ∃ b', FindHeadword lm' node.headword = some b' ∧ slot t'.table b' = some node) ∧
    (∀ hw hw' : headword_node, NodeOK hw →
      LiveKeysInj (ckey hw.heap) (cdead hw.heap) hw.collocates.table →
      ResizeCollocateTable hw = some hw' →
      hw' = hw ∨ (hw'.heap = hw.heap ∧
        Rebuilt (ckey hw.heap) (cdead hw.heap) hw.collocates hw'.collocates ∧
        ∀ b p, slot hw.collocates.table b = some p → (deref hw.heap p).deleted = false →
          FindCollocate hw' (deref hw.heap p).collocate = some p)) := by
  have hfh : ∀ (lm' : State) (t t' : head_table), lm'.main_table = some t' →
      Rebuilt headword_node.headword headword_node.deleted t t' →
      ∀ b node, slot t.table b = some node → node.deleted = false →
        ∃ b', FindHeadword lm' node.headword = some b' ∧ slot t'.table b' = some node := by
    intro lm' t t' ht' hreb b node hs hd
    obtain ⟨b', hb', hf⟩ := hreb.found b node hs hd
    refine ⟨b', ?_, hb'⟩
    unfold FindHeadword
    rw [ht']
    exact hf
  refine ⟨?_, ?_, ?_⟩
  · intro lm lm' t est r ht hok hkeys hest hsz h
    unfold Grow at h
    rw [ht] at h
    simp only at h
    rw [if_neg (by omega)] at h
    split at h
    · cases h
    · cases hi : InitHeadTable (uadd (est * 2).toNat t.capacity) with
      | none => rw [hi] at h; simp at h
      | some nt =>
        rw [hi] at h
        simp only [Option.some_bind, Option.some.injEq, Prod.mk.injEq] at h
        obtain ⟨_, rfl⟩ := h
        obtain ⟨hnew, hempty⟩ := InitTable_ok headword_node.deleted hi
        obtain ⟨hp, _, _⟩ := InitTable_spec hi
        have hcapmax := ladder_max _ hok.ladder
        have hreq : uadd (est * 2).toNat t.capacity = (est * 2).toNat + t.capacity := by
          unfold uadd
          apply Nat.mod_eq_of_lt
          unfold MAX_ESTIMATE at hsz
          unfold UMOD
          omega
        have hgt := PrimeSize_gt (by
          rw [hreq]
          unfold MAX_ESTIMATE at hsz
          omega) hp
        have hocc : t.occupied ≤ t.capacity := by
          rw [hok.occ, ← hok.len]; exact liveCount_le _ _
        have hreb := Rebuilt.by_transfer headword_node.headword headword_node.deleted hok hnew
          hempty (by rw [hreq] at hgt; omega) hkeys
        exact ⟨_, rfl, hreb, hfh _ t _ rfl hreb⟩
  · intro lm lm' t ht hok hkeys h
    unfold ResizeHeadTable at h
    rw [ht] at h
    simp only at h
    obtain ⟨t', hr, rfl⟩ := Option.map_eq_some'.mp h
    rcases resize_rebuilt _ _ hok hkeys hr with rfl | hreb
    · left
      cases lm
      simp only at ht
      subst ht
      rfl
    · exact Or.inr ⟨t', rfl, hreb, hfh _ t t' rfl hreb⟩
  · intro hw hw' hok hkeys h
    unfold ResizeCollocateTable at h
    obtain ⟨nt, hr, rfl⟩ := Option.map_eq_some'.mp h
    rcases resize_rebuilt _ _ hok.tbl hkeys hr with rfl | hreb
    · exact Or.inl rfl
    · refine Or.inr ⟨rfl, hreb, ?_⟩
      intro b p hs hd
      obtain ⟨b', hb', hf⟩ := hreb.found b p hs hd
      have hf' : findSlot (ckey hw.heap) (cdead hw.heap) nt (deref hw.heap p).collocate =
          some b' := hf
      unfold FindCollocate
      dsimp only
      rw [hf']
      exact hb'

theorem rebuild_keeps_lookups_witness :
    ∃ lm' t', ResizeHeadTable { init 1 with main_table := some sampleTable } = some lm' ∧
      lm'.main_table = some t' ∧ t'.occupied = 4 ∧
      ∃ b', FindHeadword lm' "d" = some b' ∧ slot t'.table b' = some (sampleNode "d" false) := by
  have h1 : (ResizeHeadTable { init 1 with main_table := some sampleTable }).map
      (fun lm => lm.main_table.map fun t => t.capacity) = some (some 11) := by
    decide
  cases h : ResizeHeadTable { init 1 with main_table := some sampleTable } with
  | none =>
    rw [h] at h1
    cases h1
  | some lm' =>
    rcases rebuild_keeps_lookups.2.1 { init 1 with main_table := some sampleTable } lm'
      sampleTable rfl ⟨by decide, by decide, by decide⟩
      (liveKeysInj_of_check _ _ _ (by decide)) h with rfl | ⟨t', ht', hreb, hf⟩
    · rw [h] at h1
      simp only [Option.map_some', Option.some.injEq] at h1
      cases h1
    · refine ⟨lm', t', rfl, ht', ?_, hf 4 (sampleNode "d" false) (by decide) rfl⟩
      rw [hreb.occupied]
      decide

/-- The transfer loop of `Grow` on a headword table with two live entries for the headword "a":
both entries are in the new table, `FindHeadword` returns the one of count 1, and the one of
count 2 is in another bucket. -/
theorem Grow_twin_entries :
    (Grow { init 1 with main_table := some twinTable } ⟨1, none⟩).map
      (fun r => FindHeadword r.2 "a") = some (some 2) ∧
    (Grow { init 1 with main_table := some twinTable } ⟨1, none⟩).map
      (fun r => r.2.main_table.map fun t =>
        (slot t.table 2).map fun node => (node.headword, node.count, node.deleted)) =
      some (some (some ("a", 1, false))) ∧
    (Grow { init 1 with main_table := some twinTable } ⟨1, none⟩).map
      (fun r => r.2.main_table.map fun t =>
        (slot t.table 3).map fun node => (node.headword, node.count, node.deleted)) =
      some (some (some ("a", 2, false))) := by
  decide

end LM

namespace LM

/-! ## The frame of `InsertNGram` on a model without tombstones -/

/-- The node after `InsertCollocate` on a node without tombstones: the count of the stored
collocate goes up, or a new collocate node is appended. -/
theorem insertCollocate_shape {hw hw1 hw' : headword_node} (hok : NodeOK hw) (hc : NodeClean hw)
    {c : String} {st : Int} {created : Bool} (hg : growIfLoaded hw = some hw1)
    (hp : placeCollocate hw1 c = (st, hw', created)) :
    hw'.headword = hw.headword ∧ hw'.count = hw.count ∧ hw'.deleted = hw.deleted ∧
    ((created = false ∧ ∃ p, p < hw.heap.length ∧ ckey hw.heap p = c ∧
        hw'.heap = bumpCount hw.heap p ∧ hw'.frequencies = hw.frequencies) ∨
     (created = true ∧ (∀ p, p < hw.heap.length → ckey hw.heap p ≠ c) ∧
        hw'.heap = hw.heap ++ [InitCollocate c] ∧
        hw'.frequencies = hw.frequencies ++ [hw.heap.length])) := by
  obtain ⟨hok1, hc1, hroom1, _, hh1, hcount1, hd1, hheap1⟩ := growIfLoaded_clean hok hc hg
  obtain ⟨nt, hnt, _⟩ := growIfLoaded_spec hok hg
  have hfreq1 : hw1.frequencies = hw.frequencies := by rw [hnt]
  obtain ⟨_, hh', hcount', hd', _, _⟩ := placeCollocate_spec hok1 c hp
  refine ⟨hh'.trans hh1, hcount'.trans hcount1, hd'.trans hd1, ?_⟩
  rcases placeCollocate_cases c hp with ⟨b, hpr, _, hcr, rfl⟩ | ⟨b, p, hpr, hs, hkey, _, hcr, rfl⟩ |
    ⟨hpr, _, _, _⟩
  · right
    obtain ⟨_, _, hfresh, _⟩ := hc1.tbl.probe_free hok1.tbl hpr
    refine ⟨hcr, ?_, ?_, ?_⟩
    · intro p hp' hk
      obtain ⟨b', hb'⟩ := hc1.onto p (by rw [hheap1]; exact hp')
      exact hfresh b' p hb' (by rw [hheap1]; exact hk)
    · dsimp only
      rw [hheap1]
    · dsimp only
      rw [hheap1, hfreq1]
  · left
    refine ⟨hcr, p, ?_, ?_, ?_, ?_⟩
    · rw [← hheap1]
      exact hok1.valid b p hs
    · rw [← hheap1]
      exact hkey
    · dsimp only
      rw [hheap1]
    · exact hfreq1
  · exact absurd hpr (probe_not_full hok1.tbl (by rw [← hok1.tbl.occ]; exact hroom1) _ c)

/-- `InsertCollocate` on a node of capacity at most `2^31` returns. -/
theorem InsertCollocate_isSome {lm : State} {b : Nat} (c : String) {t : head_table}
    {hw : headword_node} (ht : lm.main_table = some t) (hs : slot t.table b = some hw)
    (hcap : hw.collocates.capacity ≤ 2147483648) :
    ∃ st lm', InsertCollocate lm b c = some (st, lm') := by
  have hgrow : ∃ hw1, growIfLoaded hw = some hw1 := by
    unfold growIfLoaded
    split
    · unfold ResizeCollocateTable
      obtain ⟨nt, hnt⟩ := resize_isSome (ckey hw.heap) (cdead hw.heap) hw.collocates hcap
      rw [hnt]
      exact ⟨_, rfl⟩
    · exact ⟨hw, rfl⟩
  obtain ⟨hw1, hg⟩ := hgrow
  unfold InsertCollocate
  rw [ht]
  dsimp only
  rw [hs]
  dsimp only
  unfold insertCollocateAt
  rw [hg]
  exact ⟨_, _, rfl⟩

/-- `InsertNGram` on a trained model whose subtables have capacities of at most `2^31`
returns. -/
theorem InsertNGram_isSome {lm : State} (hd c : String) {t : head_table}
    (ht : lm.main_table = some t) (hok : TableOK headword_node.deleted t)
    (hcap : ∀ b node, slot t.table b = some node → node.collocates.capacity ≤ 2147483648) :
    ∃ st lm', InsertNGram lm hd c = some (st, lm') := by
  have hstart := FNV1a_lt hd hok.pos
  have key : ∀ (X : State) (t1 : head_table) (b : Nat) (hwX : headword_node),
      X.main_table = some t1 → slot t1.table b = some hwX →
      hwX.collocates.capacity ≤ 2147483648 →
      ∃ st lm', (InsertCollocate X b c).map (fun r => ((b : Int), r.2)) = some (st, lm') := by
    intro X t1 b hwX hX hsX hcX
    obtain ⟨st2, lm2, h2⟩ := InsertCollocate_isSome c hX hsX hcX
    rw [h2]
    exact ⟨_, _, rfl⟩
  unfold InsertNGram
  rw [ht]
  dsimp only
  cases hp : probe (slotFree headword_node.deleted t.table)
      (slotHit headword_node.headword t.table hd) t.capacity t.capacity (FNV1a hd t.capacity) with
  | free b =>
    dsimp only
    obtain ⟨j, _, hbj⟩ := probe_within _ _ _ _ _ hstart b (Or.inl hp)
    have hb : b < t.table.length := by
      rw [hok.len, hbj]
      exact Nat.mod_lt _ hok.pos
    rw [InitHeadword_eq]
    simp only [Option.some_bind]
    split
    · exact ⟨_, _, rfl⟩
    · exact key _ _ b _ rfl (slot_set_self _ _ _ hb) (by dsimp only; omega)
  | hit b =>
    dsimp only
    obtain ⟨node, hs, _⟩ := slotHit_true (probe_hit_sound _ _ _ hp).2
    rw [hs]
    dsimp only
    split
    · exact key _ _ b _ rfl (slot_set_self _ _ _ (slot_some_lt hs)) (hcap b node hs)
    · exact ⟨_, _, rfl⟩
  | full => exact ⟨_, _, rfl⟩

/-- Result of `InsertNGram` on a model of order at least 2 without tombstones whose main table
has a free slot. -/
theorem InsertNGram_frame_core {lm : State} (hd c : String) {t : head_table}
    (ht : lm.main_table = some t) (hok : TrainedOK lm.ngram_size t lm.unique_ngrams_count)
    (hcl : CleanOK lm.ngram_size t) (hn : 2 ≤ lm.ngram_size) (hroom : t.occupied < t.capacity)
    (hcap : ∀ b node, slot t.table b = some node → node.collocates.capacity ≤ 2147483648) :
    ∃ (b : Nat) (node' : headword_node) (lm' : State) (t' : head_table),
      InsertNGram lm hd c = some ((b : Int), lm') ∧ lm'.main_table = some t' ∧
      t'.table = t.table.set b (some node') ∧ t'.capacity = t.capacity ∧ b < t.capacity ∧
      node'.headword = hd ∧ node'.deleted = false ∧ FindHeadword lm' hd = some b ∧
      ((∃ node, slot t.table b = some node ∧ node.headword = hd ∧ t'.occupied = t.occupied ∧
          node'.count = uadd node.count 1 ∧
          ((∃ p, p < node.heap.length ∧ ckey node.heap p = c ∧
              node'.heap = bumpCount node.heap p ∧ node'.frequencies = node.frequencies ∧
              lm'.unique_ngrams_count = lm.unique_ngrams_count) ∨
           ((∀ p, p < node.heap.length → ckey node.heap p ≠ c) ∧
              node'.heap = node.heap ++ [InitCollocate c] ∧
              node'.frequencies = node.frequencies ++ [node.heap.length] ∧
              lm'.unique_ngrams_count = uadd lm.unique_ngrams_count 1))) ∨
       ((∀ b0 node, slot t.table b0 = some node → node.headword ≠ hd) ∧
          t'.occupied = t.occupied + 1 ∧ node'.count = 1 ∧ node'.heap = [InitCollocate c] ∧
          node'.frequencies = [0] ∧
          lm'.unique_ngrams_count = uadd lm.unique_ngrams_count 1)) := by
  have hne : lm.ngram_size ≠ 1 := by omega
  obtain ⟨st, lm', h⟩ := InsertNGram_isSome hd c ht hok.table hcap
  obtain ⟨_, t', ht', hcl', _⟩ := InsertNGram_clean h ht hok hcl hroom (by omega)
  obtain ⟨t'', ht'', hok', _⟩ := InsertNGram_spec h ht hok
  rw [ht'] at ht''
  cases ht''
  have hfind : ∀ b node', slot t'.table b = some node' → node'.headword = hd →
      FindHeadword lm' hd = some b := by
    intro b node' hs' hk
    rw [← hk]
    exact FindHeadword_hit ht' hcl'.tbl hok'.table hs'
  rcases InsertNGram_cases h with ⟨hnone, _, _⟩ | ⟨t0, ht0, hcase⟩
  · rw [ht] at hnone
    cases hnone
  rw [ht] at ht0
  cases ht0
  rcases hcase with ⟨hp, _, _⟩ | ⟨b, hp, hst, hcase⟩ | ⟨b, node, hp, hs, hst, hcase⟩
  · exact absurd hp (probe_not_full hok.table (by rw [← hok.table.occ]; exact hroom) _ hd)
  · -- a new headword node
    obtain ⟨hnone, hb, hfresh, _⟩ := hcl.tbl.probe_free hok.table hp
    have hblen : b < t.table.length := by rw [hok.table.len]; exact hb
    have hocc : uadd t.occupied 1 = t.occupied + 1 := by
      apply uadd_one_of_lt
      have := (ladder_bounds _ hok.table.ladder).2
      omega
    rcases hcase with ⟨h1, _⟩ | ⟨_, st2, hi⟩
    · exact absurd h1 hne
    · obtain ⟨t0, hw0, hw1, hw', created, ht0, hs0, hg, hpl, hlm'⟩ := InsertCollocate_cases hi
      simp only [withNewHead, Option.some.injEq] at ht0
      subst ht0
      dsimp only at hs0
      rw [slot_set_self _ _ _ hblen] at hs0
      cases hs0
      obtain ⟨hh, hcount, hdel, hshape⟩ :=
        insertCollocate_shape (NodeOK_init hd) (NodeClean_fresh hd) hg hpl
      subst hst
      subst hlm'
      simp only [Option.some.injEq] at ht'
      subst ht'
      have hslot : slot (t.table.set b (some hw')) b = some hw' := slot_set_self _ _ _ hblen
      refine ⟨b, hw', _, _, h, rfl, ?_, rfl, hb, hh, hdel, ?_, Or.inr ⟨hfresh, hocc, hcount, ?_⟩⟩
      · dsimp only
        rw [List.set_set]
      · apply hfind b hw' _ hh
        dsimp only
        rw [List.set_set]
        exact hslot
      · rcases hshape with ⟨_, p, hp', _⟩ | ⟨hcr, _, hheap, hfreq⟩
        · simp [freshHead] at hp'
        · refine ⟨hheap, hfreq, ?_⟩
          dsimp only [withNewHead]
          rw [hcr]
          rfl
  · -- an existing headword node
    obtain ⟨hfree, hhit⟩ := probe_hit_sound _ _ _ hp
    have hdead : node.deleted = false := by
      unfold slotFree at hfree
      rw [hs] at hfree
      exact hfree
    have hkey : node.headword = hd := by
      unfold slotHit at hhit
      rw [hs] at hhit
      simpa using hhit
    have hblen := slot_some_lt hs
    have hb : b < t.capacity := by rw [← hok.table.len]; exact hblen
    rcases hcase with ⟨_, st2, hi⟩ | ⟨h1, _⟩
    · obtain ⟨t0, hw0, hw1, hw', created, ht0, hs0, hg, hpl, hlm'⟩ := InsertCollocate_cases hi
      simp only [withBumpedHead, Option.some.injEq] at ht0
      subst ht0
      dsimp only at hs0
      rw [slot_set_self _ _ _ hblen] at hs0
      cases hs0
      have hnc := hcl.nodes hne b node hs
      have hokb : NodeOK { node with count := uadd node.count 1 } :=
        (hok.nodes b node hs hdead).congr rfl rfl
      have hncb : NodeClean { node with count := uadd node.count 1 } :=
        ⟨hnc.tbl, hnc.onto, hnc.freq, hnc.full, hnc.small⟩
      obtain ⟨hh, hcount, hdel, hshape⟩ := insertCollocate_shape hokb hncb hg hpl
      subst hst
      subst hlm'
      simp only [Option.some.injEq] at ht'
      subst ht'
      have hslot : slot (t.table.set b (some hw')) b = some hw' := slot_set_self _ _ _ hblen
      refine ⟨b, hw', _, _, h, rfl, ?_, rfl, hb, hh.trans hkey, hdel.trans hdead, ?_,
        Or.inl ⟨node, hs, hkey, rfl, hcount, ?_⟩⟩
      · dsimp only
        rw [List.set_set]
      · apply hfind b hw' _ (hh.trans hkey)
        dsimp only
        rw [List.set_set]
        exact hslot
      · rcases hshape with ⟨hcr, p, hp', hk, hheap, hfreq⟩ | ⟨hcr, hno, hheap, hfreq⟩
        · left
          refine ⟨p, hp', hk, hheap, hfreq, ?_⟩
          dsimp only [withBumpedHead]
          rw [hcr]
          rfl
        · right
          refine ⟨hno, hheap, hfreq, ?_⟩
          dsimp only [withBumpedHead]
          rw [hcr]
          rfl
    · omega

/-- C38: let a model of order at least 2 have tables without tombstones (every node live, no
key twice, every node behind occupied buckets on the probe sequence of its key), a main table
with a free slot, and subtables of capacities of at most `2^31`.  `InsertNGram(h, c)` returns a
bucket `b ≥ 0`; afterwards bucket `b` holds a live node with headword `h`, `FindHeadword(h)`
returns bucket `b`, and every other bucket of the main table is as before.  If `(h, c)` was
stored, the count of `h` and the count of that collocate are incremented, the other collocate
nodes, `occupied` and the counter of unique n-grams are unchanged.  If `h` was stored and `c`
was not, the count of `h` is incremented, a collocate node of count 1 is appended to the nodes
and to the frequency index of `h`, and the counter of unique n-grams is incremented.  If `h`
was new, `occupied` and the counter of unique n-grams are incremented, the node of `h` has
count 1 and its frequency index holds the one new collocate node of count 1. -/
theorem InsertNGram_frame (lm : State) (t : head_table) (h c : String)
    (ht : lm.main_table = some t) (hok : TrainedOK lm.ngram_size t lm.unique_ngrams_count)
    (hcl : CleanOK lm.ngram_size t) (hn : 2 ≤ lm.ngram_size) (hroom : t.occupied < t.capacity)
    (hcap : ∀ b node, slot t.table b = some node → node.collocates.capacity ≤ 2147483648) :
    ∃ (b : Nat) (node' : headword_node) (lm' : State) (t' : head_table),
      InsertNGram lm h c = some ((b : Int), lm') ∧ lm'.main_table = some t' ∧
      t'.table = t.table.set b (some node') ∧ t'.capacity = t.capacity ∧ b < t.capacity ∧
      node'.headword = h ∧ node'.deleted = false ∧ FindHeadword lm' h = some b ∧
      (∀ b0 node p, slot t.table b0 = some node → node.headword = h → p < node.heap.length →
        (deref node.heap p).collocate = c →
        b = b0 ∧ t'.occupied = t.occupied ∧
        lm'.unique_ngrams_count = lm.unique_ngrams_count ∧
        node'.count = uadd node.count 1 ∧ node'.frequencies = node.frequencies ∧
        node'.heap.length = node.heap.length ∧
        (deref node'.heap p).count = uadd (deref node.heap p).count 1 ∧
        ∀ q, q ≠ p → deref node'.heap q = deref node.heap q) ∧
      (∀ b0 node, slot t.table b0 = some node → node.headword = h →
        (∀ p, p < node.heap.length → (deref node.heap p).collocate ≠ c) →
        b = b0 ∧ t'.occupied = t.occupied ∧
        lm'.unique_ngrams_count = uadd lm.unique_ngrams_count 1 ∧
        node'.count = uadd node.count 1 ∧ node'.heap = node.heap ++ [InitCollocate c] ∧
        node'.frequencies = node.frequencies ++ [node.heap.length]) ∧
      ((∀ b0 node, slot t.table b0 = some node → node.headword ≠ h) →
        t'.occupied = t.occupied + 1 ∧
        lm'.unique_ngrams_count = uadd lm.unique_ngrams_count 1 ∧
        node'.count = 1 ∧ node'.heap = [InitCollocate c] ∧ node'.frequencies = [0]) := by
  have hne : lm.ngram_size ≠ 1 := by omega
  obtain ⟨b, node', lm', t', hins, ht', htab, hcp, hb, hh, hd, hfind, hcase⟩ :=
    InsertNGram_frame_core h c ht hok hcl hn hroom hcap
  refine ⟨b, node', lm', t', hins, ht', htab, hcp, hb, hh, hd, hfind, ?_, ?_, ?_⟩
  · intro b0 node p hs hk hp hkc
    rcases hcase with ⟨node1, hs1, hk1, hocc, hcount, hin⟩ | ⟨hnew, _⟩
    · have hbb := hcl.tbl.keys b b0 node1 node hs1 hs (hk1.trans hk.symm)
      subst hbb
      rw [hs] at hs1
      cases hs1
      rcases hin with ⟨p', hp', hk', hheap, hfreq, hu⟩ | ⟨hno, _⟩
      · have hnc := hcl.nodes hne b node hs
        obtain ⟨b1, hb1⟩ := hnc.onto p hp
        obtain ⟨b2, hb2⟩ := hnc.onto p' hp'
        have hbb := hnc.tbl.keys b1 b2 p p' hb1 hb2 (hkc.trans hk'.symm)
        subst hbb
        rw [hb1] at hb2
        cases hb2
        refine ⟨rfl, hocc, hu, hcount, hfreq, ?_, ?_, ?_⟩
        · rw [hheap, length_bump]
        · rw [hheap]
          unfold bumpCount
          rw [deref_set, if_pos ⟨rfl, hp⟩]
        · intro q hq
          rw [hheap]
          unfold bumpCount
          rw [deref_set, if_neg (fun hc => hq hc.1)]
      · exact absurd hkc (hno p hp)
    · exact absurd hk (hnew b0 node hs)
  · intro b0 node hs hk hno
    rcases hcase with ⟨node1, hs1, hk1, hocc, hcount, hin⟩ | ⟨hnew, _⟩
    · have hbb := hcl.tbl.keys b b0 node1 node hs1 hs (hk1.trans hk.symm)
      subst hbb
      rw [hs] at hs1
      cases hs1
      rcases hin with ⟨p', hp', hk', _⟩ | ⟨_, hheap, hfreq, hu⟩
      · exact absurd hk' (hno p' hp')
      · exact ⟨rfl, hocc, hu, hcount, hheap, hfreq⟩
    · exact absurd hk (hnew b0 node hs)
  · intro hnew
    rcases hcase with ⟨node1, hs1, hk1, _⟩ | ⟨_, hocc, hcount, hheap, hfreq, hu⟩
    · exact absurd hk1 (hnew b node1 hs1)
    · exact ⟨hocc, hu, hcount, hheap, hfreq⟩

theorem InsertNGram_frame_witness :
    ∃ (lm : State) (b : Nat) (lm' : State),
      Train (init 2) ⟨1, some ["to", "be", "to"]⟩ = some (true, lm) ∧
      InsertNGram lm "to" "be" = some ((b : Int), lm') ∧ FindHeadword lm' "to" = some b := by
  have h1 : (Train (init 2) ⟨1, some ["to", "be", "to"]⟩).map
      (fun p => p.2.main_table.map fun t => (decide (t.occupied < t.capacity),
        t.table.all fun s => match s with
          | some nd => decide (nd.collocates.capacity ≤ 2147483648)
          | none => true)) = some (some (true, true)) := by
    decide
  cases h : Train (init 2) ⟨1, some ["to", "be", "to"]⟩ with
  | none =>
    rw [h] at h1
    cases h1
  | some p =>
    obtain ⟨r, lm⟩ := p
    rw [h] at h1
    have hok0 : StateOK (init 2) := ⟨rfl, rfl, rfl⟩
    obtain ⟨hok, hsz, _⟩ := Train_spec h hok0
    obtain ⟨hr, _, t, ht, hcl, _⟩ := Train_clean hok0 (by decide) (by decide) rfl h
    subst hr
    simp only [Option.map_some', ht, Option.some.injEq, Prod.mk.injEq, decide_eq_true_eq] at h1
    obtain ⟨hroom, hall⟩ := h1
    have hokt : TrainedOK lm.ngram_size t lm.unique_ngrams_count := by
      unfold StateOK at hok
      rw [ht] at hok
      exact hok
    have hsz' : lm.ngram_size = 2 := hsz
    have hcap : ∀ b node, slot t.table b = some node →
        node.collocates.capacity ≤ 2147483648 := by
      intro b node hs
      rw [List.all_eq_true] at hall
      have := hall (some node) (slot_some_mem hs)
      simpa using this
    obtain ⟨b, _, lm', _, hins, _, _, _, _, _, _, hfind, _⟩ := InsertNGram_frame lm t "to" "be" ht
      hokt (by rw [hsz']; exact hcl) (by omega) hroom hcap
    exact ⟨lm, b, lm', rfl, hins, hfind⟩

end LM

namespace LM

/-! ## The load around the resize checks -/

/-- The load check before an insertion: the table stays as it is with a load that is not above
one half, or is rebuilt with a larger capacity; in both cases it has room. -/
theorem growCheck {α : Type} (keyOf : α → String) (dead : α → Bool) {t t' : hash_table α}
    (hok : TableOK dead t)
    (h : (if (tableLoad t).gtHalf then resize keyOf dead t else some t) = some t') :
    TableOK dead t' ∧ t'.occupied = t.occupied ∧ t'.occupied < t'.capacity ∧
    (((tableLoad t).gtHalf = false ∧ t' = t) ∨
      ((tableLoad t).gtHalf = true ∧ t.capacity < t'.capacity)) := by
  obtain ⟨hreh, hroom⟩ := loadCheck_room keyOf dead hok h
  refine ⟨hreh.ok, hreh.occupied hok, hroom, ?_⟩
  split_ifs at h with hg
  · right
    obtain ⟨h8, h2⟩ := gtHalf_not_lt _ hg
    have hr : resizeRequest (tableLoad t) t.capacity = some t.capacity := by
      unfold resizeRequest
      rw [h8, h2]
      rfl
    have hp := resize_request keyOf dead h hr
    exact ⟨hg, ladder_grow _ hok.ladder t'.capacity (by simpa using hp)⟩
  · left
    simp only [Option.some.injEq] at h
    exact ⟨by simpa using hg, h.symm⟩

/-- The load check after a deletion: the table stays as it is, with a load that is not below
one eighth or with capacity 7, or is rebuilt one step down the ladder. -/
theorem shrinkCheck {α : Type} (keyOf : α → String) (dead : α → Bool) {t t' : hash_table α}
    (hok : TableOK dead t)
    (h : (if (tableLoad t).ltEighth then resize keyOf dead t else some t) = some t') :
    TableOK dead t' ∧ t'.occupied = t.occupied ∧
    ((t' = t ∧ ((tableLoad t).ltEighth = false ∨ t.capacity = 7)) ∨
      ((tableLoad t).ltEighth = true ∧ 7 < t.capacity ∧ t'.capacity < t.capacity ∧
        7 ≤ t'.capacity ∧ t.capacity ≤ 4 * t'.capacity)) := by
  have hcap := ladder_bounds _ hok.ladder
  split_ifs at h with h8
  · have hreh := resize_spec keyOf dead hok h
    refine ⟨hreh.ok, hreh.occupied hok, ?_⟩
    by_cases h7 : 7 < t.capacity
    · right
      have hr : resizeRequest (tableLoad t) t.capacity =
          some (2 ^ (PowerOfTwoExponent t.capacity - 2)) := by
        unfold resizeRequest
        rw [if_pos (by
          simp only [Bool.and_eq_true, decide_eq_true_eq]
          exact ⟨h8, by unfold MIN_SIZE; omega⟩)]
      have hp := resize_request keyOf dead h hr
      have hshrink := ladder_shrink _ hok.ladder h7 t'.capacity (by simpa using hp)
      have hmem := ladder_bounds _ (PrimeSize_mem_ladder hp)
      exact ⟨h8, h7, hshrink.2, hmem.1, hshrink.1⟩
    · left
      have h7' : t.capacity = 7 := by omega
      have hsame : resize keyOf dead t = some t := by
        apply resize_same
        unfold resizeRequest
        rw [if_neg (by
          simp only [Bool.and_eq_true, decide_eq_true_eq]
          unfold MIN_SIZE
          omega), if_pos (ltEighth_ltHalf _ h8)]
      rw [hsame] at h
      simp only [Option.some.injEq] at h
      exact ⟨h.symm, Or.inr h7'⟩
  · simp only [Option.some.injEq] at h
    subst h
    exact ⟨hok, rfl, Or.inl ⟨rfl, Or.inl (by simpa using h8)⟩⟩

/-- The load check of the ingestion loop as a check of the main table. -/
theorem growHead_check {lm lm1 : State} {t : head_table} (ht : lm.main_table = some t)
    (hok : TableOK headword_node.deleted t)
    (h : (if (GetHeadTableLoad lm.main_table).gtHalf then ResizeHeadTable lm else some lm) =
      some lm1) :
    ∃ t1, lm1 = { lm with main_table := some t1 } ∧
      (if (tableLoad t).gtHalf then
        resize headword_node.headword headword_node.deleted t else some t) = some t1 := by
  obtain ⟨t1, rfl, _⟩ := growHead_spec ht hok h
  refine ⟨t1, rfl, ?_⟩
  unfold ResizeHeadTable at h
  rw [ht] at h
  unfold GetHeadTableLoad at h
  dsimp only at h
  split_ifs at h ⊢ with hg
  · cases hr2 : resize headword_node.headword headword_node.deleted t with
    | none => rw [hr2] at h; simp at h
    | some nt2 =>
      rw [hr2] at h
      simp only [Option.map_some', Option.some.injEq] at h
      have := congrArg State.main_table h
      exact this
  · simp only [Option.some.injEq] at h
    have := congrArg State.main_table h
    dsimp only at this
    rw [← this, ht]

/-- The load check of `InsertCollocate` as a check of the subtable. -/
theorem growIfLoaded_check {hw hw1 : headword_node} (h : growIfLoaded hw = some hw1) :
    hw1 = { hw with collocates := hw1.collocates } ∧
      (if (tableLoad hw.collocates).gtHalf then
        resize (ckey hw.heap) (cdead hw.heap) hw.collocates else some hw.collocates) =
        some hw1.collocates := by
  unfold growIfLoaded ResizeCollocateTable GetCollocateTableLoad at h
  split_ifs at h ⊢ with hg
  · cases hr2 : resize (ckey hw.heap) (cdead hw.heap) hw.collocates with
    | none => rw [hr2] at h; simp at h
    | some nt2 =>
      rw [hr2] at h
      simp only [Option.map_some', Option.some.injEq] at h
      subst h
      exact ⟨rfl, rfl⟩
  · simp only [Option.some.injEq] at h
    subst h
    exact ⟨rfl, rfl⟩

/-- `InsertNGram` keeps the capacity of the main table and adds at most one to `occupied`. -/
theorem InsertNGram_size {lm lm' : State} {hd c : String} {st : Int}
    (h : InsertNGram lm hd c = some (st, lm')) {t : head_table} (ht : lm.main_table = some t)
    (hok : TableOK headword_node.deleted t) :
    ∃ t', lm'.main_table = some t' ∧ t'.capacity = t.capacity ∧
      (t'.occupied = t.occupied ∨ t'.occupied = t.occupied + 1) := by
  have hocc : uadd t.occupied 1 = t.occupied + 1 := by
    apply uadd_one_of_lt
    have := ladder_max _ hok.ladder
    have : t.occupied ≤ t.capacity := by
      rw [hok.occ, ← hok.len]; exact liveCount_le _ _
    unfold UMOD
    omega
  rcases InsertNGram_cases h with ⟨hnone, _, _⟩ | ⟨t0, ht0, hcase⟩
  · rw [ht] at hnone
    cases hnone
  · rw [ht] at ht0
    cases ht0
    rcases hcase with ⟨_, _, rfl⟩ | ⟨b, _, _, hcase⟩ | ⟨b, node, _, _, _, hcase⟩
    · exact ⟨t, ht, rfl, Or.inl rfl⟩
    · rcases hcase with ⟨_, rfl⟩ | ⟨_, st2, hins⟩
      · exact ⟨_, rfl, rfl, Or.inr hocc⟩
      · obtain ⟨t0, _, _, _, _, ht0, _, _, _, rfl⟩ := InsertCollocate_cases hins
        simp only [withNewHead, Option.some.injEq] at ht0
        subst ht0
        exact ⟨_, rfl, rfl, Or.inr hocc⟩
    · rcases hcase with ⟨_, st2, hins⟩ | ⟨_, rfl⟩
      · obtain ⟨t0, _, _, _, _, ht0, _, _, _, rfl⟩ := InsertCollocate_cases hins
        simp only [withBumpedHead, Option.some.injEq] at ht0
        subst ht0
        exact ⟨_, rfl, rfl, Or.inl rfl⟩
      · exact ⟨_, rfl, rfl, Or.inl rfl⟩

/-- The probing loop of `InsertCollocate` keeps the capacity of the subtable. -/
theorem placeCollocate_capacity {hw : headword_node} (c : String) {st : Int}
    {hw' : headword_node} {created : Bool} (h : placeCollocate hw c = (st, hw', created)) :
    hw'.collocates.capacity = hw.collocates.capacity := by
  rcases placeCollocate_cases c h with ⟨_, _, _, _, rfl⟩ | ⟨_, _, _, _, _, _, _, rfl⟩ |
    ⟨_, _, _, rfl⟩ <;> rfl

/-- The load check of `DeleteHeadword` as a check of the main table. -/
theorem shrinkHead_check (S : State) {lm2 : State} (t1 : head_table)
    (h : (if (GetHeadTableLoad S.main_table).ltEighth then ResizeHeadTable S else some S) =
      some lm2) (hS : S.main_table = some t1) :
    ∃ t', lm2.main_table = some t' ∧
      (if (tableLoad t1).ltEighth then
        resize headword_node.headword headword_node.deleted t1 else some t1) = some t' := by
  rw [hS] at h
  unfold GetHeadTableLoad at h
  dsimp only at h
  split_ifs at h ⊢ with h8
  · unfold ResizeHeadTable at h
    rw [hS] at h
    dsimp only at h
    obtain ⟨t', hr, rfl⟩ := Option.map_eq_some'.mp h
    exact ⟨t', rfl, hr⟩
  · cases h
    exact ⟨t1, hS, rfl⟩

/-- The main table after `DeleteHeadword` of a live node that is not the last one. -/
theorem DeleteHeadword_check {lm lm' : State} {b : Nat} {r : Bool}
    (h : DeleteHeadword lm b = some (r, lm')) {t : head_table} {node : headword_node}
    (ht : lm.main_table = some t) (htbl : TableOK headword_node.deleted t)
    (hs : slot t.table b = some node) (hd : node.deleted = false) (h1 : t.occupied ≠ 1) :
    ∃ t', lm'.main_table = some t' ∧ t'.occupied + 1 = t.occupied ∧
      ((t'.capacity = t.capacity ∧ ((tableLoad t').ltEighth = false ∨ t.capacity = 7)) ∨
        (7 < t.capacity ∧ t'.capacity < t.capacity ∧ 7 ≤ t'.capacity ∧
          t.capacity ≤ 4 * t'.capacity)) := by
  have hblen := slot_some_lt hs
  unfold DeleteHeadword at h
  rw [ht] at h
  simp only at h
  rw [if_neg h1, hs] at h
  simp only at h
  have hlive := slotSum_set (fun s => if liveSlot headword_node.deleted s then 1 else 0) t.table b
    (some { node with deleted := true }) hblen
  rw [hs, ← liveCount_eq_slotSum, ← liveCount_eq_slotSum] at hlive
  simp only [liveSlot, hd, Bool.not_false, ↓reduceIte, Bool.not_true, Bool.false_eq_true,
    Nat.add_zero] at hlive
  have hcap := (ladder_bounds _ htbl.ladder).2
  have hle : t.occupied ≤ t.capacity := by
    rw [htbl.occ, ← htbl.len]; exact liveCount_le _ _
  have hocc : usub t.occupied 1 = t.occupied - 1 :=
    usub_of_le (by omega) (by rw [htbl.occ]; omega)
  have hpos : 1 ≤ t.occupied := by rw [htbl.occ]; omega
  have htbl1 : TableOK headword_node.deleted
      { t with table := t.table.set b (some { node with deleted := true }),
               occupied := usub t.occupied 1 } := by
    refine ⟨by simpa using htbl.len, htbl.ladder, ?_⟩
    simp only
    rw [hocc, htbl.occ]
    omega
  obtain ⟨lm2, hlm2, heq⟩ := Option.map_eq_some'.mp h
  simp only [Prod.mk.injEq] at heq
  obtain ⟨_, rfl⟩ := heq
  obtain ⟨t1, ht1⟩ : ∃ t1 : head_table, t1 = { t with table := t.table.set b (some { node with deleted := true }), occupied := usub t.occupied 1 } :=
    ⟨_, rfl⟩
  rw [← ht1] at hlm2 htbl1
  have hchk := shrinkHead_check { lm with main_table := some t1, unique_ngrams_count := usub lm.unique_ngrams_count 1, tokens := usub lm.tokens node.count, ngrams_total := usub lm.ngrams_total node.count } t1 hlm2 rfl
  obtain ⟨t', ht', hchk'⟩ := hchk
  obtain ⟨_, ho, hcases⟩ := shrinkCheck _ _ htbl1 hchk'
  have hc1 : t1.capacity = t.capacity := by rw [ht1]
  have ho1 : t1.occupied = usub t.occupied 1 := by rw [ht1]
  refine ⟨t', ht', ?_, ?_⟩
  · rw [ho, ho1]
    omega
  · rcases hcases with ⟨rfl, hc⟩ | ⟨_, h7, hlt, h7', h4⟩
    · rw [hc1] at hc
      exact Or.inl ⟨hc1, hc⟩
    · rw [hc1] at h7 hlt h4
      exact Or.inr ⟨h7, hlt, h7', h4⟩

/-- The load check of `DeleteCollocate` as a check of the subtable. -/
theorem shrinkNode_check (hw1 : headword_node) {hw2 : headword_node}
    (h : (if (GetCollocateTableLoad hw1.collocates).ltEighth then ResizeCollocateTable hw1
      else some hw1) = some hw2) :
    (if (tableLoad hw1.collocates).ltEighth then
      resize (ckey hw1.heap) (cdead hw1.heap) hw1.collocates else some hw1.collocates) =
      some hw2.collocates := by
  unfold GetCollocateTableLoad ResizeCollocateTable at h
  split_ifs at h ⊢ with h8
  · obtain ⟨nt, hr, rfl⟩ := Option.map_eq_some'.mp h
    exact hr
  · cases h
    rfl

/-- The subtable after `DeleteCollocate` of a live collocate that is not the last one. -/
theorem DeleteCollocate_check {lm lm' : State} {b p : Nat} {r : Bool}
    (h : DeleteCollocate lm b p = some (r, lm')) {t : head_table} {hw : headword_node}
    (ht : lm.main_table = some t) (hs : slot t.table b = some hw) (hnode : NodeOK hw)
    {b0 : Nat} (hp : slot hw.collocates.table b0 = some p) (hpl : cdead hw.heap p = false)
    (hone : hw.collocates.occupied ≠ 1) (hpos : hw.frequencies.indexOf p < hw.frequencies.length) :
    ∃ t' hw2, lm'.main_table = some t' ∧ slot t'.table b = some hw2 ∧
      hw2.collocates.occupied + 1 = hw.collocates.occupied ∧
      ((hw2.collocates.capacity = hw.collocates.capacity ∧
          ((tableLoad hw2.collocates).ltEighth = false ∨ hw.collocates.capacity = 7)) ∨
        (7 < hw.collocates.capacity ∧ hw2.collocates.capacity < hw.collocates.capacity ∧
          7 ≤ hw2.collocates.capacity ∧
          hw.collocates.capacity ≤ 4 * hw2.collocates.capacity)) := by
  have hblen := slot_some_lt hs
  rcases DeleteCollocate_cases h ht hs with
    ⟨h1, _⟩ | ⟨_, _, _, hw2, hr, rfl⟩ | ⟨_, hno, _, _⟩
  · exact absurd h1 hone
  · have hnode1 := NodeOK_mark hnode hp hpl (hw.frequencies.eraseIdx (hw.frequencies.indexOf p))
    have hchk := shrinkNode_check { hw with frequencies := hw.frequencies.eraseIdx (hw.frequencies.indexOf p), heap := markDeleted hw.heap p, collocates := { hw.collocates with occupied := usub hw.collocates.occupied 1 } } hr
    obtain ⟨_, ho, hcases⟩ := shrinkCheck _ _ hnode1.tbl hchk
    have hmark := liveCount_mark hnode hp hpl
    have hocc1 : 1 ≤ hw.collocates.occupied := by
      rw [hnode.tbl.occ]; omega
    have hcap := (ladder_bounds _ hnode.tbl.ladder).2
    have hle : hw.collocates.occupied ≤ hw.collocates.capacity := by
      rw [hnode.tbl.occ, ← hnode.tbl.len]; exact liveCount_le _ _
    have hocc : usub hw.collocates.occupied 1 = hw.collocates.occupied - 1 :=
      usub_of_le (by omega) hocc1
    dsimp only at ho hcases
    refine ⟨_, hw2, rfl, slot_set_self _ _ _ hblen, by rw [ho, hocc]; omega, ?_⟩
    rcases hcases with ⟨he, hc⟩ | ⟨_, h7, hlt, h7', h4⟩
    · refine Or.inl ⟨by rw [he], ?_⟩
      rw [he]
      exact hc
    · exact Or.inr ⟨h7, hlt, h7', h4⟩
  · exact absurd hpos hno

/-- C33 (amended): the load check of an insertion comes before the insertion and the load check
of a deletion shrinks by one step of the size ladder.  On well-formed tables: when the probing
loop of `InsertNGram` in the ingestion loop or of `InsertCollocate` starts, `occupied` is below
the capacity, and the check has left the table with a load that is not above 1/2 or has rebuilt
it with a larger capacity; the insertion keeps the capacity and adds at most 1 to `occupied`.
After `DeleteHeadword` and `DeleteCollocate` of an entry that is not the last one, `occupied` is
one less, and the table has its capacity and a load that is not below 1/8, or has capacity 7, or
is rebuilt with a smaller capacity `c'` with `7 ≤ c'` and `c ≤ 4 c'`. -/
theorem load_around_checks :
    (∀ (lm lm1 : State) (t : head_table), lm.main_table = some t →
      TableOK headword_node.deleted t →
      (if (GetHeadTableLoad lm.main_table).gtHalf then ResizeHeadTable lm else some lm) =
        some lm1 →
      ∃ t1, lm1.main_table = some t1 ∧ t1.occupied = t.occupied ∧
        t1.occupied < t1.capacity ∧
        (((tableLoad t).gtHalf = false ∧ t1 = t) ∨
          ((tableLoad t).gtHalf = true ∧ t.capacity < t1.capacity)) ∧
        ∀ (h c : String) (st : Int) (lm2 : State), InsertNGram lm1 h c = some (st, lm2) →
          ∃ t2, lm2.main_table = some t2 ∧ t2.capacity = t1.capacity ∧
            (t2.occupied = t1.occupied ∨ t2.occupied = t1.occupied + 1)) ∧
    (∀ (lm lm' : State) (t : head_table) (b : Nat) (hw : headword_node) (c : String) (st : Int),
      lm.main_table = some t → slot t.table b = some hw → NodeOK hw →
      InsertCollocate lm b c = some (st, lm') →
      ∃ hw1 hw' t', growIfLoaded hw = some hw1 ∧
        hw1.collocates.occupied = hw.collocates.occupied ∧
        hw1.collocates.occupied < hw1.collocates.capacity ∧
        (((tableLoad hw.collocates).gtHalf = false ∧ hw1.collocates = hw.collocates) ∨
          ((tableLoad hw.collocates).gtHalf = true ∧
            hw.collocates.capacity < hw1.collocates.capacity)) ∧
        lm'.main_table = some t' ∧ slot t'.table b = some hw' ∧
        hw'.collocates.capacity = hw1.collocates.capacity ∧
        (hw'.collocates.occupied = hw1.collocates.occupied ∨
          hw'.collocates.occupied = hw1.collocates.occupied + 1)) ∧
    (∀ (lm lm' : State) (t : head_table) (b : Nat) (node : headword_node) (r : Bool),
      lm.main_table = some t → TableOK headword_node.deleted t →
      slot t.table b = some node → node.deleted = false → t.occupied ≠ 1 →
      DeleteHeadword lm b = some (r, lm') →
      ∃ t', lm'.main_table = some t' ∧ t'.occupied + 1 = t.occupied ∧
        ((t'.capacity = t.capacity ∧ ((tableLoad t').ltEighth = false ∨ t.capacity = 7)) ∨
          (7 < t.capacity ∧ t'.capacity < t.capacity ∧ 7 ≤ t'.capacity ∧
            t.capacity ≤ 4 * t'.capacity))) ∧
    (∀ (lm lm' : State) (t : head_table) (b p b0 : Nat) (hw : headword_node) (r : Bool),
      lm.main_table = some t → slot t.table b = some hw → NodeOK hw →
      slot hw.collocates.table b0 = some p → (deref hw.heap p).deleted = false →
      hw.collocates.occupied ≠ 1 → p ∈ hw.frequencies →
      DeleteCollocate lm b p = some (r, lm') →
      ∃ t' hw2, lm'.main_table = some t' ∧ slot t'.table b = some hw2 ∧
        hw2.collocates.occupied + 1 = hw.collocates.occupied ∧
        ((hw2.collocates.capacity = hw.collocates.capacity ∧
            ((tableLoad hw2.collocates).ltEighth = false ∨ hw.collocates.capacity = 7)) ∨
          (7 < hw.collocates.capacity ∧ hw2.collocates.capacity < hw.collocates.capacity ∧
            7 ≤ hw2.collocates.capacity ∧
            hw.collocates.capacity ≤ 4 * hw2.collocates.capacity))) := by
  refine ⟨?_, ?_, ?_, ?_⟩
  · intro lm lm1 t ht hok h
    obtain ⟨t1, rfl, hchk⟩ := growHead_check ht hok h
    obtain ⟨hok1, ho, hroom, hcases⟩ := growCheck _ _ hok hchk
    refine ⟨t1, rfl, ho, hroom, hcases, ?_⟩
    intro hd c st lm2 h2
    exact InsertNGram_size h2 (t := t1) rfl hok1
  · intro lm lm' t b hw c st ht hs hnode h
    obtain ⟨t0, hw0, hw1, hw', created, ht0, hs0, hg, hpl, rfl⟩ := InsertCollocate_cases h
    rw [ht] at ht0
    cases ht0
    rw [hs] at hs0
    cases hs0
    obtain ⟨_, hchk⟩ := growIfLoaded_check hg
    obtain ⟨_, ho, hroom, hcases⟩ := growCheck _ _ hnode.tbl hchk
    obtain ⟨hok1, _⟩ := growIfLoaded_room hnode hg
    obtain ⟨_, _, _, _, hocc', _⟩ := placeCollocate_spec hok1 c hpl
    refine ⟨hw1, hw', _, hg, ho, hroom, hcases, rfl, slot_set_self _ _ _ (slot_some_lt hs),
      placeCollocate_capacity c hpl, ?_⟩
    rw [hocc']
    cases created
    · exact Or.inl rfl
    · exact Or.inr rfl
  · intro lm lm' t b node r ht hok hs hd h1 h
    exact DeleteHeadword_check h ht hok hs hd h1
  · intro lm lm' t b p b0 hw r ht hs hnode hp hpl hone hmem h
    exact DeleteCollocate_check h ht hs hnode hp hpl hone (List.indexOf_lt_length.mpr hmem)

theorem load_around_checks_witness :
    ∃ lm1 t1, ResizeHeadTable { init 1 with main_table := some sampleTable } = some lm1 ∧
      lm1.main_table = some t1 ∧ t1.occupied = 4 ∧ t1.occupied < t1.capacity ∧
      7 < t1.capacity := by
  have h1 : (ResizeHeadTable { init 1 with main_table := some sampleTable }).isSome = true := by
    decide
  cases h : ResizeHeadTable { init 1 with main_table := some sampleTable } with
  | none =>
    rw [h] at h1
    cases h1
  | some lm1 =>
    obtain ⟨t1, ht1, ho, hroom, hcases, _⟩ := load_around_checks.1
      { init 1 with main_table := some sampleTable } lm1 sampleTable rfl
      ⟨by decide, by decide, by decide⟩ h
    refine ⟨lm1, t1, rfl, ht1, ho, hroom, ?_⟩
    rcases hcases with ⟨hg, _⟩ | ⟨_, hlt⟩
    · exact absurd hg (by decide)
    · exact hlt

/-- Loads outside the interval from 1/8 to 1/2 right after an insertion or a deletion: 4 of 7
slots after the last `InsertNGram` of a `Train` on four words, 4 of 7 slots in the subtable of
"h" after four `InsertCollocate`, 1 of 257 slots after a `Train` with estimate 100, and 1 of 11
slots after a `DeleteHeadword` that has shrunk the table from capacity 17. -/
theorem load_outside_bounds :
    (Train (init 1) ⟨1, some ["a", "b", "c", "d"]⟩).map
      (fun p => p.2.main_table.map fun t => (t.capacity, t.occupied)) = some (some (7, 4)) ∧
    (Train (init 2) ⟨1, some ["h", "a", "h", "b", "h", "c", "h", "d"]⟩).map
      (fun p => p.2.main_table.map fun t => t.table.filterMap fun s => s.bind fun nd =>
        if nd.headword = "h" then some (nd.collocates.capacity, nd.collocates.occupied)
        else none) = some (some [(7, 4)]) ∧
    (Train (init 1) ⟨100, some ["a"]⟩).map
      (fun p => p.2.main_table.map fun t => (t.capacity, t.occupied)) = some (some (257, 1)) ∧
    ((Train (init 1) ⟨6, some ["a", "b"]⟩).bind fun p => (Remove p.2 "a").map
      fun q => (p.2.main_table.map fun t => (t.capacity, t.occupied),
        q.2.main_table.map fun t => (t.capacity, t.occupied))) =
      some (some (17, 2), some (11, 1)) := by
  decide

end LM

namespace LM

/-! ## The windows held after a history of `Train` and `Grow` calls -/

theorem Holds_empty {n : Nat} {t : head_table} (hempty : ∀ b, slot t.table b = none) :
    Holds n t [] := by
  refine ⟨⟨Clean.empty _ _ hempty, ?_, ?_⟩, ?_, ?_, ?_, ?_⟩
  · intro _ b node hs
    rw [hempty b] at hs
    cases hs
  · intro b node hs
    rw [hempty b] at hs
    cases hs
  · intro b node hs
    rw [hempty b] at hs
    cases hs
  · intro b node hs
    rw [hempty b] at hs
    cases hs
  · intro h c
    rw [slotSum_zero _ _ (fun b _ => by rw [hempty b]; rfl)]
    rfl
  · intro _ b node hs
    rw [hempty b] at hs
    cases hs

theorem Source.short_spec {src : Source} {ws : List String} (hs : Source.short src = true)
    (hw : src.words = some ws) :
    ws.length < 2147483648 ∧ ∀ t ∈ ws, noSpace (stripPunct t) = true := by
  unfold Source.short at hs
  rw [hw] at hs
  simp only [Bool.and_eq_true, decide_eq_true_eq, List.all_eq_true] at hs
  exact hs

/-- One `Train` or `Grow` call on a short source takes a model that holds the windows `W` to a
model that holds `windowsAfter`. -/
theorem applyOp_windows {n : Nat} {op : Op} {lm lm' : State} {r : Bool}
    {W : List (List String)} (h : applyOp lm op = some (r, lm')) (hop : Op.reads op = true)
    (hok : StateOK lm) (hn : 1 ≤ n) (hsz : lm.ngram_size = n)
    (hh : ∀ t, lm.main_table = some t → Holds n t (W.map pairOf))
    (hW : ∀ w ∈ W, w.length = n ∧ ∀ x ∈ w, noSpace x = true) :
    StateOK lm' ∧ lm'.ngram_size = n ∧
    (∀ t, lm'.main_table = some t → Holds n t ((windowsAfter lm W op).map pairOf)) ∧
    (∀ w ∈ windowsAfter lm W op, w.length = n ∧ ∀ x ∈ w, noSpace x = true) := by
  cases op with
  | remove k => cases hop
  | train src =>
    have h' : Train lm src = some (r, lm') := h
    have hs : Source.short src = true := hop
    obtain ⟨hok', hsz', hneg, _⟩ := Train_spec h' hok
    refine ⟨hok', by rw [hsz', hsz], ?_⟩
    by_cases hest : src.estimate < 0
    · rw [hneg hest]
      simp only [windowsAfter, if_pos hest]
      exact ⟨hh, hW⟩
    · simp only [windowsAfter, if_neg hest]
      obtain ⟨t0, hi, hcase⟩ := Train_unfold hok h' (by omega)
      obtain ⟨_, hempty⟩ := InitTable_ok headword_node.deleted hi
      rcases hcase with ⟨hnone, _, rfl⟩ | ⟨ws, hws, hing⟩
      · rw [hnone]
        refine ⟨?_, ?_⟩
        · intro t ht
          cases ht
          exact Holds_empty hempty
        · intro w hw
          cases hw
      · rw [hws]
        obtain ⟨hlen, hplain⟩ := Source.short_spec hs hws
        obtain ⟨hr, _⟩ := Train_clean hok (by omega) (by omega) hws h'
        subst hr
        obtain ⟨_, t, ht, hh'⟩ := Train_holds hok (by omega) hws h'
        rw [hsz, ingestPairs_eq_windows hn ws hlen] at hh'
        refine ⟨?_, ?_⟩
        · intro t' ht'
          rw [ht] at ht'
          cases ht'
          rw [hsz]
          exact hh'
        · rw [hsz]
          exact windows_plain hplain
  | grow src =>
    have h' : Grow lm src = some (r, lm') := h
    have hop' : src.estimate ≤ MAX_ESTIMATE ∧ Source.short src = true := by
      simpa [Op.reads] using hop
    obtain ⟨hmax, hs⟩ := hop'
    obtain ⟨hok', hsz', hnone, hneg, _⟩ := Grow_spec h' hok hmax
    refine ⟨hok', by rw [hsz', hsz], ?_⟩
    cases ht : lm.main_table with
    | none =>
      rw [hnone ht]
      simp only [windowsAfter, ht, Option.isSome_none, Bool.false_and, Bool.false_eq_true,
        if_false]
      exact ⟨fun t' ht' => (by cases ht'), hW⟩
    | some t =>
      by_cases hest : src.estimate < 0
      · rw [hneg hest]
        have : decide (0 ≤ src.estimate) = false := by
          simp only [decide_eq_false_iff_not]
          omega
        simp only [windowsAfter, this, Bool.and_false, Bool.false_eq_true, if_false]
        exact ⟨hh, hW⟩
      · have hd : decide (0 ≤ src.estimate) = true := by
          simp only [decide_eq_true_eq]
          omega
        simp only [windowsAfter, ht, hd, Option.isSome_some, Bool.and_self, if_true]
        have hokt : TrainedOK lm.ngram_size t lm.unique_ngrams_count := by
          unfold StateOK at hok
          rw [ht] at hok
          exact hok
        obtain ⟨nt, t1, hnew, hempty, hroom, rfl, hcase⟩ :=
          Grow_unfold ht hokt (by omega) hmax h'
        rcases hcase with ⟨hwn, _, rfl⟩ | ⟨ws, hws, hing⟩
        · rw [hwn]
          refine ⟨?_, hW⟩
          intro t' ht'
          cases ht'
          rw [← hsz]
          exact Holds.transfer (by rw [hsz]; exact hh t ht) hokt hnew hempty hroom
        · rw [hws]
          obtain ⟨hlen, hplain⟩ := Source.short_spec hs hws
          have hreh := Rehashed.of_transfer headword_node.headword headword_node.deleted
            hokt.table hnew hempty hroom
          have hr := ingestAndSort_true hing rfl (hokt.rehashedMain hreh)
          subst hr
          obtain ⟨ws', hws', _, t2, ht2, hh2⟩ := Grow_holds ht hokt (by omega) hmax
            (by rw [hsz]; exact hh t ht) h'
          rw [hws] at hws'
          cases hws'
          rw [hsz, ingestPairs_eq_windows hn ws hlen, ← List.map_append] at hh2
          refine ⟨?_, ?_⟩
          · intro t' ht'
            rw [ht2] at ht'
            cases ht'
            rw [hsz]
            exact hh2
          · intro w hw
            rcases List.mem_append.mp hw with hw | hw
            · exact hW w hw
            · rw [hsz] at hw
              exact windows_plain hplain w hw

/-- A history of `Train` and `Grow` calls on short sources takes a model that holds the windows
`W` to a model that holds the windows computed by `runWindows`. -/
theorem runWindows_holds (n : Nat) (hn : 1 ≤ n) : ∀ (ops : List Op) (lm : State)
    (W : List (List String)) (lm' : State) (W' : List (List String)),
    ops.all Op.reads = true → StateOK lm → lm.ngram_size = n →
    (∀ t, lm.main_table = some t → Holds n t (W.map pairOf)) →
    (∀ w ∈ W, w.length = n ∧ ∀ x ∈ w, noSpace x = true) →
    runWindows lm W ops = some (lm', W') →
    StateOK lm' ∧ lm'.ngram_size = n ∧
    (∀ t, lm'.main_table = some t → Holds n t (W'.map pairOf)) ∧
    (∀ w ∈ W', w.length = n ∧ ∀ x ∈ w, noSpace x = true) := by
  intro ops
  induction ops with
  | nil =>
    intro lm W lm' W' _ hok hsz hh hW h
    simp only [runWindows, Option.some.injEq, Prod.mk.injEq] at h
    obtain ⟨rfl, rfl⟩ := h
    exact ⟨hok, hsz, hh, hW⟩
  | cons op ops ih =>
    intro lm W lm' W' hops hok hsz hh hW h
    simp only [List.all_cons, Bool.and_eq_true] at hops
    unfold runWindows at h
    cases ha : applyOp lm op with
    | none =>
      rw [ha] at h
      cases h
    | some p =>
      obtain ⟨r, lm1⟩ := p
      rw [ha] at h
      simp only [Option.some_bind] at h
      obtain ⟨hok1, hsz1, hh1, hW1⟩ := applyOp_windows ha hops.1 hok hn hsz hh hW
      exact ih lm1 _ lm' W' hops.2 hok1 hsz1 hh1 hW1 h

end LM

namespace LM

/-! ## The map of `CollocateCounts` -/

theorem collocateEntries_keys_nodup {node : headword_node} (hc : NodeClean node) :
    ((collocateEntries node).map Prod.fst).Nodup := by
  unfold collocateEntries
  rw [List.map_map]
  have hp := hc.freq.map (Prod.fst ∘ fun p =>
    ((deref node.heap p).collocate, toInt (deref node.heap p).count))
  rw [hp.nodup_iff]
  have := map_range_deref node.heap collocate_node.collocate
  exact this ▸ hc.keys_nodup

theorem mem_collocateEntries {node : headword_node} (hc : NodeClean node) (c : String) (v : Int) :
    (c, v) ∈ collocateEntries node ↔
      ∃ p, p < node.heap.length ∧ c = ckey node.heap p ∧ v = toInt (deref node.heap p).count := by
  unfold collocateEntries
  rw [List.mem_map]
  constructor
  · rintro ⟨p, hp, he⟩
    simp only [Prod.mk.injEq] at he
    exact ⟨p, (mem_frequencies hc p).mp hp, he.1.symm, he.2.symm⟩
  · rintro ⟨p, hp, rfl, rfl⟩
    exact ⟨p, (mem_frequencies hc p).mpr hp, rfl⟩

/-- On a model without tombstones `CollocateCounts` of a stored headword reads the collocate
nodes of its node, one entry for each. -/
theorem CollocateCounts_stored {lm : State} {t : head_table} (ht : lm.main_table = some t)
    (hok : TableOK headword_node.deleted t) (hcl : CleanOK lm.ngram_size t)
    (hn : 2 ≤ lm.ngram_size) {b : Nat} {node : headword_node}
    (hs : slot t.table b = some node) :
    CollocateCounts lm node.headword = collocateEntries node := by
  have hc := hcl.nodes (by omega) b node hs
  unfold CollocateCounts
  rw [ht]
  simp only
  rw [if_pos (by omega), FindHeadword_hit ht hcl.tbl hok hs]
  simp only [hs]
  have h1 := insertAll_nodup (collocateEntries node) []
    (by rw [List.nil_append]; exact collocateEntries_keys_nodup hc)
  rw [List.nil_append] at h1
  rw [← h1]
  unfold insertAll collocateEntries
  rw [List.foldl_map]

theorem headwordStored_of_slot {lm : State} {t : head_table} (ht : lm.main_table = some t)
    {b : Nat} {node : headword_node} (hs : slot t.table b = some node)
    (hd : node.deleted = false) : headwordStored lm node.headword = true := by
  unfold headwordStored
  rw [ht]
  simp only [List.any_eq_true]
  refine ⟨some node, ?_, by simp [hd]⟩
  have hb := slot_some_lt hs
  rw [slot_eq_getElem _ _ hb] at hs
  rw [← hs]
  exact List.getElem_mem _

theorem slot_of_headwordStored {lm : State} {h : String} (hst : headwordStored lm h = true) :
    ∃ t b node, lm.main_table = some t ∧ slot t.table b = some node ∧ node.deleted = false ∧
      node.headword = h := by
  unfold headwordStored at hst
  cases ht : lm.main_table with
  | none =>
    rw [ht] at hst
    cases hst
  | some t =>
    rw [ht] at hst
    simp only [List.any_eq_true] at hst
    obtain ⟨s, hs, hv⟩ := hst
    cases s with
    | none => cases hv
    | some node =>
      obtain ⟨b, _, hb⟩ := mem_slot hs
      simp only [Bool.and_eq_true, Bool.not_eq_true', beq_iff_eq] at hv
      exact ⟨t, b, node, rfl, hb, hv.1, hv.2⟩

/-- The map of `CollocateCounts` is empty for a headword that is not stored. -/
theorem CollocateCounts_absent {lm : State} {h : String} (hst : headwordStored lm h = false) :
    CollocateCounts lm h = [] := by
  unfold CollocateCounts
  cases ht : lm.main_table with
  | none => rfl
  | some t =>
    simp only
    split_ifs
    · cases hf : FindHeadword lm h with
      | none => rfl
      | some b =>
        obtain ⟨t', node, ht', hs, hd, hk⟩ := FindHeadword_sound hf
        have := headwordStored_of_slot ht' hs hd
        rw [hk, hst] at this
        cases this
    · rfl

theorem sum_toInt_small : ∀ (l : List Nat), (∀ x ∈ l, x < 2147483648) →
    (l.map toInt).sum = ((l.sum : Nat) : Int) := by
  intro l
  induction l with
  | nil => intro _; rfl
  | cons a r ih =>
    intro h
    simp only [List.map_cons, List.sum_cons, Nat.cast_add]
    rw [ih (fun x hx => h x (List.mem_cons_of_mem _ hx)),
      toInt_small (h a (List.mem_cons_self _ _))]

/-- In a model that holds the pairs `ps`, fewer than `2^31`, the counts of the collocates of a
node add to the count of its headword, without wrapping. -/
theorem Holds.heapSum_exact {n : Nat} {t : head_table} {ps : List (String × String)}
    (hh : Holds n t ps) (hn : n ≠ 1) (hlen : ps.length < 2147483648) {b : Nat}
    {node : headword_node} (hs : slot t.table b = some node) :
    heapSum node = node.count ∧ node.count ≤ ps.length := by
  have hc := hh.clean.nodes hn b node hs
  have hsum : heapSum node =
      ((heapKeys node).map fun c => pairHits n node.headword c ps).sum := by
    unfold heapSum heapKeys
    rw [← map_range_deref node.heap collocate_node.count,
      ← map_range_deref node.heap collocate_node.collocate, List.map_map]
    congr 1
    apply List.map_congr_left
    intro p hp
    rw [hh.count_exact hn hlen hs (List.mem_range.mp hp)]
    rfl
  have hle : heapSum node ≤ ps.length := by
    rw [hsum]
    exact sum_pairHits_le hn node.headword _ hc.keys_nodup ps
  have he : heapSum node = node.count :=
    (eq_of_mod_small (hh.clean.counts b node hs) (by unfold UMOD; omega)
      (hh.own hn b node hs)).symm
  exact ⟨he, by rw [← he]; exact hle⟩

end LM

namespace LM

theorem pairOf_head_plain {n : Nat} (hn : 1 ≤ n) {w : List String} (hl : w.length = n)
    (hw : ∀ x ∈ w, noSpace x = true) : noSpace (pairOf w).1 = true := by
  cases w with
  | nil =>
    simp only [List.length_nil] at hl
    omega
  | cons a r => exact hw a (List.mem_cons_self _ _)

/-- The map of `CollocateCounts` for the headword of a node of a model that holds the pairs of
the windows `W`, fewer than `2^31`, of tokens without white space. -/
theorem Holds.CollocateCounts_node {lm : State} {t : head_table} {W : List (List String)}
    (ht : lm.main_table = some t)
    (hokt : TrainedOK lm.ngram_size t lm.unique_ngrams_count) (hn : 2 ≤ lm.ngram_size)
    (hh : Holds lm.ngram_size t (W.map pairOf))
    (hW : ∀ w ∈ W, w.length = lm.ngram_size ∧ ∀ x ∈ w, noSpace x = true)
    (hlen : W.length < 2147483648) {b : Nat} {node : headword_node}
    (hs : slot t.table b = some node) :
    ((CollocateCounts lm node.headword).map Prod.fst).Nodup ∧
    (∀ c v, (c, v) ∈ CollocateCounts lm node.headword ↔
      ∃ w ∈ W, pairOf w = (node.headword, c) ∧ v = (W.count w : Int)) ∧
    (∀ c v, (c, v) ∈ CollocateCounts lm node.headword ↔
      (node.headword ++ " " ++ c, v) ∈ NGrams lm) ∧
    ((CollocateCounts lm node.headword).map Prod.snd).sum = (node.count : Int) := by
  have hn1 : lm.ngram_size ≠ 1 := by omega
  have hc := hh.clean.nodes hn1 b node hs
  have hlen' : (W.map pairOf).length < 2147483648 := by
    rw [List.length_map]
    exact hlen
  have hcnt : ∀ w ∈ W, W.count w < 2147483648 := fun w _ =>
    Nat.lt_of_le_of_lt (List.count_le_length _ _) hlen
  rw [CollocateCounts_stored ht hokt.table hh.clean hn hs]
  have iff1 : ∀ c v, (c, v) ∈ collocateEntries node ↔
      ∃ w ∈ W, pairOf w = (node.headword, c) ∧ v = (W.count w : Int) := by
    intro c v
    rw [mem_collocateEntries hc]
    constructor
    · rintro ⟨p, hp, rfl, rfl⟩
      have hmem : ckey node.heap p ∈ heapKeys node := by
        unfold ckey heapKeys
        rw [deref_eq_getElem _ _ hp]
        exact List.mem_map_of_mem _ (List.getElem_mem _)
      obtain ⟨w, hw, he⟩ := List.mem_map.mp (hh.pairs b node hs _ hmem)
      refine ⟨w, hw, he, ?_⟩
      have := pairHits_windows (by omega) hW hw
      rw [he] at this
      simp only at this
      rw [hh.count_exact hn1 hlen' hs hp, this, toInt_small (hcnt w hw)]
    · rintro ⟨w, hw, he, rfl⟩
      have hhit := pairHits_windows (by omega) hW hw
      rw [he] at hhit
      simp only at hhit
      have hne : pairHits lm.ngram_size node.headword c (W.map pairOf) ≠ 0 := by
        rw [hhit]
        exact Nat.pos_iff_ne_zero.mp (List.count_pos_iff.mpr hw)
      obtain ⟨b', node', hs', hk', hex⟩ := hh.stored_of_hits hlen' hne
      obtain ⟨p, hp, hkp⟩ := hex hn1
      have hb := hh.clean.tbl.keys b' b node' node hs' hs hk'
      subst hb
      rw [hs] at hs'
      cases hs'
      refine ⟨p, hp, hkp.symm, ?_⟩
      rw [hh.count_exact hn1 hlen' hs hp, hkp, hhit, toInt_small (hcnt w hw)]
  have hplain : noSpace node.headword = true := by
    obtain ⟨pr, hpr, he⟩ := hh.heads b node hs
    obtain ⟨w, hw, rfl⟩ := List.mem_map.mp hpr
    rw [← he]
    exact pairOf_head_plain (by omega) (hW w hw).1 (hW w hw).2
  refine ⟨collocateEntries_keys_nodup hc, iff1, ?_, ?_⟩
  · intro c v
    rw [iff1 c v, (hh.mem_windows_NGrams ht (by omega) hW hlen).2]
    constructor
    · rintro ⟨w, hw, he, hv⟩
      refine ⟨w, hw, ?_, hv⟩
      rw [he]
      unfold keyOfPair
      rw [if_neg hn1]
    · rintro ⟨w, hw, hk, hv⟩
      unfold keyOfPair at hk
      rw [if_neg hn1] at hk
      obtain ⟨e1, e2⟩ := key_inj hplain
        (pairOf_head_plain (by omega) (hW w hw).1 (hW w hw).2) hk
      exact ⟨w, hw, Prod.ext e1.symm e2.symm, hv⟩
  · obtain ⟨hsum, hle⟩ := hh.heapSum_exact hn1 hlen' hs
    rw [← hsum]
    unfold collocateEntries heapSum
    rw [List.map_map, ((hc.freq.map _).sum_eq),
      ← map_range_deref node.heap collocate_node.count, ← sum_toInt_small, List.map_map]
    · rfl
    · intro x hx
      obtain ⟨p, hp, rfl⟩ := List.mem_map.mp hx
      rw [hh.count_exact hn1 hlen' hs (List.mem_range.mp hp)]
      exact Nat.lt_of_le_of_lt (pairHits_le _ _ _ _) hlen'

/-- C21: let a model of order `n ≥ 2` be built from a new model by `Train` and `Grow` calls on
streams of tokens without white space, and let `W` be the windows of `n` stripped tokens that it
holds (`runWindows`), fewer than `2^31`.  Every stored headword `h` is the key of exactly one live
node, and the map `CollocateCounts h` has distinct keys: one for each collocate `c` such that the
window of `h` followed by `c` is in `W`, with the number of occurrences of that window in `W` as
its value.  The entry `(c, v)` is in `CollocateCounts h` exactly when `(h ++ " " ++ c, v)` is in
the map of `NGrams`, and the values add to the count of the node of `h`.  For a headword that is
not stored the map is empty. -/
theorem CollocateCounts_windows (n : Nat) (ops : List Op) (lm : State) (W : List (List String))
    (hn : 2 ≤ n) (hops : ops.all Op.reads = true)
    (hrun : runWindows (init n) [] ops = some (lm, W)) (hlen : W.length < 2147483648) :
    (∀ h, headwordStored lm h = true →
      ∃ t b node, lm.main_table = some t ∧ slot t.table b = some node ∧
        node.deleted = false ∧ node.headword = h ∧
        (∀ b' node', slot t.table b' = some node' → node'.headword = h → b' = b) ∧
        ((CollocateCounts lm h).map Prod.fst).Nodup ∧
        (∀ c v, (c, v) ∈ CollocateCounts lm h ↔
          ∃ w ∈ W, pairOf w = (h, c) ∧ v = (W.count w : Int)) ∧
        (∀ c v, (c, v) ∈ CollocateCounts lm h ↔ (h ++ " " ++ c, v) ∈ NGrams lm) ∧
        ((CollocateCounts lm h).map Prod.snd).sum = (node.count : Int)) ∧
    (∀ h, headwordStored lm h = false → CollocateCounts lm h = []) := by
  obtain ⟨hok, hsz, hh, hW⟩ := runWindows_holds n (by omega) ops (init n) [] lm W hops
    ⟨rfl, rfl, rfl⟩ rfl (fun t ht => by cases ht) (fun w hw => by cases hw) hrun
  refine ⟨?_, fun h hst => CollocateCounts_absent hst⟩
  intro h hst
  obtain ⟨t, b, node, ht, hs, hd, hk⟩ := slot_of_headwordStored hst
  subst hk
  have hokt : TrainedOK lm.ngram_size t lm.unique_ngrams_count := by
    unfold StateOK at hok
    rw [ht] at hok
    exact hok
  have hh' : Holds lm.ngram_size t (W.map pairOf) := by
    rw [hsz]
    exact hh t ht
  obtain ⟨h1, h2, h3, h4⟩ := hh'.CollocateCounts_node ht hokt (by omega)
    (by rw [hsz]; exact hW) hlen hs
  exact ⟨t, b, node, ht, hs, hd, rfl,
    fun b' node' hs' hk' => hh'.clean.tbl.keys b' b node' node hs' hs hk', h1, h2, h3, h4⟩

theorem CollocateCounts_windows_witness :
    ∃ lm, runWindows (init 2) []
        [Op.train ⟨3, some ["to", "be", "or", "to", "be"]⟩, Op.grow ⟨1, some ["to", "do"]⟩] =
        some (lm, [["to", "be"], ["be", "or"], ["or", "to"], ["to", "be"], ["to", "do"]]) ∧
      (∀ h, headwordStored lm h = true →
        ∃ t b node, lm.main_table = some t ∧ slot t.table b = some node ∧
          node.deleted = false ∧ node.headword = h ∧
          (∀ b' node', slot t.table b' = some node' → node'.headword = h → b' = b) ∧
          ((CollocateCounts lm h).map Prod.fst).Nodup ∧
          (∀ c v, (c, v) ∈ CollocateCounts lm h ↔
            ∃ w ∈ [["to", "be"], ["be", "or"], ["or", "to"], ["to", "be"], ["to", "do"]],
              pairOf w = (h, c) ∧
              v = (([["to", "be"], ["be", "or"], ["or", "to"], ["to", "be"],
                ["to", "do"]].count w : Nat) : Int)) ∧
          (∀ c v, (c, v) ∈ CollocateCounts lm h ↔ (h ++ " " ++ c, v) ∈ NGrams lm) ∧
          ((CollocateCounts lm h).map Prod.snd).sum = (node.count : Int)) ∧
      (∀ h, headwordStored lm h = false → CollocateCounts lm h = []) := by
  have e : (runWindows (init 2) []
      [Op.train ⟨3, some ["to", "be", "or", "to", "be"]⟩,
        Op.grow ⟨1, some ["to", "do"]⟩]).map (fun p => p.2) =
      some [["to", "be"], ["be", "or"], ["or", "to"], ["to", "be"], ["to", "do"]] := by
    decide
  cases h : runWindows (init 2) []
      [Op.train ⟨3, some ["to", "be", "or", "to", "be"]⟩, Op.grow ⟨1, some ["to", "do"]⟩] with
  | none =>
    rw [h] at e
    cases e
  | some p =>
    obtain ⟨lm, W⟩ := p
    rw [h] at e
    simp only [Option.map_some', Option.some.injEq] at e
    subst e
    exact ⟨lm, rfl, CollocateCounts_windows 2 _ lm _ (by decide) (by decide) h (by decide)⟩

end LM

namespace LM

/-! ## The counters after a deletion -/

theorem ResizeHeadTable_counters {lm lm' : State} (h : ResizeHeadTable lm = some lm') :
    lm'.main_table.isSome = true ∧ lm'.unique_ngrams_count = lm.unique_ngrams_count ∧
    lm'.ngrams_total = lm.ngrams_total ∧ lm'.tokens = lm.tokens := by
  unfold ResizeHeadTable at h
  cases ht : lm.main_table with
  | none =>
    rw [ht] at h
    cases h
  | some t =>
    rw [ht] at h
    simp only at h
    obtain ⟨nt, _, he⟩ := Option.map_eq_some'.mp h
    subst he
    exact ⟨rfl, rfl, rfl, rfl⟩

/-- Counters after `DeleteHeadword`: the model is reset when the table held one node, and
otherwise the counter of unique n-grams falls by 1 and the two totals by the count of the
node. -/
theorem DeleteHeadword_counters {lm lm' : State} {b : Nat} {r : Bool} {t : head_table}
    {node : headword_node} (h : DeleteHeadword lm b = some (r, lm'))
    (ht : lm.main_table = some t) (hs : slot t.table b = some node) :
    (t.occupied = 1 ∧ lm' = Reset lm) ∨
    (t.occupied ≠ 1 ∧ lm'.main_table.isSome = true ∧
      lm'.unique_ngrams_count = usub lm.unique_ngrams_count 1 ∧
      lm'.ngrams_total = usub lm.ngrams_total node.count ∧
      lm'.tokens = usub lm.tokens node.count) := by
  unfold DeleteHeadword at h
  rw [ht] at h
  simp only at h
  by_cases h1 : t.occupied = 1
  · rw [if_pos h1] at h
    simp only [Option.some.injEq, Prod.mk.injEq] at h
    exact Or.inl ⟨h1, h.2.symm⟩
  · rw [if_neg h1, hs] at h
    simp only at h
    obtain ⟨lm2, h2, he⟩ := Option.map_eq_some'.mp h
    simp only [Prod.mk.injEq] at he
    obtain ⟨_, rfl⟩ := he
    refine Or.inr ⟨h1, ?_⟩
    split_ifs at h2 with hload
    · obtain ⟨a1, a2, a3, a4⟩ := ResizeHeadTable_counters h2
      exact ⟨a1, a2, a3, a4⟩
    · simp only [Option.some.injEq] at h2
      subst h2
      exact ⟨rfl, rfl, rfl, rfl⟩

/-- Counters after `DeleteCollocate` of the collocate node `p` of the node in bucket `b`. -/
theorem DeleteCollocate_counters {lm lm' : State} {b p : Nat} {r : Bool} {t : head_table}
    {hw : headword_node} (h : DeleteCollocate lm b p = some (r, lm'))
    (ht : lm.main_table = some t) (hs : slot t.table b = some hw) :
    (hw.collocates.occupied = 1 ∧ t.occupied = 1 ∧ lm'.main_table = none ∧
      lm'.unique_ngrams_count = 0 ∧ lm'.ngrams_total = 0 ∧ lm'.tokens = 0) ∨
    (hw.collocates.occupied = 1 ∧ t.occupied ≠ 1 ∧ lm'.main_table.isSome = true ∧
      lm'.unique_ngrams_count = usub lm.unique_ngrams_count 1 ∧
      lm'.ngrams_total = usub lm.ngrams_total hw.count ∧
      lm'.tokens = usub (usub lm.tokens (deref hw.heap p).count) hw.count) ∨
    (hw.collocates.occupied ≠ 1 ∧ r = true ∧ lm'.main_table.isSome = true ∧
      lm'.unique_ngrams_count = usub lm.unique_ngrams_count 1 ∧
      lm'.ngrams_total = usub lm.ngrams_total (deref hw.heap p).count ∧
      lm'.tokens = usub lm.tokens (umul (deref hw.heap p).count 2)) ∨
    (hw.collocates.occupied ≠ 1 ∧ r = false ∧ lm' = lm) := by
  have hb := slot_some_lt hs
  rcases DeleteCollocate_cases h ht hs with ⟨h1, hd⟩ | ⟨h1, _, hr, hw2, _, he⟩ | ⟨h1, _, hr, he⟩
  · rcases DeleteHeadword_counters hd rfl (slot_set_self _ _ _ hb) with
      ⟨ho, he⟩ | ⟨ho, a1, a2, a3, a4⟩
    · subst he
      exact Or.inl ⟨h1, ho, rfl, rfl, rfl, rfl⟩
    · exact Or.inr (Or.inl ⟨h1, ho, a1, a2, a3, a4⟩)
  · subst he
    exact Or.inr (Or.inr (Or.inl ⟨h1, hr, rfl, rfl, rfl, rfl⟩))
  · exact Or.inr (Or.inr (Or.inr ⟨h1, hr, he⟩))

/-- On a model without tombstones `Remove` of the key of a stored n-gram is the call of
`DeleteCollocate` on its collocate node. -/
theorem Remove_eq_DeleteCollocate {lm : State} {t : head_table} (ht : lm.main_table = some t)
    (hok : TrainedOK lm.ngram_size t lm.unique_ngrams_count) (hcl : CleanOK lm.ngram_size t)
    (hn : 2 ≤ lm.ngram_size) {b : Nat} {node : headword_node} (hs : slot t.table b = some node)
    {p : Nat} (hp : p < node.heap.length) {k : String} (hk : k.length > 0)
    (hsplit : SplitNGram k = some [node.headword, ckey node.heap p]) :
    Remove lm k = DeleteCollocate lm b p := by
  have hlive := hcl.tbl.live b node hs
  have hnc := hcl.nodes (by omega) b node hs
  have hno := hok.nodes b node hs hlive
  unfold Remove
  rw [ht]
  simp only
  rw [if_pos hk, hsplit]
  simp only [Option.some_bind, List.length_cons, List.length_nil, List.headD_cons, ↓reduceIte]
  rw [if_neg (by omega), FindHeadword_hit ht hcl.tbl hok.table hs]
  simp only [hs]
  rw [if_neg (by omega), FindCollocate_hit hno hnc hp]

/-- On a unigram model without tombstones `Remove` of the key of a stored headword is the call
of `DeleteHeadword` on its node. -/
theorem Remove_eq_DeleteHeadword {lm : State} {t : head_table} (ht : lm.main_table = some t)
    (hok : TrainedOK lm.ngram_size t lm.unique_ngrams_count) (hcl : CleanOK lm.ngram_size t)
    (hn : lm.ngram_size = 1) {b : Nat} {node : headword_node} (hs : slot t.table b = some node)
    {k : String} (hk : k.length > 0) (hsplit : SplitNGram k = some [node.headword]) :
    Remove lm k = DeleteHeadword lm b := by
  unfold Remove
  rw [ht]
  simp only
  rw [if_pos hk, hsplit]
  simp only [Option.some_bind, List.length_cons, List.length_nil]
  rw [if_neg (by omega), FindHeadword_hit ht hcl.tbl hok.table hs]
  simp only
  rw [if_pos hn]

theorem ngramStored_of_node {lm : State} {t : head_table} (ht : lm.main_table = some t)
    {b : Nat} {node : headword_node} (hs : slot t.table b = some node)
    (hd : node.deleted = false) {b0 p : Nat} (hp : slot node.collocates.table b0 = some p)
    (hpl : cdead node.heap p = false) :
    ngramStored lm node.headword (ckey node.heap p) = true := by
  unfold ngramStored
  rw [ht]
  simp only [List.any_eq_true]
  refine ⟨some node, slot_some_mem hs, ?_⟩
  simp only [hd, Bool.not_false, beq_self_eq_true, Bool.and_self, Bool.true_and]
  unfold collocateStored
  simp only [List.any_eq_true]
  exact ⟨some p, slot_some_mem hp, by simp [hpl]⟩

end LM

namespace LM

/-! ## Insertion of a new n-gram followed by its removal -/

theorem usub_uadd_one (a : Nat) : usub (uadd a 1) 1 % UMOD = a % UMOD := by
  unfold usub uadd UMOD
  omega

theorem usub_two_uadd_one (a : Nat) : usub (uadd a 1) (umul 1 2) = usub a 1 := by
  unfold usub uadd umul UMOD
  omega

theorem usub_twice_uadd_one (a : Nat) : usub (usub (uadd a 1) 1) 1 = usub a 1 := by
  unfold usub uadd UMOD
  omega

theorem deref_append_new (heap : List collocate_node) (x : collocate_node) :
    deref (heap ++ [x]) heap.length = x := by
  unfold deref
  rw [List.getD_eq_getElem?_getD, List.getElem?_append_right (Nat.le_refl _)]
  simp

theorem NodeClean.occupied_eq {hw : headword_node} (hok : NodeOK hw) (hc : NodeClean hw) :
    hw.collocates.occupied = hw.heap.length := by
  rw [hok.tbl.occ]
  exact hc.full

/-- In a model of order at least 2 without tombstones, `InsertNGram` of an n-gram that is not
stored followed by `Remove` of its key: both calls succeed; the model is reset when the main
table was empty, and otherwise the counter of unique n-grams and the total of n-grams are as
before and the counter of tokens is one lower. -/
theorem Insert_Remove_pair {lm : State} {t : head_table} (h c k : String)
    (ht : lm.main_table = some t) (hok : TrainedOK lm.ngram_size t lm.unique_ngrams_count)
    (hcl : CleanOK lm.ngram_size t) (hfit : Fit lm.ngram_size t) (hn : 2 ≤ lm.ngram_size)
    (hroom : t.occupied < t.capacity)
    (hcap : ∀ b node, slot t.table b = some node → node.collocates.capacity ≤ 2147483648)
    (hk : k.length > 0) (hsplit : SplitNGram k = some [h, c])
    (hnew : ngramStored lm h c = false) :
    ∃ (b : Nat) (lm1 lm2 : State), InsertNGram lm h c = some ((b : Int), lm1) ∧
      Remove lm1 k = some (true, lm2) ∧
      ((t.occupied = 0 ∧ lm2.main_table = none ∧ lm2.unique_ngrams_count = 0 ∧
          lm2.ngrams_total = 0 ∧ lm2.tokens = 0) ∨
       (0 < t.occupied ∧ lm2.main_table.isSome = true ∧
          lm2.unique_ngrams_count % UMOD = lm.unique_ngrams_count % UMOD ∧
          lm2.ngrams_total % UMOD = lm.ngrams_total % UMOD ∧
          lm2.tokens = usub lm.tokens 1)) := by
  have hne : lm.ngram_size ≠ 1 := by omega
  obtain ⟨b, node', lm1, t1, hins, ht1, htab, hcp, hb, hh, hd, hfind, hcase⟩ :=
    InsertNGram_frame_core h c ht hok hcl hn hroom hcap
  obtain ⟨_, t1', ht1', hcl1, _⟩ := InsertNGram_clean hins ht hok hcl hroom (by omega)
  rw [ht1] at ht1'
  cases ht1'
  obtain ⟨t1'', ht1'', hok1, hsz1, hcnt, _⟩ := InsertNGram_spec hins ht hok
  rw [ht1] at ht1''
  cases ht1''
  have hcnt' : lm1.ngrams_total = uadd lm.ngrams_total 1 ∧ lm1.tokens = uadd lm.tokens 1 := by
    rcases hcnt with ⟨hneg, _⟩ | ⟨_, htot, htk, _⟩
    · have := Int.natCast_nonneg b
      omega
    · exact ⟨htot, htk⟩
  obtain ⟨htot, htk⟩ := hcnt'
  have hs1 : slot t1.table b = some node' := by
    rw [htab]
    exact slot_set_self _ _ _ (by rw [hok.table.len]; exact hb)
  have hok1' : TrainedOK lm1.ngram_size t1 lm1.unique_ngrams_count := by
    rw [hsz1]
    exact hok1
  have hcl1' : CleanOK lm1.ngram_size t1 := by
    rw [hsz1]
    exact hcl1
  have hnc1 := hcl1.nodes hne b node' hs1
  have hno1 := hok1.nodes b node' hs1 hd
  have hocc1 := hnc1.occupied_eq hno1
  -- the collocate node of the new n-gram
  have hnode : ∃ p, p < node'.heap.length ∧ ckey node'.heap p = c ∧
      (deref node'.heap p).count = 1 ∧
      lm1.unique_ngrams_count = uadd lm.unique_ngrams_count 1 ∧
      ((node'.heap.length ≠ 1 ∧ 0 < t.occupied) ∨
       (node'.heap.length = 1 ∧ node'.count = 1 ∧ t1.occupied = t.occupied + 1)) := by
    rcases hcase with ⟨node, hs, hkh, hocc, hcount, hin⟩ | ⟨_, hocc, hcount, hheap, _, hu⟩
    · have hlive := hcl.tbl.live b node hs
      have hnc := hcl.nodes hne b node hs
      have hno := hok.nodes b node hs hlive
      rcases hin with ⟨p, hp, hkp, _⟩ | ⟨_, hheap, _, hu⟩
      · obtain ⟨b0, hb0⟩ := hnc.onto p hp
        have := ngramStored_of_node ht hs hlive hb0 (hnc.tbl.live b0 p hb0)
        rw [hkh, hkp, hnew] at this
        cases this
      · have h1 := (hfit b node hs).live hlive hne
        rw [hnc.occupied_eq hno] at h1
        have hpos : 0 < t.occupied := by
          rw [hok.table.occ]
          unfold liveCount
          rw [List.countP_pos_iff]
          exact ⟨some node, slot_some_mem hs, by simp [liveSlot, hlive]⟩
        refine ⟨node.heap.length, ?_, ?_, ?_, hu, Or.inl ⟨?_, hpos⟩⟩
        · rw [hheap, List.length_append, List.length_singleton]
          omega
        · unfold ckey
          rw [hheap, deref_append_new]
          rfl
        · rw [hheap, deref_append_new]
          rfl
        · rw [hheap, List.length_append, List.length_singleton]
          omega
    · refine ⟨0, ?_, ?_, ?_, hu, Or.inr ⟨?_, hcount, hocc⟩⟩
      · rw [hheap]
        exact Nat.zero_lt_one
      · rw [hheap]
        rfl
      · rw [hheap]
        rfl
      · rw [hheap]
        rfl
  obtain ⟨p, hp, hkp, hc1, hu, hshape⟩ := hnode
  have hsplit' : SplitNGram k = some [node'.headword, ckey node'.heap p] := by
    rw [hh, hkp]
    exact hsplit
  have hn1 : 2 ≤ lm1.ngram_size := by
    rw [hsz1]
    exact hn
  obtain ⟨lm2, h2⟩ := Remove_hit ht1 hok1' hcl1' hn1 hs1 hp hk hsplit'
  refine ⟨b, lm1, lm2, hins, h2, ?_⟩
  rw [Remove_eq_DeleteCollocate ht1 hok1' hcl1' hn1 hs1 hp hk hsplit'] at h2
  rcases DeleteCollocate_counters h2 ht1 hs1 with ⟨a0, a1, a2, a3, a4, a5⟩ |
    ⟨a0, a1, a2, a3, a4, a5⟩ | ⟨a0, _, a2, a3, a4, a5⟩ | ⟨_, hr, _⟩
  · rcases hshape with ⟨hl, _⟩ | ⟨_, _, hocc⟩
    · rw [hocc1] at a0
      exact absurd a0 hl
    · exact Or.inl ⟨by omega, a2, a3, a4, a5⟩
  · rcases hshape with ⟨hl, _⟩ | ⟨_, hcount, hocc⟩
    · rw [hocc1] at a0
      exact absurd a0 hl
    · refine Or.inr ⟨by omega, a2, ?_, ?_, ?_⟩
      · rw [a3, hu]
        exact usub_uadd_one _
      · rw [a4, htot, hcount]
        exact usub_uadd_one _
      · rw [a5, htk, hc1, hcount]
        exact usub_twice_uadd_one _
  · rcases hshape with ⟨_, hpos⟩ | ⟨hl, _, _⟩
    · refine Or.inr ⟨hpos, a2, ?_, ?_, ?_⟩
      · rw [a3, hu]
        exact usub_uadd_one _
      · rw [a4, htot, hc1]
        exact usub_uadd_one _
      · rw [a5, htk, hc1]
        exact usub_two_uadd_one _
    · rw [hocc1] at a0
      exact absurd hl a0
  · cases hr

/-- In a unigram model without tombstones, `InsertNGram` of a headword that is not stored
followed by `Remove` of its key: both calls succeed; the model is reset when the main table was
empty, and otherwise the three counters are as before. -/
theorem Insert_Remove_unigram {lm : State} {t : head_table} (h c k : String)
    (ht : lm.main_table = some t) (hok : TrainedOK lm.ngram_size t lm.unique_ngrams_count)
    (hcl : CleanOK lm.ngram_size t) (hn : lm.ngram_size = 1)
    (hroom : t.occupied < t.capacity)
    (hcap : ∀ b node, slot t.table b = some node → node.collocates.capacity ≤ 2147483648)
    (hk : k.length > 0) (hsplit : SplitNGram k = some [h])
    (hnew : headwordStored lm h = false) :
    ∃ (b : Nat) (lm1 lm2 : State), InsertNGram lm h c = some ((b : Int), lm1) ∧
      Remove lm1 k = some (true, lm2) ∧
      ((t.occupied = 0 ∧ lm2.main_table = none ∧ lm2.unique_ngrams_count = 0 ∧
          lm2.ngrams_total = 0 ∧ lm2.tokens = 0) ∨
       (0 < t.occupied ∧ lm2.main_table.isSome = true ∧
          lm2.unique_ngrams_count % UMOD = lm.unique_ngrams_count % UMOD ∧
          lm2.ngrams_total % UMOD = lm.ngrams_total % UMOD ∧
          lm2.tokens % UMOD = lm.tokens % UMOD)) := by
  obtain ⟨st, lm1, hins⟩ := InsertNGram_isSome h c ht hok.table hcap
  obtain ⟨_, t1, ht1, hcl1, _⟩ := InsertNGram_clean hins ht hok hcl hroom (by omega)
  obtain ⟨t1', ht1', hok1, hsz1, _, _⟩ := InsertNGram_spec hins ht hok
  rw [ht1] at ht1'
  cases ht1'
  have hok1' : TrainedOK lm1.ngram_size t1 lm1.unique_ngrams_count := by
    rw [hsz1]
    exact hok1
  have hcl1' : CleanOK lm1.ngram_size t1 := by
    rw [hsz1]
    exact hcl1
  rcases InsertNGram_cases hins with ⟨hnone, _, _⟩ | ⟨t0, ht0, hcase⟩
  · rw [ht] at hnone
    cases hnone
  rw [ht] at ht0
  cases ht0
  rcases hcase with ⟨hp, _, _⟩ | ⟨b, hp, hst, hcase⟩ | ⟨b, node, hp, hs, _, _⟩
  · exact absurd hp (probe_not_full hok.table (by rw [← hok.table.occ]; exact hroom) _ h)
  · obtain ⟨_, hb, _, _⟩ := hcl.tbl.probe_free hok.table hp
    have hblen : b < t.table.length := by
      rw [hok.table.len]
      exact hb
    have hlm1 : lm1 = { withNewHead lm t b h with
        unique_ngrams_count := uadd lm.unique_ngrams_count 1 } := by
      rcases hcase with ⟨_, he⟩ | ⟨hne, _⟩
      · exact he
      · exact absurd hn hne
    have hocc : uadd t.occupied 1 = t.occupied + 1 := by
      apply uadd_one_of_lt
      have := (ladder_bounds _ hok.table.ladder).2
      omega
    have ht1e : t1 = { t with table := t.table.set b (some (freshHead h)),
                              occupied := uadd t.occupied 1 } := by
      rw [hlm1] at ht1
      simp only [withNewHead, Option.some.injEq] at ht1
      exact ht1.symm
    have hs1 : slot t1.table b = some (freshHead h) := by
      rw [ht1e]
      exact slot_set_self _ _ _ hblen
    have hrem := Remove_eq_DeleteHeadword ht1 hok1' hcl1'
      (by rw [hsz1]; exact hn) hs1 hk hsplit
    obtain ⟨lm2, h2⟩ := DeleteHeadword_true ht1 hok1.table.ladder hs1
    subst hst
    refine ⟨b, lm1, lm2, hins, by rw [hrem]; exact h2, ?_⟩
    have ho1 : t1.occupied = t.occupied + 1 := by
      rw [ht1e]
      exact hocc
    have hu : lm1.unique_ngrams_count = uadd lm.unique_ngrams_count 1 := by rw [hlm1]
    have htot : lm1.ngrams_total = uadd lm.ngrams_total 1 := by
      rw [hlm1]
      rfl
    have htk : lm1.tokens = uadd lm.tokens 1 := by
      rw [hlm1]
      rfl
    rcases DeleteHeadword_counters h2 ht1 hs1 with ⟨a0, he⟩ | ⟨a0, a2, a3, a4, a5⟩
    · subst he
      exact Or.inl ⟨by omega, rfl, rfl, rfl, rfl⟩
    · refine Or.inr ⟨by omega, a2, ?_, ?_, ?_⟩
      · rw [a3, hu]
        exact usub_uadd_one _
      · rw [a4, htot]
        exact usub_uadd_one _
      · rw [a5, htk]
        exact usub_uadd_one _
  · obtain ⟨hf, hhit⟩ := probe_hit_sound _ _ _ hp
    obtain ⟨x, hx, hdx⟩ := slotFree_false hf
    obtain ⟨y, hy, hky⟩ := slotHit_true hhit
    rw [hx] at hy
    cases hy
    have := headwordStored_of_slot ht hx hdx
    rw [hky, hnew] at this
    cases this

theorem toInt_usub_one (a : Nat) :
    toInt (usub a 1) = if toInt a = -2147483648 then 2147483647 else toInt a - 1 := by
  have hm : usub a 1 % UMOD = if a % UMOD = 0 then 4294967295 else a % UMOD - 1 := by
    unfold usub UMOD
    split_ifs <;> omega
  have hlt : a % UMOD < 4294967296 := Nat.mod_lt _ (by unfold UMOD; omega)
  unfold toInt
  rw [hm]
  generalize a % UMOD = m at hlt ⊢
  by_cases h0 : m = 0
  · subst h0
    simp
  · obtain ⟨m', rfl⟩ := Nat.exists_eq_succ_of_ne_zero h0
    rw [if_neg h0, Nat.succ_sub_one]
    clear hm
    split_ifs <;> first | omega | contradiction

/-- C12 (amended): let a model of order `n ≥ 1` have tables without tombstones (as `Train` and
`Grow` build them), live headwords with at least one collocate, a main table with a free slot and
subtables of capacities of at most `2^31`, and let the n-gram `X` with headword `h` and collocate
`c` (key `k`) not be stored.  `InsertNGram(h, c)` returns a bucket and the following `Remove(k)`
returns `true`.  If the main table held no headword, the model is untrained afterwards and its
three counters are 0.  Otherwise the model stays trained, `UniqueNGramsCount` and `NGramsTotal`
have the values they had before the insertion, and `TotalTokens` has its previous value when
`n = 1` and is one lower (as an `int`, wrapping at `-2^31`) when `n ≥ 2`. -/
theorem Insert_then_Remove_counters (lm : State) (t : head_table) (h c k : String)
    (ht : lm.main_table = some t) (hok : TrainedOK lm.ngram_size t lm.unique_ngrams_count)
    (hcl : CleanOK lm.ngram_size t) (hfit : Fit lm.ngram_size t) (hn : 1 ≤ lm.ngram_size)
    (hroom : t.occupied < t.capacity)
    (hcap : ∀ b node, slot t.table b = some node → node.collocates.capacity ≤ 2147483648)
    (hk : k.length > 0)
    (hsplit : SplitNGram k = some (if lm.ngram_size = 1 then [h] else [h, c]))
    (hnew : (if lm.ngram_size = 1 then headwordStored lm h else ngramStored lm h c) = false) :
    ∃ (b : Nat) (lm1 lm2 : State), InsertNGram lm h c = some ((b : Int), lm1) ∧
      Remove lm1 k = some (true, lm2) ∧
      (t.occupied = 0 → lm2.main_table = none ∧ UniqueNGramsCount lm2 = 0 ∧
        NGramsTotal lm2 = 0 ∧ TotalTokens lm2 = 0) ∧
      (0 < t.occupied → lm2.main_table.isSome = true ∧
        UniqueNGramsCount lm2 = UniqueNGramsCount lm ∧ NGramsTotal lm2 = NGramsTotal lm ∧
        (lm.ngram_size = 1 → TotalTokens lm2 = TotalTokens lm) ∧
        (2 ≤ lm.ngram_size → TotalTokens lm2 =
          if TotalTokens lm = -2147483648 then 2147483647 else TotalTokens lm - 1)) := by
  unfold UniqueNGramsCount NGramsTotal TotalTokens
  by_cases h1 : lm.ngram_size = 1
  · rw [if_pos h1] at hsplit hnew
    obtain ⟨b, lm1, lm2, hins, hrem, hres⟩ :=
      Insert_Remove_unigram h c k ht hok hcl h1 hroom hcap hk hsplit hnew
    refine ⟨b, lm1, lm2, hins, hrem, ?_, ?_⟩
    · intro h0
      rcases hres with ⟨_, a1, a2, a3, a4⟩ | ⟨hpos, _⟩
      · rw [a2, a3, a4]
        exact ⟨a1, rfl, rfl, rfl⟩
      · omega
    · intro hpos
      rcases hres with ⟨h0, _⟩ | ⟨_, a1, a2, a3, a4⟩
      · omega
      · exact ⟨a1, toInt_congr a2, toInt_congr a3, fun _ => toInt_congr a4,
          fun h2 => by omega⟩
  · rw [if_neg h1] at hsplit hnew
    obtain ⟨b, lm1, lm2, hins, hrem, hres⟩ :=
      Insert_Remove_pair h c k ht hok hcl hfit (by omega) hroom hcap hk hsplit hnew
    refine ⟨b, lm1, lm2, hins, hrem, ?_, ?_⟩
    · intro h0
      rcases hres with ⟨_, a1, a2, a3, a4⟩ | ⟨hpos, _⟩
      · rw [a2, a3, a4]
        exact ⟨a1, rfl, rfl, rfl⟩
      · omega
    · intro hpos
      rcases hres with ⟨h0, _⟩ | ⟨_, a1, a2, a3, a4⟩
      · omega
      · refine ⟨a1, toInt_congr a2, toInt_congr a3, fun h2 => absurd h2 h1, fun _ => ?_⟩
        rw [a4]
        exact toInt_usub_one _

theorem Insert_then_Remove_counters_witness :
    ∃ (lm : State) (b : Nat) (lm1 lm2 : State),
      Train (init 2) ⟨1, some ["a", "b", "a", "c"]⟩ = some (true, lm) ∧
      InsertNGram lm "a" "d" = some ((b : Int), lm1) ∧ Remove lm1 "a d" = some (true, lm2) ∧
      UniqueNGramsCount lm2 = UniqueNGramsCount lm ∧ NGramsTotal lm2 = NGramsTotal lm ∧
      TotalTokens lm2 =
        if TotalTokens lm = -2147483648 then 2147483647 else TotalTokens lm - 1 := by
  have h1 : (Train (init 2) ⟨1, some ["a", "b", "a", "c"]⟩).map
      (fun p => (ngramStored p.2 "a" "d", p.2.main_table.map fun t =>
        (decide (0 < t.occupied), decide (t.occupied < t.capacity),
          t.table.all fun s => match s with
            | some nd => decide (nd.collocates.capacity ≤ 2147483648)
            | none => true))) = some (false, some (true, true, true)) := by
    decide
  cases h : Train (init 2) ⟨1, some ["a", "b", "a", "c"]⟩ with
  | none =>
    rw [h] at h1
    cases h1
  | some p =>
    obtain ⟨r, lm⟩ := p
    rw [h] at h1
    have hok0 : StateOK (init 2) := ⟨rfl, rfl, rfl⟩
    obtain ⟨hok, hsz, _⟩ := Train_spec h hok0
    obtain ⟨hr, _, t, ht, hcl, _⟩ := Train_clean hok0 (by decide) (by decide) rfl h
    subst hr
    have hfit := Train_fit h hok0 (StateFit_init 2) t ht
    simp only [Option.map_some', ht, Option.some.injEq, Prod.mk.injEq, decide_eq_true_eq] at h1
    obtain ⟨hnew, hpos, hroom, hall⟩ := h1
    have hokt : TrainedOK lm.ngram_size t lm.unique_ngrams_count := by
      unfold StateOK at hok
      rw [ht] at hok
      exact hok
    have hsz' : lm.ngram_size = 2 := hsz
    have hcap : ∀ b node, slot t.table b = some node →
        node.collocates.capacity ≤ 2147483648 := by
      intro b node hs
      rw [List.all_eq_true] at hall
      have := hall (some node) (slot_some_mem hs)
      simpa using this
    obtain ⟨b, lm1, lm2, hins, hrem, _, hres⟩ := Insert_then_Remove_counters lm t "a" "d" "a d"
      ht hokt (by rw [hsz']; exact hcl) hfit (by omega) hroom hcap (by decide)
      (by rw [hsz']; decide) (by rw [hsz']; exact hnew)
    obtain ⟨_, a1, a2, _, a3⟩ := hres hpos
    exact ⟨lm, b, lm1, lm2, rfl, hins, hrem, a1, a2, a3 (by omega)⟩

end LM
